import Mathlib

/-!
# Deep copy by reflection: a shallow embedding of `deepcopy.go`

The Go package walks a `reflect.Value` and rebuilds it.  The embedding keeps

* the run-time type of every value as a descriptor (`Ty`) carried by the value,
* the identity of every piece of storage (pointer cells, slice backing arrays,
  map headers, function and channel handles) as a natural number,
* the allocator as a counter threaded through the copy: `reflect.New`,
  `reflect.MakeSlice` and `reflect.MakeMapWithSize` return the counter and
  increment it,
* a panic as the `Except.error` outcome.

Floating-point payloads are carried as bit patterns; `IsZero` and Go's `==`
read them as floating-point numbers (both zeros are zero and equal, a NaN is
equal to nothing), deep equality compares the bits.
-/

namespace Deepcopy

/-! ## Types and values -/

/-- The result of `reflect.Kind`. -/
inductive Kind where
  | invalid | bool | int | int8 | int16 | int32 | int64
  | uint | uint8 | uint16 | uint32 | uint64 | uintptr
  | float32 | float64 | complex64 | complex128
  | array | chan | func | interface | map | ptr | slice | string | struct
  | unsafePointer
  deriving DecidableEq, Repr

/-- The text of `Kind.String()`, used in the panic message of `copyr`. -/
def Kind.toString : Kind → String
  | .invalid => "invalid" | .bool => "bool" | .int => "int" | .int8 => "int8"
  | .int16 => "int16" | .int32 => "int32" | .int64 => "int64" | .uint => "uint"
  | .uint8 => "uint8" | .uint16 => "uint16" | .uint32 => "uint32"
  | .uint64 => "uint64" | .uintptr => "uintptr" | .float32 => "float32"
  | .float64 => "float64" | .complex64 => "complex64"
  | .complex128 => "complex128" | .array => "array" | .chan => "chan"
  | .func => "func" | .interface => "interface" | .map => "map" | .ptr => "ptr"
  | .slice => "slice" | .string => "string" | .struct => "struct"
  | .unsafePointer => "unsafe.Pointer"

/-- The kinds whose values carry no children and no handle. -/
inductive Basic where
  | bool | int | int8 | int16 | int32 | int64
  | uint | uint8 | uint16 | uint32 | uint64 | uintptr
  | float32 | float64 | complex64 | complex128
  | string | unsafePointer
  deriving DecidableEq, Repr

/-- The `reflect.Kind` of a basic kind. -/
def Basic.kind : Basic → Kind
  | .bool => .bool | .int => .int | .int8 => .int8 | .int16 => .int16
  | .int32 => .int32 | .int64 => .int64 | .uint => .uint | .uint8 => .uint8
  | .uint16 => .uint16 | .uint32 => .uint32 | .uint64 => .uint64
  | .uintptr => .uintptr | .float32 => .float32 | .float64 => .float64
  | .complex64 => .complex64 | .complex128 => .complex128
  | .string => .string | .unsafePointer => .unsafePointer

/-- A run-time type descriptor: what `PkgPath()`, `Name()` and `String()`
return for a `reflect.Type`.  Two types are the same type when their
descriptors are equal. -/
structure Ty where
  pkgPath : String
  name : String
  str : String
  deriving DecidableEq, Repr

/-- The contents of a value of a basic kind. -/
inductive Payload where
  | bool (b : Bool)
  | int (i : Int)
  | uint (u : Nat)
  | float (bits : Nat)
  | complex (re im : Nat)
  | string (s : String)
  | pointer (p : Nat)
  deriving DecidableEq, Repr

/-- A struct field as `reflect` sees it: its name and whether it is exported
(the field of a value that was not itself reached through an unexported field
can be read with `Interface()` exactly when it is exported).  The blank field
`_`, which `==` and `IsZero` pass over, is not modelled. -/
structure Field where
  name : String
  exported : Bool
  deriving DecidableEq, Repr

/-- A `reflect.Value`.  `invalid` is the zero `reflect.Value`.  A pointer is
nil (`none`) or the address of its cell with the value stored there; a slice
is nil or the address of its backing array, its capacity and its elements; a
map is nil or the address of its header with its entries in iteration
order; an interface-kind value is nil or holds its dynamic value. -/
inductive Value where
  | invalid
  | basic (k : Basic) (t : Ty) (d : Payload)
  | func (t : Ty) (code : Option Nat)
  | chan (t : Ty) (h : Option Nat)
  | ptr (t : Ty) (p : Option (Nat × Value))
  | iface (t : Ty) (e : Option Value)
  | slice (t : Ty) (s : Option (Nat × Nat × List Value))
  | array (t : Ty) (elems : List Value)
  | map (t : Ty) (m : Option (Nat × List (Value × Value)))
  | struct (t : Ty) (fields : List (Field × Value))

instance : Inhabited Value := ⟨Value.invalid⟩

/-- The panic values of the package: `panic(errors.New(..))` and
`panic(fmt.Sprintf(..))`. -/
inductive PanicValue where
  | err (msg : String)
  | str (msg : String)
  deriving DecidableEq, Repr

/-- The outcome of a call: a result with the allocator counter after the
call, or a panic. -/
abbrev Outcome (α : Type) := Except PanicValue (α × Nat)

/-- The method `Value.IsValid`. -/
def Value.IsValid : Value → Bool
  | .invalid => false
  | _ => true

/-- The method `Value.Kind`. -/
def Value.Kind : Value → Kind
  | .invalid => .invalid
  | .basic k _ _ => k.kind
  | .func _ _ => .func
  | .chan _ _ => .chan
  | .ptr _ _ => .ptr
  | .iface _ _ => .interface
  | .slice _ _ => .slice
  | .array _ _ => .array
  | .map _ _ => .map
  | .struct _ _ => .struct

/-- The method `Value.Type`, where the value is valid. -/
def Value.Type : Value → Option Ty
  | .invalid => none
  | .basic _ t _ | .func t _ | .chan t _ | .ptr t _ | .iface t _
  | .slice t _ | .array t _ | .map t _ | .struct t _ => some t

/-- The test `t.PkgPath() == "time" && t.Name() == "Time"` of `copyr`. -/
def isTime (t : Ty) : Bool := t.pkgPath == "time" && t.name == "Time"

/-- The number of bits below the sign bit of a floating-point number of a
kind, and of each part of a complex number. -/
def Basic.magBits : Basic → Nat
  | .float32 | .complex64 => 31
  | _ => 63

/-- The number of bits of the fraction of a floating-point number of a kind,
and of each part of a complex number. -/
def Basic.fracBits : Basic → Nat
  | .float32 | .complex64 => 23
  | _ => 52

/-- The test `x == 0` on a floating-point number given by its bits: every bit
below the sign bit is 0, so that `-0.0` passes it as `+0.0` does. -/
def floatIsZero (k : Basic) (bits : Nat) : Bool := bits % 2 ^ k.magBits == 0

/-- A floating-point number given by its bits is a NaN: the exponent is all
ones and the fraction is not 0. -/
def floatIsNaN (k : Basic) (bits : Nat) : Bool :=
  decide (2 ^ k.magBits - 2 ^ k.fracBits < bits % 2 ^ k.magBits)

/-- Go's `==` on two floating-point numbers given by their bits: a NaN is
equal to nothing, the two zeros are equal, any other two numbers are equal
when their bits are. -/
def floatEq (k : Basic) (a b : Nat) : Bool :=
  !floatIsNaN k a && !floatIsNaN k b && (a == b || (floatIsZero k a && floatIsZero k b))

/-- Whether a payload is zero as `Value.IsZero` tests it on the basic kinds:
`v.Float() == 0` and `v.Complex() == 0` for the floating-point and complex
kinds. -/
def Payload.IsZero (k : Basic) : Payload → Bool
  | .bool b => !b
  | .int i => i == 0
  | .uint u => u == 0
  | .float bits => floatIsZero k bits
  | .complex re im => floatIsZero k re && floatIsZero k im
  | .string s => s == ""
  | .pointer p => p == 0

/-- Go's `==` on the contents of two values of one basic kind. -/
def Payload.goEq (k : Basic) : Payload → Payload → Bool
  | .float a, .float b => floatEq k a b
  | .complex a b, .complex c d => floatEq k a c && floatEq k b d
  | d, d2 => d == d2

/-- The zero payload of the same shape. -/
def Payload.zero : Payload → Payload
  | .bool _ => .bool false
  | .int _ => .int 0
  | .uint _ => .uint 0
  | .float _ => .float 0
  | .complex _ _ => .complex 0 0
  | .string _ => .string ""
  | .pointer _ => .pointer 0

mutual
/-- The method `Value.IsZero`: nil for the reference kinds, all elements or
all fields zero for arrays and structs.  (The method is not defined on the
zero `reflect.Value`, which is never a field or an element; it counts as
zero here.) -/
def Value.IsZero : Value → Bool
  | .invalid => true
  | .basic k _ d => d.IsZero k
  | .func _ code => code.isNone
  | .chan _ h => h.isNone
  | .ptr _ p => p.isNone
  | .iface _ e => e.isNone
  | .slice _ s => s.isNone
  | .array _ elems => allZero elems
  | .map _ m => m.isNone
  | .struct _ fields => allFieldsZero fields
/-- Every element is zero. -/
def allZero : List Value → Bool
  | [] => true
  | x :: xs => x.IsZero && allZero xs
/-- Every field, exported or not, is zero. -/
def allFieldsZero : List (Field × Value) → Bool
  | [] => true
  | (_, x) :: fs => x.IsZero && allFieldsZero fs
end

mutual
/-- The zero value of the type of a value: what `reflect.New(v.Type()).Elem()`
holds. -/
def zeroOf : Value → Value
  | .invalid => .invalid
  | .basic k t d => .basic k t d.zero
  | .func t _ => .func t none
  | .chan t _ => .chan t none
  | .ptr t _ => .ptr t none
  | .iface t _ => .iface t none
  | .slice t _ => .slice t none
  | .array t elems => .array t (zeroElems elems)
  | .map t _ => .map t none
  | .struct t fields => .struct t (zeroFields fields)
/-- The zero of every element. -/
def zeroElems : List Value → List Value
  | [] => []
  | x :: xs => zeroOf x :: zeroElems xs
/-- The zero of every field. -/
def zeroFields : List (Field × Value) → List (Field × Value)
  | [] => []
  | (f, x) :: fs => (f, zeroOf x) :: zeroFields fs
end

/-- The method `Value.CanInterface` of a field value `ov.Field(i)`, for `ov`
not itself read-only. -/
def Field.CanInterface (f : Field) : Bool := f.exported

/-- The address a pointer holds, `none` for nil. -/
def ptrAddr : Option (Nat × Value) → Option Nat
  | none => none
  | some (a, _) => some a

mutual
/-- Go's `==` on two values, as a map uses it on keys: floating-point numbers
as numbers, pointers and channels by identity, interfaces by dynamic type and
value, structs and arrays componentwise.  Functions, slices and maps are not
comparable. -/
def keyEq : Value → Value → Bool
  | .basic k t d, .basic k2 t2 d2 => k == k2 && t == t2 && Payload.goEq k d d2
  | .chan t h, .chan t2 h2 => t == t2 && h == h2
  | .ptr t p, .ptr t2 p2 => t == t2 && ptrAddr p == ptrAddr p2
  | .iface t none, .iface t2 none => t == t2
  | .iface t (some x), .iface t2 (some y) => t == t2 && keyEq x y
  | .array t xs, .array t2 ys => t == t2 && keyEqElems xs ys
  | .struct t fs, .struct t2 gs => t == t2 && keyEqFields fs gs
  | _, _ => false
/-- Go's `==` on the elements of two arrays. -/
def keyEqElems : List Value → List Value → Bool
  | [], [] => true
  | x :: xs, y :: ys => keyEq x y && keyEqElems xs ys
  | _, _ => false
/-- Go's `==` on the fields of two structs. -/
def keyEqFields : List (Field × Value) → List (Field × Value) → Bool
  | [], [] => true
  | (f, x) :: fs, (g, y) :: gs => f == g && keyEq x y && keyEqFields fs gs
  | _, _ => false
end

mutual
/-- The test `NeedKeyUpdate` of a map type, read off a key: an assignment to
a key the map has overwrites the key as well when keys that are `==` can
differ, which is so for floating-point numbers, complex numbers, strings and
interfaces, and for the arrays and structs that hold one.  (An array of
length zero shows no element here and holds nothing to overwrite.) -/
def needKeyUpdate : Value → Bool
  | .basic k _ _ =>
    k == .float32 || k == .float64 || k == .complex64 || k == .complex128 || k == .string
  | .iface _ _ => true
  | .array _ elems => needKeyUpdateElems elems
  | .struct _ fields => needKeyUpdateFields fields
  | _ => false
/-- Some element needs the update. -/
def needKeyUpdateElems : List Value → Bool
  | [] => false
  | x :: xs => needKeyUpdate x || needKeyUpdateElems xs
/-- Some field needs the update. -/
def needKeyUpdateFields : List (Field × Value) → Bool
  | [] => false
  | (_, x) :: fs => needKeyUpdate x || needKeyUpdateFields fs
end

/-- The method `Value.SetMapIndex` on the entries of a map: the value of an
equal key is replaced, and the key too where the map type needs the key
update; a new key is added. -/
def setMapIndex : List (Value × Value) → Value → Value → List (Value × Value)
  | [], k, v => [(k, v)]
  | (k0, v0) :: rest, k, v =>
    if keyEq k0 k then ((if needKeyUpdate k then k else k0), v) :: rest
    else (k0, v0) :: setMapIndex rest k v

/-- A slice under construction: the address of its backing array, its
capacity and its elements. -/
abbrev SliceHeader := Nat × Nat × List Value

/-- The capacity `reflect.Append` chooses when it has to reallocate. -/
def growCap (cap need : Nat) : Nat := max (2 * cap) need

/-- The function `reflect.Append` with one element: in place when the
capacity allows, into a new backing array otherwise. -/
def Append (oc : SliceHeader) (x : Value) (n : Nat) : SliceHeader × Nat :=
  if oc.2.2.length < oc.2.1 then ((oc.1, oc.2.1, oc.2.2 ++ [x]), n)
  else ((n, growCap oc.2.1 (oc.2.2.length + 1), oc.2.2 ++ [x]), n + 1)

/-- The slice `array.Slice3(0, 0, array.Len())` while elements are appended
to it: whether it still views the array, its length and its capacity. -/
structure ArrayView where
  attached : Bool
  len : Nat
  cap : Nat
  deriving DecidableEq, Repr

/-- The function `reflect.Append` on a slice that views an array: while the
capacity allows the element lands in the array at index `len`; a
reallocation detaches the slice from the array. -/
def appendView (array : List Value) (view : ArrayView) (x : Value) (n : Nat) :
    (List Value × ArrayView) × Nat :=
  if view.len < view.cap then
    ((if view.attached then array.set view.len x else array,
      ⟨view.attached, view.len + 1, view.cap⟩), n)
  else
    ((array, ⟨false, view.len + 1, growCap view.cap (view.len + 1)⟩), n + 1)

/-- The unnamed pointer type `*T`: the type of what `reflect.New(T)`
returns. -/
def ptrTo (e : Ty) : Ty := ⟨"", "", "*" ++ e.str⟩

/-- The type `ov.Type().Elem()` of a pointer `ov` that is not nil, read off
what it points to: the value `ov.Elem()` has that type. -/
def elemType (x : Value) : Ty :=
  match x.Type with
  | some e => e
  | none => ⟨"", "", ""⟩

/-- The conversion `Value.assignTo` that `Set`, `Append` and `SetMapIndex`
apply to what they store: the value takes the type of the slot.  The slot is
given by the source value `slot` that was copied, which has the type of the
slot; of the values `copyr` returns only a pointer can have another type than
its source, and a slot of interface type keeps the value it is given. -/
def assignTo (slot c : Value) : Value :=
  match slot, c with
  | .ptr t _, .ptr _ p => .ptr t p
  | _, c => c

/-- The assignment `oc.Field(i).Set(x)`, for `x` of the type of the field. -/
def setField : List (Field × Value) → Nat → Value → List (Field × Value)
  | [], _, _ => []
  | (f, _) :: rest, 0, x => (f, x) :: rest
  | (f, y) :: rest, i + 1, x => (f, y) :: setField rest i x

/-! ## The package -/

/-- The function `copyTime`. -/
def copyTime (ov : Value) (n : Nat) : Outcome Value := .ok (ov, n)

/-- The `return oc` of `copyStruct`, after its loop. -/
def structOf (t : Ty) (r : Outcome (List (Field × Value))) : Outcome Value :=
  match r with
  | .error p => .error p
  | .ok (oc, n1) => .ok (.struct t oc, n1)

/-- The `return array` of `copyArray`, after its loop. -/
def arrayOf (t : Ty) (r : Outcome (List Value)) : Outcome Value :=
  match r with
  | .error p => .error p
  | .ok (array, n1) => .ok (.array t array, n1)

mutual
/-- The function `copyr`: the invalid value panics, a `time.Time` goes to
`copyTime`, then the switch on the kind, and the panic after it.  The calls
of `copyStruct` and `copyArray` are written out (`copyStruct` and `copyArray`
below are these two bodies), the other handlers are called. -/
def copyr (ov : Value) (n : Nat) : Outcome Value :=
  match ov with
  | .invalid => .error (.err "invalid value")
  | .struct t fields =>
    if isTime t then copyTime (.struct t fields) n
    else structOf t (copyStructLoop fields 0 (zeroFields fields) (n + 1))
  | .ptr t p =>
    if isTime t then copyTime (.ptr t p) n else copyPointer t p n
  | .slice t s =>
    if isTime t then copyTime (.slice t s) n else copySlice t s n
  | .map t m =>
    if isTime t then copyTime (.map t m) n else copyMap t m n
  | .iface t e =>
    if isTime t then copyTime (.iface t e) n else copyInterface t e n
  | .array t elems =>
    if isTime t then copyTime (.array t elems) n
    else arrayOf t
      (copyArrayLoop elems (zeroElems elems) ⟨true, 0, (zeroElems elems).length⟩ (n + 1))
  | .func t code =>
    if isTime t then copyTime (.func t code) n else .ok (.func t code, n)
  | .chan t h =>
    if isTime t then copyTime (.chan t h) n else .ok (.chan t h, n)
  | .basic k t d =>
    if isTime t then copyTime (.basic k t d) n else
    match k with
    | .int | .string | .int64 | .float64 | .bool | .uint | .uint64
    | .float32 | .int8 | .int16 | .int32 | .complex64 | .complex128
    | .uint8 | .uint16 | .uint32 => .ok (.basic k t d, n)
    | _ => .error (.str ("unsupported type: " ++ k.kind.toString))
termination_by structural ov
/-- The function `copyInterface` on an interface-kind value of type `t`. -/
def copyInterface (t : Ty) (e : Option Value) (n : Nat) : Outcome Value :=
  match e with
  | none => .ok (.iface t none, n)
  | some x =>
    match copyr x (n + 1) with
    | .error p => .error p
    | .ok (c, n1) => .ok (.iface t (some c), n1)
termination_by structural e
/-- The function `copyPointer` on a pointer of type `t`: the new cell is
allocated before the pointee is copied.  The pointer returned is the one
`reflect.New(ov.Type().Elem())` made, of the unnamed type `*Elem`, whatever
the pointer type `t` of the source. -/
def copyPointer (t : Ty) (p : Option (Nat × Value)) (n : Nat) : Outcome Value :=
  match p with
  | none => .ok (.ptr t none, n)
  | some (_, x) =>
    match copyr x (n + 1) with
    | .error q => .error q
    | .ok (c, n1) => .ok (.ptr (ptrTo (elemType x)) (some (n, assignTo x c)), n1)
termination_by structural p
/-- The loop of `copyStruct` from field `i` on, `rest` being the fields of
`ov` from index `i`. -/
def copyStructLoop (rest : List (Field × Value)) (i : Nat) (oc : List (Field × Value))
    (n : Nat) : Outcome (List (Field × Value)) :=
  match rest with
  | [] => .ok (oc, n)
  | (f, fv) :: rest =>
    if !fv.IsZero && f.CanInterface then
      match copyr fv n with
      | .error p => .error p
      | .ok (c, n1) => copyStructLoop rest (i + 1) (setField oc i (assignTo fv c)) n1
    else copyStructLoop rest (i + 1) oc n
termination_by structural rest
/-- The function `copySlice` on a slice of type `t`. -/
def copySlice (t : Ty) (s : Option (Nat × Nat × List Value)) (n : Nat) : Outcome Value :=
  match s with
  | none => .ok (.slice t none, n)
  | some (_, cap, elems) =>
    match copySliceLoop elems (n, cap, []) (n + 1) with
    | .error p => .error p
    | .ok (oc, n1) => .ok (.slice t (some oc), n1)
termination_by structural s
/-- The loop of `copySlice` over the remaining elements. -/
def copySliceLoop (rest : List Value) (oc : SliceHeader) (n : Nat) : Outcome SliceHeader :=
  match rest with
  | [] => .ok (oc, n)
  | x :: rest =>
    match copyr x n with
    | .error p => .error p
    | .ok (c, n1) =>
      copySliceLoop rest (Append oc (assignTo x c) n1).1 (Append oc (assignTo x c) n1).2
termination_by structural rest
/-- The loop of `copyArray` over the remaining elements. -/
def copyArrayLoop (rest : List Value) (array : List Value) (view : ArrayView) (n : Nat) :
    Outcome (List Value) :=
  match rest with
  | [] => .ok (array, n)
  | x :: rest =>
    match copyr x n with
    | .error p => .error p
    | .ok (c, n1) =>
      copyArrayLoop rest (appendView array view (assignTo x c) n1).1.1
        (appendView array view (assignTo x c) n1).1.2 (appendView array view (assignTo x c) n1).2
termination_by structural rest
/-- The function `copyMap` on a map of type `t`. -/
def copyMap (t : Ty) (m : Option (Nat × List (Value × Value))) (n : Nat) : Outcome Value :=
  match m with
  | none => .ok (.map t none, n)
  | some (_, entries) =>
    match copyMapLoop entries [] (n + 1) with
    | .error p => .error p
    | .ok (oc, n1) => .ok (.map t (some (n, oc)), n1)
termination_by structural m
/-- The loop of `copyMap` over the remaining entries: the key is copied
before the value. -/
def copyMapLoop (rest : List (Value × Value)) (oc : List (Value × Value)) (n : Nat) :
    Outcome (List (Value × Value)) :=
  match rest with
  | [] => .ok (oc, n)
  | (k, v) :: rest =>
    match copyr k n with
    | .error p => .error p
    | .ok (ck, n1) =>
      match copyr v n1 with
      | .error p => .error p
      | .ok (cv, n2) => copyMapLoop rest (setMapIndex oc (assignTo k ck) (assignTo v cv)) n2
termination_by structural rest
end

/-- The function `copyStruct` on a struct of type `t`: a zero struct is
allocated and the loop assigns its fields. -/
def copyStruct (t : Ty) (fields : List (Field × Value)) (n : Nat) : Outcome Value :=
  structOf t (copyStructLoop fields 0 (zeroFields fields) (n + 1))

/-- The function `copyArray` on an array of type `t`: a zero array is
allocated, a slice of length 0 and capacity `array.Len()` views it, and the
copies are appended to that slice. -/
def copyArray (t : Ty) (elems : List Value) (n : Nat) : Outcome Value :=
  arrayOf t (copyArrayLoop elems (zeroElems elems) ⟨true, 0, (zeroElems elems).length⟩ (n + 1))

/-- The function `reflect.ValueOf`: the nil `interface{}` gives the invalid
value, any other the value it holds. -/
def ValueOf (o : Option Value) : Value :=
  match o with
  | none => .invalid
  | some v => v

/-- The method `Value.Interface`: an interface-kind value gives what it
holds, any other valid value itself. -/
def valueInterface : Value → Except PanicValue (Option Value)
  | .invalid => .error (.err "reflect: call of reflect.Value.Interface on zero Value")
  | .iface _ e => .ok e
  | v => .ok (some v)

/-- The function `Copy`: the copy as an `interface{}` and the error, which
is the constant nil. -/
def Copy (o : Option Value) (n : Nat) : Outcome (Option Value × Option String) :=
  match copyr (ValueOf o) n with
  | .error p => .error p
  | .ok (c, n1) =>
    match valueInterface c with
    | .error p => .error p
    | .ok r => .ok ((r, none), n1)

/-! ## Example values, after the package's tests -/

def tInt : Ty := ⟨"", "int", "int"⟩
def tString : Ty := ⟨"", "string", "string"⟩
def tUintptr : Ty := ⟨"", "uintptr", "uintptr"⟩
def tAny : Ty := ⟨"", "", "interface {}"⟩
def tTime : Ty := ⟨"time", "Time", "time.Time"⟩

/-- An `int`. -/
def vInt (i : Int) : Value := .basic .int tInt (.int i)
/-- A `string`. -/
def vString (s : String) : Value := .basic .string tString (.string s)

/-- A `time.Time`: its three unexported fields. -/
def vTime (wall : Nat) (ext : Int) (loc : Option (Nat × Value)) : Value :=
  .struct tTime
    [(⟨"wall", false⟩, .basic .uint64 ⟨"", "uint64", "uint64"⟩ (.uint wall)),
     (⟨"ext", false⟩, .basic .int64 ⟨"", "int64", "int64"⟩ (.int ext)),
     (⟨"loc", false⟩, .ptr ⟨"", "", "*time.Location"⟩ loc)]

/-- The struct type `test` of `TestCopy_time` and the pointer types of
`TestCopy_timePointer` and `TestCopy_timeDoublePointer`. -/
def tTest : Ty := ⟨"deepcopy", "test", "deepcopy.test"⟩
def tTimePtr : Ty := ⟨"", "", "*time.Time"⟩
def tTimePtrPtr : Ty := ⟨"", "", "**time.Time"⟩

/-- A `sync.Mutex`: its two unexported fields. -/
def vMutex (state : Int) (sema : Nat) : Value :=
  .struct ⟨"sync", "Mutex", "sync.Mutex"⟩
    [(⟨"state", false⟩, .basic .int32 ⟨"", "int32", "int32"⟩ (.int state)),
     (⟨"sema", false⟩, .basic .uint32 ⟨"", "uint32", "uint32"⟩ (.uint sema))]

/-- The type `P` of `TestCopy_unexportedFieldFirst`. -/
def tP : Ty := ⟨"deepcopy", "P", "deepcopy.P"⟩

/-- A `P` whose mutex is locked: `mu` is unexported and comes first. -/
def fieldsP : List (Field × Value) :=
  [(⟨"mu", false⟩, vMutex 1 0), (⟨"Old", true⟩, vString ""), (⟨"New", true⟩, vString "2")]

/-- The fields of the copy of that `P`. -/
def copiedFieldsP : List (Field × Value) :=
  [(⟨"mu", false⟩, vMutex 0 0), (⟨"Old", true⟩, vString ""), (⟨"New", true⟩, vString "2")]

/-! ## Specification vocabulary -/

/-- The value `c` is the copy `copyr` makes of `x` at some allocator counter
between `lo` and `hi`, as it is stored in a slot of the type of `x`. -/
def CopyIn (lo hi : Nat) (x c : Value) : Prop :=
  ∃ m m' c0, lo ≤ m ∧ m' ≤ hi ∧ copyr x m = .ok (c0, m') ∧ c = assignTo x c0

/-- What the loop of `copyStruct` leaves in a field: the copy of the source
field where it is not zero and can be read, the zero value otherwise. -/
def FieldCopyIn (lo hi : Nat) (fx fc : Field × Value) : Prop :=
  fc.1 = fx.1 ∧
    if (!fx.2.IsZero && fx.1.CanInterface) = true then CopyIn lo hi fx.2 fc.2
    else fc.2 = zeroOf fx.2

/-- The method `Value.IsNil`, on the kinds that have a nil. -/
def Value.IsNil : Value → Bool
  | .func _ code => code.isNone
  | .chan _ h => h.isNone
  | .ptr _ p => p.isNone
  | .iface _ e => e.isNone
  | .slice _ s => s.isNone
  | .map _ m => m.isNone
  | .basic .unsafePointer _ d => d.IsZero .unsafePointer
  | _ => false

/-- The method `Value.Len` of a slice, an array or a map. -/
def Value.Len : Value → Nat
  | .slice _ (some (_, _, elems)) => elems.length
  | .array _ elems => elems.length
  | .map _ (some (_, entries)) => entries.length
  | _ => 0

mutual
/-- Every unexported struct field, at any depth and outside the values of
type `time.Time`, holds the zero value of its type. -/
def unexportedZero : Value → Bool
  | .invalid => true
  | .basic _ _ _ => true
  | .func _ _ => true
  | .chan _ _ => true
  | .ptr _ none => true
  | .ptr t (some (_, x)) => isTime t || unexportedZero x
  | .iface _ none => true
  | .iface t (some x) => isTime t || unexportedZero x
  | .slice _ none => true
  | .slice t (some (_, _, elems)) => isTime t || unexportedZeroElems elems
  | .array t elems => isTime t || unexportedZeroElems elems
  | .map _ none => true
  | .map t (some (_, entries)) => isTime t || unexportedZeroEntries entries
  | .struct t fields => isTime t || unexportedZeroFields fields
/-- The same for every element. -/
def unexportedZeroElems : List Value → Bool
  | [] => true
  | x :: xs => unexportedZero x && unexportedZeroElems xs
/-- The same for every key and every value. -/
def unexportedZeroEntries : List (Value × Value) → Bool
  | [] => true
  | (k, v) :: es => unexportedZero k && unexportedZero v && unexportedZeroEntries es
/-- The fields of one struct: an unexported field is zero, and the same holds
inside every field. -/
def unexportedZeroFields : List (Field × Value) → Bool
  | [] => true
  | (f, x) :: fs => (f.exported || x.IsZero) && unexportedZero x && unexportedZeroFields fs
end

mutual
/-- The traversal of `copyr` meets no invalid value and no value of kind
`uintptr` or `unsafe.Pointer`.  The traversal stops at a value of type
`time.Time`, at a nil pointer, interface, slice or map, and it enters a
struct field only when the field is exported and not zero. -/
def supported : Value → Bool
  | .invalid => false
  | .basic k t _ => isTime t || (k != .uintptr && k != .unsafePointer)
  | .func _ _ => true
  | .chan _ _ => true
  | .ptr _ none => true
  | .ptr t (some (_, x)) => isTime t || supported x
  | .iface _ none => true
  | .iface t (some x) => isTime t || supported x
  | .slice _ none => true
  | .slice t (some (_, _, elems)) => isTime t || supportedElems elems
  | .array t elems => isTime t || supportedElems elems
  | .map _ none => true
  | .map t (some (_, entries)) => isTime t || supportedEntries entries
  | .struct t fields => isTime t || supportedFields fields
/-- The same for every element. -/
def supportedElems : List Value → Bool
  | [] => true
  | x :: xs => supported x && supportedElems xs
/-- The same for every key and every value. -/
def supportedEntries : List (Value × Value) → Bool
  | [] => true
  | (k, v) :: es => supported k && supported v && supportedEntries es
/-- The same for the fields the loop of `copyStruct` copies. -/
def supportedFields : List (Field × Value) → Bool
  | [] => true
  | (f, x) :: fs => (!(!x.IsZero && f.CanInterface) || supported x) && supportedFields fs
end

/-- The keys of the entries are pairwise different under `==`, as the keys of
a Go map are. -/
def keysDistinct : List (Value × Value) → Bool
  | [] => true
  | (k, _) :: es => es.all (fun e => !keyEq k e.1) && keysDistinct es

mutual
/-- Every map in the value, outside the values of type `time.Time`, has
pairwise different keys. -/
def wellKeyed : Value → Bool
  | .invalid => true
  | .basic _ _ _ => true
  | .func _ _ => true
  | .chan _ _ => true
  | .ptr _ none => true
  | .ptr t (some (_, x)) => isTime t || wellKeyed x
  | .iface _ none => true
  | .iface t (some x) => isTime t || wellKeyed x
  | .slice _ none => true
  | .slice t (some (_, _, elems)) => isTime t || wellKeyedElems elems
  | .array t elems => isTime t || wellKeyedElems elems
  | .map _ none => true
  | .map t (some (_, entries)) => isTime t || (keysDistinct entries && wellKeyedEntries entries)
  | .struct t fields => isTime t || wellKeyedFields fields
/-- The same for every element. -/
def wellKeyedElems : List Value → Bool
  | [] => true
  | x :: xs => wellKeyed x && wellKeyedElems xs
/-- The same for every key and every value. -/
def wellKeyedEntries : List (Value × Value) → Bool
  | [] => true
  | (k, v) :: es => wellKeyed k && wellKeyed v && wellKeyedEntries es
/-- The same for every field. -/
def wellKeyedFields : List (Field × Value) → Bool
  | [] => true
  | (_, x) :: fs => wellKeyed x && wellKeyedFields fs
end

mutual
/-- Deep structural equality of two values: the same type at every node,
equal contents for the basic kinds, the same handle for functions and
channels, and for the rest the children compared in turn: pointers by what
they point to, interfaces by what they hold, slices and arrays element by
element, structs field by field (unexported fields included), maps by their
entries, each entry of one map matched with an entry of its own of the other.
Floating-point numbers are compared by their bits.  Addresses of pointer
cells, of backing arrays and of map headers, and the capacity of a slice, are
not compared.  A nil pointer, interface, slice or map is equal only to a nil
one. -/
def deepEqual : Value → Value → Bool
  | .invalid, .invalid => true
  | .basic k t d, .basic k2 t2 d2 => k == k2 && t == t2 && d == d2
  | .func t c, .func t2 c2 => t == t2 && c == c2
  | .chan t h, .chan t2 h2 => t == t2 && h == h2
  | .ptr t none, .ptr t2 none => t == t2
  | .ptr t (some (_, x)), .ptr t2 (some (_, y)) => t == t2 && deepEqual x y
  | .iface t none, .iface t2 none => t == t2
  | .iface t (some x), .iface t2 (some y) => t == t2 && deepEqual x y
  | .slice t none, .slice t2 none => t == t2
  | .slice t (some (_, _, xs)), .slice t2 (some (_, _, ys)) => t == t2 && deepEqualElems xs ys
  | .array t xs, .array t2 ys => t == t2 && deepEqualElems xs ys
  | .map t none, .map t2 none => t == t2
  | .map t (some (_, es)), .map t2 (some (_, gs)) => t == t2 && deepEqualEntries es gs
  | .struct t fs, .struct t2 gs => t == t2 && deepEqualFields fs gs
  | _, _ => false
termination_by structural x => x
/-- Element by element, and the same number of elements. -/
def deepEqualElems : List Value → List Value → Bool
  | [], [] => true
  | x :: xs, y :: ys => deepEqual x y && deepEqualElems xs ys
  | _, _ => false
termination_by structural x => x
/-- The entries on the left are matched one to one with the entries on the
right: the first entry on the left with the first entry on the right that
has a deeply equal key and a deeply equal value, which is then set aside, and
so on; no entry is left over on either side. -/
def deepEqualEntries : List (Value × Value) → List (Value × Value) → Bool
  | [], gs => gs.isEmpty
  | (k, v) :: es, gs =>
    gs.any (fun kv => deepEqual k kv.1 && deepEqual v kv.2)
      && deepEqualEntries es (gs.eraseP (fun kv => deepEqual k kv.1 && deepEqual v kv.2))
termination_by structural x => x
/-- Field by field, with the same field descriptions. -/
def deepEqualFields : List (Field × Value) → List (Field × Value) → Bool
  | [], [] => true
  | (f, x) :: fs, (g, y) :: gs => f == g && deepEqual x y && deepEqualFields fs gs
  | _, _ => false
termination_by structural x => x
end

mutual
/-- Every struct field that `Value.IsZero` takes for zero holds the zero
value of its type bit for bit, at any depth and outside the values of type
`time.Time`: no field is zero only because `-0.0 == 0`. -/
def zerosPlain : Value → Bool
  | .invalid => true
  | .basic _ _ _ => true
  | .func _ _ => true
  | .chan _ _ => true
  | .ptr _ none => true
  | .ptr t (some (_, x)) => isTime t || zerosPlain x
  | .iface _ none => true
  | .iface t (some x) => isTime t || zerosPlain x
  | .slice _ none => true
  | .slice t (some (_, _, elems)) => isTime t || zerosPlainElems elems
  | .array t elems => isTime t || zerosPlainElems elems
  | .map _ none => true
  | .map t (some (_, entries)) => isTime t || zerosPlainEntries entries
  | .struct t fields => isTime t || zerosPlainFields fields
/-- The same for every element. -/
def zerosPlainElems : List Value → Bool
  | [] => true
  | x :: xs => zerosPlain x && zerosPlainElems xs
/-- The same for every key and every value. -/
def zerosPlainEntries : List (Value × Value) → Bool
  | [] => true
  | (k, v) :: es => zerosPlain k && zerosPlain v && zerosPlainEntries es
/-- The fields of one struct: a field that is zero is the zero value, and the
same holds inside every field. -/
def zerosPlainFields : List (Field × Value) → Bool
  | [] => true
  | (_, x) :: fs =>
    (!x.IsZero || deepEqual (zeroOf x) x) && zerosPlain x && zerosPlainFields fs
end

/-- A pointer that is not nil has the unnamed pointer type `*T` of what it
points to, not a defined type such as `type P *T`.  (A pointer of type
`time.Time` would be returned as it is.) -/
def plainPtr : Value → Bool
  | .ptr t (some (_, x)) => isTime t || t == ptrTo (elemType x)
  | _ => true

mutual
/-- Every pointer that an interface holds, at any depth and outside the
values of type `time.Time`, is nil or of an unnamed pointer type. -/
def ifacePtrsPlain : Value → Bool
  | .invalid => true
  | .basic _ _ _ => true
  | .func _ _ => true
  | .chan _ _ => true
  | .ptr _ none => true
  | .ptr t (some (_, x)) => isTime t || ifacePtrsPlain x
  | .iface _ none => true
  | .iface t (some x) => isTime t || (plainPtr x && ifacePtrsPlain x)
  | .slice _ none => true
  | .slice t (some (_, _, elems)) => isTime t || ifacePtrsPlainElems elems
  | .array t elems => isTime t || ifacePtrsPlainElems elems
  | .map _ none => true
  | .map t (some (_, entries)) => isTime t || ifacePtrsPlainEntries entries
  | .struct t fields => isTime t || ifacePtrsPlainFields fields
/-- The same for every element. -/
def ifacePtrsPlainElems : List Value → Bool
  | [] => true
  | x :: xs => ifacePtrsPlain x && ifacePtrsPlainElems xs
/-- The same for every key and every value. -/
def ifacePtrsPlainEntries : List (Value × Value) → Bool
  | [] => true
  | (k, v) :: es => ifacePtrsPlain k && ifacePtrsPlain v && ifacePtrsPlainEntries es
/-- The same for every field. -/
def ifacePtrsPlainFields : List (Field × Value) → Bool
  | [] => true
  | (_, x) :: fs => ifacePtrsPlain x && ifacePtrsPlainFields fs
end

mutual
/-- The value is of a type of size zero: a struct with no field or with
fields of size zero only, an array of length zero or of elements of size
zero. -/
def zeroSized : Value → Bool
  | .array _ elems => zeroSizedElems elems
  | .struct _ fields => zeroSizedFields fields
  | _ => false
/-- Every element is of size zero. -/
def zeroSizedElems : List Value → Bool
  | [] => true
  | x :: xs => zeroSized x && zeroSizedElems xs
/-- Every field is of size zero. -/
def zeroSizedFields : List (Field × Value) → Bool
  | [] => true
  | (_, x) :: fs => zeroSized x && zeroSizedFields fs
end

mutual
/-- No pointer that `==` reads in the value points to a value of size zero.
The allocator of this development gives every allocation an address of its
own; the Go runtime gives every allocation of size zero one and the same
address, so that the copies of two different such pointers are equal. -/
def sizedKey : Value → Bool
  | .ptr _ (some (_, x)) => !zeroSized x
  | .iface _ (some x) => sizedKey x
  | .array _ elems => sizedKeyElems elems
  | .struct _ fields => sizedKeyFields fields
  | _ => true
/-- The same for every element. -/
def sizedKeyElems : List Value → Bool
  | [] => true
  | x :: xs => sizedKey x && sizedKeyElems xs
/-- The same for every field. -/
def sizedKeyFields : List (Field × Value) → Bool
  | [] => true
  | (_, x) :: fs => sizedKey x && sizedKeyFields fs
end

mutual
/-- No key of a map in the value, at any depth and outside the values of
type `time.Time`, holds a pointer to a value of size zero. -/
def sizedKeys : Value → Bool
  | .invalid => true
  | .basic _ _ _ => true
  | .func _ _ => true
  | .chan _ _ => true
  | .ptr _ none => true
  | .ptr t (some (_, x)) => isTime t || sizedKeys x
  | .iface _ none => true
  | .iface t (some x) => isTime t || sizedKeys x
  | .slice _ none => true
  | .slice t (some (_, _, elems)) => isTime t || sizedKeysElems elems
  | .array t elems => isTime t || sizedKeysElems elems
  | .map _ none => true
  | .map t (some (_, entries)) => isTime t || sizedKeysEntries entries
  | .struct t fields => isTime t || sizedKeysFields fields
/-- The same for every element. -/
def sizedKeysElems : List Value → Bool
  | [] => true
  | x :: xs => sizedKeys x && sizedKeysElems xs
/-- Every key holds no such pointer, and the same inside every key and every
value. -/
def sizedKeysEntries : List (Value × Value) → Bool
  | [] => true
  | (k, v) :: es => sizedKey k && sizedKeys k && sizedKeys v && sizedKeysEntries es
/-- The same for every field. -/
def sizedKeysFields : List (Field × Value) → Bool
  | [] => true
  | (_, x) :: fs => sizedKeys x && sizedKeysFields fs
end

mutual
/-- The value is of a type whose values `copyr` returns as they are, with
nothing left out: a basic kind, the type `time.Time`, or an array of such
elements. -/
def scalarLike : Value → Bool
  | .invalid => false
  | .basic _ _ _ => true
  | .func t _ => isTime t
  | .chan t _ => isTime t
  | .ptr t _ => isTime t
  | .iface t _ => isTime t
  | .slice t _ => isTime t
  | .array t elems => isTime t || scalarLikeElems elems
  | .map t _ => isTime t
  | .struct t _ => isTime t
/-- Every element is. -/
def scalarLikeElems : List Value → Bool
  | [] => true
  | x :: xs => scalarLike x && scalarLikeElems xs
end

/-- No element is of such a type. -/
def noneScalarLike : List Value → Bool
  | [] => true
  | x :: xs => !scalarLike x && noneScalarLike xs

mutual
/-- The elements of every array in the value, at any depth and outside the
values of type `time.Time`, are alike: all of them are of a type `copyr`
returns as it is, or none is.  In Go the elements of an array have one type,
so that every Go value is such; a `Value` of this development need not be. -/
def uniformArrays : Value → Bool
  | .invalid => true
  | .basic _ _ _ => true
  | .func _ _ => true
  | .chan _ _ => true
  | .ptr _ none => true
  | .ptr t (some (_, x)) => isTime t || uniformArrays x
  | .iface _ none => true
  | .iface t (some x) => isTime t || uniformArrays x
  | .slice _ none => true
  | .slice t (some (_, _, elems)) => isTime t || uniformArraysElems elems
  | .array t elems =>
    isTime t || ((scalarLikeElems elems || noneScalarLike elems) && uniformArraysElems elems)
  | .map _ none => true
  | .map t (some (_, entries)) => isTime t || uniformArraysEntries entries
  | .struct t fields => isTime t || uniformArraysFields fields
/-- The same for every element. -/
def uniformArraysElems : List Value → Bool
  | [] => true
  | x :: xs => uniformArrays x && uniformArraysElems xs
/-- The same for every key and every value. -/
def uniformArraysEntries : List (Value × Value) → Bool
  | [] => true
  | (k, v) :: es => uniformArrays k && uniformArrays v && uniformArraysEntries es
/-- The same for every field. -/
def uniformArraysFields : List (Field × Value) → Bool
  | [] => true
  | (_, x) :: fs => uniformArrays x && uniformArraysFields fs
end

mutual
/-- The addresses of the storage a value reaches: pointer cells, backing
arrays of slices and map headers.  What lies inside a value of type
`time.Time`, and the handles of functions and channels, are left out. -/
def storage : Value → List Nat
  | .invalid => []
  | .basic _ _ _ => []
  | .func _ _ => []
  | .chan _ _ => []
  | .ptr _ none => []
  | .ptr t (some (a, x)) => if isTime t then [] else a :: storage x
  | .iface _ none => []
  | .iface t (some x) => if isTime t then [] else storage x
  | .slice _ none => []
  | .slice t (some (a, _, elems)) => if isTime t then [] else a :: storageElems elems
  | .array t elems => if isTime t then [] else storageElems elems
  | .map _ none => []
  | .map t (some (a, entries)) => if isTime t then [] else a :: storageEntries entries
  | .struct t fields => if isTime t then [] else storageFields fields
/-- The storage of every element. -/
def storageElems : List Value → List Nat
  | [] => []
  | x :: xs => storage x ++ storageElems xs
/-- The storage of every key and every value. -/
def storageEntries : List (Value × Value) → List Nat
  | [] => []
  | (k, v) :: es => storage k ++ storage v ++ storageEntries es
/-- The storage of every field. -/
def storageFields : List (Field × Value) → List Nat
  | [] => []
  | (_, x) :: fs => storage x ++ storageFields fs
end

/-- A write to the storage at one address: what the cell of a pointer, the
elements of a backing array, or the entries of a map become. -/
structure Write where
  addr : Nat
  cell : Value → Value
  elems : List Value → List Value
  entries : List (Value × Value) → List (Value × Value)

mutual
/-- The value as it is seen after a write: the contents of the storage at
the written address are replaced wherever the value reaches it, outside the
values of type `time.Time`. -/
def afterWrite (w : Write) : Value → Value
  | .invalid => .invalid
  | .basic k t d => .basic k t d
  | .func t c => .func t c
  | .chan t h => .chan t h
  | .ptr t none => .ptr t none
  | .ptr t (some (a, x)) =>
    if isTime t then .ptr t (some (a, x))
    else if a = w.addr then .ptr t (some (a, w.cell x))
    else .ptr t (some (a, afterWrite w x))
  | .iface t none => .iface t none
  | .iface t (some x) =>
    if isTime t then .iface t (some x) else .iface t (some (afterWrite w x))
  | .slice t none => .slice t none
  | .slice t (some (a, cap, elems)) =>
    if isTime t then .slice t (some (a, cap, elems))
    else if a = w.addr then .slice t (some (a, cap, w.elems elems))
    else .slice t (some (a, cap, afterWriteElems w elems))
  | .array t elems =>
    if isTime t then .array t elems else .array t (afterWriteElems w elems)
  | .map t none => .map t none
  | .map t (some (a, entries)) =>
    if isTime t then .map t (some (a, entries))
    else if a = w.addr then .map t (some (a, w.entries entries))
    else .map t (some (a, afterWriteEntries w entries))
  | .struct t fields =>
    if isTime t then .struct t fields else .struct t (afterWriteFields w fields)
/-- The elements after a write. -/
def afterWriteElems (w : Write) : List Value → List Value
  | [] => []
  | x :: xs => afterWrite w x :: afterWriteElems w xs
/-- The entries after a write. -/
def afterWriteEntries (w : Write) : List (Value × Value) → List (Value × Value)
  | [] => []
  | (k, v) :: es => (afterWrite w k, afterWrite w v) :: afterWriteEntries w es
/-- The fields after a write. -/
def afterWriteFields (w : Write) : List (Field × Value) → List (Field × Value)
  | [] => []
  | (f, x) :: fs => (f, afterWrite w x) :: afterWriteFields w fs
end

/-- The types of `Test_pointerInterfacePointer`. -/
def tStringPtr : Ty := ⟨"", "", "*string"⟩
def tAnyPtr : Ty := ⟨"", "", "*interface {}"⟩

/-- The value `sip` of `Test_pointerInterfacePointer`: a pointer to an
interface that holds a pointer to the string "hi". -/
def vChain : Value :=
  .ptr tAnyPtr (some (1, .iface tAny (some (.ptr tStringPtr (some (0, vString "hi"))))))

/-- The copy of `vChain` made with the allocator at 2. -/
def vChainCopy : Value :=
  .ptr tAnyPtr (some (2, .iface tAny (some (.ptr tStringPtr (some (4, vString "hi"))))))

/-- The map of `TestCopy_complex`: `{"foo": []string{"a", "b"}, "bar": "baz"}`
of type `map[string]interface{}`. -/
def vComplex : Value :=
  .map ⟨"", "", "map[string]interface {}"⟩ (some (7,
    [(vString "foo", .iface tAny (some (.slice ⟨"", "", "[]string"⟩
        (some (3, 2, [vString "a", vString "b"]))))),
     (vString "bar", .iface tAny (some (vString "baz")))]))

/-- What the loop of `copyMap` appends for an entry: the copy of the key and
the copy of the value. -/
def EntryCopyIn (lo hi : Nat) (e c : Value × Value) : Prop :=
  CopyIn lo hi e.1 c.1 ∧ CopyIn lo hi e.2 c.2

/-- The type `[]string`. -/
def tStrings : Ty := ⟨"", "", "[]string"⟩

/-- The type `[2]string` and the array of `TestCopy_array`. -/
def tStringArray : Ty := ⟨"", "", "[2]string"⟩

/-- The type `[]*int` and the slice of `TestCopy_sliceWithNil`. -/
def tIntPtrs : Ty := ⟨"", "", "[]*int"⟩
def tIntPtr : Ty := ⟨"", "", "*int"⟩

/-- A defined pointer type, `type IntPtr *int`, and a pointer of that type to
the `int` 7, in a cell at address `a`. -/
def tNamedPtr : Ty := ⟨"deepcopy", "IntPtr", "deepcopy.IntPtr"⟩
def vNamedPtr (a : Nat) : Value := .ptr tNamedPtr (some (a, vInt 7))

/-- The type `float64`, the bits of `-0.0`, and the struct `F{X: -0.0}` for
`type F struct{ X float64 }`. -/
def tFloat64 : Ty := ⟨"", "float64", "float64"⟩
def negZeroBits : Nat := 2 ^ 63
def tF : Ty := ⟨"deepcopy", "F", "deepcopy.F"⟩
def vNegZero : Value := .struct tF [(⟨"X", true⟩, .basic .float64 tFloat64 (.float negZeroBits))]

/-- The type `map[*int]string`, and such a map with two keys, in cells at `a`
and `b`, that point to equal numbers. -/
def tPtrMap : Ty := ⟨"", "", "map[*int]string"⟩
def vPtrKeys (a b : Nat) (s1 s2 : String) : Value :=
  .map tPtrMap (some (0,
    [(.ptr tIntPtr (some (a, vInt 7)), vString s1), (.ptr tIntPtr (some (b, vInt 7)), vString s2)]))

mutual
/-- The traversal of a value meets the invalid value or a value of kind
`uintptr` or `unsafe.Pointer`, where the traversal goes through pointers,
interfaces, slices and maps that are not nil, through every array element,
and through the struct fields that are exported and not zero. -/
def reachesUnsupported : Value → Bool
  | .invalid => true
  | .basic k _ _ => k == .uintptr || k == .unsafePointer
  | .func _ _ => false
  | .chan _ _ => false
  | .ptr _ none => false
  | .ptr _ (some (_, x)) => reachesUnsupported x
  | .iface _ none => false
  | .iface _ (some x) => reachesUnsupported x
  | .slice _ none => false
  | .slice _ (some (_, _, elems)) => reachesUnsupportedElems elems
  | .array _ elems => reachesUnsupportedElems elems
  | .map _ none => false
  | .map _ (some (_, entries)) => reachesUnsupportedEntries entries
  | .struct _ fields => reachesUnsupportedFields fields
/-- The same for some element. -/
def reachesUnsupportedElems : List Value → Bool
  | [] => false
  | x :: xs => reachesUnsupported x || reachesUnsupportedElems xs
/-- The same for some key or some value. -/
def reachesUnsupportedEntries : List (Value × Value) → Bool
  | [] => false
  | (k, v) :: es => reachesUnsupported k || reachesUnsupported v || reachesUnsupportedEntries es
/-- The same for some field that is exported and not zero. -/
def reachesUnsupportedFields : List (Field × Value) → Bool
  | [] => false
  | (f, x) :: fs =>
    ((!x.IsZero && f.CanInterface) && reachesUnsupported x) || reachesUnsupportedFields fs
end

/-- No field is exported. -/
def allUnexported : List (Field × Value) → Bool
  | [] => true
  | (f, _) :: fs => !f.exported && allUnexported fs

mutual
/-- Every value of type `time.Time` inside the value is what a `time.Time`
is: a struct none of whose fields is exported. -/
def timeShaped : Value → Bool
  | .invalid => true
  | .basic _ t _ => !isTime t
  | .func t _ => !isTime t
  | .chan t _ => !isTime t
  | .ptr t none => !isTime t
  | .ptr t (some (_, x)) => !isTime t && timeShaped x
  | .iface t none => !isTime t
  | .iface t (some x) => !isTime t && timeShaped x
  | .slice t none => !isTime t
  | .slice t (some (_, _, elems)) => !isTime t && timeShapedElems elems
  | .array t elems => !isTime t && timeShapedElems elems
  | .map t none => !isTime t
  | .map t (some (_, entries)) => !isTime t && timeShapedEntries entries
  | .struct t fields => if isTime t then allUnexported fields else timeShapedFields fields
/-- The same for every element. -/
def timeShapedElems : List Value → Bool
  | [] => true
  | x :: xs => timeShaped x && timeShapedElems xs
/-- The same for every key and every value. -/
def timeShapedEntries : List (Value × Value) → Bool
  | [] => true
  | (k, v) :: es => timeShaped k && timeShaped v && timeShapedEntries es
/-- The same for every field. -/
def timeShapedFields : List (Field × Value) → Bool
  | [] => true
  | (_, x) :: fs => timeShaped x && timeShapedFields fs
end

/-- A struct with an exported `uintptr` field that is zero, an unexported
`uintptr` field that is not, and a nil pointer to `uintptr`. -/
def vHidden : Value :=
  .struct ⟨"deepcopy", "hidden", "deepcopy.hidden"⟩
    [(⟨"Zero", true⟩, .basic .uintptr tUintptr (.uint 0)),
     (⟨"private", false⟩, .basic .uintptr tUintptr (.uint 9)),
     (⟨"Nil", true⟩, .ptr ⟨"", "", "*uintptr"⟩ none)]

/-- The named types of `TestCopy_aliased`. -/
def tIntN : Ty := ⟨"deepcopy", "Int", "deepcopy.Int"⟩
def tStrN : Ty := ⟨"deepcopy", "Str", "deepcopy.Str"⟩
def tMapN : Ty := ⟨"deepcopy", "Map", "deepcopy.Map"⟩
def tSliceN : Ty := ⟨"deepcopy", "Slice", "deepcopy.Slice"⟩

/-- The map of `TestCopy_aliased`, with its map header at address `a`, that
of the inner map at `b` and the backing array of the slice at `c`:
`Map{1: Map{10: 20}, 2: Map(nil), 3: Slice{"a", "b"}}`. -/
def vAliased (a b c : Nat) : Value :=
  .map tMapN (some (a,
    [(.basic .int tIntN (.int 1),
        .iface tAny (some (.map tMapN (some (b,
          [(.basic .int tIntN (.int 10), .iface tAny (some (vInt 20)))]))))),
     (.basic .int tIntN (.int 2), .iface tAny (some (.map tMapN none))),
     (.basic .int tIntN (.int 3),
        .iface tAny (some (.slice tSliceN (some (c, 2,
          [.basic .string tStrN (.string "a"), .basic .string tStrN (.string "b")])))))]))

/-- A struct type `K` with one unexported field, `type K struct{ a int }`. -/
def tK : Ty := ⟨"deepcopy", "K", "deepcopy.K"⟩
/-- The value `K{a: i}`. -/
def vK (i : Int) : Value := .struct tK [(⟨"a", false⟩, vInt i)]
/-- The type `map[K]string`. -/
def tKMap : Ty := ⟨"", "", "map[deepcopy.K]string"⟩
/-- The entries of `map[K]string{K{1}: "x", K{2}: "y"}`. -/
def esHidden : List (Value × Value) := [(vK 1, vString "x"), (vK 2, vString "y")]

/-- A struct type `E` with one exported field, `type E struct{ A int }`. -/
def tE : Ty := ⟨"deepcopy", "E", "deepcopy.E"⟩
/-- The value `E{A: i}`. -/
def vE (i : Int) : Value := .struct tE [(⟨"A", true⟩, vInt i)]
/-- The type `map[E]string`. -/
def tEMap : Ty := ⟨"", "", "map[deepcopy.E]string"⟩
/-- The entries of `map[E]string{E{1}: "x", E{2}: "y"}`. -/
def esShown : List (Value × Value) := [(vE 1, vString "x"), (vE 2, vString "y")]

/-- The loop of the variant of `copyStruct` that copies every field that can
be read, the zero-valued ones included: the guard is `fv.CanInterface()`
alone. -/
def copyStructAllLoop (rest : List (Field × Value)) (i : Nat) (oc : List (Field × Value))
    (n : Nat) : Outcome (List (Field × Value)) :=
  match rest with
  | [] => .ok (oc, n)
  | (f, fv) :: rest =>
    if f.CanInterface then
      match copyr fv n with
      | .error p => .error p
      | .ok (c, n1) => copyStructAllLoop rest (i + 1) (setField oc i (assignTo fv c)) n1
    else copyStructAllLoop rest (i + 1) oc n

/-- The variant of `copyStruct` that copies every field that can be read,
the zero-valued ones included, instead of leaving them at zero; it differs
from `copyStruct` in the guard of the loop only, and calls the same
`copyr`. -/
def copyStructAll (t : Ty) (fields : List (Field × Value)) (n : Nat) : Outcome Value :=
  structOf t (copyStructAllLoop fields 0 (zeroFields fields) (n + 1))

/-- A struct type `U` with one exported field, `type U struct{ P uintptr }`,
and the fields of its zero value `U{}`. -/
def tU : Ty := ⟨"deepcopy", "U", "deepcopy.U"⟩
def fieldsU : List (Field × Value) := [(⟨"P", true⟩, .basic .uintptr tUintptr (.uint 0))]

/-! ## The recursion of `copyr`, with a bound on its depth

The functions of the package once more, with every call of `copyr` made
through `call`: such a call gives `none` when the depth allowed for the
recursion is used up, and the caller then gives `none` too. -/

/-- The function `copyInterface`, its call of `copyr` made through `call`. -/
def copyInterfaceWith (call : Value → Nat → Option (Outcome Value)) (t : Ty)
    (e : Option Value) (n : Nat) : Option (Outcome Value) :=
  match e with
  | none => some (.ok (.iface t none, n))
  | some x =>
    match call x (n + 1) with
    | none => none
    | some (.error p) => some (.error p)
    | some (.ok (c, n1)) => some (.ok (.iface t (some c), n1))

/-- The function `copyPointer`, its call of `copyr` made through `call`. -/
def copyPointerWith (call : Value → Nat → Option (Outcome Value)) (t : Ty)
    (p : Option (Nat × Value)) (n : Nat) : Option (Outcome Value) :=
  match p with
  | none => some (.ok (.ptr t none, n))
  | some (_, x) =>
    match call x (n + 1) with
    | none => none
    | some (.error q) => some (.error q)
    | some (.ok (c, n1)) => some (.ok (.ptr (ptrTo (elemType x)) (some (n, assignTo x c)), n1))

/-- The loop of `copyStruct`, its calls of `copyr` made through `call`. -/
def copyStructLoopWith (call : Value → Nat → Option (Outcome Value)) :
    List (Field × Value) → Nat → List (Field × Value) → Nat →
      Option (Outcome (List (Field × Value)))
  | [], _, oc, n => some (.ok (oc, n))
  | (f, fv) :: rest, i, oc, n =>
    if !fv.IsZero && f.CanInterface then
      match call fv n with
      | none => none
      | some (.error p) => some (.error p)
      | some (.ok (c, n1)) =>
        copyStructLoopWith call rest (i + 1) (setField oc i (assignTo fv c)) n1
    else copyStructLoopWith call rest (i + 1) oc n

/-- The loop of `copySlice`, its calls of `copyr` made through `call`. -/
def copySliceLoopWith (call : Value → Nat → Option (Outcome Value)) :
    List Value → SliceHeader → Nat → Option (Outcome SliceHeader)
  | [], oc, n => some (.ok (oc, n))
  | x :: rest, oc, n =>
    match call x n with
    | none => none
    | some (.error p) => some (.error p)
    | some (.ok (c, n1)) =>
      copySliceLoopWith call rest (Append oc (assignTo x c) n1).1 (Append oc (assignTo x c) n1).2

/-- The function `copySlice`, its calls of `copyr` made through `call`. -/
def copySliceWith (call : Value → Nat → Option (Outcome Value)) (t : Ty)
    (s : Option (Nat × Nat × List Value)) (n : Nat) : Option (Outcome Value) :=
  match s with
  | none => some (.ok (.slice t none, n))
  | some (_, cap, elems) =>
    match copySliceLoopWith call elems (n, cap, []) (n + 1) with
    | none => none
    | some (.error p) => some (.error p)
    | some (.ok (oc, n1)) => some (.ok (.slice t (some oc), n1))

/-- The loop of `copyArray`, its calls of `copyr` made through `call`. -/
def copyArrayLoopWith (call : Value → Nat → Option (Outcome Value)) :
    List Value → List Value → ArrayView → Nat → Option (Outcome (List Value))
  | [], array, _, n => some (.ok (array, n))
  | x :: rest, array, view, n =>
    match call x n with
    | none => none
    | some (.error p) => some (.error p)
    | some (.ok (c, n1)) =>
      copyArrayLoopWith call rest (appendView array view (assignTo x c) n1).1.1
        (appendView array view (assignTo x c) n1).1.2 (appendView array view (assignTo x c) n1).2

/-- The loop of `copyMap`, its calls of `copyr` made through `call`. -/
def copyMapLoopWith (call : Value → Nat → Option (Outcome Value)) :
    List (Value × Value) → List (Value × Value) → Nat →
      Option (Outcome (List (Value × Value)))
  | [], oc, n => some (.ok (oc, n))
  | (k, v) :: rest, oc, n =>
    match call k n with
    | none => none
    | some (.error p) => some (.error p)
    | some (.ok (ck, n1)) =>
      match call v n1 with
      | none => none
      | some (.error p) => some (.error p)
      | some (.ok (cv, n2)) =>
        copyMapLoopWith call rest (setMapIndex oc (assignTo k ck) (assignTo v cv)) n2

/-- The function `copyMap`, its calls of `copyr` made through `call`. -/
def copyMapWith (call : Value → Nat → Option (Outcome Value)) (t : Ty)
    (m : Option (Nat × List (Value × Value))) (n : Nat) : Option (Outcome Value) :=
  match m with
  | none => some (.ok (.map t none, n))
  | some (_, entries) =>
    match copyMapLoopWith call entries [] (n + 1) with
    | none => none
    | some (.error p) => some (.error p)
    | some (.ok (oc, n1)) => some (.ok (.map t (some (n, oc)), n1))

/-- The body of `copyr`, every recursive call made through `call`. -/
def copyrStep (call : Value → Nat → Option (Outcome Value)) (ov : Value) (n : Nat) :
    Option (Outcome Value) :=
  match ov with
  | .invalid => some (.error (.err "invalid value"))
  | .struct t fields =>
    if isTime t then some (copyTime (.struct t fields) n)
    else (copyStructLoopWith call fields 0 (zeroFields fields) (n + 1)).map (structOf t)
  | .ptr t p =>
    if isTime t then some (copyTime (.ptr t p) n) else copyPointerWith call t p n
  | .slice t s =>
    if isTime t then some (copyTime (.slice t s) n) else copySliceWith call t s n
  | .map t m =>
    if isTime t then some (copyTime (.map t m) n) else copyMapWith call t m n
  | .iface t e =>
    if isTime t then some (copyTime (.iface t e) n) else copyInterfaceWith call t e n
  | .array t elems =>
    if isTime t then some (copyTime (.array t elems) n)
    else (copyArrayLoopWith call elems (zeroElems elems)
      ⟨true, 0, (zeroElems elems).length⟩ (n + 1)).map (arrayOf t)
  | .func t code =>
    if isTime t then some (copyTime (.func t code) n) else some (.ok (.func t code, n))
  | .chan t h =>
    if isTime t then some (copyTime (.chan t h) n) else some (.ok (.chan t h, n))
  | .basic k t d =>
    if isTime t then some (copyTime (.basic k t d) n) else
    match k with
    | .int | .string | .int64 | .float64 | .bool | .uint | .uint64
    | .float32 | .int8 | .int16 | .int32 | .complex64 | .complex128
    | .uint8 | .uint16 | .uint32 => some (.ok (.basic k t d, n))
    | _ => some (.error (.str ("unsupported type: " ++ k.kind.toString)))

/-- The function `copyr` with room for `fuel` nested calls: `none` when the
recursion would go deeper. -/
def copyrFuel : Nat → Value → Nat → Option (Outcome Value)
  | 0 => fun _ _ => none
  | fuel + 1 => copyrStep (copyrFuel fuel)

/-- The values right below a value: what a pointer points to, what an
interface holds, the elements of a slice or an array, the keys and the values
of a map, the fields of a struct. -/
def subValues : Value → List Value
  | .invalid => []
  | .basic _ _ _ => []
  | .func _ _ => []
  | .chan _ _ => []
  | .ptr _ none => []
  | .ptr _ (some (_, x)) => [x]
  | .iface _ none => []
  | .iface _ (some x) => [x]
  | .slice _ none => []
  | .slice _ (some (_, _, elems)) => elems
  | .array _ elems => elems
  | .map _ none => []
  | .map _ (some (_, entries)) => entries.map Prod.fst ++ entries.map Prod.snd
  | .struct _ fields => fields.map Prod.snd

mutual
/-- The depth of a value: the number of steps from it down to the deepest
value below it. -/
def depth : Value → Nat
  | .invalid => 0
  | .basic _ _ _ => 0
  | .func _ _ => 0
  | .chan _ _ => 0
  | .ptr _ none => 0
  | .ptr _ (some (_, x)) => depth x + 1
  | .iface _ none => 0
  | .iface _ (some x) => depth x + 1
  | .slice _ none => 0
  | .slice _ (some (_, _, elems)) => depthElems elems + 1
  | .array _ elems => depthElems elems + 1
  | .map _ none => 0
  | .map _ (some (_, entries)) => depthEntries entries + 1
  | .struct _ fields => depthFields fields + 1
/-- The greatest depth of an element. -/
def depthElems : List Value → Nat
  | [] => 0
  | x :: xs => max (depth x) (depthElems xs)
/-- The greatest depth of a key or a value. -/
def depthEntries : List (Value × Value) → Nat
  | [] => 0
  | (k, v) :: es => max (max (depth k) (depth v)) (depthEntries es)
/-- The greatest depth of a field. -/
def depthFields : List (Field × Value) → Nat
  | [] => 0
  | (_, x) :: fs => max (depth x) (depthFields fs)
end

/-! ## Induction on values -/

/-- Structural induction on values, with the hypothesis for every child. -/
theorem Value.induct {P : Value → Prop}
    (invalid : P .invalid)
    (basic : ∀ k t d, P (.basic k t d))
    (func : ∀ t c, P (.func t c))
    (chan : ∀ t h, P (.chan t h))
    (ptrNil : ∀ t, P (.ptr t none))
    (ptr : ∀ t a x, P x → P (.ptr t (some (a, x))))
    (ifaceNil : ∀ t, P (.iface t none))
    (iface : ∀ t x, P x → P (.iface t (some x)))
    (sliceNil : ∀ t, P (.slice t none))
    (slice : ∀ t a cap xs, (∀ x ∈ xs, P x) → P (.slice t (some (a, cap, xs))))
    (array : ∀ t xs, (∀ x ∈ xs, P x) → P (.array t xs))
    (mapNil : ∀ t, P (.map t none))
    (map : ∀ t a es, (∀ kv ∈ es, P kv.1 ∧ P kv.2) → P (.map t (some (a, es))))
    (struct : ∀ t fs, (∀ fx ∈ fs, P fx.2) → P (.struct t fs)) :
    ∀ v, P v := by
  intro v
  refine @Value.rec P
    (fun p => ∀ a x, p = some (a, x) → P x)
    (fun e => ∀ x, e = some x → P x)
    (fun s => ∀ a c xs, s = some (a, c, xs) → ∀ x ∈ xs, P x)
    (fun xs => ∀ x ∈ xs, P x)
    (fun m => ∀ a es, m = some (a, es) → ∀ kv ∈ es, P kv.1 ∧ P kv.2)
    (fun fs => ∀ fx ∈ fs, P fx.2)
    (fun p => P p.2)
    (fun s => ∀ x ∈ s.2.2, P x)
    (fun m => ∀ kv ∈ m.2, P kv.1 ∧ P kv.2)
    (fun fx => P fx.2)
    (fun s => ∀ x ∈ s.2, P x)
    (fun es => ∀ kv ∈ es, P kv.1 ∧ P kv.2)
    (fun kv => P kv.1 ∧ P kv.2)
    invalid basic func chan ?_ ?_ ?_ ?_ ?_ ?_ ?_ ?_ ?_ ?_ ?_ ?_ ?_ ?_ ?_ ?_ ?_ ?_ ?_ ?_ ?_ ?_
    ?_ ?_ ?_ ?_ v
  · intro t p hp
    cases p with
    | none => exact ptrNil t
    | some ax => exact ptr t ax.1 ax.2 (hp ax.1 ax.2 rfl)
  · intro t e he
    cases e with
    | none => exact ifaceNil t
    | some x => exact iface t x (he x rfl)
  · intro t s hs
    cases s with
    | none => exact sliceNil t
    | some s => exact slice t s.1 s.2.1 s.2.2 (hs s.1 s.2.1 s.2.2 rfl)
  · intro t xs h; exact array t xs h
  · intro t m hm
    cases m with
    | none => exact mapNil t
    | some m => exact map t m.1 m.2 (hm m.1 m.2 rfl)
  · intro t fs h; exact struct t fs h
  · intro a x h; cases h
  · intro val h a x e; cases e; exact h
  · intro x h; cases h
  · intro val h x e; cases e; exact h
  · intro a c xs h; cases h
  · intro val h a c xs e; cases e; exact h
  · intro x h; cases h
  · intro hd tl h1 h2 x hx
    rcases List.mem_cons.1 hx with rfl | hx
    · exact h1
    · exact h2 x hx
  · intro a es h; cases h
  · intro val h a es e; cases e; exact h
  · intro x h; cases h
  · intro hd tl h1 h2 x hx
    rcases List.mem_cons.1 hx with rfl | hx
    · exact h1
    · exact h2 x hx
  · intro a x h; exact h
  · intro a s h; exact h
  · intro a es h; exact h
  · intro f x h; exact h
  · intro a xs h; exact h
  · intro x h; cases h
  · intro hd tl h1 h2 x hx
    rcases List.mem_cons.1 hx with rfl | hx
    · exact h1
    · exact h2 x hx
  · intro k v hk hv; exact ⟨hk, hv⟩

/-! ## The equations of the package -/

theorem copyr_invalid (n : Nat) : copyr .invalid n = .error (.err "invalid value") := by
  simp [copyr]

theorem copyr_basic (k : Basic) (t : Ty) (d : Payload) (n : Nat) :
    copyr (.basic k t d) n
      = if isTime t then .ok (.basic k t d, n)
        else if k = .uintptr ∨ k = .unsafePointer then
          .error (.str ("unsupported type: " ++ k.kind.toString))
        else .ok (.basic k t d, n) := by
  cases k <;> simp [copyr, copyTime]

theorem copyr_func (t : Ty) (c : Option Nat) (n : Nat) :
    copyr (.func t c) n = .ok (.func t c, n) := by
  simp [copyr, copyTime]

theorem copyr_chan (t : Ty) (h : Option Nat) (n : Nat) :
    copyr (.chan t h) n = .ok (.chan t h, n) := by
  simp [copyr, copyTime]

theorem copyr_ptr (t : Ty) (p : Option (Nat × Value)) (n : Nat) :
    copyr (.ptr t p) n = if isTime t then .ok (.ptr t p, n) else copyPointer t p n := by
  simp [copyr, copyTime]

theorem copyr_iface (t : Ty) (e : Option Value) (n : Nat) :
    copyr (.iface t e) n = if isTime t then .ok (.iface t e, n) else copyInterface t e n := by
  simp [copyr, copyTime]

theorem copyr_slice (t : Ty) (s : Option (Nat × Nat × List Value)) (n : Nat) :
    copyr (.slice t s) n = if isTime t then .ok (.slice t s, n) else copySlice t s n := by
  simp [copyr, copyTime]

theorem copyr_map (t : Ty) (m : Option (Nat × List (Value × Value))) (n : Nat) :
    copyr (.map t m) n = if isTime t then .ok (.map t m, n) else copyMap t m n := by
  simp [copyr, copyTime]

theorem copyr_array (t : Ty) (xs : List Value) (n : Nat) :
    copyr (.array t xs) n = if isTime t then .ok (.array t xs, n) else copyArray t xs n := by
  simp [copyr, copyTime, copyArray]

theorem copyr_struct (t : Ty) (fs : List (Field × Value)) (n : Nat) :
    copyr (.struct t fs) n
      = if isTime t then .ok (.struct t fs, n) else copyStruct t fs n := by
  simp [copyr, copyStruct, copyTime]

/-- A value whose type is `time.Time` is returned as it is. -/
theorem copyr_of_isTime (ov : Value) (n : Nat) (t : Ty) (ht : ov.Type = some t)
    (h : isTime t = true) : copyr ov n = .ok (ov, n) := by
  cases ov <;> simp [Value.Type] at ht <;> subst ht <;>
    simp [copyr, copyTime, h]

theorem copyPointer_nil (t : Ty) (n : Nat) : copyPointer t none n = .ok (.ptr t none, n) := by
  simp [copyPointer]

theorem copyPointer_ok (t : Ty) (a : Nat) (x : Value) (n : Nat) (r : Value × Nat) :
    copyPointer t (some (a, x)) n = .ok r
      ↔ ∃ c, copyr x (n + 1) = .ok (c, r.2)
          ∧ r.1 = .ptr (ptrTo (elemType x)) (some (n, assignTo x c)) := by
  rw [copyPointer]
  cases h : copyr x (n + 1) with
  | error p => simp
  | ok q =>
    obtain ⟨c, n1⟩ := q
    obtain ⟨r1, r2⟩ := r
    simp only [Except.ok.injEq, Prod.mk.injEq]
    constructor
    · rintro ⟨rfl, rfl⟩; exact ⟨c, ⟨rfl, rfl⟩, rfl⟩
    · rintro ⟨c2, ⟨rfl, rfl⟩, rfl⟩; exact ⟨rfl, rfl⟩

theorem copyInterface_nil (t : Ty) (n : Nat) :
    copyInterface t none n = .ok (.iface t none, n) := by
  simp [copyInterface]

theorem copyInterface_ok (t : Ty) (x : Value) (n : Nat) (r : Value × Nat) :
    copyInterface t (some x) n = .ok r
      ↔ ∃ c, copyr x (n + 1) = .ok (c, r.2) ∧ r.1 = .iface t (some c) := by
  rw [copyInterface]
  cases h : copyr x (n + 1) with
  | error p => simp
  | ok q =>
    obtain ⟨c, n1⟩ := q
    obtain ⟨r1, r2⟩ := r
    simp only [Except.ok.injEq, Prod.mk.injEq]
    constructor
    · rintro ⟨rfl, rfl⟩; exact ⟨c, ⟨rfl, rfl⟩, rfl⟩
    · rintro ⟨c2, ⟨rfl, rfl⟩, rfl⟩; exact ⟨rfl, rfl⟩

theorem copySlice_nil (t : Ty) (n : Nat) : copySlice t none n = .ok (.slice t none, n) := by
  simp [copySlice]

theorem copySlice_ok (t : Ty) (a cap : Nat) (xs : List Value) (n : Nat) (r : Value × Nat) :
    copySlice t (some (a, cap, xs)) n = .ok r
      ↔ ∃ oc, copySliceLoop xs (n, cap, []) (n + 1) = .ok (oc, r.2)
          ∧ r.1 = .slice t (some oc) := by
  rw [copySlice]
  cases h : copySliceLoop xs (n, cap, []) (n + 1) with
  | error p => simp
  | ok q =>
    obtain ⟨c, n1⟩ := q
    obtain ⟨r1, r2⟩ := r
    simp only [Except.ok.injEq, Prod.mk.injEq]
    constructor
    · rintro ⟨rfl, rfl⟩; exact ⟨c, ⟨rfl, rfl⟩, rfl⟩
    · rintro ⟨c2, ⟨rfl, rfl⟩, rfl⟩; exact ⟨rfl, rfl⟩

theorem copyMap_nil (t : Ty) (n : Nat) : copyMap t none n = .ok (.map t none, n) := by
  simp [copyMap]

theorem copyMap_ok (t : Ty) (a : Nat) (es : List (Value × Value)) (n : Nat) (r : Value × Nat) :
    copyMap t (some (a, es)) n = .ok r
      ↔ ∃ oc, copyMapLoop es [] (n + 1) = .ok (oc, r.2) ∧ r.1 = .map t (some (n, oc)) := by
  rw [copyMap]
  cases h : copyMapLoop es [] (n + 1) with
  | error p => simp
  | ok q =>
    obtain ⟨c, n1⟩ := q
    obtain ⟨r1, r2⟩ := r
    simp only [Except.ok.injEq, Prod.mk.injEq]
    constructor
    · rintro ⟨rfl, rfl⟩; exact ⟨c, ⟨rfl, rfl⟩, rfl⟩
    · rintro ⟨c2, ⟨rfl, rfl⟩, rfl⟩; exact ⟨rfl, rfl⟩

theorem copyArray_ok (t : Ty) (xs : List Value) (n : Nat) (r : Value × Nat) :
    copyArray t xs n = .ok r
      ↔ ∃ arr, copyArrayLoop xs (zeroElems xs) ⟨true, 0, (zeroElems xs).length⟩ (n + 1)
            = .ok (arr, r.2) ∧ r.1 = .array t arr := by
  rw [copyArray]; unfold arrayOf
  cases h : copyArrayLoop xs (zeroElems xs) ⟨true, 0, (zeroElems xs).length⟩ (n + 1) with
  | error p => simp
  | ok q =>
    obtain ⟨c, n1⟩ := q
    obtain ⟨r1, r2⟩ := r
    simp only [Except.ok.injEq, Prod.mk.injEq]
    constructor
    · rintro ⟨rfl, rfl⟩; exact ⟨c, ⟨rfl, rfl⟩, rfl⟩
    · rintro ⟨c2, ⟨rfl, rfl⟩, rfl⟩; exact ⟨rfl, rfl⟩

theorem copyStruct_ok (t : Ty) (fs : List (Field × Value)) (n : Nat) (r : Value × Nat) :
    copyStruct t fs n = .ok r
      ↔ ∃ oc, copyStructLoop fs 0 (zeroFields fs) (n + 1) = .ok (oc, r.2)
          ∧ r.1 = .struct t oc := by
  rw [copyStruct]; unfold structOf
  cases h : copyStructLoop fs 0 (zeroFields fs) (n + 1) with
  | error p => simp
  | ok q =>
    obtain ⟨c, n1⟩ := q
    obtain ⟨r1, r2⟩ := r
    simp only [Except.ok.injEq, Prod.mk.injEq]
    constructor
    · rintro ⟨rfl, rfl⟩; exact ⟨c, ⟨rfl, rfl⟩, rfl⟩
    · rintro ⟨c2, ⟨rfl, rfl⟩, rfl⟩; exact ⟨rfl, rfl⟩

theorem copySliceLoop_nil (oc : SliceHeader) (n : Nat) :
    copySliceLoop [] oc n = .ok (oc, n) := by
  simp [copySliceLoop]

theorem copySliceLoop_cons_ok (x : Value) (rest : List Value) (oc : SliceHeader) (n : Nat)
    (r : SliceHeader × Nat) :
    copySliceLoop (x :: rest) oc n = .ok r
      ↔ ∃ c n1, copyr x n = .ok (c, n1)
          ∧ copySliceLoop rest (Append oc (assignTo x c) n1).1
              (Append oc (assignTo x c) n1).2 = .ok r := by
  rw [copySliceLoop]
  cases h : copyr x n with
  | error p => simp
  | ok q =>
    obtain ⟨c, n1⟩ := q
    simp only [Except.ok.injEq, Prod.mk.injEq]
    constructor
    · intro hr; exact ⟨c, n1, ⟨rfl, rfl⟩, hr⟩
    · rintro ⟨c2, n2, ⟨rfl, rfl⟩, hr⟩; exact hr

theorem copyArrayLoop_nil (array : List Value) (view : ArrayView) (n : Nat) :
    copyArrayLoop [] array view n = .ok (array, n) := by
  simp [copyArrayLoop]

theorem copyArrayLoop_cons_ok (x : Value) (rest : List Value) (array : List Value)
    (view : ArrayView) (n : Nat) (r : List Value × Nat) :
    copyArrayLoop (x :: rest) array view n = .ok r
      ↔ ∃ c n1, copyr x n = .ok (c, n1)
          ∧ copyArrayLoop rest (appendView array view (assignTo x c) n1).1.1
              (appendView array view (assignTo x c) n1).1.2
              (appendView array view (assignTo x c) n1).2 = .ok r := by
  rw [copyArrayLoop]
  cases h : copyr x n with
  | error p => simp
  | ok q =>
    obtain ⟨c, n1⟩ := q
    simp only [Except.ok.injEq, Prod.mk.injEq]
    constructor
    · intro hr; exact ⟨c, n1, ⟨rfl, rfl⟩, hr⟩
    · rintro ⟨c2, n2, ⟨rfl, rfl⟩, hr⟩; exact hr

theorem copyMapLoop_nil (oc : List (Value × Value)) (n : Nat) :
    copyMapLoop [] oc n = .ok (oc, n) := by
  simp [copyMapLoop]

theorem copyMapLoop_cons_ok (k v : Value) (rest oc : List (Value × Value)) (n : Nat)
    (r : List (Value × Value) × Nat) :
    copyMapLoop ((k, v) :: rest) oc n = .ok r
      ↔ ∃ ck n1 cv n2, copyr k n = .ok (ck, n1) ∧ copyr v n1 = .ok (cv, n2)
          ∧ copyMapLoop rest (setMapIndex oc (assignTo k ck) (assignTo v cv)) n2 = .ok r := by
  rw [copyMapLoop]
  cases h : copyr k n with
  | error p => simp
  | ok q =>
    obtain ⟨ck, n1⟩ := q
    simp only [Except.ok.injEq, Prod.mk.injEq]
    cases h2 : copyr v n1 with
    | error p =>
      constructor
      · intro hr; cases hr
      · rintro ⟨ck2, n12, cv, n2, ⟨rfl, rfl⟩, hv, _⟩; rw [h2] at hv; cases hv
    | ok q2 =>
      obtain ⟨cv, n2⟩ := q2
      constructor
      · intro hr; exact ⟨ck, n1, cv, n2, ⟨rfl, rfl⟩, h2, hr⟩
      · rintro ⟨ck2, n12, cv2, n22, ⟨rfl, rfl⟩, hv, hr⟩
        rw [h2] at hv; cases hv; exact hr

theorem copyStructLoop_nil (i : Nat) (oc : List (Field × Value)) (n : Nat) :
    copyStructLoop [] i oc n = .ok (oc, n) := by
  simp [copyStructLoop]

theorem copyStructLoop_skip (f : Field) (fv : Value) (rest : List (Field × Value)) (i : Nat)
    (oc : List (Field × Value)) (n : Nat) (h : (!fv.IsZero && f.CanInterface) = false) :
    copyStructLoop ((f, fv) :: rest) i oc n = copyStructLoop rest (i + 1) oc n := by
  rw [copyStructLoop]; simp [h]

theorem copyStructLoop_copy_ok (f : Field) (fv : Value) (rest : List (Field × Value)) (i : Nat)
    (oc : List (Field × Value)) (n : Nat) (h : (!fv.IsZero && f.CanInterface) = true)
    (r : List (Field × Value) × Nat) :
    copyStructLoop ((f, fv) :: rest) i oc n = .ok r
      ↔ ∃ c n1, copyr fv n = .ok (c, n1)
          ∧ copyStructLoop rest (i + 1) (setField oc i (assignTo fv c)) n1 = .ok r := by
  rw [copyStructLoop]
  simp only [h, if_true]
  cases h2 : copyr fv n with
  | error p => simp
  | ok q =>
    obtain ⟨c, n1⟩ := q
    simp only [Except.ok.injEq, Prod.mk.injEq]
    constructor
    · intro hr; exact ⟨c, n1, ⟨rfl, rfl⟩, hr⟩
    · rintro ⟨c2, n2, ⟨rfl, rfl⟩, hr⟩; exact hr

/-! ## The allocator counter never decreases -/

theorem Append_counter (oc : SliceHeader) (x : Value) (n : Nat) : n ≤ (Append oc x n).2 := by
  unfold Append; split <;> simp

theorem appendView_counter (array : List Value) (view : ArrayView) (x : Value) (n : Nat) :
    n ≤ (appendView array view x n).2 := by
  unfold appendView; split <;> simp

theorem copySliceLoop_counter (rest : List Value)
    (ih : ∀ x ∈ rest, ∀ n c n', copyr x n = .ok (c, n') → n ≤ n') :
    ∀ oc n r, copySliceLoop rest oc n = .ok r → n ≤ r.2 := by
  induction rest with
  | nil => intro oc n r h; rw [copySliceLoop_nil] at h; cases h; exact Nat.le_refl _
  | cons x rest ihr =>
    intro oc n r h
    obtain ⟨c, n1, hx, hrest⟩ := (copySliceLoop_cons_ok x rest oc n r).1 h
    have h1 := ih x (List.mem_cons_self _ _) n c n1 hx
    have h2 := ihr (fun y hy => ih y (List.mem_cons_of_mem _ hy)) _ _ r hrest
    exact Nat.le_trans h1 (Nat.le_trans (Append_counter oc _ n1) h2)

theorem copyArrayLoop_counter (rest : List Value)
    (ih : ∀ x ∈ rest, ∀ n c n', copyr x n = .ok (c, n') → n ≤ n') :
    ∀ array view n r, copyArrayLoop rest array view n = .ok r → n ≤ r.2 := by
  induction rest with
  | nil => intro array view n r h; rw [copyArrayLoop_nil] at h; cases h; exact Nat.le_refl _
  | cons x rest ihr =>
    intro array view n r h
    obtain ⟨c, n1, hx, hrest⟩ := (copyArrayLoop_cons_ok x rest array view n r).1 h
    have h1 := ih x (List.mem_cons_self _ _) n c n1 hx
    have h2 := ihr (fun y hy => ih y (List.mem_cons_of_mem _ hy)) _ _ _ r hrest
    exact Nat.le_trans h1 (Nat.le_trans (appendView_counter array view _ n1) h2)

theorem copyMapLoop_counter (rest : List (Value × Value))
    (ih : ∀ kv ∈ rest, (∀ n c n', copyr kv.1 n = .ok (c, n') → n ≤ n')
      ∧ (∀ n c n', copyr kv.2 n = .ok (c, n') → n ≤ n')) :
    ∀ oc n r, copyMapLoop rest oc n = .ok r → n ≤ r.2 := by
  induction rest with
  | nil => intro oc n r h; rw [copyMapLoop_nil] at h; cases h; exact Nat.le_refl _
  | cons kv rest ihr =>
    intro oc n r h
    obtain ⟨k, v⟩ := kv
    obtain ⟨ck, n1, cv, n2, hk, hv, hrest⟩ := (copyMapLoop_cons_ok k v rest oc n r).1 h
    have h0 := ih (k, v) (List.mem_cons_self _ _)
    have h1 := h0.1 n ck n1 hk
    have h2 := h0.2 n1 cv n2 hv
    have h3 := ihr (fun y hy => ih y (List.mem_cons_of_mem _ hy)) _ _ r hrest
    exact Nat.le_trans h1 (Nat.le_trans h2 h3)

theorem copyStructLoop_counter (rest : List (Field × Value))
    (ih : ∀ fx ∈ rest, ∀ n c n', copyr fx.2 n = .ok (c, n') → n ≤ n') :
    ∀ i oc n r, copyStructLoop rest i oc n = .ok r → n ≤ r.2 := by
  induction rest with
  | nil => intro i oc n r h; rw [copyStructLoop_nil] at h; cases h; exact Nat.le_refl _
  | cons fx rest ihr =>
    intro i oc n r h
    obtain ⟨f, fv⟩ := fx
    have ihr2 := ihr (fun y hy => ih y (List.mem_cons_of_mem _ hy))
    cases hc : (!fv.IsZero && f.CanInterface) with
    | false =>
      rw [copyStructLoop_skip f fv rest i oc n hc] at h
      exact ihr2 _ _ _ r h
    | true =>
      obtain ⟨c, n1, hx, hrest⟩ := (copyStructLoop_copy_ok f fv rest i oc n hc r).1 h
      have h1 := ih (f, fv) (List.mem_cons_self _ _) n c n1 hx
      exact Nat.le_trans h1 (ihr2 _ _ _ r hrest)

/-- The allocator counter after a copy is at least the counter before it. -/
theorem copyr_counter (v : Value) : ∀ n c n', copyr v n = .ok (c, n') → n ≤ n' := by
  induction v using Value.induct with
  | invalid => intro n c n' h; rw [copyr_invalid] at h; cases h
  | basic k t d =>
    intro n c n' h; rw [copyr_basic] at h
    split at h
    · cases h; exact Nat.le_refl _
    · split at h
      · cases h
      · cases h; exact Nat.le_refl _
  | func t c => intro n c n' h; rw [copyr_func] at h; cases h; exact Nat.le_refl _
  | chan t c => intro n c n' h; rw [copyr_chan] at h; cases h; exact Nat.le_refl _
  | ptrNil t =>
    intro n c n' h; rw [copyr_ptr, copyPointer_nil] at h
    split at h <;> cases h <;> exact Nat.le_refl _
  | ptr t a x ih =>
    intro n c n' h; rw [copyr_ptr] at h
    split at h
    · cases h; exact Nat.le_refl _
    · obtain ⟨cx, hx, _⟩ := (copyPointer_ok t a x n (c, n')).1 h
      exact Nat.le_trans (Nat.le_succ n) (ih _ _ _ hx)
  | ifaceNil t =>
    intro n c n' h; rw [copyr_iface, copyInterface_nil] at h
    split at h <;> cases h <;> exact Nat.le_refl _
  | iface t x ih =>
    intro n c n' h; rw [copyr_iface] at h
    split at h
    · cases h; exact Nat.le_refl _
    · obtain ⟨cx, hx, _⟩ := (copyInterface_ok t x n (c, n')).1 h
      exact Nat.le_trans (Nat.le_succ n) (ih _ _ _ hx)
  | sliceNil t =>
    intro n c n' h; rw [copyr_slice, copySlice_nil] at h
    split at h <;> cases h <;> exact Nat.le_refl _
  | slice t a cap xs ih =>
    intro n c n' h; rw [copyr_slice] at h
    split at h
    · cases h; exact Nat.le_refl _
    · obtain ⟨oc, hx, _⟩ := (copySlice_ok t a cap xs n (c, n')).1 h
      exact Nat.le_trans (Nat.le_succ n) (copySliceLoop_counter xs ih _ _ _ hx)
  | array t xs ih =>
    intro n c n' h; rw [copyr_array] at h
    split at h
    · cases h; exact Nat.le_refl _
    · obtain ⟨oc, hx, _⟩ := (copyArray_ok t xs n (c, n')).1 h
      exact Nat.le_trans (Nat.le_succ n) (copyArrayLoop_counter xs ih _ _ _ _ hx)
  | mapNil t =>
    intro n c n' h; rw [copyr_map, copyMap_nil] at h
    split at h <;> cases h <;> exact Nat.le_refl _
  | map t a es ih =>
    intro n c n' h; rw [copyr_map] at h
    split at h
    · cases h; exact Nat.le_refl _
    · obtain ⟨oc, hx, _⟩ := (copyMap_ok t a es n (c, n')).1 h
      exact Nat.le_trans (Nat.le_succ n) (copyMapLoop_counter es ih _ _ _ hx)
  | struct t fs ih =>
    intro n c n' h; rw [copyr_struct] at h
    split at h
    · cases h; exact Nat.le_refl _
    · obtain ⟨oc, hx, _⟩ := (copyStruct_ok t fs n (c, n')).1 h
      exact Nat.le_trans (Nat.le_succ n) (copyStructLoop_counter fs ih _ _ _ _ hx)

/-! ## What the loops build -/

theorem copyIn_mono {lo hi lo2 hi2 : Nat} {x c : Value} (h : CopyIn lo hi x c)
    (h1 : lo2 ≤ lo) (h2 : hi ≤ hi2) : CopyIn lo2 hi2 x c := by
  obtain ⟨m, m', c0, a, b, e, hc⟩ := h
  exact ⟨m, m', c0, Nat.le_trans h1 a, Nat.le_trans b h2, e, hc⟩

theorem fieldCopyIn_mono {lo hi lo2 hi2 : Nat} {fx fc : Field × Value}
    (h : FieldCopyIn lo hi fx fc) (h1 : lo2 ≤ lo) (h2 : hi ≤ hi2) :
    FieldCopyIn lo2 hi2 fx fc := by
  refine ⟨h.1, ?_⟩
  have h3 := h.2
  split at h3
  · rename_i hc; rw [if_pos hc]; exact copyIn_mono h3 h1 h2
  · rename_i hc; rw [if_neg hc]; exact h3

theorem zeroElems_length (xs : List Value) : (zeroElems xs).length = xs.length := by
  induction xs with
  | nil => simp [zeroElems]
  | cons x xs ih => simp [zeroElems, ih]

theorem zeroFields_length (fs : List (Field × Value)) : (zeroFields fs).length = fs.length := by
  induction fs with
  | nil => simp [zeroFields]
  | cons x xs ih => obtain ⟨f, x⟩ := x; simp [zeroFields, ih]

theorem setField_append (pre : List (Field × Value)) (f : Field) (y x : Value)
    (rest : List (Field × Value)) :
    setField (pre ++ (f, y) :: rest) pre.length x = pre ++ (f, x) :: rest := by
  induction pre with
  | nil => simp [setField]
  | cons p pre ih => obtain ⟨g, z⟩ := p; simp [setField, ih]

/-- The loop of `copySlice` appends the copies of the remaining elements, in
order; the backing array is the old one or a new one, and it is the old one
with the old capacity when the capacity suffices. -/
theorem copySliceLoop_spec (rest : List Value) :
    ∀ oc n r, copySliceLoop rest oc n = .ok r →
      ∃ cs, r.1.2.2 = oc.2.2 ++ cs ∧ List.Forall₂ (CopyIn n r.2) rest cs
        ∧ (r.1.1 = oc.1 ∨ (n ≤ r.1.1 ∧ r.1.1 < r.2))
        ∧ (oc.2.2.length + rest.length ≤ oc.2.1 → r.1.1 = oc.1 ∧ r.1.2.1 = oc.2.1) := by
  induction rest with
  | nil =>
    intro oc n r h; rw [copySliceLoop_nil] at h; cases h
    exact ⟨[], by simp, List.Forall₂.nil, Or.inl rfl, fun _ => ⟨rfl, rfl⟩⟩
  | cons x rest ih =>
    intro oc n r h
    obtain ⟨c0, n1, hx, hrest⟩ := (copySliceLoop_cons_ok x rest oc n r).1 h
    generalize hs : assignTo x c0 = c at hrest
    obtain ⟨cs, hcs, hall, haddr, hcap⟩ := ih _ _ r hrest
    have h1 : n ≤ n1 := copyr_counter x n c0 n1 hx
    have h2 : n1 ≤ (Append oc c n1).2 := Append_counter oc c n1
    have h3 : (Append oc c n1).2 ≤ r.2 :=
      copySliceLoop_counter rest (fun y _ => copyr_counter y) _ _ r hrest
    have hel : (Append oc c n1).1.2.2 = oc.2.2 ++ [c] := by
      unfold Append; split <;> rfl
    refine ⟨c :: cs, ?_, ?_, ?_, ?_⟩
    · rw [hcs, hel]; simp
    · refine List.Forall₂.cons ⟨n, n1, c0, Nat.le_refl _, ?_, hx, hs.symm⟩ ?_
      · exact Nat.le_trans h2 h3
      · exact hall.imp (fun a b hab => copyIn_mono hab (Nat.le_trans h1 h2) (Nat.le_refl _))
    · have ha : (Append oc c n1).1.1 = oc.1
          ∨ ((Append oc c n1).1.1 = n1 ∧ n1 < (Append oc c n1).2) := by
        unfold Append; split
        · exact Or.inl rfl
        · exact Or.inr ⟨rfl, Nat.lt_succ_self _⟩
      rcases haddr with haddr | ⟨hlo, hhi⟩
      · rcases ha with ha | ⟨ha, hlt⟩
        · exact Or.inl (haddr.trans ha)
        · refine Or.inr ⟨?_, ?_⟩
          · rw [haddr, ha]; exact h1
          · rw [haddr, ha]; exact Nat.lt_of_lt_of_le hlt h3
      · exact Or.inr ⟨Nat.le_trans (Nat.le_trans h1 h2) hlo, hhi⟩
    · intro hle
      simp only [List.length_cons] at hle
      have hlt : oc.2.2.length < oc.2.1 := by omega
      have ha : (Append oc c n1).1 = (oc.1, oc.2.1, oc.2.2 ++ [c]) := by
        unfold Append; rw [if_pos hlt]
      have := hcap (by rw [ha]; simp; omega)
      rw [ha] at this
      exact this

/-- The loop of `copyArray`, started on the zero array, writes the copies of
the elements at their indices: the appends never outgrow the array. -/
theorem copyArrayLoop_spec (rest : List Value) :
    ∀ (done zs : List Value) n r, zs.length = rest.length →
      copyArrayLoop rest (done ++ zs) ⟨true, done.length, done.length + rest.length⟩ n = .ok r →
      ∃ cs, r.1 = done ++ cs ∧ List.Forall₂ (CopyIn n r.2) rest cs := by
  induction rest with
  | nil =>
    intro done zs n r hz h
    rw [copyArrayLoop_nil] at h; cases h
    have : zs = [] := List.length_eq_zero.1 hz
    exact ⟨[], by simp [this], List.Forall₂.nil⟩
  | cons x rest ih =>
    intro done zs n r hz h
    obtain ⟨c0, n1, hx, hrest⟩ := (copyArrayLoop_cons_ok x rest _ _ n r).1 h
    generalize hs : assignTo x c0 = c at hrest
    cases zs with
    | nil => simp at hz
    | cons z zs =>
      have hz2 : zs.length = rest.length := by simpa using hz
      have hlt : done.length < done.length + (x :: rest).length := by simp
      have hv : appendView (done ++ z :: zs)
          ⟨true, done.length, done.length + (x :: rest).length⟩ c n1
          = (((done ++ [c]) ++ zs,
              ⟨true, (done ++ [c]).length, (done ++ [c]).length + rest.length⟩), n1) := by
        unfold appendView
        simp only [hlt, if_true]
        have : (done ++ z :: zs).set done.length c = done ++ c :: zs := by
          rw [List.set_append_right _ _ (Nat.le_refl _)]; simp
        rw [this]
        simp [Nat.add_assoc, Nat.add_comm 1]
      rw [hv] at hrest
      obtain ⟨cs, hcs, hall⟩ := ih (done ++ [c]) zs n1 r hz2 hrest
      have h1 : n ≤ n1 := copyr_counter x n c0 n1 hx
      have h3 : n1 ≤ r.2 := copyArrayLoop_counter rest (fun y _ => copyr_counter y) _ _ _ r hrest
      refine ⟨c :: cs, by rw [hcs]; simp, ?_⟩
      exact List.Forall₂.cons ⟨n, n1, c0, Nat.le_refl _, h3, hx, hs.symm⟩
        (hall.imp (fun a b hab => copyIn_mono hab h1 (Nat.le_refl _)))

/-- The function `copyArray` returns the array of the copies of the
elements, in order. -/
theorem copyArray_spec (t : Ty) (xs : List Value) (n : Nat) (r : Value × Nat)
    (h : copyArray t xs n = .ok r) :
    ∃ cs, r.1 = .array t cs ∧ List.Forall₂ (CopyIn (n + 1) r.2) xs cs := by
  obtain ⟨arr, harr, hr⟩ := (copyArray_ok t xs n r).1 h
  have h0 := copyArrayLoop_spec xs [] (zeroElems xs) (n + 1) (arr, r.2) (zeroElems_length xs)
  simp only [List.nil_append, List.length_nil, Nat.zero_add] at h0
  rw [zeroElems_length] at harr
  obtain ⟨cs, hcs, hall⟩ := h0 harr
  exact ⟨cs, by rw [hr, hcs], hall⟩

/-- The function `copySlice` on a slice that is not nil returns a slice
that is not nil, holding the copies of the elements in order. -/
theorem copySlice_spec (t : Ty) (a cap : Nat) (xs : List Value) (n : Nat) (r : Value × Nat)
    (h : copySlice t (some (a, cap, xs)) n = .ok r) :
    ∃ a2 cap2 cs, r.1 = .slice t (some (a2, cap2, cs))
      ∧ List.Forall₂ (CopyIn (n + 1) r.2) xs cs ∧ n ≤ a2 ∧ a2 < r.2
      ∧ (xs.length ≤ cap → cap2 = cap) := by
  obtain ⟨oc, hoc, hr⟩ := (copySlice_ok t a cap xs n r).1 h
  obtain ⟨cs, hcs, hall, haddr, hcap⟩ := copySliceLoop_spec xs _ _ _ hoc
  have hcnt := copySliceLoop_counter xs (fun y _ => copyr_counter y) _ _ _ hoc
  simp only [List.nil_append, List.length_nil, Nat.zero_add] at hcs hcap haddr hcnt
  obtain ⟨a2, cap2, es⟩ := oc
  simp only at hcs hcap haddr hcnt
  subst hcs
  refine ⟨a2, cap2, es, hr, hall, ?_, ?_, fun hle => (hcap hle).2⟩
  · rcases haddr with rfl | ⟨h1, _⟩
    · exact Nat.le_refl _
    · omega
  · rcases haddr with rfl | ⟨_, h1⟩
    · omega
    · exact h1

/-- The loop of `copyStruct`, started on the zero struct, leaves in every
remaining field its copy or the zero value, and the other fields alone. -/
theorem copyStructLoop_spec (rest : List (Field × Value)) :
    ∀ (pre : List (Field × Value)) n r,
      copyStructLoop rest pre.length (pre ++ zeroFields rest) n = .ok r →
      ∃ cs, r.1 = pre ++ cs ∧ List.Forall₂ (FieldCopyIn n r.2) rest cs := by
  induction rest with
  | nil =>
    intro pre n r h
    rw [copyStructLoop_nil] at h; cases h
    exact ⟨[], by simp [zeroFields], List.Forall₂.nil⟩
  | cons fx rest ih =>
    intro pre n r h
    obtain ⟨f, fv⟩ := fx
    cases hc : (!fv.IsZero && f.CanInterface) with
    | false =>
      rw [copyStructLoop_skip f fv rest _ _ n hc] at h
      have h0 := ih (pre ++ [(f, zeroOf fv)]) n r
        (by simpa [zeroFields, List.append_assoc] using h)
      obtain ⟨cs, hcs, hall⟩ := h0
      refine ⟨(f, zeroOf fv) :: cs, by rw [hcs]; simp, ?_⟩
      refine List.Forall₂.cons ⟨rfl, ?_⟩ hall
      simp [hc]
    | true =>
      obtain ⟨c0, n1, hx, hrest⟩ := (copyStructLoop_copy_ok f fv rest _ _ n hc r).1 h
      generalize hs : assignTo fv c0 = c at hrest
      have hset : setField (pre ++ zeroFields ((f, fv) :: rest)) pre.length c
          = (pre ++ [(f, c)]) ++ zeroFields rest := by
        simp only [zeroFields]
        rw [setField_append]; simp
      rw [hset] at hrest
      have h0 := ih (pre ++ [(f, c)]) n1 r (by simpa using hrest)
      obtain ⟨cs, hcs, hall⟩ := h0
      have h1 : n ≤ n1 := copyr_counter fv n c0 n1 hx
      have h3 : n1 ≤ r.2 :=
        copyStructLoop_counter rest (fun y _ => copyr_counter y.2) _ _ _ r hrest
      refine ⟨(f, c) :: cs, by rw [hcs]; simp, ?_⟩
      refine List.Forall₂.cons ⟨rfl, ?_⟩
        (hall.imp (fun a b hab => fieldCopyIn_mono hab h1 (Nat.le_refl _)))
      simp only [hc, if_true]
      exact ⟨n, n1, c0, Nat.le_refl _, h3, hx, hs.symm⟩

/-- The function `copyStruct` returns a struct of the same type whose fields
are, in order, the copy or the zero value of the source fields. -/
theorem copyStruct_spec (t : Ty) (fs : List (Field × Value)) (n : Nat) (r : Value × Nat)
    (h : copyStruct t fs n = .ok r) :
    ∃ cs, r.1 = .struct t cs ∧ List.Forall₂ (FieldCopyIn (n + 1) r.2) fs cs := by
  obtain ⟨oc, hoc, hr⟩ := (copyStruct_ok t fs n r).1 h
  have h0 := copyStructLoop_spec fs [] (n + 1) (oc, r.2)
  simp only [List.nil_append, List.length_nil] at h0
  obtain ⟨cs, hcs, hall⟩ := h0 hoc
  exact ⟨cs, by rw [hr, hcs], hall⟩

/-! ## The conversion to the type of the slot -/

theorem assignTo_self (v : Value) : assignTo v v = v := by
  cases v <;> rfl

theorem isTime_ptrTo (e : Ty) : isTime (ptrTo e) = false := by
  simp [isTime, ptrTo]

theorem assignTo_of_not_ptr (x c : Value) (h : x.Kind ≠ .ptr) : assignTo x c = c := by
  cases x <;> first | rfl | exact absurd rfl h

/-- What `copyr` returns is, stored in a slot of the type of its source, the
value itself, or, for a pointer that is not nil and not of type `time.Time`,
the new pointer with the pointer type of the source. -/
theorem assignTo_copyr (x : Value) (n : Nat) (c : Value) (n' : Nat)
    (h : copyr x n = .ok (c, n')) :
    assignTo x c = c
    ∨ ∃ t a y cy, x = .ptr t (some (a, y)) ∧ isTime t = false
        ∧ copyr y (n + 1) = .ok (cy, n')
        ∧ c = .ptr (ptrTo (elemType y)) (some (n, assignTo y cy))
        ∧ assignTo x c = .ptr t (some (n, assignTo y cy)) := by
  by_cases hk : x.Kind = .ptr
  · cases x with
    | ptr t p =>
      rw [copyr_ptr] at h
      by_cases ht : isTime t = true
      · rw [if_pos ht] at h; cases h; exact Or.inl (assignTo_self _)
      · rw [if_neg ht] at h
        cases p with
        | none => rw [copyPointer_nil] at h; cases h; exact Or.inl (assignTo_self _)
        | some q =>
          obtain ⟨a, y⟩ := q
          obtain ⟨cy, hy, hc⟩ := (copyPointer_ok t a y n (c, n')).1 h
          simp only at hc hy
          subst hc
          exact Or.inr ⟨t, a, y, cy, rfl, by simpa using ht, hy, rfl, rfl⟩
    | basic k t d => cases k <;> simp [Value.Kind, Basic.kind] at hk
    | _ => simp [Value.Kind] at hk
  · exact Or.inl (assignTo_of_not_ptr x c hk)

/-- A property of what `copyr` returns holds of it as it is stored, when the
property does not look at the type of a pointer that is not nil. -/
theorem assignTo_copyr_of (P : Value → Prop) {x : Value} {n : Nat} {c : Value} {n' : Nat}
    (h : copyr x n = .ok (c, n'))
    (hp : ∀ t e a y, isTime t = false →
      P (.ptr (ptrTo e) (some (a, y))) → P (.ptr t (some (a, y))))
    (hc : P c) : P (assignTo x c) := by
  rcases assignTo_copyr x n c n' h with h1 | ⟨t, a, y, cy, _, ht, _, hcq, hasg⟩
  · rw [h1]; exact hc
  · rw [hasg]
    apply hp t (elemType y) n _ ht
    rw [← hcq]; exact hc

/-- The copy of a pointer of an unnamed pointer type has the type of its
source: stored in a slot of that type it is what `copyr` returned. -/
theorem assignTo_of_plainPtr (v : Value) (n : Nat) (c : Value) (n' : Nat)
    (h : copyr v n = .ok (c, n')) (hp : plainPtr v = true) : assignTo v c = c := by
  rcases assignTo_copyr v n c n' h with h1 | ⟨t, a, y, cy, rfl, ht, hy, hc, _⟩
  · exact h1
  · simp only [plainPtr, ht, Bool.false_or, beq_iff_eq] at hp
    rw [hc, hp]
    rfl

/-! ## The panics of the package -/

theorem copySliceLoop_panic (S : PanicValue → Prop) (rest : List Value)
    (ih : ∀ x ∈ rest, ∀ n p, copyr x n = .error p → S p) :
    ∀ oc n p, copySliceLoop rest oc n = .error p → S p := by
  induction rest with
  | nil => intro oc n p h; rw [copySliceLoop_nil] at h; cases h
  | cons x rest ihr =>
    intro oc n p h
    rw [copySliceLoop] at h
    cases hx : copyr x n with
    | error q => rw [hx] at h; cases h; exact ih x (List.mem_cons_self _ _) n _ hx
    | ok q =>
      rw [hx] at h
      exact ihr (fun y hy => ih y (List.mem_cons_of_mem _ hy)) _ _ p h

theorem copyArrayLoop_panic (S : PanicValue → Prop) (rest : List Value)
    (ih : ∀ x ∈ rest, ∀ n p, copyr x n = .error p → S p) :
    ∀ array view n p, copyArrayLoop rest array view n = .error p → S p := by
  induction rest with
  | nil => intro array view n p h; rw [copyArrayLoop_nil] at h; cases h
  | cons x rest ihr =>
    intro array view n p h
    rw [copyArrayLoop] at h
    cases hx : copyr x n with
    | error q => rw [hx] at h; cases h; exact ih x (List.mem_cons_self _ _) n _ hx
    | ok q =>
      rw [hx] at h
      exact ihr (fun y hy => ih y (List.mem_cons_of_mem _ hy)) _ _ _ p h

theorem copyMapLoop_panic (S : PanicValue → Prop) (rest : List (Value × Value))
    (ih : ∀ kv ∈ rest, (∀ n p, copyr kv.1 n = .error p → S p)
      ∧ (∀ n p, copyr kv.2 n = .error p → S p)) :
    ∀ oc n p, copyMapLoop rest oc n = .error p → S p := by
  induction rest with
  | nil => intro oc n p h; rw [copyMapLoop_nil] at h; cases h
  | cons kv rest ihr =>
    intro oc n p h
    obtain ⟨k, v⟩ := kv
    rw [copyMapLoop] at h
    have h0 := ih (k, v) (List.mem_cons_self _ _)
    cases hk : copyr k n with
    | error q => rw [hk] at h; cases h; exact h0.1 n _ hk
    | ok q =>
      rw [hk] at h
      obtain ⟨ck, n1⟩ := q
      simp only at h
      cases hv : copyr v n1 with
      | error q => rw [hv] at h; cases h; exact h0.2 n1 _ hv
      | ok q2 =>
        rw [hv] at h
        exact ihr (fun y hy => ih y (List.mem_cons_of_mem _ hy)) _ _ p h

theorem copyStructLoop_panic (S : PanicValue → Prop) (rest : List (Field × Value))
    (ih : ∀ fx ∈ rest, (!fx.2.IsZero && fx.1.CanInterface) = true →
      ∀ n p, copyr fx.2 n = .error p → S p) :
    ∀ i oc n p, copyStructLoop rest i oc n = .error p → S p := by
  induction rest with
  | nil => intro i oc n p h; rw [copyStructLoop_nil] at h; cases h
  | cons fx rest ihr =>
    intro i oc n p h
    obtain ⟨f, fv⟩ := fx
    have ihr2 := ihr (fun y hy => ih y (List.mem_cons_of_mem _ hy))
    cases hc : (!fv.IsZero && f.CanInterface) with
    | false =>
      rw [copyStructLoop_skip f fv rest i oc n hc] at h
      exact ihr2 _ _ _ p h
    | true =>
      rw [copyStructLoop] at h
      simp only [hc, if_true] at h
      cases hx : copyr fv n with
      | error q =>
        rw [hx] at h; cases h
        exact ih (f, fv) (List.mem_cons_self _ _) hc n _ hx
      | ok q =>
        rw [hx] at h
        exact ihr2 _ _ _ p h

theorem copyPointer_panic (t : Ty) (a : Nat) (x : Value) (n : Nat) (p : PanicValue)
    (h : copyPointer t (some (a, x)) n = .error p) : copyr x (n + 1) = .error p := by
  rw [copyPointer] at h
  cases hx : copyr x (n + 1) with
  | error q => rw [hx] at h; cases h; rfl
  | ok q => rw [hx] at h; cases h

theorem copyInterface_panic (t : Ty) (x : Value) (n : Nat) (p : PanicValue)
    (h : copyInterface t (some x) n = .error p) : copyr x (n + 1) = .error p := by
  rw [copyInterface] at h
  cases hx : copyr x (n + 1) with
  | error q => rw [hx] at h; cases h; rfl
  | ok q => rw [hx] at h; cases h

theorem copySlice_panic (t : Ty) (a cap : Nat) (xs : List Value) (n : Nat) (p : PanicValue)
    (h : copySlice t (some (a, cap, xs)) n = .error p) :
    copySliceLoop xs (n, cap, []) (n + 1) = .error p := by
  rw [copySlice] at h
  cases hx : copySliceLoop xs (n, cap, []) (n + 1) with
  | error q => rw [hx] at h; cases h; rfl
  | ok q => rw [hx] at h; cases h

theorem copyMap_panic (t : Ty) (a : Nat) (es : List (Value × Value)) (n : Nat)
    (p : PanicValue) (h : copyMap t (some (a, es)) n = .error p) :
    copyMapLoop es [] (n + 1) = .error p := by
  rw [copyMap] at h
  cases hx : copyMapLoop es [] (n + 1) with
  | error q => rw [hx] at h; cases h; rfl
  | ok q => rw [hx] at h; cases h

theorem copyArray_panic (t : Ty) (xs : List Value) (n : Nat) (p : PanicValue)
    (h : copyArray t xs n = .error p) :
    copyArrayLoop xs (zeroElems xs) ⟨true, 0, (zeroElems xs).length⟩ (n + 1) = .error p := by
  rw [copyArray] at h; unfold arrayOf at h
  cases hx : copyArrayLoop xs (zeroElems xs) ⟨true, 0, (zeroElems xs).length⟩ (n + 1) with
  | error q => rw [hx] at h; cases h; rfl
  | ok q => rw [hx] at h; cases h

theorem copyStruct_panic (t : Ty) (fs : List (Field × Value)) (n : Nat) (p : PanicValue)
    (h : copyStruct t fs n = .error p) :
    copyStructLoop fs 0 (zeroFields fs) (n + 1) = .error p := by
  rw [copyStruct] at h; unfold structOf at h
  cases hx : copyStructLoop fs 0 (zeroFields fs) (n + 1) with
  | error q => rw [hx] at h; cases h; rfl
  | ok q => rw [hx] at h; cases h

/-- Every panic of `copyr` is the invalid-value panic or the unsupported-type
panic for `uintptr` or `unsafe.Pointer`. -/
theorem copyr_panic (v : Value) : ∀ n p, copyr v n = .error p →
    p = .err "invalid value" ∨ p = .str "unsupported type: uintptr"
      ∨ p = .str "unsupported type: unsafe.Pointer" := by
  induction v using Value.induct with
  | invalid => intro n p h; rw [copyr_invalid] at h; cases h; exact Or.inl rfl
  | basic k t d =>
    intro n p h; rw [copyr_basic] at h
    split at h
    · cases h
    · split at h
      · rename_i hk
        cases h
        rcases hk with rfl | rfl
        · exact Or.inr (Or.inl rfl)
        · exact Or.inr (Or.inr rfl)
      · cases h
  | func t c => intro n p h; rw [copyr_func] at h; cases h
  | chan t c => intro n p h; rw [copyr_chan] at h; cases h
  | ptrNil t =>
    intro n p h; rw [copyr_ptr, copyPointer_nil] at h
    split at h <;> cases h
  | ptr t a x ih =>
    intro n p h; rw [copyr_ptr] at h
    split at h
    · cases h
    · exact ih _ _ (copyPointer_panic t a x n p h)
  | ifaceNil t =>
    intro n p h; rw [copyr_iface, copyInterface_nil] at h
    split at h <;> cases h
  | iface t x ih =>
    intro n p h; rw [copyr_iface] at h
    split at h
    · cases h
    · exact ih _ _ (copyInterface_panic t x n p h)
  | sliceNil t =>
    intro n p h; rw [copyr_slice, copySlice_nil] at h
    split at h <;> cases h
  | slice t a cap xs ih =>
    intro n p h; rw [copyr_slice] at h
    split at h
    · cases h
    · exact copySliceLoop_panic _ xs ih _ _ p (copySlice_panic t a cap xs n p h)
  | array t xs ih =>
    intro n p h; rw [copyr_array] at h
    split at h
    · cases h
    · exact copyArrayLoop_panic _ xs ih _ _ _ p (copyArray_panic t xs n p h)
  | mapNil t =>
    intro n p h; rw [copyr_map, copyMap_nil] at h
    split at h <;> cases h
  | map t a es ih =>
    intro n p h; rw [copyr_map] at h
    split at h
    · cases h
    · exact copyMapLoop_panic _ es ih _ _ p (copyMap_panic t a es n p h)
  | struct t fs ih =>
    intro n p h; rw [copyr_struct] at h
    split at h
    · cases h
    · exact copyStructLoop_panic _ fs (fun fx hfx _ => ih fx hfx) _ _ _ p
        (copyStruct_panic t fs n p h)

/-! ## The error result, the aborts and the identity on primitives -/

/-- C6: whenever `Copy` returns, the error it returns is nil. -/
theorem Copy_error_is_nil (o : Option Value) (n : Nat) (r : Option Value)
    (e : Option String) (n' : Nat) (h : Copy o n = .ok ((r, e), n')) : e = none := by
  unfold Copy at h
  cases hc : copyr (ValueOf o) n with
  | error p => rw [hc] at h; cases h
  | ok q =>
    rw [hc] at h
    obtain ⟨c, n1⟩ := q
    simp only at h
    cases hi : valueInterface c with
    | error p => rw [hi] at h; cases h
    | ok x => rw [hi] at h; cases h; rfl

theorem Copy_error_is_nil_witness :
    Copy (some (vInt 42)) 0 = .ok ((some (vInt 42), none), 0) ∧ (none : Option String) = none :=
  ⟨rfl, Copy_error_is_nil (some (vInt 42)) 0 (some (vInt 42)) none 0 rfl⟩

/-- C7: on a value of kind `uintptr` or `unsafe.Pointer` (which is never of
type `time.Time`) `copyr` panics with the unsupported-type message of that
kind and returns nothing; and a valid value on which `copyr` panics with the
unsupported-type message of the value's own kind has one of these two
kinds: on every other kind the switch has a case. -/
theorem copyr_unsupported_kind (ov : Value) (n : Nat) :
    ((ov.Kind = .uintptr ∨ ov.Kind = .unsafePointer) →
        (∀ t, ov.Type = some t → isTime t = false) →
        copyr ov n = .error (.str ("unsupported type: " ++ ov.Kind.toString)))
    ∧ (ov.IsValid = true →
        copyr ov n = .error (.str ("unsupported type: " ++ ov.Kind.toString)) →
        (ov.Kind = .uintptr ∨ ov.Kind = .unsafePointer)) := by
  constructor
  · intro hk ht
    cases ov with
    | basic k t d =>
      have ht2 := ht t rfl
      rw [copyr_basic]
      simp only [ht2, Bool.false_eq_true, if_false]
      have hk2 : k = .uintptr ∨ k = .unsafePointer := by
        cases k <;> simp [Value.Kind, Basic.kind] at hk ⊢
      rw [if_pos hk2]
      rfl
    | _ => simp [Value.Kind] at hk
  · intro _ h
    have hp := copyr_panic ov n _ h
    generalize ov.Kind = kd at hp ⊢
    revert hp
    cases kd <;> decide

theorem copyr_unsupported_kind_witness :
    copyr (.basic .uintptr tUintptr (.uint 7)) 0
        = .error (.str "unsupported type: uintptr")
      ∧ ((Value.basic .uintptr tUintptr (.uint 7)).Kind = .uintptr
        ∨ (Value.basic .uintptr tUintptr (.uint 7)).Kind = .unsafePointer) :=
  ⟨(copyr_unsupported_kind (.basic .uintptr tUintptr (.uint 7)) 0).1 (Or.inl rfl)
      (fun t ht => by cases ht; rfl),
    (copyr_unsupported_kind (.basic .uintptr tUintptr (.uint 7)) 0).2 rfl rfl⟩

/-- C8: `Copy` of the nil `interface{}`, whose `reflect.Value` is the invalid
one, panics with the error "invalid value": there is no result and no
error result. -/
theorem Copy_invalid_panics (n : Nat) :
    ValueOf none = .invalid ∧ Copy none n = .error (.err "invalid value") :=
  ⟨rfl, rfl⟩

/-- C10: on a value whose kind is a boolean, a signed or unsigned integer
(`uintptr` apart), a float, a complex, a string, a func or a chan, `copyr`
returns the value it was given and allocates nothing, and so does `Copy`:
the function or channel of the copy is the one of the source. -/
theorem copyr_primitive_identity (ov : Value) (n : Nat)
    (h : ov.Kind ∈ [Kind.int, .string, .int64, .float64, .bool, .uint, .uint64, .func, .chan,
      .float32, .int8, .int16, .int32, .complex64, .complex128, .uint8, .uint16, .uint32]) :
    copyr ov n = .ok (ov, n) ∧ Copy (some ov) n = .ok ((some ov, none), n) := by
  have h1 : copyr ov n = .ok (ov, n) := by
    cases ov with
    | basic k t d =>
      rw [copyr_basic]
      have hk2 : ¬ (k = .uintptr ∨ k = .unsafePointer) := by
        cases k <;> simp [Value.Kind, Basic.kind] at h ⊢
      rw [if_neg hk2]; simp
    | func t c => exact copyr_func t c n
    | chan t c => exact copyr_chan t c n
    | _ => simp [Value.Kind] at h
  refine ⟨h1, ?_⟩
  unfold Copy ValueOf
  simp only [h1]
  cases ov <;> first | rfl | simp [Value.Kind] at h

theorem copyr_primitive_identity_witness :
    copyr (.chan ⟨"", "", "chan int"⟩ (some 3)) 9 = .ok (.chan ⟨"", "", "chan int"⟩ (some 3), 9)
      ∧ Copy (some (.chan ⟨"", "", "chan int"⟩ (some 3))) 9
        = .ok ((some (.chan ⟨"", "", "chan int"⟩ (some 3)), none), 9) :=
  copyr_primitive_identity (.chan ⟨"", "", "chan int"⟩ (some 3)) 9 (by decide)

/-! ## Zero values -/

theorem Payload.IsZero_zero (k : Basic) (d : Payload) : d.zero.IsZero k = true := by
  cases d <;> simp [Payload.IsZero, Payload.zero, floatIsZero]

theorem allZero_iff (xs : List Value) : allZero xs = true ↔ ∀ x ∈ xs, x.IsZero = true := by
  induction xs with
  | nil => simp [allZero]
  | cons x xs ih => simp [allZero, ih]

theorem allFieldsZero_iff (fs : List (Field × Value)) :
    allFieldsZero fs = true ↔ ∀ fx ∈ fs, fx.2.IsZero = true := by
  induction fs with
  | nil => simp [allFieldsZero]
  | cons x xs ih => obtain ⟨f, x⟩ := x; simp [allFieldsZero, ih]

theorem zeroElems_eq_map (xs : List Value) : zeroElems xs = xs.map zeroOf := by
  induction xs with
  | nil => simp [zeroElems]
  | cons x xs ih => simp [zeroElems, ih]

theorem zeroFields_eq_map (fs : List (Field × Value)) :
    zeroFields fs = fs.map (fun fx => (fx.1, zeroOf fx.2)) := by
  induction fs with
  | nil => simp [zeroFields]
  | cons x xs ih => obtain ⟨f, x⟩ := x; simp [zeroFields, ih]

/-- The zero value of a type is zero. -/
theorem IsZero_zeroOf (v : Value) : (zeroOf v).IsZero = true := by
  induction v using Value.induct with
  | basic k t d => simp [zeroOf, Value.IsZero, Payload.IsZero_zero]
  | array t xs ih =>
    simp only [zeroOf, Value.IsZero, allZero_iff, zeroElems_eq_map, List.mem_map]
    rintro _ ⟨x, hx, rfl⟩; exact ih x hx
  | struct t fs ih =>
    simp only [zeroOf, Value.IsZero, allFieldsZero_iff, zeroFields_eq_map, List.mem_map]
    rintro _ ⟨x, hx, rfl⟩; exact ih x hx
  | _ => simp [zeroOf, Value.IsZero]

theorem forall2_getElem {α β : Type} {R : α → β → Prop} {l1 : List α} {l2 : List β}
    (h : List.Forall₂ R l1 l2) (i : Nat) (a : α) (ha : l1[i]? = some a) :
    ∃ b, l2[i]? = some b ∧ R a b := by
  induction h generalizing i with
  | nil => simp at ha
  | cons hab _ ih =>
    cases i with
    | zero => simp at ha; subst ha; exact ⟨_, by simp, hab⟩
    | succ i => simp at ha; simpa using ih i ha

theorem forall2_mem_right {α β : Type} {R : α → β → Prop} {l1 : List α} {l2 : List β}
    (h : List.Forall₂ R l1 l2) (b : β) (hb : b ∈ l2) : ∃ a ∈ l1, R a b := by
  induction h with
  | nil => simp at hb
  | cons hab _ ih =>
    rcases List.mem_cons.1 hb with rfl | hb
    · exact ⟨_, List.mem_cons_self _ _, hab⟩
    · obtain ⟨a, ha, hr⟩ := ih hb
      exact ⟨a, List.mem_cons_of_mem _ ha, hr⟩

/-! ## Values of type `time.Time` -/

/-- C9, as stated, fails: a `time.Time` that is not zero, held in the
unexported field `value` of a struct, is not equal in the copy; `copyStruct`
leaves the field at the zero `time.Time`. -/
theorem copyr_time_unexported_reset :
    copyr (.struct tTest [(⟨"value", false⟩, vTime 5 7 none)]) 0
      = .ok (.struct tTest [(⟨"value", false⟩, vTime 0 0 none)], 1)
    ∧ ¬ (∀ (ov : Value) (ts : Ty) (fs : List (Field × Value)) (i : Nat) (f : Field)
          (c : Value) (n n' : Nat), ov.Type = some tTime → isTime ts = false →
          fs[i]? = some (f, ov) → copyr (.struct ts fs) n = .ok (c, n') →
          ∃ cs, c = .struct ts cs ∧ cs[i]? = some (f, ov)) := by
  refine ⟨rfl, fun h => ?_⟩
  obtain ⟨cs, hcs, hi⟩ := h (vTime 5 7 none) tTest [(⟨"value", false⟩, vTime 5 7 none)] 0
    ⟨"value", false⟩ (.struct tTest [(⟨"value", false⟩, vTime 0 0 none)]) 0 1 rfl rfl rfl rfl
  simp only [Value.struct.injEq, true_and] at hcs
  subst hcs
  simp [vTime] at hi

/-- C9, amended: a value of type `time.Time` is returned by `copyr` as it
is, with all its fields, and nothing is allocated for it.  In the copy of a
struct that holds it in an exported field the field holds the same value (the
zero value of the type when the time is zero, which `copyStruct` does not
copy); in an unexported field the field holds the zero value of the type,
whatever the time was.  The copy of a pointer, or of a pointer to a pointer,
to it points to the same value, through new cells. -/
theorem copyr_time_unchanged (ov : Value) (n : Nat) (t : Ty) (ht : ov.Type = some t)
    (h : isTime t = true) :
    copyr ov n = .ok (ov, n)
    ∧ (∀ (ts : Ty) (fs : List (Field × Value)) (i : Nat) (f : Field) (c : Value) (n' : Nat),
        isTime ts = false → fs[i]? = some (f, ov) →
        copyr (.struct ts fs) n = .ok (c, n') →
        ∃ cs, c = .struct ts cs
          ∧ (f.exported = true →
              cs[i]? = some (f, if ov.IsZero = true then zeroOf ov else ov))
          ∧ (f.exported = false → cs[i]? = some (f, zeroOf ov)))
    ∧ (∀ tp a, isTime tp = false →
        copyr (.ptr tp (some (a, ov))) n = .ok (.ptr (ptrTo t) (some (n, ov)), n + 1))
    ∧ (∀ tpp tp a b, isTime tpp = false → isTime tp = false →
        copyr (.ptr tpp (some (a, .ptr tp (some (b, ov))))) n
          = .ok (.ptr (ptrTo tp) (some (n, .ptr tp (some (n + 1, ov)))), n + 2)) := by
  have hself : ∀ m, copyr ov m = .ok (ov, m) := fun m => copyr_of_isTime ov m t ht h
  have hel : elemType ov = t := by simp [elemType, ht]
  refine ⟨hself n, ?_, ?_, ?_⟩
  · intro ts fs i f c n' hts hi hc
    rw [copyr_struct, hts] at hc
    simp only [Bool.false_eq_true, if_false] at hc
    obtain ⟨cs, hcs, hall⟩ := copyStruct_spec ts fs n (c, n') hc
    obtain ⟨fc, hfc, hr⟩ := forall2_getElem hall i (f, ov) hi
    refine ⟨cs, hcs, ?_, ?_⟩
    · intro hf
      rw [hfc]
      obtain ⟨g, y⟩ := fc
      obtain ⟨hg, hy⟩ := hr
      simp only at hg hy
      subst hg
      split at hy
      · rename_i hcond
        obtain ⟨m, m', c0, _, _, hm, hy0⟩ := hy
        rw [hself m] at hm
        cases hm
        have hz : ov.IsZero = false := by
          cases hov : ov.IsZero <;> simp_all
        rw [hy0, assignTo_self, hz]; simp
      · rename_i hcond
        have hz : ov.IsZero = true := by
          simp only [Field.CanInterface, hf, Bool.and_true, Bool.not_eq_true',
            Bool.not_eq_false] at hcond
          cases hov : ov.IsZero <;> simp_all
        rw [hy, hz]; simp
    · intro hf
      rw [hfc]
      obtain ⟨g, y⟩ := fc
      obtain ⟨hg, hy⟩ := hr
      simp only at hg hy
      subst hg
      rw [if_neg (by simp [Field.CanInterface, hf])] at hy
      rw [hy]
  · intro tp a htp
    rw [copyr_ptr, htp]
    simp only [Bool.false_eq_true, if_false]
    rw [copyPointer, hself (n + 1)]
    simp only [hel, assignTo_self]
  · intro tpp tp a b htpp htp
    have h1 : copyr (.ptr tp (some (b, ov))) (n + 1)
        = .ok (.ptr (ptrTo t) (some (n + 1, ov)), n + 2) := by
      rw [copyr_ptr, htp]
      simp only [Bool.false_eq_true, if_false]
      rw [copyPointer, hself (n + 1 + 1)]
      simp only [hel, assignTo_self]
    rw [copyr_ptr, htpp]
    simp only [Bool.false_eq_true, if_false]
    rw [copyPointer, h1]
    rfl

theorem copyr_time_unchanged_witness :
    copyr (vTime 5 7 (some (3, vInt 0))) 10 = .ok (vTime 5 7 (some (3, vInt 0)), 10)
    ∧ (∃ cs, Value.struct tTest [(⟨"Value", true⟩, vTime 5 7 (some (3, vInt 0)))]
          = .struct tTest cs
        ∧ (true = true → cs[0]? = some (⟨"Value", true⟩,
            if (vTime 5 7 (some (3, vInt 0))).IsZero = true
            then zeroOf (vTime 5 7 (some (3, vInt 0))) else vTime 5 7 (some (3, vInt 0))))
        ∧ (true = false → cs[0]? = some (⟨"Value", true⟩,
            zeroOf (vTime 5 7 (some (3, vInt 0))))))
    ∧ copyr (.ptr tTimePtr (some (4, vTime 5 7 (some (3, vInt 0))))) 10
        = .ok (.ptr (ptrTo tTime) (some (10, vTime 5 7 (some (3, vInt 0)))), 10 + 1)
    ∧ copyr (.ptr tTimePtrPtr (some (6, .ptr tTimePtr (some (4, vTime 5 7 (some (3, vInt 0)))))))
          10
        = .ok (.ptr (ptrTo tTimePtr)
            (some (10, .ptr tTimePtr (some (10 + 1, vTime 5 7 (some (3, vInt 0)))))), 10 + 2) :=
  ⟨(copyr_time_unchanged (vTime 5 7 (some (3, vInt 0))) 10 tTime rfl rfl).1,
    (copyr_time_unchanged (vTime 5 7 (some (3, vInt 0))) 10 tTime rfl rfl).2.1 tTest
      [(⟨"Value", true⟩, vTime 5 7 (some (3, vInt 0)))] 0 ⟨"Value", true⟩
      (.struct tTest [(⟨"Value", true⟩, vTime 5 7 (some (3, vInt 0)))]) 11 rfl rfl rfl,
    (copyr_time_unchanged (vTime 5 7 (some (3, vInt 0))) 10 tTime rfl rfl).2.2.1 tTimePtr 4 rfl,
    (copyr_time_unchanged (vTime 5 7 (some (3, vInt 0))) 10 tTime rfl rfl).2.2.2 tTimePtrPtr
      tTimePtr 6 4 rfl rfl⟩

/-! ## Nil pointers, slices and maps -/

/-- C5: for a pointer, a slice or a map, a nil source is returned as it is,
so that the copy is the nil of the same type; whenever `copyr` returns, the
copy is of the kind of the source and is nil exactly when the source is nil,
and a slice or a map has the type of the source; and a slice or map that is
not nil and empty is copied, to one that is not nil and empty. -/
theorem copyr_nil_iff_nil (ov : Value) (n : Nat)
    (hk : ov.Kind = .ptr ∨ ov.Kind = .slice ∨ ov.Kind = .map) :
    (ov.IsNil = true → copyr ov n = .ok (ov, n))
    ∧ (∀ c n', copyr ov n = .ok (c, n') →
        c.IsNil = ov.IsNil ∧ c.Kind = ov.Kind
          ∧ (ov.IsNil = true ∨ ov.Kind ≠ .ptr → c.Type = ov.Type))
    ∧ (ov.Kind ≠ .ptr → ov.IsNil = false → ov.Len = 0 →
        ∃ c n', copyr ov n = .ok (c, n') ∧ c.IsNil = false ∧ c.Len = 0) := by
  cases ov with
  | ptr t p =>
    cases p with
    | none =>
      refine ⟨fun _ => ?_, ?_, fun h => absurd rfl h⟩
      · rw [copyr_ptr, copyPointer_nil]; simp
      · intro c n' hc
        rw [copyr_ptr, copyPointer_nil] at hc
        simp only [ite_self] at hc
        cases hc; exact ⟨rfl, rfl, fun _ => rfl⟩
    | some ax =>
      obtain ⟨a, x⟩ := ax
      refine ⟨fun h => by simp [Value.IsNil] at h, ?_, fun h => absurd rfl h⟩
      intro c n' hc
      rw [copyr_ptr] at hc
      split at hc
      · cases hc; exact ⟨rfl, rfl, fun _ => rfl⟩
      · obtain ⟨cx, _, hcx⟩ := (copyPointer_ok t a x n (c, n')).1 hc
        simp only at hcx; subst hcx
        exact ⟨rfl, rfl, fun h => by simp [Value.IsNil, Value.Kind] at h⟩
  | slice t s =>
    cases s with
    | none =>
      refine ⟨fun _ => ?_, ?_, fun _ h => by simp [Value.IsNil] at h⟩
      · rw [copyr_slice, copySlice_nil]; simp
      · intro c n' hc
        rw [copyr_slice, copySlice_nil] at hc
        simp only [ite_self] at hc
        cases hc; exact ⟨rfl, rfl, fun _ => rfl⟩
    | some s =>
      obtain ⟨a, cap, xs⟩ := s
      refine ⟨fun h => by simp [Value.IsNil] at h, ?_, ?_⟩
      · intro c n' hc
        rw [copyr_slice] at hc
        split at hc
        · cases hc; exact ⟨rfl, rfl, fun _ => rfl⟩
        · obtain ⟨a2, cap2, cs, hcs, _⟩ := copySlice_spec t a cap xs n (c, n') hc
          simp only at hcs; subst hcs; exact ⟨rfl, rfl, fun _ => rfl⟩
      · intro _ _ hlen
        simp only [Value.Len, List.length_eq_zero] at hlen
        subst hlen
        rw [copyr_slice]
        split
        · exact ⟨_, _, rfl, rfl, rfl⟩
        · exact ⟨.slice t (some (n, cap, [])), n + 1, rfl, rfl, rfl⟩
  | map t m =>
    cases m with
    | none =>
      refine ⟨fun _ => ?_, ?_, fun _ h => by simp [Value.IsNil] at h⟩
      · rw [copyr_map, copyMap_nil]; simp
      · intro c n' hc
        rw [copyr_map, copyMap_nil] at hc
        simp only [ite_self] at hc
        cases hc; exact ⟨rfl, rfl, fun _ => rfl⟩
    | some m =>
      obtain ⟨a, es⟩ := m
      refine ⟨fun h => by simp [Value.IsNil] at h, ?_, ?_⟩
      · intro c n' hc
        rw [copyr_map] at hc
        split at hc
        · cases hc; exact ⟨rfl, rfl, fun _ => rfl⟩
        · obtain ⟨oc, _, hcs⟩ := (copyMap_ok t a es n (c, n')).1 hc
          simp only at hcs; subst hcs; exact ⟨rfl, rfl, fun _ => rfl⟩
      · intro _ _ hlen
        simp only [Value.Len, List.length_eq_zero] at hlen
        subst hlen
        rw [copyr_map]
        split
        · exact ⟨_, _, rfl, rfl, rfl⟩
        · exact ⟨.map t (some (n, [])), n + 1, rfl, rfl, rfl⟩
  | basic k t d => rcases hk with hk | hk | hk <;> cases k <;> simp [Value.Kind, Basic.kind] at hk
  | _ => simp [Value.Kind] at hk

theorem copyr_nil_iff_nil_witness :
    ((Value.slice ⟨"", "", "[]int"⟩ (some (4, 2, []))).IsNil = true →
      copyr (.slice ⟨"", "", "[]int"⟩ (some (4, 2, []))) 9
        = .ok (.slice ⟨"", "", "[]int"⟩ (some (4, 2, [])), 9))
    ∧ (∀ c n', copyr (.slice ⟨"", "", "[]int"⟩ (some (4, 2, []))) 9 = .ok (c, n') →
        c.IsNil = (Value.slice ⟨"", "", "[]int"⟩ (some (4, 2, []))).IsNil
        ∧ c.Kind = (Value.slice ⟨"", "", "[]int"⟩ (some (4, 2, []))).Kind
        ∧ ((Value.slice ⟨"", "", "[]int"⟩ (some (4, 2, []))).IsNil = true
            ∨ (Value.slice ⟨"", "", "[]int"⟩ (some (4, 2, []))).Kind ≠ .ptr →
          c.Type = (Value.slice ⟨"", "", "[]int"⟩ (some (4, 2, []))).Type))
    ∧ ((Value.slice ⟨"", "", "[]int"⟩ (some (4, 2, []))).Kind ≠ .ptr →
        (Value.slice ⟨"", "", "[]int"⟩ (some (4, 2, []))).IsNil = false →
        (Value.slice ⟨"", "", "[]int"⟩ (some (4, 2, []))).Len = 0 →
        ∃ c n', copyr (.slice ⟨"", "", "[]int"⟩ (some (4, 2, []))) 9 = .ok (c, n')
          ∧ c.IsNil = false ∧ c.Len = 0) :=
  copyr_nil_iff_nil (.slice ⟨"", "", "[]int"⟩ (some (4, 2, []))) 9 (Or.inr (Or.inl rfl))

/-! ## The fields of a copied struct -/

theorem zeroFields_append (l1 l2 : List (Field × Value)) :
    zeroFields (l1 ++ l2) = zeroFields l1 ++ zeroFields l2 := by
  simp [zeroFields_eq_map]

theorem copyStructLoop_append (l1 l2 : List (Field × Value)) :
    ∀ i oc n r, copyStructLoop (l1 ++ l2) i oc n = .ok r →
      ∃ oc1 n1, copyStructLoop l1 i oc n = .ok (oc1, n1)
        ∧ copyStructLoop l2 (i + l1.length) oc1 n1 = .ok r := by
  induction l1 with
  | nil =>
    intro i oc n r h
    exact ⟨oc, n, copyStructLoop_nil i oc n, by simpa using h⟩
  | cons fx l1 ih =>
    intro i oc n r h
    obtain ⟨f, fv⟩ := fx
    cases hc : (!fv.IsZero && f.CanInterface) with
    | false =>
      rw [List.cons_append, copyStructLoop_skip f fv _ i oc n hc] at h
      obtain ⟨oc1, n1, h1, h2⟩ := ih _ _ _ _ h
      refine ⟨oc1, n1, ?_, ?_⟩
      · rw [copyStructLoop_skip f fv _ i oc n hc]; exact h1
      · simpa [Nat.add_assoc, Nat.add_comm 1] using h2
    | true =>
      rw [List.cons_append] at h
      obtain ⟨c, m, hx, hrest⟩ := (copyStructLoop_copy_ok f fv _ i oc n hc r).1 h
      obtain ⟨oc1, n1, h1, h2⟩ := ih _ _ _ _ hrest
      refine ⟨oc1, n1, ?_, ?_⟩
      · exact (copyStructLoop_copy_ok f fv _ i oc n hc (oc1, n1)).2 ⟨c, m, hx, h1⟩
      · simpa [Nat.add_assoc, Nat.add_comm 1] using h2

/-- The loop of `copyStruct` on a struct whose fields from `pre.length` on are
still zero: the fields it runs over receive their copy or stay zero, the
fields before and after them are left alone. -/
theorem copyStructLoop_frame (rest : List (Field × Value)) :
    ∀ (pre suf : List (Field × Value)) n r,
      copyStructLoop rest pre.length (pre ++ zeroFields rest ++ suf) n = .ok r →
      ∃ cs, r.1 = pre ++ cs ++ suf ∧ List.Forall₂ (FieldCopyIn n r.2) rest cs := by
  induction rest with
  | nil =>
    intro pre suf n r h
    rw [copyStructLoop_nil] at h; cases h
    exact ⟨[], by simp [zeroFields], List.Forall₂.nil⟩
  | cons fx rest ih =>
    intro pre suf n r h
    obtain ⟨f, fv⟩ := fx
    cases hc : (!fv.IsZero && f.CanInterface) with
    | false =>
      rw [copyStructLoop_skip f fv rest _ _ n hc] at h
      have h0 := ih (pre ++ [(f, zeroOf fv)]) suf n r
        (by simpa [zeroFields, List.append_assoc] using h)
      obtain ⟨cs, hcs, hall⟩ := h0
      refine ⟨(f, zeroOf fv) :: cs, by rw [hcs]; simp, ?_⟩
      refine List.Forall₂.cons ⟨rfl, ?_⟩ hall
      simp [hc]
    | true =>
      obtain ⟨c0, n1, hx, hrest⟩ := (copyStructLoop_copy_ok f fv rest _ _ n hc r).1 h
      generalize hs : assignTo fv c0 = c at hrest
      have hset : setField (pre ++ zeroFields ((f, fv) :: rest) ++ suf) pre.length c
          = (pre ++ [(f, c)]) ++ zeroFields rest ++ suf := by
        simp only [zeroFields, List.append_assoc, List.cons_append]
        rw [setField_append]; simp
      rw [hset] at hrest
      have h0 := ih (pre ++ [(f, c)]) suf n1 r (by simpa using hrest)
      obtain ⟨cs, hcs, hall⟩ := h0
      have h1 : n ≤ n1 := copyr_counter fv n c0 n1 hx
      have h3 : n1 ≤ r.2 :=
        copyStructLoop_counter rest (fun y _ => copyr_counter y.2) _ _ _ r hrest
      refine ⟨(f, c) :: cs, by rw [hcs]; simp, ?_⟩
      refine List.Forall₂.cons ⟨rfl, ?_⟩
        (hall.imp (fun a b hab => fieldCopyIn_mono hab h1 (Nat.le_refl _)))
      simp only [hc, if_true]
      exact ⟨n, n1, c0, Nat.le_refl _, h3, hx, hs.symm⟩

theorem split_at_getElem {α : Type} (l : List α) (i : Nat) (a : α) (h : l[i]? = some a) :
    ∃ l1 l2, l = l1 ++ a :: l2 ∧ l1.length = i ∧ l1 = l.take i := by
  induction l generalizing i with
  | nil => simp at h
  | cons b l ih =>
    cases i with
    | zero => simp at h; subst h; exact ⟨[], l, rfl, rfl, rfl⟩
    | succ i =>
      simp at h
      obtain ⟨l1, l2, h1, h2, h3⟩ := ih i h
      exact ⟨b :: l1, l2, by rw [h1]; simp, by simp [h2], by simp [← h3]⟩

/-- C4: when `copyStruct` returns, the result is a struct of the same type
with the same fields, and its field `i` is the zero value of the field's
type if the source field is zero (as `IsZero` tests it) or unexported, and
otherwise the value `copyr` returns for the source field at the allocator
counter the loop has reached after the fields before `i`.  The field holds
what `copyr` returned as a value of the type of the field, as `Set` stores
it: the returned value itself, unless the source field is a pointer that is
not nil, of a defined pointer type (`copyr` returns the copy of such a
pointer with the unnamed pointer type, and the field holds the same pointer
with the defined one).  Whether an earlier field is exported plays no
part. -/
theorem copyStruct_per_field (t : Ty) (fs : List (Field × Value)) (n : Nat) (c : Value)
    (n' : Nat) (h : copyStruct t fs n = .ok (c, n')) :
    ∃ cs, c = .struct t cs ∧ cs.length = fs.length ∧
      ∀ (i : Nat) (f : Field) (x : Value), fs[i]? = some (f, x) →
        ∃ y, cs[i]? = some (f, y)
          ∧ ((x.IsZero = true ∨ f.exported = false) → y = zeroOf x ∧ y.IsZero = true)
          ∧ ((x.IsZero = false ∧ f.exported = true) →
              ∃ oc m y0 m', copyStructLoop (fs.take i) 0 (zeroFields fs) (n + 1) = .ok (oc, m)
                ∧ copyr x m = .ok (y0, m') ∧ y = assignTo x y0
                ∧ (plainPtr x = true → y = y0)) := by
  obtain ⟨cs, hloop, hc⟩ := (copyStruct_ok t fs n (c, n')).1 h
  simp only at hloop hc
  obtain ⟨cs0, hcs0, hall0⟩ := copyStruct_spec t fs n (c, n') h
  simp only at hcs0
  have hcc : cs0 = cs := by rw [hc] at hcs0; cases hcs0; rfl
  subst hcc
  refine ⟨cs0, hc, hall0.length_eq.symm, ?_⟩
  intro i f x hi
  obtain ⟨l1, l2, hfs, hlen, htake⟩ := split_at_getElem fs i (f, x) hi
  have hloop2 : copyStructLoop (l1 ++ (f, x) :: l2) 0 (zeroFields (l1 ++ (f, x) :: l2))
      (n + 1) = .ok (cs0, n') := by rw [← hfs]; exact hloop
  obtain ⟨oc1, m, h1, h2⟩ := copyStructLoop_append _ _ _ _ _ _ hloop2
  have hprefix : copyStructLoop (fs.take i) 0 (zeroFields fs) (n + 1) = .ok (oc1, m) := by
    rw [← htake]; rw [← hfs] at h1; exact h1
  rw [zeroFields_append] at h1
  -- the fields before `i`
  have hf1 := copyStructLoop_frame l1 [] (zeroFields ((f, x) :: l2))
    (n + 1) (oc1, m) (by simpa using h1)
  obtain ⟨cs1, hcs1, hall1⟩ := hf1
  simp only [List.nil_append] at hcs1
  have hlen1 : cs1.length = i := by rw [← hall1.length_eq]; exact hlen
  -- field `i` and the fields after it
  rw [hcs1] at h2
  have h2' : copyStructLoop ((f, x) :: l2) cs1.length
      (cs1 ++ zeroFields ((f, x) :: l2) ++ []) m = .ok (cs0, n') := by
    simpa [hlen, hlen1] using h2
  cases hcopy : (!x.IsZero && f.CanInterface) with
  | false =>
    rw [copyStructLoop_skip f x _ _ _ m hcopy] at h2'
    have hf2 := copyStructLoop_frame (l2) (cs1 ++ [(f, zeroOf x)]) [] m (cs0, n')
      (by simpa [zeroFields, List.append_assoc] using h2')
    obtain ⟨cs2, hcs2, _⟩ := hf2
    simp only [List.append_nil] at hcs2
    refine ⟨zeroOf x, ?_, fun _ => ⟨rfl, IsZero_zeroOf x⟩, ?_⟩
    · rw [hcs2, List.append_assoc, List.getElem?_append_right (by omega)]
      simp [hlen1]
    · rintro ⟨hz, he⟩
      simp [Field.CanInterface, hz, he] at hcopy
  | true =>
    obtain ⟨y0, m', hy, hrest⟩ := (copyStructLoop_copy_ok f x _ _ _ m hcopy (cs0, n')).1 h2'
    generalize hs : assignTo x y0 = y at hrest
    have hset : setField (cs1 ++ zeroFields ((f, x) :: l2) ++ []) cs1.length y
        = (cs1 ++ [(f, y)]) ++ zeroFields (l2) ++ [] := by
      simp only [zeroFields, List.append_assoc, List.cons_append, List.append_nil]
      rw [setField_append]; simp
    rw [hset] at hrest
    have hf2 := copyStructLoop_frame (l2) (cs1 ++ [(f, y)]) [] m' (cs0, n')
      (by simpa using hrest)
    obtain ⟨cs2, hcs2, _⟩ := hf2
    simp only [List.append_nil] at hcs2
    refine ⟨y, ?_, ?_, fun _ => ⟨oc1, m, y0, m', hprefix, hy, hs.symm,
      fun hp => by rw [← hs, assignTo_of_plainPtr x m y0 m' hy hp]⟩⟩
    · rw [hcs2, List.append_assoc, List.getElem?_append_right (by omega)]
      simp [hlen1]
    · intro hor
      simp only [Field.CanInterface, Bool.and_eq_true, Bool.not_eq_true'] at hcopy
      rcases hor with hz | he
      · rw [hcopy.1] at hz; cases hz
      · rw [hcopy.2] at he; cases he

theorem copyStruct_per_field_witness :
    copyStruct tP fieldsP 0 = .ok (.struct tP copiedFieldsP, 1)
    ∧ ∃ cs, Value.struct tP copiedFieldsP = .struct tP cs ∧ cs.length = fieldsP.length ∧
      ∀ (i : Nat) (f : Field) (x : Value), fieldsP[i]? = some (f, x) →
        ∃ y, cs[i]? = some (f, y)
          ∧ ((x.IsZero = true ∨ f.exported = false) → y = zeroOf x ∧ y.IsZero = true)
          ∧ ((x.IsZero = false ∧ f.exported = true) →
              ∃ oc m y0 m', copyStructLoop (fieldsP.take i) 0 (zeroFields fieldsP) (0 + 1)
                  = .ok (oc, m)
                ∧ copyr x m = .ok (y0, m') ∧ y = assignTo x y0
                ∧ (plainPtr x = true → y = y0)) :=
  ⟨rfl, copyStruct_per_field tP fieldsP 0 (.struct tP copiedFieldsP) 1 rfl⟩

/-! ## Unexported fields of the copy -/

theorem unexportedZeroElems_iff (xs : List Value) :
    unexportedZeroElems xs = true ↔ ∀ x ∈ xs, unexportedZero x = true := by
  induction xs with
  | nil => simp [unexportedZeroElems]
  | cons x xs ih => simp [unexportedZeroElems, ih]

theorem unexportedZeroEntries_iff (es : List (Value × Value)) :
    unexportedZeroEntries es = true
      ↔ ∀ kv ∈ es, unexportedZero kv.1 = true ∧ unexportedZero kv.2 = true := by
  induction es with
  | nil => simp [unexportedZeroEntries]
  | cons x xs ih => obtain ⟨k, v⟩ := x; simp [unexportedZeroEntries, ih, and_assoc]

theorem unexportedZeroFields_iff (fs : List (Field × Value)) :
    unexportedZeroFields fs = true
      ↔ ∀ fx ∈ fs, (fx.1.exported = true ∨ fx.2.IsZero = true) ∧ unexportedZero fx.2 = true := by
  induction fs with
  | nil => simp [unexportedZeroFields]
  | cons x xs ih => obtain ⟨f, x⟩ := x; simp [unexportedZeroFields, ih, and_assoc]

/-- A zero value has no unexported field that is not zero. -/
theorem unexportedZero_of_IsZero (v : Value) : v.IsZero = true → unexportedZero v = true := by
  induction v using Value.induct with
  | ptr t a x _ => intro h; simp [Value.IsZero] at h
  | iface t x _ => intro h; simp [Value.IsZero] at h
  | slice t a cap xs _ => intro h; simp [Value.IsZero] at h
  | map t a es _ => intro h; simp [Value.IsZero] at h
  | array t xs ih =>
    intro h
    simp only [Value.IsZero, allZero_iff] at h
    simp only [unexportedZero, Bool.or_eq_true, unexportedZeroElems_iff]
    exact Or.inr (fun x hx => ih x hx (h x hx))
  | struct t fs ih =>
    intro h
    simp only [Value.IsZero, allFieldsZero_iff] at h
    simp only [unexportedZero, Bool.or_eq_true, unexportedZeroFields_iff]
    exact Or.inr (fun x hx => ⟨Or.inr (h x hx), ih x hx (h x hx)⟩)
  | _ => intro _; simp [unexportedZero]

theorem setMapIndex_mem (oc : List (Value × Value)) (k v : Value) (kv : Value × Value)
    (h : kv ∈ setMapIndex oc k v) :
    (kv.1 ∈ oc.map Prod.fst ∨ kv.1 = k) ∧ (kv.2 ∈ oc.map Prod.snd ∨ kv.2 = v) := by
  induction oc with
  | nil => simp [setMapIndex] at h; subst h; simp
  | cons e oc ih =>
    obtain ⟨k0, v0⟩ := e
    simp only [setMapIndex] at h
    split at h
    · rcases List.mem_cons.1 h with rfl | h
      · constructor
        · by_cases hu : needKeyUpdate k = true
          · exact Or.inr (by simp [hu])
          · exact Or.inl (by simp [hu])
        · exact Or.inr rfl
      · constructor
        · exact Or.inl (List.mem_map.2 ⟨kv, List.mem_cons_of_mem _ h, rfl⟩)
        · exact Or.inl (List.mem_map.2 ⟨kv, List.mem_cons_of_mem _ h, rfl⟩)
    · rcases List.mem_cons.1 h with rfl | h
      · simp
      · obtain ⟨h1, h2⟩ := ih h
        constructor
        · rcases h1 with h1 | h1
          · exact Or.inl (by simp only [List.map_cons]; exact List.mem_cons_of_mem _ h1)
          · exact Or.inr h1
        · rcases h2 with h2 | h2
          · exact Or.inl (by simp only [List.map_cons]; exact List.mem_cons_of_mem _ h2)
          · exact Or.inr h2

/-- Every key of the map the loop of `copyMap` builds is a key it started
with or the copy of a source key, and every value is a value it started with
or the copy of a source value. -/
theorem copyMapLoop_mem (rest : List (Value × Value)) :
    ∀ oc n r, copyMapLoop rest oc n = .ok r → ∀ kv ∈ r.1,
      (kv.1 ∈ oc.map Prod.fst ∨ ∃ e ∈ rest, CopyIn n r.2 e.1 kv.1)
      ∧ (kv.2 ∈ oc.map Prod.snd ∨ ∃ e ∈ rest, CopyIn n r.2 e.2 kv.2) := by
  induction rest with
  | nil =>
    intro oc n r h kv hkv
    rw [copyMapLoop_nil] at h; cases h
    exact ⟨Or.inl (List.mem_map.2 ⟨kv, hkv, rfl⟩), Or.inl (List.mem_map.2 ⟨kv, hkv, rfl⟩)⟩
  | cons e rest ih =>
    intro oc n r h kv hkv
    obtain ⟨k, v⟩ := e
    obtain ⟨ck, n1, cv, n2, hk, hv, hrest⟩ := (copyMapLoop_cons_ok k v rest oc n r).1 h
    have h1 : n ≤ n1 := copyr_counter k n ck n1 hk
    have h2 : n1 ≤ n2 := copyr_counter v n1 cv n2 hv
    have h3 : n2 ≤ r.2 := copyMapLoop_counter rest
      (fun y _ => ⟨copyr_counter y.1, copyr_counter y.2⟩) _ _ r hrest
    obtain ⟨hkey, hval⟩ := ih _ _ r hrest kv hkv
    constructor
    · rcases hkey with hkey | ⟨e, he, hc⟩
      · obtain ⟨x, hx, hxe⟩ := List.mem_map.1 hkey
        rcases (setMapIndex_mem oc _ _ x hx).1 with h4 | h4
        · exact Or.inl (hxe ▸ h4)
        · exact Or.inr ⟨(k, v), List.mem_cons_self _ _, n, n1, ck, Nat.le_refl _, by omega, hk,
            by rw [← hxe, h4]⟩
      · exact Or.inr ⟨e, List.mem_cons_of_mem _ he, copyIn_mono hc (by omega) (Nat.le_refl _)⟩
    · rcases hval with hval | ⟨e, he, hc⟩
      · obtain ⟨x, hx, hxe⟩ := List.mem_map.1 hval
        rcases (setMapIndex_mem oc _ _ x hx).2 with h4 | h4
        · exact Or.inl (hxe ▸ h4)
        · exact Or.inr ⟨(k, v), List.mem_cons_self _ _, n1, n2, cv, h1, h3, hv,
            by rw [← hxe, h4]⟩
      · exact Or.inr ⟨e, List.mem_cons_of_mem _ he, copyIn_mono hc (by omega) (Nat.le_refl _)⟩

theorem unexportedZero_stored (x : Value) (n : Nat) (c : Value) (n' : Nat)
    (h : copyr x n = .ok (c, n')) (hc : unexportedZero c = true) :
    unexportedZero (assignTo x c) = true :=
  assignTo_copyr_of (fun v => unexportedZero v = true) h
    (fun t e a y ht hp => by simpa [unexportedZero, ht, isTime_ptrTo] using hp) hc

/-- In every value `copyr` returns, every unexported struct field outside the
values of type `time.Time` is zero. -/
theorem copyr_unexportedZero (v : Value) :
    ∀ n c n', copyr v n = .ok (c, n') → unexportedZero c = true := by
  induction v using Value.induct with
  | invalid => intro n c n' h; rw [copyr_invalid] at h; cases h
  | basic k t d =>
    intro n c n' h; rw [copyr_basic] at h
    split at h
    · cases h; rfl
    · split at h
      · cases h
      · cases h; rfl
  | func t c => intro n c n' h; rw [copyr_func] at h; cases h; rfl
  | chan t c => intro n c n' h; rw [copyr_chan] at h; cases h; rfl
  | ptrNil t =>
    intro n c n' h; rw [copyr_ptr, copyPointer_nil] at h
    split at h <;> cases h <;> rfl
  | ptr t a x ih =>
    intro n c n' h; rw [copyr_ptr] at h
    split at h
    · rename_i ht; cases h; simp [unexportedZero, ht]
    · obtain ⟨cx, hx, hc⟩ := (copyPointer_ok t a x n (c, n')).1 h
      simp only at hc hx; subst hc
      simp [unexportedZero, unexportedZero_stored _ _ _ _ hx (ih _ _ _ hx)]
  | ifaceNil t =>
    intro n c n' h; rw [copyr_iface, copyInterface_nil] at h
    split at h <;> cases h <;> rfl
  | iface t x ih =>
    intro n c n' h; rw [copyr_iface] at h
    split at h
    · rename_i ht; cases h; simp [unexportedZero, ht]
    · obtain ⟨cx, hx, hc⟩ := (copyInterface_ok t x n (c, n')).1 h
      simp only at hc; subst hc
      simp [unexportedZero, ih _ _ _ hx]
  | sliceNil t =>
    intro n c n' h; rw [copyr_slice, copySlice_nil] at h
    split at h <;> cases h <;> rfl
  | slice t a cap xs ih =>
    intro n c n' h; rw [copyr_slice] at h
    split at h
    · rename_i ht; cases h; simp [unexportedZero, ht]
    · obtain ⟨a2, cap2, cs, hc, hall, _⟩ := copySlice_spec t a cap xs n (c, n') h
      simp only at hc; subst hc
      simp only [unexportedZero, Bool.or_eq_true, unexportedZeroElems_iff]
      refine Or.inr (fun y hy => ?_)
      obtain ⟨x, hx, m, m', c0, _, _, hm, rfl⟩ := forall2_mem_right hall y hy
      exact unexportedZero_stored _ _ _ _ hm (ih x hx _ _ _ hm)
  | array t xs ih =>
    intro n c n' h; rw [copyr_array] at h
    split at h
    · rename_i ht; cases h; simp [unexportedZero, ht]
    · obtain ⟨cs, hc, hall⟩ := copyArray_spec t xs n (c, n') h
      simp only at hc; subst hc
      simp only [unexportedZero, Bool.or_eq_true, unexportedZeroElems_iff]
      refine Or.inr (fun y hy => ?_)
      obtain ⟨x, hx, m, m', c0, _, _, hm, rfl⟩ := forall2_mem_right hall y hy
      exact unexportedZero_stored _ _ _ _ hm (ih x hx _ _ _ hm)
  | mapNil t =>
    intro n c n' h; rw [copyr_map, copyMap_nil] at h
    split at h <;> cases h <;> rfl
  | map t a es ih =>
    intro n c n' h; rw [copyr_map] at h
    split at h
    · rename_i ht; cases h; simp [unexportedZero, ht]
    · obtain ⟨oc, hoc, hc⟩ := (copyMap_ok t a es n (c, n')).1 h
      simp only at hc; subst hc
      simp only [unexportedZero, Bool.or_eq_true, unexportedZeroEntries_iff]
      refine Or.inr (fun kv hkv => ?_)
      obtain ⟨hk, hv⟩ := copyMapLoop_mem es _ _ _ hoc kv hkv
      constructor
      · rcases hk with hk | ⟨e, he, m, m', c0, _, _, hm, hs⟩
        · simp at hk
        · rw [hs]; exact unexportedZero_stored _ _ _ _ hm ((ih e he).1 _ _ _ hm)
      · rcases hv with hv | ⟨e, he, m, m', c0, _, _, hm, hs⟩
        · simp at hv
        · rw [hs]; exact unexportedZero_stored _ _ _ _ hm ((ih e he).2 _ _ _ hm)
  | struct t fs ih =>
    intro n c n' h; rw [copyr_struct] at h
    split at h
    · rename_i ht; cases h; simp [unexportedZero, ht]
    · obtain ⟨cs, hc, hall⟩ := copyStruct_spec t fs n (c, n') h
      simp only at hc; subst hc
      simp only [unexportedZero, Bool.or_eq_true, unexportedZeroFields_iff]
      refine Or.inr (fun fc hfc => ?_)
      obtain ⟨fx, hfx, hf, hr⟩ := forall2_mem_right hall fc hfc
      split at hr
      · rename_i hcond
        obtain ⟨m, m', c0, _, _, hm, hs⟩ := hr
        simp only [Field.CanInterface, Bool.and_eq_true] at hcond
        exact ⟨Or.inl (hf ▸ hcond.2),
          by rw [hs]; exact unexportedZero_stored _ _ _ _ hm (ih fx hfx _ _ _ hm)⟩
      · rw [hr]
        exact ⟨Or.inr (IsZero_zeroOf _), unexportedZero_of_IsZero _ (IsZero_zeroOf _)⟩

/-- C3: when `Copy` returns, the value it returns is the `Interface()` of a
value in which every unexported struct field, at any depth and outside the
values of type `time.Time`, holds the zero value of its type, whatever the
source field held. -/
theorem Copy_unexported_fields_zero (o : Option Value) (n : Nat) (r : Option Value)
    (e : Option String) (n' : Nat) (h : Copy o n = .ok ((r, e), n')) :
    ∃ c, copyr (ValueOf o) n = .ok (c, n') ∧ valueInterface c = .ok r
      ∧ (c.Kind ≠ .interface → r = some c) ∧ unexportedZero c = true := by
  unfold Copy at h
  cases hc : copyr (ValueOf o) n with
  | error p => rw [hc] at h; cases h
  | ok q =>
    rw [hc] at h
    obtain ⟨c, n1⟩ := q
    simp only at h
    have hz := copyr_unexportedZero _ _ _ _ hc
    cases hi : valueInterface c with
    | error p => rw [hi] at h; cases h
    | ok x =>
      rw [hi] at h
      simp only [Except.ok.injEq, Prod.mk.injEq] at h
      obtain ⟨⟨rfl, _⟩, rfl⟩ := h
      refine ⟨c, rfl, hi, ?_, hz⟩
      intro hk
      cases c <;> simp_all [valueInterface, Value.Kind]

theorem Copy_unexported_fields_zero_witness :
    ∃ c, copyr (ValueOf (some (.struct tP fieldsP))) 0 = .ok (c, 1)
      ∧ valueInterface c = .ok (some (.struct tP copiedFieldsP))
      ∧ (c.Kind ≠ .interface → some (Value.struct tP copiedFieldsP) = some c)
      ∧ unexportedZero c = true :=
  Copy_unexported_fields_zero (some (.struct tP fieldsP)) 0
    (some (.struct tP copiedFieldsP)) none 1 rfl

/-! ## The copy shares no storage with the source -/

theorem mem_storageElems (xs : List Value) (a : Nat) :
    a ∈ storageElems xs ↔ ∃ x ∈ xs, a ∈ storage x := by
  induction xs with
  | nil => simp [storageElems]
  | cons x xs ih => simp [storageElems, ih]

theorem mem_storageEntries (es : List (Value × Value)) (a : Nat) :
    a ∈ storageEntries es ↔ ∃ kv ∈ es, a ∈ storage kv.1 ∨ a ∈ storage kv.2 := by
  induction es with
  | nil => simp [storageEntries]
  | cons x xs ih => obtain ⟨k, v⟩ := x; simp [storageEntries, ih, or_assoc]

theorem mem_storageFields (fs : List (Field × Value)) (a : Nat) :
    a ∈ storageFields fs ↔ ∃ fx ∈ fs, a ∈ storage fx.2 := by
  induction fs with
  | nil => simp [storageFields]
  | cons x xs ih => obtain ⟨f, x⟩ := x; simp [storageFields, ih]

/-- A zero value reaches no storage. -/
theorem storage_of_IsZero (v : Value) : v.IsZero = true → storage v = [] := by
  induction v using Value.induct with
  | ptr t a x _ => intro h; simp [Value.IsZero] at h
  | iface t x _ => intro h; simp [Value.IsZero] at h
  | slice t a cap xs _ => intro h; simp [Value.IsZero] at h
  | map t a es _ => intro h; simp [Value.IsZero] at h
  | array t xs ih =>
    intro h
    simp only [Value.IsZero, allZero_iff] at h
    simp only [storage]
    split
    · rfl
    · apply List.eq_nil_iff_forall_not_mem.2
      intro a ha
      obtain ⟨x, hx, hax⟩ := (mem_storageElems xs a).1 ha
      rw [ih x hx (h x hx)] at hax; cases hax
  | struct t fs ih =>
    intro h
    simp only [Value.IsZero, allFieldsZero_iff] at h
    simp only [storage]
    split
    · rfl
    · apply List.eq_nil_iff_forall_not_mem.2
      intro a ha
      obtain ⟨x, hx, hax⟩ := (mem_storageFields fs a).1 ha
      rw [ih x hx (h x hx)] at hax; cases hax
  | _ => intro _; simp [storage]

/-- The conversion to the type of the slot leaves the storage of a copy as it
is. -/
theorem storage_stored (x : Value) (n : Nat) (c : Value) (n' : Nat)
    (h : copyr x n = .ok (c, n')) : storage (assignTo x c) = storage c := by
  rcases assignTo_copyr x n c n' h with h1 | ⟨t, a, y, cy, _, ht, _, hcq, hasg⟩
  · rw [h1]
  · rw [hasg, hcq]; simp [storage, ht, isTime_ptrTo]

/-- All the storage of a copy was allocated during the copy. -/
theorem copyr_storage_fresh (v : Value) :
    ∀ n c n', copyr v n = .ok (c, n') → ∀ a ∈ storage c, n ≤ a ∧ a < n' := by
  induction v using Value.induct with
  | invalid => intro n c n' h; rw [copyr_invalid] at h; cases h
  | basic k t d =>
    intro n c n' h; rw [copyr_basic] at h
    split at h
    · cases h; simp [storage]
    · split at h
      · cases h
      · cases h; simp [storage]
  | func t c => intro n c n' h; rw [copyr_func] at h; cases h; simp [storage]
  | chan t c => intro n c n' h; rw [copyr_chan] at h; cases h; simp [storage]
  | ptrNil t =>
    intro n c n' h; rw [copyr_ptr, copyPointer_nil] at h
    split at h <;> cases h <;> simp [storage]
  | ptr t a x ih =>
    intro n c n' h; rw [copyr_ptr] at h
    split at h
    · rename_i ht; cases h; simp [storage, ht]
    · obtain ⟨cx, hx, hc⟩ := (copyPointer_ok t a x n (c, n')).1 h
      simp only at hc hx; subst hc
      have hcnt := copyr_counter x _ _ _ hx
      intro b hb
      simp only [storage] at hb
      split at hb
      · cases hb
      · rcases List.mem_cons.1 hb with rfl | hb
        · omega
        · rw [storage_stored x _ cx _ hx] at hb
          have := ih _ _ _ hx b hb; omega
  | ifaceNil t =>
    intro n c n' h; rw [copyr_iface, copyInterface_nil] at h
    split at h <;> cases h <;> simp [storage]
  | iface t x ih =>
    intro n c n' h; rw [copyr_iface] at h
    split at h
    · rename_i ht; cases h; simp [storage, ht]
    · obtain ⟨cx, hx, hc⟩ := (copyInterface_ok t x n (c, n')).1 h
      simp only at hc hx; subst hc
      intro b hb
      simp only [storage] at hb
      split at hb
      · cases hb
      · have := ih _ _ _ hx b hb; omega
  | sliceNil t =>
    intro n c n' h; rw [copyr_slice, copySlice_nil] at h
    split at h <;> cases h <;> simp [storage]
  | slice t a cap xs ih =>
    intro n c n' h; rw [copyr_slice] at h
    split at h
    · rename_i ht; cases h; simp [storage, ht]
    · obtain ⟨a2, cap2, cs, hc, hall, hlo, hhi, _⟩ := copySlice_spec t a cap xs n (c, n') h
      simp only at hc hall hhi; subst hc
      intro b hb
      simp only [storage] at hb
      split at hb
      · cases hb
      · rcases List.mem_cons.1 hb with rfl | hb
        · omega
        · obtain ⟨y, hy, hby⟩ := (mem_storageElems cs b).1 hb
          obtain ⟨x, hx, m, m', c0, h1, h2, hm, hs⟩ := forall2_mem_right hall y hy
          rw [hs, storage_stored _ _ _ _ hm] at hby
          have := ih x hx _ _ _ hm b hby; omega
  | array t xs ih =>
    intro n c n' h; rw [copyr_array] at h
    split at h
    · rename_i ht; cases h; simp [storage, ht]
    · obtain ⟨cs, hc, hall⟩ := copyArray_spec t xs n (c, n') h
      simp only at hc hall; subst hc
      intro b hb
      simp only [storage] at hb
      split at hb
      · cases hb
      · obtain ⟨y, hy, hby⟩ := (mem_storageElems cs b).1 hb
        obtain ⟨x, hx, m, m', c0, h1, h2, hm, hs⟩ := forall2_mem_right hall y hy
        rw [hs, storage_stored _ _ _ _ hm] at hby
        have := ih x hx _ _ _ hm b hby; omega
  | mapNil t =>
    intro n c n' h; rw [copyr_map, copyMap_nil] at h
    split at h <;> cases h <;> simp [storage]
  | map t a es ih =>
    intro n c n' h; rw [copyr_map] at h
    split at h
    · rename_i ht; cases h; simp [storage, ht]
    · obtain ⟨oc, hoc, hc⟩ := (copyMap_ok t a es n (c, n')).1 h
      simp only at hc hoc; subst hc
      have hcnt := copyMapLoop_counter es
        (fun y _ => ⟨copyr_counter y.1, copyr_counter y.2⟩) _ _ _ hoc
      simp only at hcnt
      intro b hb
      simp only [storage] at hb
      split at hb
      · cases hb
      · rcases List.mem_cons.1 hb with rfl | hb
        · omega
        · obtain ⟨kv, hkv, hbkv⟩ := (mem_storageEntries oc b).1 hb
          obtain ⟨hk, hv⟩ := copyMapLoop_mem es _ _ _ hoc kv hkv
          rcases hbkv with hbk | hbv
          · rcases hk with hk | ⟨e, he, m, m', c0, h1, h2, hm, hs⟩
            · simp at hk
            · rw [hs, storage_stored _ _ _ _ hm] at hbk
              have := (ih e he).1 _ _ _ hm b hbk
              simp only at h2; omega
          · rcases hv with hv | ⟨e, he, m, m', c0, h1, h2, hm, hs⟩
            · simp at hv
            · rw [hs, storage_stored _ _ _ _ hm] at hbv
              have := (ih e he).2 _ _ _ hm b hbv
              simp only at h2; omega
  | struct t fs ih =>
    intro n c n' h; rw [copyr_struct] at h
    split at h
    · rename_i ht; cases h; simp [storage, ht]
    · obtain ⟨cs, hc, hall⟩ := copyStruct_spec t fs n (c, n') h
      simp only at hc hall; subst hc
      intro b hb
      simp only [storage] at hb
      split at hb
      · cases hb
      · obtain ⟨fc, hfc, hbfc⟩ := (mem_storageFields cs b).1 hb
        obtain ⟨fx, hfx, hf, hr⟩ := forall2_mem_right hall fc hfc
        split at hr
        · obtain ⟨m, m', c0, h1, h2, hm, hs⟩ := hr
          rw [hs, storage_stored _ _ _ _ hm] at hbfc
          have := ih fx hfx _ _ _ hm b hbfc; omega
        · rw [hr, storage_of_IsZero _ (IsZero_zeroOf _)] at hbfc; cases hbfc

theorem afterWriteElems_eq_map (w : Write) (xs : List Value) :
    afterWriteElems w xs = xs.map (afterWrite w) := by
  induction xs with
  | nil => simp [afterWriteElems]
  | cons x xs ih => simp [afterWriteElems, ih]

theorem afterWriteEntries_eq_map (w : Write) (es : List (Value × Value)) :
    afterWriteEntries w es = es.map (fun kv => (afterWrite w kv.1, afterWrite w kv.2)) := by
  induction es with
  | nil => simp [afterWriteEntries]
  | cons x xs ih => obtain ⟨k, v⟩ := x; simp [afterWriteEntries, ih]

theorem afterWriteFields_eq_map (w : Write) (fs : List (Field × Value)) :
    afterWriteFields w fs = fs.map (fun fx => (fx.1, afterWrite w fx.2)) := by
  induction fs with
  | nil => simp [afterWriteFields]
  | cons x xs ih => obtain ⟨f, x⟩ := x; simp [afterWriteFields, ih]

theorem map_eq_self {α : Type} (f : α → α) (l : List α) (h : ∀ x ∈ l, f x = x) :
    l.map f = l := by
  induction l with
  | nil => rfl
  | cons x xs ih =>
    simp only [List.map_cons]
    rw [h x (List.mem_cons_self _ _), ih (fun y hy => h y (List.mem_cons_of_mem _ hy))]

/-- A write to storage a value does not reach leaves the value as it was. -/
theorem afterWrite_of_not_mem (w : Write) (v : Value) :
    w.addr ∉ storage v → afterWrite w v = v := by
  induction v using Value.induct with
  | ptr t a x ih =>
    intro h
    simp only [storage] at h
    simp only [afterWrite]
    split
    · rfl
    · rename_i ht
      rw [if_neg ht] at h; simp only [List.mem_cons, not_or] at h
      rw [if_neg (fun e => h.1 e.symm), ih h.2]
  | iface t x ih =>
    intro h
    simp only [storage] at h
    simp only [afterWrite]
    split
    · rfl
    · rename_i ht
      rw [if_neg ht] at h
      rw [ih h]
  | slice t a cap xs ih =>
    intro h
    simp only [storage] at h
    simp only [afterWrite]
    split
    · rfl
    · rename_i ht
      rw [if_neg ht] at h; simp only [List.mem_cons, not_or, mem_storageElems] at h
      rw [if_neg (fun e => h.1 e.symm), afterWriteElems_eq_map,
        map_eq_self _ _ (fun x hx => ih x hx (fun hm => h.2 ⟨x, hx, hm⟩))]
  | array t xs ih =>
    intro h
    simp only [storage] at h
    simp only [afterWrite]
    split
    · rfl
    · rename_i ht
      rw [if_neg ht] at h; simp only [mem_storageElems] at h
      rw [afterWriteElems_eq_map,
        map_eq_self _ _ (fun x hx => ih x hx (fun hm => h ⟨x, hx, hm⟩))]
  | map t a es ih =>
    intro h
    simp only [storage] at h
    simp only [afterWrite]
    split
    · rfl
    · rename_i ht
      rw [if_neg ht] at h; simp only [List.mem_cons, not_or, mem_storageEntries] at h
      rw [if_neg (fun e => h.1 e.symm), afterWriteEntries_eq_map,
        map_eq_self _ _ (fun kv hkv => by
          rw [(ih kv hkv).1 (fun hm => h.2 ⟨kv, hkv, Or.inl hm⟩),
            (ih kv hkv).2 (fun hm => h.2 ⟨kv, hkv, Or.inr hm⟩)])]
  | struct t fs ih =>
    intro h
    simp only [storage] at h
    simp only [afterWrite]
    split
    · rfl
    · rename_i ht
      rw [if_neg ht] at h; simp only [mem_storageFields] at h
      rw [afterWriteFields_eq_map,
        map_eq_self _ _ (fun fx hfx => by
          rw [ih fx hfx (fun hm => h ⟨fx, hfx, hm⟩)])]
  | _ => intro _; simp [afterWrite]

/-- C2: when `copyr` returns, all the storage the copy reaches (pointer
cells, backing arrays, map headers; function and channel handles and what
lies inside a `time.Time` apart) was allocated by the call.  So, the storage
of the source having been allocated before the call, the copy and the source
reach no common storage: a write to storage of the copy leaves the source as
it was, and a write to storage of the source leaves the copy as it was. -/
theorem copyr_independent (v : Value) (n : Nat) (c : Value) (n' : Nat)
    (h : copyr v n = .ok (c, n')) (hfresh : ∀ a ∈ storage v, a < n) :
    (∀ a ∈ storage c, n ≤ a ∧ a < n' ∧ a ∉ storage v)
    ∧ (∀ w : Write, w.addr ∈ storage c → afterWrite w v = v)
    ∧ (∀ w : Write, w.addr ∈ storage v → afterWrite w c = c) := by
  have hc := copyr_storage_fresh v n c n' h
  refine ⟨fun a ha => ⟨(hc a ha).1, (hc a ha).2, fun hv => ?_⟩, fun w hw => ?_, fun w hw => ?_⟩
  · have := hfresh a hv; have := (hc a ha).1; omega
  · exact afterWrite_of_not_mem w v (fun hv => by
      have := hfresh _ hv; have := (hc _ hw).1; omega)
  · exact afterWrite_of_not_mem w c (fun hv => by
      have := hfresh _ hw; have := (hc _ hv).1; omega)

theorem copyr_independent_witness :
    copyr vChain 2 = .ok (vChainCopy, 5) ∧ (∀ a ∈ storage vChain, a < 2)
    ∧ (∀ a ∈ storage vChainCopy, 2 ≤ a ∧ a < 5 ∧ a ∉ storage vChain)
    ∧ (∀ w : Write, w.addr ∈ storage vChainCopy → afterWrite w vChain = vChain)
    ∧ (∀ w : Write, w.addr ∈ storage vChain → afterWrite w vChainCopy = vChainCopy) :=
  ⟨rfl, by decide, copyr_independent vChain 2 vChainCopy 5 rfl (by decide)⟩

/-! ## Kind and type of the copy -/

/-- The copy has the kind of the source, and, stored in a slot of the type of
the source, its type. -/
theorem copyr_kind_type (v : Value) (n : Nat) (c : Value) (n' : Nat)
    (h : copyr v n = .ok (c, n')) : c.Kind = v.Kind ∧ (assignTo v c).Type = v.Type := by
  cases v with
  | invalid => rw [copyr_invalid] at h; cases h
  | basic k t d =>
    rw [copyr_basic] at h
    split at h
    · cases h; exact ⟨rfl, rfl⟩
    · split at h
      · cases h
      · cases h; exact ⟨rfl, rfl⟩
  | func t c => rw [copyr_func] at h; cases h; exact ⟨rfl, rfl⟩
  | chan t c => rw [copyr_chan] at h; cases h; exact ⟨rfl, rfl⟩
  | ptr t p =>
    rw [copyr_ptr] at h
    split at h
    · cases h; exact ⟨rfl, rfl⟩
    · cases p with
      | none => rw [copyPointer_nil] at h; cases h; exact ⟨rfl, rfl⟩
      | some ax =>
        obtain ⟨cx, _, hc⟩ := (copyPointer_ok t ax.1 ax.2 n (c, n')).1 h
        simp only at hc; subst hc; exact ⟨rfl, rfl⟩
  | iface t e =>
    rw [copyr_iface] at h
    split at h
    · cases h; exact ⟨rfl, rfl⟩
    · cases e with
      | none => rw [copyInterface_nil] at h; cases h; exact ⟨rfl, rfl⟩
      | some x =>
        obtain ⟨cx, _, hc⟩ := (copyInterface_ok t x n (c, n')).1 h
        simp only at hc; subst hc; exact ⟨rfl, rfl⟩
  | slice t s =>
    rw [copyr_slice] at h
    split at h
    · cases h; exact ⟨rfl, rfl⟩
    · cases s with
      | none => rw [copySlice_nil] at h; cases h; exact ⟨rfl, rfl⟩
      | some s =>
        obtain ⟨oc, _, hc⟩ := (copySlice_ok t s.1 s.2.1 s.2.2 n (c, n')).1 h
        simp only at hc; subst hc; exact ⟨rfl, rfl⟩
  | array t xs =>
    rw [copyr_array] at h
    split at h
    · cases h; exact ⟨rfl, rfl⟩
    · obtain ⟨oc, _, hc⟩ := (copyArray_ok t xs n (c, n')).1 h
      simp only at hc; subst hc; exact ⟨rfl, rfl⟩
  | map t m =>
    rw [copyr_map] at h
    split at h
    · cases h; exact ⟨rfl, rfl⟩
    · cases m with
      | none => rw [copyMap_nil] at h; cases h; exact ⟨rfl, rfl⟩
      | some m =>
        obtain ⟨oc, _, hc⟩ := (copyMap_ok t m.1 m.2 n (c, n')).1 h
        simp only at hc; subst hc; exact ⟨rfl, rfl⟩
  | struct t fs =>
    rw [copyr_struct] at h
    split at h
    · cases h; exact ⟨rfl, rfl⟩
    · obtain ⟨oc, _, hc⟩ := (copyStruct_ok t fs n (c, n')).1 h
      simp only at hc; subst hc; exact ⟨rfl, rfl⟩

/-! ## The copy returns on supported values -/

theorem supportedElems_iff (xs : List Value) :
    supportedElems xs = true ↔ ∀ x ∈ xs, supported x = true := by
  induction xs with
  | nil => simp [supportedElems]
  | cons x xs ih => simp [supportedElems, ih]

theorem supportedEntries_iff (es : List (Value × Value)) :
    supportedEntries es = true ↔ ∀ kv ∈ es, supported kv.1 = true ∧ supported kv.2 = true := by
  induction es with
  | nil => simp [supportedEntries]
  | cons x xs ih => obtain ⟨k, v⟩ := x; simp [supportedEntries, ih, and_assoc]

theorem supportedFields_iff (fs : List (Field × Value)) :
    supportedFields fs = true
      ↔ ∀ fx ∈ fs, (!fx.2.IsZero && fx.1.CanInterface) = true → supported fx.2 = true := by
  induction fs with
  | nil => simp [supportedFields]
  | cons x xs ih =>
    obtain ⟨f, x⟩ := x
    rw [supportedFields, Bool.and_eq_true, ih]
    constructor
    · rintro ⟨h1, h2⟩ fx hfx hc
      rcases List.mem_cons.1 hfx with rfl | hfx
      · simp only at hc ⊢
        rw [hc] at h1
        simpa using h1
      · exact h2 fx hfx hc
    · intro h
      refine ⟨?_, fun fx hfx hc => h fx (List.mem_cons_of_mem _ hfx) hc⟩
      cases hc : (!x.IsZero && f.CanInterface) with
      | false => rfl
      | true =>
        have := h (f, x) (List.mem_cons_self _ _) hc
        simp only at this
        simp [this]

theorem copySliceLoop_returns (rest : List Value)
    (ih : ∀ x ∈ rest, ∀ n, ∃ c n', copyr x n = .ok (c, n')) :
    ∀ oc n, ∃ r, copySliceLoop rest oc n = .ok r := by
  induction rest with
  | nil => intro oc n; exact ⟨_, copySliceLoop_nil oc n⟩
  | cons x rest ihr =>
    intro oc n
    obtain ⟨c, n1, hx⟩ := ih x (List.mem_cons_self _ _) n
    obtain ⟨r, hr⟩ := ihr (fun y hy => ih y (List.mem_cons_of_mem _ hy))
      (Append oc (assignTo x c) n1).1 (Append oc (assignTo x c) n1).2
    exact ⟨r, (copySliceLoop_cons_ok x rest oc n r).2 ⟨c, n1, hx, hr⟩⟩

theorem copyArrayLoop_returns (rest : List Value)
    (ih : ∀ x ∈ rest, ∀ n, ∃ c n', copyr x n = .ok (c, n')) :
    ∀ array view n, ∃ r, copyArrayLoop rest array view n = .ok r := by
  induction rest with
  | nil => intro array view n; exact ⟨_, copyArrayLoop_nil array view n⟩
  | cons x rest ihr =>
    intro array view n
    obtain ⟨c, n1, hx⟩ := ih x (List.mem_cons_self _ _) n
    obtain ⟨r, hr⟩ := ihr (fun y hy => ih y (List.mem_cons_of_mem _ hy))
      (appendView array view (assignTo x c) n1).1.1
      (appendView array view (assignTo x c) n1).1.2
      (appendView array view (assignTo x c) n1).2
    exact ⟨r, (copyArrayLoop_cons_ok x rest array view n r).2 ⟨c, n1, hx, hr⟩⟩

theorem copyMapLoop_returns (rest : List (Value × Value))
    (ih : ∀ kv ∈ rest, (∀ n, ∃ c n', copyr kv.1 n = .ok (c, n'))
      ∧ (∀ n, ∃ c n', copyr kv.2 n = .ok (c, n'))) :
    ∀ oc n, ∃ r, copyMapLoop rest oc n = .ok r := by
  induction rest with
  | nil => intro oc n; exact ⟨_, copyMapLoop_nil oc n⟩
  | cons kv rest ihr =>
    intro oc n
    obtain ⟨k, v⟩ := kv
    obtain ⟨ck, n1, hk⟩ := (ih (k, v) (List.mem_cons_self _ _)).1 n
    obtain ⟨cv, n2, hv⟩ := (ih (k, v) (List.mem_cons_self _ _)).2 n1
    obtain ⟨r, hr⟩ := ihr (fun y hy => ih y (List.mem_cons_of_mem _ hy))
      (setMapIndex oc (assignTo k ck) (assignTo v cv)) n2
    exact ⟨r, (copyMapLoop_cons_ok k v rest oc n r).2 ⟨ck, n1, cv, n2, hk, hv, hr⟩⟩

theorem copyStructLoop_returns (rest : List (Field × Value))
    (ih : ∀ fx ∈ rest, (!fx.2.IsZero && fx.1.CanInterface) = true →
      ∀ n, ∃ c n', copyr fx.2 n = .ok (c, n')) :
    ∀ i oc n, ∃ r, copyStructLoop rest i oc n = .ok r := by
  induction rest with
  | nil => intro i oc n; exact ⟨_, copyStructLoop_nil i oc n⟩
  | cons fx rest ihr =>
    intro i oc n
    obtain ⟨f, fv⟩ := fx
    have ihr2 := ihr (fun y hy => ih y (List.mem_cons_of_mem _ hy))
    cases hc : (!fv.IsZero && f.CanInterface) with
    | false =>
      obtain ⟨r, hr⟩ := ihr2 (i + 1) oc n
      exact ⟨r, by rw [copyStructLoop_skip f fv rest i oc n hc]; exact hr⟩
    | true =>
      obtain ⟨c, n1, hx⟩ := ih (f, fv) (List.mem_cons_self _ _) hc n
      obtain ⟨r, hr⟩ := ihr2 (i + 1) (setField oc i (assignTo fv c)) n1
      exact ⟨r, (copyStructLoop_copy_ok f fv rest i oc n hc r).2 ⟨c, n1, hx, hr⟩⟩

/-- On a supported value `copyr` returns. -/
theorem copyr_returns (v : Value) :
    supported v = true → ∀ n, ∃ c n', copyr v n = .ok (c, n') := by
  induction v using Value.induct with
  | invalid => intro h; simp [supported] at h
  | basic k t d =>
    intro h n
    rw [copyr_basic]
    split
    · exact ⟨_, _, rfl⟩
    · rename_i ht
      have ht' : isTime t = false := by simpa using ht
      simp only [supported, ht', Bool.false_or, Bool.and_eq_true, bne_iff_ne] at h
      rw [if_neg (fun hk => hk.elim h.1 h.2)]
      exact ⟨_, _, rfl⟩
  | func t c => intro _ n; exact ⟨_, _, copyr_func t c n⟩
  | chan t c => intro _ n; exact ⟨_, _, copyr_chan t c n⟩
  | ptrNil t => intro _ n; rw [copyr_ptr, copyPointer_nil]; split <;> exact ⟨_, _, rfl⟩
  | ptr t a x ih =>
    intro h n
    rw [copyr_ptr]
    split
    · exact ⟨_, _, rfl⟩
    · rename_i ht
      have ht' : isTime t = false := by simpa using ht
      simp only [supported, ht', Bool.false_or] at h
      obtain ⟨c, n', hx⟩ := ih h (n + 1)
      exact ⟨_, _, (copyPointer_ok t a x n (_, n')).2 ⟨c, hx, rfl⟩⟩
  | ifaceNil t => intro _ n; rw [copyr_iface, copyInterface_nil]; split <;> exact ⟨_, _, rfl⟩
  | iface t x ih =>
    intro h n
    rw [copyr_iface]
    split
    · exact ⟨_, _, rfl⟩
    · rename_i ht
      have ht' : isTime t = false := by simpa using ht
      simp only [supported, ht', Bool.false_or] at h
      obtain ⟨c, n', hx⟩ := ih h (n + 1)
      exact ⟨_, _, (copyInterface_ok t x n (_, n')).2 ⟨c, hx, rfl⟩⟩
  | sliceNil t => intro _ n; rw [copyr_slice, copySlice_nil]; split <;> exact ⟨_, _, rfl⟩
  | slice t a cap xs ih =>
    intro h n
    rw [copyr_slice]
    split
    · exact ⟨_, _, rfl⟩
    · rename_i ht
      have ht' : isTime t = false := by simpa using ht
      simp only [supported, ht', Bool.false_or, supportedElems_iff] at h
      obtain ⟨r, hr⟩ := copySliceLoop_returns xs (fun x hx => ih x hx (h x hx))
        (n, cap, []) (n + 1)
      exact ⟨_, _, (copySlice_ok t a cap xs n (_, r.2)).2 ⟨r.1, hr, rfl⟩⟩
  | array t xs ih =>
    intro h n
    rw [copyr_array]
    split
    · exact ⟨_, _, rfl⟩
    · rename_i ht
      have ht' : isTime t = false := by simpa using ht
      simp only [supported, ht', Bool.false_or, supportedElems_iff] at h
      obtain ⟨r, hr⟩ := copyArrayLoop_returns xs (fun x hx => ih x hx (h x hx))
        (zeroElems xs) ⟨true, 0, (zeroElems xs).length⟩ (n + 1)
      exact ⟨_, _, (copyArray_ok t xs n (_, r.2)).2 ⟨r.1, hr, rfl⟩⟩
  | mapNil t => intro _ n; rw [copyr_map, copyMap_nil]; split <;> exact ⟨_, _, rfl⟩
  | map t a es ih =>
    intro h n
    rw [copyr_map]
    split
    · exact ⟨_, _, rfl⟩
    · rename_i ht
      have ht' : isTime t = false := by simpa using ht
      simp only [supported, ht', Bool.false_or, supportedEntries_iff] at h
      obtain ⟨r, hr⟩ := copyMapLoop_returns es
        (fun kv hkv => ⟨(ih kv hkv).1 (h kv hkv).1, (ih kv hkv).2 (h kv hkv).2⟩) [] (n + 1)
      exact ⟨_, _, (copyMap_ok t a es n (_, r.2)).2 ⟨r.1, hr, rfl⟩⟩
  | struct t fs ih =>
    intro h n
    rw [copyr_struct]
    split
    · exact ⟨_, _, rfl⟩
    · rename_i ht
      have ht' : isTime t = false := by simpa using ht
      simp only [supported, ht', Bool.false_or, supportedFields_iff] at h
      obtain ⟨r, hr⟩ := copyStructLoop_returns fs
        (fun fx hfx hc => ih fx hfx (h fx hfx hc)) 0 (zeroFields fs) (n + 1)
      exact ⟨_, _, (copyStruct_ok t fs n (_, r.2)).2 ⟨r.1, hr, rfl⟩⟩

/-! ## Deep equality -/

theorem deepEqualElems_refl (xs : List Value) (ih : ∀ x ∈ xs, deepEqual x x = true) :
    deepEqualElems xs xs = true := by
  induction xs with
  | nil => simp [deepEqualElems]
  | cons x xs ihx =>
    simp only [deepEqualElems, Bool.and_eq_true]
    exact ⟨ih x (List.mem_cons_self _ _), ihx (fun y hy => ih y (List.mem_cons_of_mem _ hy))⟩

theorem deepEqualFields_refl (fs : List (Field × Value))
    (ih : ∀ fx ∈ fs, deepEqual fx.2 fx.2 = true) : deepEqualFields fs fs = true := by
  induction fs with
  | nil => simp [deepEqualFields]
  | cons x xs ihx =>
    obtain ⟨f, x⟩ := x
    simp only [deepEqualFields, Bool.and_eq_true, beq_self_eq_true, true_and]
    exact ⟨ih (f, x) (List.mem_cons_self _ _),
      ihx (fun y hy => ih y (List.mem_cons_of_mem _ hy))⟩

/-- Entries that are deeply equal one by one, in order, are matched. -/
theorem deepEqualEntries_of_forall2 (es cs : List (Value × Value))
    (h : List.Forall₂ (fun e c => deepEqual c.1 e.1 = true ∧ deepEqual c.2 e.2 = true) es cs) :
    deepEqualEntries cs es = true := by
  induction h with
  | nil => simp [deepEqualEntries]
  | @cons a b l1 l2 hab _ ih =>
    obtain ⟨k, v⟩ := a
    obtain ⟨ck, cv⟩ := b
    simp only at hab
    have hp : (deepEqual ck k && deepEqual cv v) = true := by simp [hab.1, hab.2]
    simp only [deepEqualEntries, List.any_cons, hp, Bool.true_or, Bool.true_and]
    rw [List.eraseP_cons_of_pos (by simpa using hp)]
    exact ih

/-- Deep equality is reflexive. -/
theorem deepEqual_refl (v : Value) : deepEqual v v = true := by
  induction v using Value.induct with
  | invalid => simp [deepEqual]
  | basic k t d => simp [deepEqual]
  | func t c => simp [deepEqual]
  | chan t c => simp [deepEqual]
  | ptrNil t => simp [deepEqual]
  | ptr t a x ih => simp [deepEqual, ih]
  | ifaceNil t => simp [deepEqual]
  | iface t x ih => simp [deepEqual, ih]
  | sliceNil t => simp [deepEqual]
  | slice t a cap xs ih => simp [deepEqual, deepEqualElems_refl xs ih]
  | array t xs ih => simp [deepEqual, deepEqualElems_refl xs ih]
  | mapNil t => simp [deepEqual]
  | map t a es ih =>
    simp only [deepEqual, beq_self_eq_true, Bool.true_and]
    exact deepEqualEntries_of_forall2 es es (List.forall₂_same.2 ih)
  | struct t fs ih => simp [deepEqual, deepEqualFields_refl fs ih]

theorem deepEqualElems_of_forall2 (xs cs : List Value)
    (h : List.Forall₂ (fun x c => deepEqual c x = true) xs cs) :
    deepEqualElems cs xs = true := by
  induction h with
  | nil => simp [deepEqualElems]
  | cons hab _ ih => simp [deepEqualElems, hab, ih]

theorem deepEqualFields_of_forall2 (fs cs : List (Field × Value))
    (h : List.Forall₂ (fun fx fc => fc.1 = fx.1 ∧ deepEqual fc.2 fx.2 = true) fs cs) :
    deepEqualFields cs fs = true := by
  induction h with
  | nil => simp [deepEqualFields]
  | @cons a b l1 l2 hab _ ih =>
    obtain ⟨f, x⟩ := a
    obtain ⟨g, y⟩ := b
    simp only at hab
    simp [deepEqualFields, hab.1, hab.2, ih]

theorem forall2_swap {α β : Type} {R : α → β → Prop} {l1 : List α} {l2 : List β}
    (h : List.Forall₂ R l1 l2) : List.Forall₂ (fun b a => R a b) l2 l1 := by
  induction h with
  | nil => exact List.Forall₂.nil
  | cons hab _ ih => exact List.Forall₂.cons hab ih

/-- Deep equality matches the entries of two maps one to one: a map that has
lost a value is not deeply equal to the map it was made from, in either
direction, whereas other addresses and another order of the entries make no
difference. -/
theorem deepEqual_lost_value :
    deepEqual (vPtrKeys 3 4 "a" "a") (vPtrKeys 1 2 "a" "b") = false
    ∧ deepEqual (vPtrKeys 1 2 "a" "b") (vPtrKeys 3 4 "a" "a") = false
    ∧ deepEqual (vPtrKeys 3 4 "a" "b") (vPtrKeys 1 2 "a" "b") = true
    ∧ deepEqual (vPtrKeys 3 4 "b" "a") (vPtrKeys 1 2 "a" "b") = true := by
  refine ⟨?_, ?_, ?_, ?_⟩ <;> decide

/-- A value deeply equal to the zero value of its type is that zero value. -/
theorem zeroOf_eq_of_deepEqual (x : Value) : deepEqual (zeroOf x) x = true → zeroOf x = x := by
  induction x using Value.induct with
  | invalid => intro _; rfl
  | basic k t d =>
    intro h
    simp only [zeroOf, deepEqual, beq_self_eq_true, Bool.true_and, beq_iff_eq] at h
    simp only [zeroOf, h]
  | func t c =>
    intro h
    simp only [zeroOf, deepEqual, beq_self_eq_true, Bool.true_and, beq_iff_eq] at h
    simp only [zeroOf, h]
  | chan t c =>
    intro h
    simp only [zeroOf, deepEqual, beq_self_eq_true, Bool.true_and, beq_iff_eq] at h
    simp only [zeroOf, h]
  | ptrNil t => intro _; rfl
  | ptr t a x _ => intro h; simp [zeroOf, deepEqual] at h
  | ifaceNil t => intro _; rfl
  | iface t x _ => intro h; simp [zeroOf, deepEqual] at h
  | sliceNil t => intro _; rfl
  | slice t a cap xs _ => intro h; simp [zeroOf, deepEqual] at h
  | mapNil t => intro _; rfl
  | map t a es _ => intro h; simp [zeroOf, deepEqual] at h
  | array t xs ih =>
    intro h
    simp only [zeroOf, deepEqual, beq_self_eq_true, Bool.true_and] at h
    simp only [zeroOf, Value.array.injEq, true_and]
    clear * - ih h
    induction xs with
    | nil => rfl
    | cons x xs ihx =>
      simp only [zeroElems, deepEqualElems, Bool.and_eq_true] at h
      simp only [zeroElems]
      rw [ih x (List.mem_cons_self _ _) h.1,
        ihx (fun y hy => ih y (List.mem_cons_of_mem _ hy)) h.2]
  | struct t fs ih =>
    intro h
    simp only [zeroOf, deepEqual, beq_self_eq_true, Bool.true_and] at h
    simp only [zeroOf, Value.struct.injEq, true_and]
    clear * - ih h
    induction fs with
    | nil => rfl
    | cons fx fs ihx =>
      obtain ⟨f, x⟩ := fx
      simp only [zeroFields, deepEqualFields, Bool.and_eq_true] at h
      simp only [zeroFields]
      rw [ih (f, x) (List.mem_cons_self _ _) h.1.2,
        ihx (fun y hy => ih y (List.mem_cons_of_mem _ hy)) h.2]

/-! ## Go's `==` on zero values -/

theorem keyEqElems_iff (xs ys : List Value) :
    keyEqElems xs ys = true ↔ List.Forall₂ (fun x y => keyEq x y = true) xs ys := by
  induction xs generalizing ys with
  | nil => cases ys <;> simp [keyEqElems]
  | cons x xs ih => cases ys <;> simp [keyEqElems, ih]

theorem keyEqFields_iff (fs gs : List (Field × Value)) :
    keyEqFields fs gs = true
      ↔ List.Forall₂ (fun fx gy => fx.1 = gy.1 ∧ keyEq fx.2 gy.2 = true) fs gs := by
  induction fs generalizing gs with
  | nil => cases gs <;> simp [keyEqFields]
  | cons x xs ih =>
    obtain ⟨f, x⟩ := x
    cases gs with
    | nil => simp [keyEqFields]
    | cons y ys => obtain ⟨g, y⟩ := y; simp [keyEqFields, ih, and_assoc]

/-- Values that are `==` have the same kind and the same type. -/
theorem keyEq_kind_type (a b : Value) (h : keyEq a b = true) :
    a.Kind = b.Kind ∧ a.Type = b.Type := by
  cases a with
  | invalid => cases b <;> simp [keyEq] at h
  | basic k t d =>
    cases b <;> simp [keyEq] at h
    obtain ⟨⟨rfl, rfl⟩, _⟩ := h; exact ⟨rfl, rfl⟩
  | func t c => cases b <;> simp [keyEq] at h
  | chan t c =>
    cases b <;> simp [keyEq] at h
    obtain ⟨rfl, _⟩ := h; exact ⟨rfl, rfl⟩
  | ptr t p =>
    cases b <;> simp [keyEq] at h
    obtain ⟨rfl, _⟩ := h; exact ⟨rfl, rfl⟩
  | iface t e =>
    cases b with
    | iface t2 e2 =>
      cases e <;> cases e2 <;> simp [keyEq] at h
      · subst h; exact ⟨rfl, rfl⟩
      · obtain ⟨rfl, _⟩ := h; exact ⟨rfl, rfl⟩
    | _ => cases e <;> simp [keyEq] at h
  | slice t s => cases b <;> simp [keyEq] at h
  | array t xs =>
    cases b <;> simp [keyEq] at h
    obtain ⟨rfl, _⟩ := h; exact ⟨rfl, rfl⟩
  | map t m => cases b <;> simp [keyEq] at h
  | struct t fs =>
    cases b <;> simp [keyEq] at h
    obtain ⟨rfl, _⟩ := h; exact ⟨rfl, rfl⟩

theorem allZero_congr (xs ys : List Value)
    (h : List.Forall₂ (fun x y => x.IsZero = y.IsZero) xs ys) : allZero xs = allZero ys := by
  induction h with
  | nil => rfl
  | cons hab _ ih => simp [allZero, hab, ih]

theorem allFieldsZero_congr (fs gs : List (Field × Value))
    (h : List.Forall₂ (fun x y => x.2.IsZero = y.2.IsZero) fs gs) :
    allFieldsZero fs = allFieldsZero gs := by
  induction h with
  | @cons a b _ _ hab _ ih =>
    obtain ⟨f, x⟩ := a; obtain ⟨g, y⟩ := b
    simp only at hab
    simp [allFieldsZero, hab, ih]
  | nil => rfl

theorem forall2_imp_mem {α β : Type} {R S : α → β → Prop} {l1 : List α} {l2 : List β}
    (h : List.Forall₂ R l1 l2) (H : ∀ a ∈ l1, ∀ b ∈ l2, R a b → S a b) :
    List.Forall₂ S l1 l2 := by
  induction h with
  | nil => exact List.Forall₂.nil
  | cons hab _ ih =>
    exact List.Forall₂.cons (H _ (List.mem_cons_self _ _) _ (List.mem_cons_self _ _) hab)
      (ih (fun a ha b hb => H a (List.mem_cons_of_mem _ ha) b (List.mem_cons_of_mem _ hb)))

theorem floatEq_IsZero (k : Basic) (a b : Nat) (h : floatEq k a b = true) :
    floatIsZero k a = floatIsZero k b := by
  simp only [floatEq, Bool.and_eq_true, Bool.or_eq_true, beq_iff_eq] at h
  rcases h.2 with h1 | h1
  · rw [h1]
  · rw [h1.1, h1.2]

theorem Payload.goEq_IsZero (k : Basic) (d d2 : Payload) (h : Payload.goEq k d d2 = true) :
    d.IsZero k = d2.IsZero k := by
  cases d <;> cases d2 <;> simp [Payload.goEq] at h <;>
    first
    | (subst h; rfl)
    | (simp only [Payload.IsZero]; rw [floatEq_IsZero k _ _ h])
    | (simp only [Payload.IsZero]; rw [floatEq_IsZero k _ _ h.1, floatEq_IsZero k _ _ h.2])

/-- The conversion to the type of a slot changes neither whether a value is
zero nor whether it is nil. -/
theorem IsZero_assignTo (s c : Value) : (assignTo s c).IsZero = c.IsZero := by
  cases s <;> cases c <;> rfl

/-- Values that are `==` are both zero or both not zero. -/
theorem keyEq_IsZero (a : Value) : ∀ b, keyEq a b = true → a.IsZero = b.IsZero := by
  induction a using Value.induct with
  | invalid => intro b h; cases b <;> simp [keyEq] at h
  | basic k t d =>
    intro b h
    cases b <;> simp [keyEq] at h
    obtain ⟨⟨rfl, _⟩, h2⟩ := h
    exact Payload.goEq_IsZero _ _ _ h2
  | func t c => intro b h; cases b <;> simp [keyEq] at h
  | chan t c =>
    intro b h
    cases b <;> simp [keyEq] at h
    obtain ⟨_, rfl⟩ := h; rfl
  | ptrNil t =>
    intro b h
    cases b with
    | ptr t2 p2 => cases p2 <;> simp [keyEq, ptrAddr] at h; simp [Value.IsZero]
    | _ => simp [keyEq] at h
  | ptr t a x _ =>
    intro b h
    cases b with
    | ptr t2 p2 => cases p2 <;> simp [keyEq, ptrAddr] at h; simp [Value.IsZero]
    | _ => simp [keyEq] at h
  | ifaceNil t =>
    intro b h
    cases b with
    | iface t2 e2 => cases e2 <;> simp [keyEq] at h; simp [Value.IsZero]
    | _ => simp [keyEq] at h
  | iface t x _ =>
    intro b h
    cases b with
    | iface t2 e2 => cases e2 <;> simp [keyEq] at h; simp [Value.IsZero]
    | _ => simp [keyEq] at h
  | sliceNil t => intro b h; cases b <;> simp [keyEq] at h
  | slice t a cap xs _ => intro b h; cases b <;> simp [keyEq] at h
  | array t xs ih =>
    intro b h
    cases b <;> simp [keyEq] at h
    rename_i t2 ys
    simp only [Value.IsZero]
    exact allZero_congr xs ys
      (forall2_imp_mem ((keyEqElems_iff xs ys).1 h.2) (fun x hx y _ hxy => ih x hx y hxy))
  | mapNil t => intro b h; cases b <;> simp [keyEq] at h
  | map t a es _ => intro b h; cases b <;> simp [keyEq] at h
  | struct t fs ih =>
    intro b h
    cases b <;> simp [keyEq] at h
    rename_i t2 gs
    simp only [Value.IsZero]
    exact allFieldsZero_congr fs gs
      (forall2_imp_mem ((keyEqFields_iff fs gs).1 h.2)
        (fun x hx y _ hxy => ih x hx y.2 hxy.2))

/-- Where no unexported field hides a value, the copy is zero exactly when
the source is. -/
theorem copyr_IsZero (v : Value) : ∀ n c n', copyr v n = .ok (c, n') →
    unexportedZero v = true → c.IsZero = v.IsZero := by
  induction v using Value.induct with
  | invalid => intro n c n' h; rw [copyr_invalid] at h; cases h
  | basic k t d =>
    intro n c n' h _; rw [copyr_basic] at h
    split at h
    · cases h; rfl
    · split at h
      · cases h
      · cases h; rfl
  | func t c => intro n c n' h _; rw [copyr_func] at h; cases h; rfl
  | chan t c => intro n c n' h _; rw [copyr_chan] at h; cases h; rfl
  | ptrNil t =>
    intro n c n' h _; rw [copyr_ptr, copyPointer_nil] at h
    split at h <;> cases h <;> rfl
  | ptr t a x _ =>
    intro n c n' h _; rw [copyr_ptr] at h
    split at h
    · cases h; rfl
    · obtain ⟨cx, _, hc⟩ := (copyPointer_ok t a x n (c, n')).1 h
      simp only at hc; subst hc; rfl
  | ifaceNil t =>
    intro n c n' h _; rw [copyr_iface, copyInterface_nil] at h
    split at h <;> cases h <;> rfl
  | iface t x _ =>
    intro n c n' h _; rw [copyr_iface] at h
    split at h
    · cases h; rfl
    · obtain ⟨cx, _, hc⟩ := (copyInterface_ok t x n (c, n')).1 h
      simp only at hc; subst hc; rfl
  | sliceNil t =>
    intro n c n' h _; rw [copyr_slice, copySlice_nil] at h
    split at h <;> cases h <;> rfl
  | slice t a cap xs _ =>
    intro n c n' h _; rw [copyr_slice] at h
    split at h
    · cases h; rfl
    · obtain ⟨a2, cap2, cs, hc, _⟩ := copySlice_spec t a cap xs n (c, n') h
      simp only at hc; subst hc; rfl
  | array t xs ih =>
    intro n c n' h hz; rw [copyr_array] at h
    split at h
    · cases h; rfl
    · rename_i ht
      have ht' : isTime t = false := by simpa using ht
      simp only [unexportedZero, ht', Bool.false_or, unexportedZeroElems_iff] at hz
      obtain ⟨cs, hc, hall⟩ := copyArray_spec t xs n (c, n') h
      simp only at hc; subst hc
      simp only [Value.IsZero]
      refine (allZero_congr xs cs (forall2_imp_mem hall ?_)).symm
      rintro x hx y _ ⟨m, m', c0, _, _, hm, rfl⟩
      rw [IsZero_assignTo]
      exact (ih x hx _ _ _ hm (hz x hx)).symm
  | mapNil t =>
    intro n c n' h _; rw [copyr_map, copyMap_nil] at h
    split at h <;> cases h <;> rfl
  | map t a es _ =>
    intro n c n' h _; rw [copyr_map] at h
    split at h
    · cases h; rfl
    · obtain ⟨oc, _, hc⟩ := (copyMap_ok t a es n (c, n')).1 h
      simp only at hc; subst hc; rfl
  | struct t fs ih =>
    intro n c n' h hz; rw [copyr_struct] at h
    split at h
    · cases h; rfl
    · rename_i ht
      have ht' : isTime t = false := by simpa using ht
      simp only [unexportedZero, ht', Bool.false_or, unexportedZeroFields_iff] at hz
      obtain ⟨cs, hc, hall⟩ := copyStruct_spec t fs n (c, n') h
      simp only at hc; subst hc
      simp only [Value.IsZero]
      refine (allFieldsZero_congr fs cs (forall2_imp_mem hall ?_)).symm
      rintro fx hfx fc _ ⟨_, hr⟩
      split at hr
      · obtain ⟨m, m', c0, _, _, hm, hs⟩ := hr
        rw [hs, IsZero_assignTo]
        exact (ih fx hfx _ _ _ hm (hz fx hfx).2).symm
      · rename_i hcond
        rw [hr, IsZero_zeroOf]
        have h1 := (hz fx hfx).1
        cases hzx : fx.2.IsZero with
        | true => rfl
        | false =>
          rcases h1 with h1 | h1
          · simp [Field.CanInterface, hzx, h1] at hcond
          · rw [hzx] at h1; cases h1

theorem floatIsNaN_of_zero (k : Basic) (a : Nat) (h : floatIsZero k a = true) :
    floatIsNaN k a = false := by
  simp only [floatIsZero, beq_iff_eq] at h
  simp [floatIsNaN, h]

theorem floatEq_of_zero (k : Basic) (a b : Nat) (ha : floatIsZero k a = true)
    (hb : floatIsZero k b = true) : floatEq k a b = true := by
  simp [floatEq, floatIsNaN_of_zero k a ha, floatIsNaN_of_zero k b hb, ha, hb]

theorem floatIsZero_zero (k : Basic) : floatIsZero k 0 = true := by
  simp [floatIsZero]

theorem Payload.goEq_zero_left (k : Basic) (d d2 : Payload) (h : d.IsZero k = true)
    (he : Payload.goEq k d.zero d2 = true) : Payload.goEq k d d2 = true := by
  cases d <;> cases d2 <;> simp [Payload.goEq, Payload.zero] at he <;>
    simp only [Payload.IsZero, Bool.and_eq_true] at h
  · subst he; simp at h; subst h; rfl
  · subst he; simp at h; subst h; rfl
  · subst he; simp at h; subst h; rfl
  · have hb := floatEq_IsZero k _ _ he
    rw [floatIsZero_zero] at hb
    exact floatEq_of_zero k _ _ h hb.symm
  · have hb1 := floatEq_IsZero k _ _ he.1
    have hb2 := floatEq_IsZero k _ _ he.2
    rw [floatIsZero_zero] at hb1 hb2
    simp only [Payload.goEq, Bool.and_eq_true]
    exact ⟨floatEq_of_zero k _ _ h.1 hb1.symm, floatEq_of_zero k _ _ h.2 hb2.symm⟩
  · subst he; simp at h; subst h; rfl
  · subst he; simp at h; subst h; rfl

theorem Payload.goEq_zero_right (k : Basic) (d d2 : Payload) (h : d2.IsZero k = true)
    (he : Payload.goEq k d d2.zero = true) : Payload.goEq k d d2 = true := by
  cases d <;> cases d2 <;> simp [Payload.goEq, Payload.zero] at he <;>
    simp only [Payload.IsZero, Bool.and_eq_true] at h
  · subst he; simp at h; subst h; rfl
  · subst he; simp at h; subst h; rfl
  · subst he; simp at h; subst h; rfl
  · have hb := floatEq_IsZero k _ _ he
    rw [floatIsZero_zero] at hb
    exact floatEq_of_zero k _ _ hb h
  · have hb1 := floatEq_IsZero k _ _ he.1
    have hb2 := floatEq_IsZero k _ _ he.2
    rw [floatIsZero_zero] at hb1 hb2
    simp only [Payload.goEq, Bool.and_eq_true]
    exact ⟨floatEq_of_zero k _ _ hb1 h.1, floatEq_of_zero k _ _ hb2 h.2⟩
  · subst he; simp at h; subst h; rfl
  · subst he; simp at h; subst h; rfl

theorem keyEqElems_zero_left (xs : List Value)
    (ih : ∀ x ∈ xs, ∀ y, x.IsZero = true → keyEq (zeroOf x) y = true → keyEq x y = true) :
    ∀ ys, allZero xs = true → keyEqElems (zeroElems xs) ys = true →
      keyEqElems xs ys = true := by
  induction xs with
  | nil => intro ys _ h; exact h
  | cons x xs ihx =>
    intro ys hz h
    cases ys with
    | nil => simp [zeroElems, keyEqElems] at h
    | cons y ys =>
      simp only [zeroElems, keyEqElems, allZero, Bool.and_eq_true] at h hz ⊢
      exact ⟨ih x (List.mem_cons_self _ _) y hz.1 h.1,
        ihx (fun x hx => ih x (List.mem_cons_of_mem _ hx)) ys hz.2 h.2⟩

theorem keyEqFields_zero_left (fs : List (Field × Value))
    (ih : ∀ fx ∈ fs, ∀ y, fx.2.IsZero = true → keyEq (zeroOf fx.2) y = true →
      keyEq fx.2 y = true) :
    ∀ gs, allFieldsZero fs = true → keyEqFields (zeroFields fs) gs = true →
      keyEqFields fs gs = true := by
  induction fs with
  | nil => intro gs _ h; exact h
  | cons fx fs ihx =>
    obtain ⟨f, x⟩ := fx
    intro gs hz h
    cases gs with
    | nil => simp [zeroFields, keyEqFields] at h
    | cons gy gs =>
      obtain ⟨g, y⟩ := gy
      simp only [zeroFields, keyEqFields, allFieldsZero, Bool.and_eq_true] at h hz ⊢
      exact ⟨⟨h.1.1, ih (f, x) (List.mem_cons_self _ _) y hz.1 h.1.2⟩,
        ihx (fun x hx => ih x (List.mem_cons_of_mem _ hx)) gs hz.2 h.2⟩

/-- A zero value is `==` to whatever the zero value of its type is `==`
to: the two zeros of a floating-point type are `==`. -/
theorem keyEq_zeroOf_left (x : Value) :
    ∀ y, x.IsZero = true → keyEq (zeroOf x) y = true → keyEq x y = true := by
  induction x using Value.induct with
  | invalid => intro y _ h; exact h
  | basic k t d =>
    intro y hz h
    cases y <;> simp [zeroOf, keyEq] at h
    simp only [keyEq, Bool.and_eq_true, beq_iff_eq]
    exact ⟨h.1, Payload.goEq_zero_left _ _ _ hz h.2⟩
  | func t c => intro y _ h; cases y <;> simp [zeroOf, keyEq] at h
  | chan t c =>
    intro y hz h
    cases c with
    | none => exact h
    | some a => simp [Value.IsZero] at hz
  | ptrNil t => intro y _ h; exact h
  | ptr t a x _ => intro y hz _; simp [Value.IsZero] at hz
  | ifaceNil t => intro y _ h; exact h
  | iface t x _ => intro y hz _; simp [Value.IsZero] at hz
  | sliceNil t => intro y _ h; exact h
  | slice t a cap xs _ => intro y hz _; simp [Value.IsZero] at hz
  | array t xs ih =>
    intro y hz h
    cases y <;> simp [zeroOf, keyEq] at h
    simp only [keyEq, Bool.and_eq_true, beq_iff_eq]
    exact ⟨h.1, keyEqElems_zero_left xs ih _ hz h.2⟩
  | mapNil t => intro y _ h; exact h
  | map t a es _ => intro y hz _; simp [Value.IsZero] at hz
  | struct t fs ih =>
    intro y hz h
    cases y <;> simp [zeroOf, keyEq] at h
    simp only [keyEq, Bool.and_eq_true, beq_iff_eq]
    exact ⟨h.1, keyEqFields_zero_left fs ih _ hz h.2⟩

theorem keyEqElems_zero_right (ys : List Value)
    (ih : ∀ y ∈ ys, ∀ x, y.IsZero = true → keyEq x (zeroOf y) = true → keyEq x y = true) :
    ∀ xs, allZero ys = true → keyEqElems xs (zeroElems ys) = true →
      keyEqElems xs ys = true := by
  induction ys with
  | nil => intro xs _ h; exact h
  | cons y ys ihy =>
    intro xs hz h
    cases xs with
    | nil => simp [zeroElems, keyEqElems] at h
    | cons x xs =>
      simp only [zeroElems, keyEqElems, allZero, Bool.and_eq_true] at h hz ⊢
      exact ⟨ih y (List.mem_cons_self _ _) x hz.1 h.1,
        ihy (fun x hx => ih x (List.mem_cons_of_mem _ hx)) xs hz.2 h.2⟩

theorem keyEqFields_zero_right (gs : List (Field × Value))
    (ih : ∀ gy ∈ gs, ∀ x, gy.2.IsZero = true → keyEq x (zeroOf gy.2) = true →
      keyEq x gy.2 = true) :
    ∀ fs, allFieldsZero gs = true → keyEqFields fs (zeroFields gs) = true →
      keyEqFields fs gs = true := by
  induction gs with
  | nil => intro fs _ h; exact h
  | cons gy gs ihy =>
    obtain ⟨g, y⟩ := gy
    intro fs hz h
    cases fs with
    | nil => simp [zeroFields, keyEqFields] at h
    | cons fx fs =>
      obtain ⟨f, x⟩ := fx
      simp only [zeroFields, keyEqFields, allFieldsZero, Bool.and_eq_true] at h hz ⊢
      exact ⟨⟨h.1.1, ih (g, y) (List.mem_cons_self _ _) x hz.1 h.1.2⟩,
        ihy (fun x hx => ih x (List.mem_cons_of_mem _ hx)) fs hz.2 h.2⟩

/-- Whatever is `==` to the zero value of the type of a zero value is `==`
to that value. -/
theorem keyEq_zeroOf_right (y : Value) :
    ∀ x, y.IsZero = true → keyEq x (zeroOf y) = true → keyEq x y = true := by
  induction y using Value.induct with
  | invalid => intro x _ h; exact h
  | basic k t d =>
    intro x hz h
    cases x <;> simp [zeroOf, keyEq] at h
    simp only [keyEq, Bool.and_eq_true, beq_iff_eq]
    exact ⟨h.1, Payload.goEq_zero_right _ _ _ (by rw [h.1.1]; exact hz) h.2⟩
  | func t c => intro x _ h; cases x <;> simp [zeroOf, keyEq] at h
  | chan t c =>
    intro x hz h
    cases c with
    | none => exact h
    | some a => simp [Value.IsZero] at hz
  | ptrNil t => intro x _ h; exact h
  | ptr t a y _ => intro x hz _; simp [Value.IsZero] at hz
  | ifaceNil t => intro x _ h; exact h
  | iface t y _ => intro x hz _; simp [Value.IsZero] at hz
  | sliceNil t => intro x _ h; exact h
  | slice t a cap ys _ => intro x hz _; simp [Value.IsZero] at hz
  | array t ys ih =>
    intro x hz h
    cases x <;> simp [zeroOf, keyEq] at h
    simp only [keyEq, Bool.and_eq_true, beq_iff_eq]
    exact ⟨h.1, keyEqElems_zero_right ys ih _ hz h.2⟩
  | mapNil t => intro x _ h; exact h
  | map t a es _ => intro x hz _; simp [Value.IsZero] at hz
  | struct t gs ih =>
    intro x hz h
    cases x <;> simp [zeroOf, keyEq] at h
    simp only [keyEq, Bool.and_eq_true, beq_iff_eq]
    exact ⟨h.1, keyEqFields_zero_right gs ih _ hz h.2⟩

/-! ## Copies of different keys are different -/

theorem Basic.kind_injective (a b : Basic) (h : a.kind = b.kind) : a = b := by
  cases a <;> cases b <;> first | rfl | (simp [Basic.kind] at h)

theorem eq_basic_of_kind (v : Value) (k : Basic) (t : Ty) (hk : v.Kind = k.kind)
    (ht : v.Type = some t) : ∃ d, v = .basic k t d := by
  cases v with
  | basic k2 t2 d2 =>
    simp only [Value.Kind, Value.Type, Option.some.injEq] at hk ht
    have := Basic.kind_injective _ _ hk
    subst this; subst ht; exact ⟨d2, rfl⟩
  | _ => cases k <;> simp [Value.Kind, Basic.kind] at hk

theorem eq_chan_of_kind (v : Value) (t : Ty) (hk : v.Kind = .chan) (ht : v.Type = some t) :
    ∃ h, v = .chan t h := by
  cases v with
  | chan t2 h2 => simp only [Value.Type, Option.some.injEq] at ht; subst ht; exact ⟨h2, rfl⟩
  | basic k2 _ _ => cases k2 <;> simp [Value.Kind, Basic.kind] at hk
  | _ => simp [Value.Kind] at hk

theorem eq_ptr_of_kind (v : Value) (t : Ty) (hk : v.Kind = .ptr) (ht : v.Type = some t) :
    ∃ p, v = .ptr t p := by
  cases v with
  | ptr t2 p2 => simp only [Value.Type, Option.some.injEq] at ht; subst ht; exact ⟨p2, rfl⟩
  | basic k2 _ _ => cases k2 <;> simp [Value.Kind, Basic.kind] at hk
  | _ => simp [Value.Kind] at hk

theorem eq_iface_of_kind (v : Value) (t : Ty) (hk : v.Kind = .interface)
    (ht : v.Type = some t) : ∃ e, v = .iface t e := by
  cases v with
  | iface t2 p2 => simp only [Value.Type, Option.some.injEq] at ht; subst ht; exact ⟨p2, rfl⟩
  | basic k2 _ _ => cases k2 <;> simp [Value.Kind, Basic.kind] at hk
  | _ => simp [Value.Kind] at hk

theorem eq_array_of_kind (v : Value) (t : Ty) (hk : v.Kind = .array) (ht : v.Type = some t) :
    ∃ xs, v = .array t xs := by
  cases v with
  | array t2 p2 => simp only [Value.Type, Option.some.injEq] at ht; subst ht; exact ⟨p2, rfl⟩
  | basic k2 _ _ => cases k2 <;> simp [Value.Kind, Basic.kind] at hk
  | _ => simp [Value.Kind] at hk

theorem eq_struct_of_kind (v : Value) (t : Ty) (hk : v.Kind = .struct)
    (ht : v.Type = some t) : ∃ fs, v = .struct t fs := by
  cases v with
  | struct t2 p2 => simp only [Value.Type, Option.some.injEq] at ht; subst ht; exact ⟨p2, rfl⟩
  | basic k2 _ _ => cases k2 <;> simp [Value.Kind, Basic.kind] at hk
  | _ => simp [Value.Kind] at hk

theorem forall2_through {α β : Type} {R1 R2 : α → β → Prop} {Q : β → β → Prop}
    {S : α → α → Prop} {l1 l2 : List α} {m1 m2 : List β}
    (h1 : List.Forall₂ R1 l1 m1) (hq : List.Forall₂ Q m1 m2) (h2 : List.Forall₂ R2 l2 m2)
    (H : ∀ x ∈ l1, ∀ y ∈ l2, ∀ cx cy, R1 x cx → R2 y cy → Q cx cy → S x y) :
    List.Forall₂ S l1 l2 := by
  induction h1 generalizing l2 m2 with
  | nil =>
    cases hq; cases h2; exact List.Forall₂.nil
  | cons hab _ ih =>
    cases hq with
    | cons hq1 hq2 =>
      cases h2 with
      | cons h21 h22 =>
        exact List.Forall₂.cons
          (H _ (List.mem_cons_self _ _) _ (List.mem_cons_self _ _) _ _ hab h21 hq1)
          (ih hq2 h22 (fun x hx y hy =>
            H x (List.mem_cons_of_mem _ hx) y (List.mem_cons_of_mem _ hy)))

theorem assignTo_Kind (s c : Value) : (assignTo s c).Kind = c.Kind := by
  cases s <;> cases c <;> rfl

theorem eq_ptr_of_kind_only (v : Value) (hk : v.Kind = .ptr) : ∃ t p, v = .ptr t p := by
  cases v with
  | ptr t2 p2 => exact ⟨t2, p2, rfl⟩
  | basic k2 _ _ => cases k2 <;> simp [Value.Kind, Basic.kind] at hk
  | _ => simp [Value.Kind] at hk

/-- The copy of a pointer: the pointer itself where its type is `time.Time`
or it is nil, a pointer at a new address otherwise. -/
theorem copyr_ptr_summary (t : Ty) (p : Option (Nat × Value)) (n : Nat) (c : Value) (n' : Nat)
    (h : copyr (.ptr t p) n = .ok (c, n')) :
    ∃ tc pc, c = .ptr tc pc ∧
      ((isTime t = true ∧ tc = t ∧ pc = p)
        ∨ (isTime t = false ∧ p = none ∧ tc = t ∧ pc = none)
        ∨ (isTime t = false ∧ isTime tc = false ∧ ptrAddr pc = some n ∧ n < n')) := by
  rw [copyr_ptr] at h
  by_cases ht : isTime t = true
  · rw [if_pos ht] at h; cases h
    exact ⟨t, p, rfl, Or.inl ⟨ht, rfl, rfl⟩⟩
  · rw [if_neg ht] at h
    have ht2 : isTime t = false := by simpa using ht
    cases p with
    | none =>
      rw [copyPointer_nil] at h; cases h
      exact ⟨t, none, rfl, Or.inr (Or.inl ⟨ht2, rfl, rfl, rfl⟩)⟩
    | some bx =>
      obtain ⟨cy, hcy, hc⟩ := (copyPointer_ok t bx.1 bx.2 n (c, n')).1 h
      simp only at hc hcy; subst hc
      have := copyr_counter _ _ _ _ hcy
      exact ⟨_, _, rfl, Or.inr (Or.inr ⟨ht2, isTime_ptrTo _, rfl, by omega⟩)⟩

/-- The case of `keyEq_of_copies` for two pointers. -/
theorem keyEq_of_copies_ptr (t : Ty) (p : Option (Nat × Value)) (k2 : Value)
    (n1 : Nat) (c1 : Value) (n1' n2 : Nat) (c2 : Value) (n2' : Nat)
    (h1 : copyr (.ptr t p) n1 = .ok (c1, n1')) (h2 : copyr k2 n2 = .ok (c2, n2'))
    (hle : n1' ≤ n2)
    (he : keyEq c1 c2 = true ∨ keyEq (assignTo (.ptr t p) c1) (assignTo k2 c2) = true) :
    keyEq (.ptr t p) k2 = true := by
  have hk1 := (copyr_kind_type _ _ _ _ h1).1
  have hk2 := (copyr_kind_type _ _ _ _ h2).1
  have hkk : c1.Kind = c2.Kind := by
    rcases he with he | he
    · exact (keyEq_kind_type _ _ he).1
    · have := (keyEq_kind_type _ _ he).1
      rwa [assignTo_Kind, assignTo_Kind] at this
  obtain ⟨t2, p2, rfl⟩ := eq_ptr_of_kind_only k2 (by rw [← hk2, ← hkk, hk1]; rfl)
  obtain ⟨tc1, pc1, rfl, s1⟩ := copyr_ptr_summary _ _ _ _ _ h1
  obtain ⟨tc2, pc2, rfl, s2⟩ := copyr_ptr_summary _ _ _ _ _ h2
  simp only [assignTo, keyEq, Bool.and_eq_true, beq_iff_eq] at he ⊢
  have tne : ∀ a b : Ty, isTime a = true → isTime b = false → a ≠ b := by
    intro a b ha hb hab; rw [hab, hb] at ha; cases ha
  rcases s1 with ⟨a1, rfl, rfl⟩ | ⟨a1, rfl, rfl, rfl⟩ | ⟨a1, b1, d1, e1⟩
  · rcases s2 with ⟨a2, rfl, rfl⟩ | ⟨a2, rfl, rfl, rfl⟩ | ⟨a2, b2, d2, e2⟩
    · rcases he with he | he <;> exact he
    · rcases he with he | he <;> exact he
    · rcases he with he | he
      · exact absurd he.1 (tne _ _ a1 b2)
      · exact absurd he.1 (tne _ _ a1 a2)
  · rcases s2 with ⟨a2, rfl, rfl⟩ | ⟨a2, rfl, rfl, rfl⟩ | ⟨a2, b2, d2, e2⟩
    · rcases he with he | he <;> exact he
    · rcases he with he | he <;> exact he
    · rw [d2] at he
      rcases he with he | he <;> simp [ptrAddr] at he
  · rcases s2 with ⟨a2, rfl, rfl⟩ | ⟨a2, rfl, rfl, rfl⟩ | ⟨a2, b2, d2, e2⟩
    · rcases he with he | he
      · exact absurd he.1.symm (tne _ _ a2 b1)
      · exact absurd he.1.symm (tne _ _ a2 a1)
    · rw [d1] at he
      rcases he with he | he <;> simp [ptrAddr] at he
    · rw [d1, d2] at he
      rcases he with he | he <;>
        (simp only [Option.some.injEq] at he; omega)

/-- Only values of a comparable kind are `==` to anything. -/
theorem keyEq_comparable (a b : Value) (h : keyEq a b = true) :
    a.Kind ≠ .slice ∧ a.Kind ≠ .map ∧ a.Kind ≠ .func := by
  cases a with
  | basic k t d => cases k <;> simp [Value.Kind, Basic.kind]
  | chan t c => simp [Value.Kind]
  | ptr t p => simp [Value.Kind]
  | iface t e => simp [Value.Kind]
  | array t xs => simp [Value.Kind]
  | struct t fs => simp [Value.Kind]
  | _ => cases b <;> simp [keyEq] at h

/-- Where the first of two copied values is not a pointer, their copies
stored in slots of their types are the copies themselves, with the types of
the sources. -/
theorem keyEq_raw_of_stored (k1 k2 : Value) (n1 : Nat) (c1 : Value) (n1' n2 : Nat)
    (c2 : Value) (n2' : Nat)
    (h1 : copyr k1 n1 = .ok (c1, n1')) (h2 : copyr k2 n2 = .ok (c2, n2'))
    (hk : k1.Kind ≠ .ptr)
    (he : keyEq c1 c2 = true ∨ keyEq (assignTo k1 c1) (assignTo k2 c2) = true) :
    keyEq c1 c2 = true ∧ c1.Type = k1.Type ∧ c2.Type = k2.Type := by
  have a1 := assignTo_of_not_ptr k1 c1 hk
  have hk1 := copyr_kind_type _ _ _ _ h1
  have hk2 := copyr_kind_type _ _ _ _ h2
  have hkk : c1.Kind = c2.Kind := by
    rcases he with he | he
    · exact (keyEq_kind_type _ _ he).1
    · have := (keyEq_kind_type _ _ he).1
      rwa [assignTo_Kind, assignTo_Kind] at this
  have hk2' : k2.Kind ≠ .ptr := by rw [← hk2.1, ← hkk, hk1.1]; exact hk
  have a2 := assignTo_of_not_ptr k2 c2 hk2'
  rw [a1, a2] at he; rw [a1] at hk1; rw [a2] at hk2
  exact ⟨by rcases he with he | he <;> exact he, hk1.2, hk2.2⟩

/-- If the copy of one key and the later copy of another key are `==`, as
they are returned or as they are stored in slots of the types of the keys,
the two keys are `==`, where no unexported field hides a value: pointers
inside keys get new and different addresses, every other component is kept. -/
theorem keyEq_of_copies (k1 : Value) :
    ∀ k2 n1 c1 n1' n2 c2 n2', copyr k1 n1 = .ok (c1, n1') → copyr k2 n2 = .ok (c2, n2') →
      n1' ≤ n2 → unexportedZero k1 = true → unexportedZero k2 = true →
      (keyEq c1 c2 = true ∨ keyEq (assignTo k1 c1) (assignTo k2 c2) = true) →
      keyEq k1 k2 = true := by
  induction k1 using Value.induct with
  | invalid => intro k2 n1 c1 n1' n2 c2 n2' h1; rw [copyr_invalid] at h1; cases h1
  | basic k t d =>
    intro k2 n1 c1 n1' n2 c2 n2' h1 h2 _ _ _ he0
    obtain ⟨he, ht1, ht2⟩ := keyEq_raw_of_stored _ _ _ _ _ _ _ _ h1 h2 (by cases k <;> simp [Value.Kind, Basic.kind]) he0
    have hkt := keyEq_kind_type _ _ he
    have hc1 := And.intro (copyr_kind_type _ _ _ _ h1).1 ht1
    have hc2 := And.intro (copyr_kind_type _ _ _ _ h2).1 ht2
    obtain ⟨d2, rfl⟩ := eq_basic_of_kind k2 k t
      (by rw [← hc2.1, ← hkt.1, hc1.1]; rfl) (by rw [← hc2.2, ← hkt.2, hc1.2]; rfl)
    rw [copyr_basic] at h1 h2
    by_cases ht : isTime t = true
    · rw [if_pos ht] at h1 h2; cases h1; cases h2; exact he
    · rw [if_neg ht] at h1 h2
      by_cases hk : k = .uintptr ∨ k = .unsafePointer
      · rw [if_pos hk] at h1; cases h1
      · rw [if_neg hk] at h1 h2; cases h1; cases h2; exact he
  | func t c =>
    intro k2 n1 c1 n1' n2 c2 n2' h1 _ _ _ _ he
    rw [copyr_func] at h1; cases h1
    cases c2 <;> simp [keyEq] at he
  | chan t c =>
    intro k2 n1 c1 n1' n2 c2 n2' h1 h2 _ _ _ he0
    obtain ⟨he, ht1, ht2⟩ := keyEq_raw_of_stored _ _ _ _ _ _ _ _ h1 h2 (by simp [Value.Kind]) he0
    have hkt := keyEq_kind_type _ _ he
    have hc1 := And.intro (copyr_kind_type _ _ _ _ h1).1 ht1
    have hc2 := And.intro (copyr_kind_type _ _ _ _ h2).1 ht2
    obtain ⟨d2, rfl⟩ := eq_chan_of_kind k2 t
      (by rw [← hc2.1, ← hkt.1, hc1.1]; rfl) (by rw [← hc2.2, ← hkt.2, hc1.2]; rfl)
    rw [copyr_chan] at h1 h2
    cases h1; cases h2; exact he
  | ptrNil t =>
    intro k2 n1 c1 n1' n2 c2 n2' h1 h2 hle _ _ he
    exact keyEq_of_copies_ptr _ _ _ _ _ _ _ _ _ h1 h2 hle he
  | ptr t a x _ =>
    intro k2 n1 c1 n1' n2 c2 n2' h1 h2 hle _ _ he
    exact keyEq_of_copies_ptr _ _ _ _ _ _ _ _ _ h1 h2 hle he
  | ifaceNil t =>
    intro k2 n1 c1 n1' n2 c2 n2' h1 h2 _ _ _ he0
    obtain ⟨he, ht1, ht2⟩ := keyEq_raw_of_stored _ _ _ _ _ _ _ _ h1 h2 (by simp [Value.Kind]) he0
    have hkt := keyEq_kind_type _ _ he
    have hc1 := And.intro (copyr_kind_type _ _ _ _ h1).1 ht1
    have hc2 := And.intro (copyr_kind_type _ _ _ _ h2).1 ht2
    obtain ⟨e2, rfl⟩ := eq_iface_of_kind k2 t
      (by rw [← hc2.1, ← hkt.1, hc1.1]; rfl) (by rw [← hc2.2, ← hkt.2, hc1.2]; rfl)
    rw [copyr_iface] at h1 h2
    by_cases ht : isTime t = true
    · rw [if_pos ht] at h1 h2; cases h1; cases h2; exact he
    · rw [if_neg ht] at h1 h2
      rw [copyInterface_nil] at h1; cases h1
      cases e2 with
      | none => simp [keyEq]
      | some y =>
        obtain ⟨cy, _, hcy⟩ := (copyInterface_ok t y n2 (c2, n2')).1 h2
        simp only at hcy; subst hcy
        simp [keyEq] at he
  | iface t x ih =>
    intro k2 n1 c1 n1' n2 c2 n2' h1 h2 hle hz1 hz2 he0
    obtain ⟨he, ht1, ht2⟩ := keyEq_raw_of_stored _ _ _ _ _ _ _ _ h1 h2 (by simp [Value.Kind]) he0
    have hkt := keyEq_kind_type _ _ he
    have hc1 := And.intro (copyr_kind_type _ _ _ _ h1).1 ht1
    have hc2 := And.intro (copyr_kind_type _ _ _ _ h2).1 ht2
    obtain ⟨e2, rfl⟩ := eq_iface_of_kind k2 t
      (by rw [← hc2.1, ← hkt.1, hc1.1]; rfl) (by rw [← hc2.2, ← hkt.2, hc1.2]; rfl)
    rw [copyr_iface] at h1 h2
    by_cases ht : isTime t = true
    · rw [if_pos ht] at h1 h2; cases h1; cases h2; exact he
    · rw [if_neg ht] at h1 h2
      have ht' : isTime t = false := by simpa using ht
      obtain ⟨cx, hx, hcx⟩ := (copyInterface_ok t x n1 (c1, n1')).1 h1
      simp only at hcx hx; subst hcx
      cases e2 with
      | none =>
        rw [copyInterface_nil] at h2; cases h2
        simp [keyEq] at he
      | some y =>
        obtain ⟨cy, hy, hcy⟩ := (copyInterface_ok t y n2 (c2, n2')).1 h2
        simp only at hcy hy; subst hcy
        simp only [unexportedZero, ht', Bool.false_or] at hz1 hz2
        simp only [keyEq, beq_self_eq_true, Bool.true_and] at he ⊢
        exact ih y _ _ _ _ _ _ hx hy (by omega) hz1 hz2 (Or.inl he)
  | sliceNil t =>
    intro k2 n1 c1 n1' n2 c2 n2' h1 h2 _ _ _ he0
    obtain ⟨he, _, _⟩ := keyEq_raw_of_stored _ _ _ _ _ _ _ _ h1 h2 (by simp [Value.Kind]) he0
    have hc1 := (copyr_kind_type _ _ _ _ h1).1
    have hn := keyEq_comparable _ _ he
    rw [hc1] at hn
    simp [Value.Kind] at hn
  | slice t a cap xs _ =>
    intro k2 n1 c1 n1' n2 c2 n2' h1 h2 _ _ _ he0
    obtain ⟨he, _, _⟩ := keyEq_raw_of_stored _ _ _ _ _ _ _ _ h1 h2 (by simp [Value.Kind]) he0
    have hc1 := (copyr_kind_type _ _ _ _ h1).1
    have hn := keyEq_comparable _ _ he
    rw [hc1] at hn
    simp [Value.Kind] at hn
  | array t xs ih =>
    intro k2 n1 c1 n1' n2 c2 n2' h1 h2 hle hz1 hz2 he0
    obtain ⟨he, ht1, ht2⟩ := keyEq_raw_of_stored _ _ _ _ _ _ _ _ h1 h2 (by simp [Value.Kind]) he0
    have hkt := keyEq_kind_type _ _ he
    have hc1 := And.intro (copyr_kind_type _ _ _ _ h1).1 ht1
    have hc2 := And.intro (copyr_kind_type _ _ _ _ h2).1 ht2
    obtain ⟨ys, rfl⟩ := eq_array_of_kind k2 t
      (by rw [← hc2.1, ← hkt.1, hc1.1]; rfl) (by rw [← hc2.2, ← hkt.2, hc1.2]; rfl)
    rw [copyr_array] at h1 h2
    by_cases ht : isTime t = true
    · rw [if_pos ht] at h1 h2; cases h1; cases h2; exact he
    · rw [if_neg ht] at h1 h2
      have ht' : isTime t = false := by simpa using ht
      obtain ⟨cs1, hcs1, hall1⟩ := copyArray_spec t xs n1 (c1, n1') h1
      obtain ⟨cs2, hcs2, hall2⟩ := copyArray_spec t ys n2 (c2, n2') h2
      simp only at hcs1 hcs2 hall1 hall2; subst hcs1; subst hcs2
      simp only [unexportedZero, ht', Bool.false_or, unexportedZeroElems_iff] at hz1 hz2
      simp only [keyEq, beq_self_eq_true, Bool.true_and, keyEqElems_iff] at he ⊢
      refine forall2_through hall1 he hall2 ?_
      rintro x hx y hy cx cy ⟨m1, m1', c01, _, _, hm1, rfl⟩ ⟨m2, m2', c02, _, _, hm2, rfl⟩ hq
      exact ih x hx y _ _ _ _ _ _ hm1 hm2 (by omega) (hz1 x hx) (hz2 y hy) (Or.inr hq)
  | mapNil t =>
    intro k2 n1 c1 n1' n2 c2 n2' h1 h2 _ _ _ he0
    obtain ⟨he, _, _⟩ := keyEq_raw_of_stored _ _ _ _ _ _ _ _ h1 h2 (by simp [Value.Kind]) he0
    have hc1 := (copyr_kind_type _ _ _ _ h1).1
    have hn := keyEq_comparable _ _ he
    rw [hc1] at hn
    simp [Value.Kind] at hn
  | map t a es _ =>
    intro k2 n1 c1 n1' n2 c2 n2' h1 h2 _ _ _ he0
    obtain ⟨he, _, _⟩ := keyEq_raw_of_stored _ _ _ _ _ _ _ _ h1 h2 (by simp [Value.Kind]) he0
    have hc1 := (copyr_kind_type _ _ _ _ h1).1
    have hn := keyEq_comparable _ _ he
    rw [hc1] at hn
    simp [Value.Kind] at hn
  | struct t fs ih =>
    intro k2 n1 c1 n1' n2 c2 n2' h1 h2 hle hz1 hz2 he0
    obtain ⟨he, ht1, ht2⟩ := keyEq_raw_of_stored _ _ _ _ _ _ _ _ h1 h2 (by simp [Value.Kind]) he0
    have hkt := keyEq_kind_type _ _ he
    have hc1 := And.intro (copyr_kind_type _ _ _ _ h1).1 ht1
    have hc2 := And.intro (copyr_kind_type _ _ _ _ h2).1 ht2
    obtain ⟨gs, rfl⟩ := eq_struct_of_kind k2 t
      (by rw [← hc2.1, ← hkt.1, hc1.1]; rfl) (by rw [← hc2.2, ← hkt.2, hc1.2]; rfl)
    rw [copyr_struct] at h1 h2
    by_cases ht : isTime t = true
    · rw [if_pos ht] at h1 h2; cases h1; cases h2; exact he
    · rw [if_neg ht] at h1 h2
      have ht' : isTime t = false := by simpa using ht
      obtain ⟨cs1, hcs1, hall1⟩ := copyStruct_spec t fs n1 (c1, n1') h1
      obtain ⟨cs2, hcs2, hall2⟩ := copyStruct_spec t gs n2 (c2, n2') h2
      simp only at hcs1 hcs2 hall1 hall2; subst hcs1; subst hcs2
      simp only [unexportedZero, ht', Bool.false_or, unexportedZeroFields_iff] at hz1 hz2
      simp only [keyEq, beq_self_eq_true, Bool.true_and, keyEqFields_iff] at he ⊢
      refine forall2_through hall1 he hall2 ?_
      rintro ⟨f, x⟩ hx ⟨g, y⟩ hy ⟨f', cx⟩ ⟨g', cy⟩ ⟨hf, hrx⟩ ⟨hg, hry⟩ ⟨hfg, hq⟩
      simp only at hf hg hfg hq hrx hry ⊢
      subst hf; subst hg; subst hfg
      refine ⟨rfl, ?_⟩
      have hzx := hz1 _ hx
      have hzy := hz2 _ hy
      simp only at hzx hzy
      -- a field that is not copied is zero
      have skipped : ∀ (f : Field) (v : Value), (f.exported = true ∨ v.IsZero = true) →
          ¬ (!v.IsZero && f.CanInterface) = true → v.IsZero = true := by
        intro f v h1 h2
        cases hv : v.IsZero with
        | true => rfl
        | false =>
          rcases h1 with h1 | h1
          · simp [Field.CanInterface, hv, h1] at h2
          · rw [hv] at h1; cases h1
      by_cases hcx : (!x.IsZero && f'.CanInterface) = true
      · rw [if_pos hcx] at hrx
        obtain ⟨m1, m1', c01, _, _, hm1, hs1⟩ := hrx
        have hxnz : x.IsZero = false := by
          simp only [Bool.and_eq_true, Bool.not_eq_true'] at hcx; exact hcx.1
        by_cases hcy : (!y.IsZero && f'.CanInterface) = true
        · rw [if_pos hcy] at hry
          obtain ⟨m2, m2', c02, _, _, hm2, hs2⟩ := hry
          rw [hs1, hs2] at hq
          exact ih _ hx y _ _ _ _ _ _ hm1 hm2 (by omega) hzx.2 hzy.2 (Or.inr hq)
        · rw [if_neg hcy] at hry
          have hy0 := skipped _ y hzy.1 hcy
          have h3 := keyEq_IsZero _ _ hq
          rw [hry, IsZero_zeroOf, hs1, IsZero_assignTo, copyr_IsZero _ _ _ _ hm1 hzx.2, hxnz] at h3
          cases h3
      · rw [if_neg hcx] at hrx
        have hx0 := skipped _ x hzx.1 hcx
        rw [hrx] at hq
        by_cases hcy : (!y.IsZero && f'.CanInterface) = true
        · rw [if_pos hcy] at hry
          obtain ⟨m2, m2', c02, _, _, hm2, hs2⟩ := hry
          have hynz : y.IsZero = false := by
            simp only [Bool.and_eq_true, Bool.not_eq_true'] at hcy; exact hcy.1
          have h3 := keyEq_IsZero _ _ hq
          rw [IsZero_zeroOf, hs2, IsZero_assignTo, copyr_IsZero _ _ _ _ hm2 hzy.2, hynz] at h3
          cases h3
        · rw [if_neg hcy] at hry
          have hy0 := skipped _ y hzy.1 hcy
          rw [hry] at hq
          exact keyEq_zeroOf_right y x hy0 (keyEq_zeroOf_left x _ hx0 hq)

/-! ## Fidelity -/

theorem setMapIndex_of_absent (oc : List (Value × Value)) (k v : Value)
    (h : ∀ kv ∈ oc, keyEq kv.1 k = false) : setMapIndex oc k v = oc ++ [(k, v)] := by
  induction oc with
  | nil => simp [setMapIndex]
  | cons e oc ih =>
    obtain ⟨k0, v0⟩ := e
    have h0 := h (k0, v0) (List.mem_cons_self _ _)
    simp only at h0
    simp only [setMapIndex, h0, Bool.false_eq_true, if_false, List.cons_append]
    rw [ih (fun kv hkv => h kv (List.mem_cons_of_mem _ hkv))]

theorem keysDistinct_cons (k v : Value) (es : List (Value × Value)) :
    keysDistinct ((k, v) :: es) = true
      ↔ (∀ e ∈ es, keyEq k e.1 = false) ∧ keysDistinct es = true := by
  simp [keysDistinct]

/-- On a map whose keys are pairwise different and hide nothing in unexported
fields, the loop of `copyMap` adds one entry for every source entry, in
order: no copied key meets an equal key in the new map. -/
theorem copyMapLoop_distinct (rest : List (Value × Value)) :
    ∀ oc n r, copyMapLoop rest oc n = .ok r →
      (∀ e ∈ rest, unexportedZero e.1 = true) → keysDistinct rest = true →
      (∀ kv ∈ oc, ∃ k0 c0 m m', copyr k0 m = .ok (c0, m') ∧ kv.1 = assignTo k0 c0 ∧ m' ≤ n
        ∧ unexportedZero k0 = true ∧ ∀ e ∈ rest, keyEq k0 e.1 = false) →
      ∃ cs, r.1 = oc ++ cs ∧ List.Forall₂ (EntryCopyIn n r.2) rest cs := by
  induction rest with
  | nil =>
    intro oc n r h _ _ _
    rw [copyMapLoop_nil] at h; cases h
    exact ⟨[], by simp, List.Forall₂.nil⟩
  | cons e rest ih =>
    intro oc n r h hz hd hoc
    obtain ⟨k, v⟩ := e
    obtain ⟨ck, n1, cv, n2, hk, hv, hrest⟩ := (copyMapLoop_cons_ok k v rest oc n r).1 h
    have h1 : n ≤ n1 := copyr_counter k n ck n1 hk
    have h2 : n1 ≤ n2 := copyr_counter v n1 cv n2 hv
    have h3 : n2 ≤ r.2 := copyMapLoop_counter rest
      (fun y _ => ⟨copyr_counter y.1, copyr_counter y.2⟩) _ _ r hrest
    obtain ⟨hdk, hdrest⟩ := (keysDistinct_cons k v rest).1 hd
    have hzk : unexportedZero k = true := hz (k, v) (List.mem_cons_self _ _)
    have habs : ∀ kv ∈ oc, keyEq kv.1 (assignTo k ck) = false := by
      intro kv hkv
      obtain ⟨k0, c0, m, m', hm, hkv0, hle, hz0, hne⟩ := hoc kv hkv
      have hne0 := hne (k, v) (List.mem_cons_self _ _)
      simp only at hne0
      cases hq : keyEq kv.1 (assignTo k ck) with
      | false => rfl
      | true =>
        rw [hkv0] at hq
        have := keyEq_of_copies k0 k m c0 m' n ck n1 hm hk hle hz0 hzk (Or.inr hq)
        rw [this] at hne0; cases hne0
    rw [setMapIndex_of_absent oc _ _ habs] at hrest
    obtain ⟨cs, hcs, hall⟩ := ih _ _ r hrest
      (fun e he => hz e (List.mem_cons_of_mem _ he)) hdrest (by
        intro kv hkv
        rcases List.mem_append.1 hkv with hkv | hkv
        · obtain ⟨k0, c0, m, m', hm, hkv0, hle, hz0, hne⟩ := hoc kv hkv
          exact ⟨k0, c0, m, m', hm, hkv0, by omega, hz0,
            fun e he => hne e (List.mem_cons_of_mem _ he)⟩
        · simp only [List.mem_singleton] at hkv
          subst hkv
          exact ⟨k, ck, n, n1, hk, rfl, h2, hzk, hdk⟩)
    refine ⟨(assignTo k ck, assignTo v cv) :: cs, by rw [hcs]; simp, ?_⟩
    refine List.Forall₂.cons
      ⟨⟨n, n1, ck, Nat.le_refl _, by omega, hk, rfl⟩, ⟨n1, n2, cv, h1, h3, hv, rfl⟩⟩ ?_
    exact hall.imp (fun a b hab =>
      ⟨copyIn_mono hab.1 (by omega) (Nat.le_refl _),
        copyIn_mono hab.2 (by omega) (Nat.le_refl _)⟩)

theorem wellKeyedElems_iff (xs : List Value) :
    wellKeyedElems xs = true ↔ ∀ x ∈ xs, wellKeyed x = true := by
  induction xs with
  | nil => simp [wellKeyedElems]
  | cons x xs ih => simp [wellKeyedElems, ih]

theorem wellKeyedEntries_iff (es : List (Value × Value)) :
    wellKeyedEntries es = true ↔ ∀ kv ∈ es, wellKeyed kv.1 = true ∧ wellKeyed kv.2 = true := by
  induction es with
  | nil => simp [wellKeyedEntries]
  | cons x xs ih => obtain ⟨k, v⟩ := x; simp [wellKeyedEntries, ih, and_assoc]

theorem wellKeyedFields_iff (fs : List (Field × Value)) :
    wellKeyedFields fs = true ↔ ∀ fx ∈ fs, wellKeyed fx.2 = true := by
  induction fs with
  | nil => simp [wellKeyedFields]
  | cons x xs ih => obtain ⟨f, x⟩ := x; simp [wellKeyedFields, ih]

theorem zerosPlainElems_iff (xs : List Value) :
    zerosPlainElems xs = true ↔ ∀ x ∈ xs, zerosPlain x = true := by
  induction xs with
  | nil => simp [zerosPlainElems]
  | cons x xs ih => simp [zerosPlainElems, ih]

theorem zerosPlainEntries_iff (es : List (Value × Value)) :
    zerosPlainEntries es = true
      ↔ ∀ kv ∈ es, zerosPlain kv.1 = true ∧ zerosPlain kv.2 = true := by
  induction es with
  | nil => simp [zerosPlainEntries]
  | cons x xs ih => obtain ⟨k, v⟩ := x; simp [zerosPlainEntries, ih, and_assoc]

theorem zerosPlainFields_iff (fs : List (Field × Value)) :
    zerosPlainFields fs = true
      ↔ ∀ fx ∈ fs, (fx.2.IsZero = true → deepEqual (zeroOf fx.2) fx.2 = true)
          ∧ zerosPlain fx.2 = true := by
  induction fs with
  | nil => simp [zerosPlainFields]
  | cons x xs ih =>
    obtain ⟨f, x⟩ := x
    simp only [zerosPlainFields, Bool.and_eq_true, Bool.or_eq_true, Bool.not_eq_true', ih,
      List.mem_cons, forall_eq_or_imp, and_assoc]
    constructor
    · rintro ⟨h1, h2, h3⟩
      refine ⟨fun hz => ?_, h2, h3⟩
      rcases h1 with h1 | h1
      · rw [hz] at h1; cases h1
      · exact h1
    · rintro ⟨h1, h2, h3⟩
      refine ⟨?_, h2, h3⟩
      cases hz : x.IsZero with
      | false => exact Or.inl rfl
      | true => exact Or.inr (h1 hz)

theorem ifacePtrsPlainElems_iff (xs : List Value) :
    ifacePtrsPlainElems xs = true ↔ ∀ x ∈ xs, ifacePtrsPlain x = true := by
  induction xs with
  | nil => simp [ifacePtrsPlainElems]
  | cons x xs ih => simp [ifacePtrsPlainElems, ih]

theorem ifacePtrsPlainEntries_iff (es : List (Value × Value)) :
    ifacePtrsPlainEntries es = true
      ↔ ∀ kv ∈ es, ifacePtrsPlain kv.1 = true ∧ ifacePtrsPlain kv.2 = true := by
  induction es with
  | nil => simp [ifacePtrsPlainEntries]
  | cons x xs ih => obtain ⟨k, v⟩ := x; simp [ifacePtrsPlainEntries, ih, and_assoc]

theorem ifacePtrsPlainFields_iff (fs : List (Field × Value)) :
    ifacePtrsPlainFields fs = true ↔ ∀ fx ∈ fs, ifacePtrsPlain fx.2 = true := by
  induction fs with
  | nil => simp [ifacePtrsPlainFields]
  | cons x xs ih => obtain ⟨f, x⟩ := x; simp [ifacePtrsPlainFields, ih]

/-- Where no unexported field hides a value, every field that is zero is the
zero value bit for bit, and the keys of every map are pairwise different,
the value `copyr` returns is, in a slot of the type of the source, deeply
equal to the source; so is the value itself where the pointers that
interfaces hold are of unnamed pointer types. -/
theorem copyr_deepEqual (v : Value) : ∀ n c n', copyr v n = .ok (c, n') →
    unexportedZero v = true → wellKeyed v = true → zerosPlain v = true →
    ifacePtrsPlain v = true → deepEqual (assignTo v c) v = true := by
  induction v using Value.induct with
  | invalid => intro n c n' h; rw [copyr_invalid] at h; cases h
  | basic k t d =>
    intro n c n' h _ _ _ _; rw [copyr_basic] at h
    split at h
    · cases h; exact deepEqual_refl _
    · split at h
      · cases h
      · cases h; exact deepEqual_refl _
  | func t c => intro n c n' h _ _ _ _; rw [copyr_func] at h; cases h; exact deepEqual_refl _
  | chan t c => intro n c n' h _ _ _ _; rw [copyr_chan] at h; cases h; exact deepEqual_refl _
  | ptrNil t =>
    intro n c n' h _ _ _ _; rw [copyr_ptr, copyPointer_nil] at h
    split at h <;> cases h <;> exact deepEqual_refl _
  | ptr t a x ih =>
    intro n c n' h hz hk hp hi; rw [copyr_ptr] at h
    by_cases ht : isTime t = true
    · rw [if_pos ht] at h; cases h; exact deepEqual_refl _
    · rw [if_neg ht] at h
      have ht' : isTime t = false := by simpa using ht
      obtain ⟨cx, hx, hc⟩ := (copyPointer_ok t a x n (c, n')).1 h
      simp only at hc; subst hc
      simp only [unexportedZero, wellKeyed, zerosPlain, ifacePtrsPlain, ht',
        Bool.false_or] at hz hk hp hi
      show deepEqual (.ptr t (some (n, assignTo x cx))) (.ptr t (some (a, x))) = true
      simp only [deepEqual, beq_self_eq_true, Bool.true_and]
      exact ih _ _ _ hx hz hk hp hi
  | ifaceNil t =>
    intro n c n' h _ _ _ _; rw [copyr_iface, copyInterface_nil] at h
    split at h <;> cases h <;> exact deepEqual_refl _
  | iface t x ih =>
    intro n c n' h hz hk hp hi; rw [copyr_iface] at h
    by_cases ht : isTime t = true
    · rw [if_pos ht] at h; cases h; exact deepEqual_refl _
    · rw [if_neg ht] at h
      have ht' : isTime t = false := by simpa using ht
      obtain ⟨cx, hx, hc⟩ := (copyInterface_ok t x n (c, n')).1 h
      simp only at hc; subst hc
      simp only [unexportedZero, wellKeyed, zerosPlain, ifacePtrsPlain, ht',
        Bool.false_or, Bool.and_eq_true] at hz hk hp hi
      have := ih _ _ _ hx hz hk hp hi.2
      rw [assignTo_of_plainPtr x _ cx _ hx hi.1] at this
      simp [assignTo, deepEqual, this]
  | sliceNil t =>
    intro n c n' h _ _ _ _; rw [copyr_slice, copySlice_nil] at h
    split at h <;> cases h <;> exact deepEqual_refl _
  | slice t a cap xs ih =>
    intro n c n' h hz hk hp hi; rw [copyr_slice] at h
    by_cases ht : isTime t = true
    · rw [if_pos ht] at h; cases h; exact deepEqual_refl _
    · rw [if_neg ht] at h
      have ht' : isTime t = false := by simpa using ht
      obtain ⟨a2, cap2, cs, hc, hall, _⟩ := copySlice_spec t a cap xs n (c, n') h
      simp only at hc; subst hc
      simp only [unexportedZero, wellKeyed, zerosPlain, ifacePtrsPlain, ht', Bool.false_or,
        unexportedZeroElems_iff, wellKeyedElems_iff, zerosPlainElems_iff,
        ifacePtrsPlainElems_iff] at hz hk hp hi
      simp only [assignTo, deepEqual, beq_self_eq_true, Bool.true_and]
      refine deepEqualElems_of_forall2 xs cs (forall2_imp_mem hall ?_)
      rintro x hx y _ ⟨m, m', c0, _, _, hm, rfl⟩
      exact ih x hx _ _ _ hm (hz x hx) (hk x hx) (hp x hx) (hi x hx)
  | array t xs ih =>
    intro n c n' h hz hk hp hi; rw [copyr_array] at h
    by_cases ht : isTime t = true
    · rw [if_pos ht] at h; cases h; exact deepEqual_refl _
    · rw [if_neg ht] at h
      have ht' : isTime t = false := by simpa using ht
      obtain ⟨cs, hc, hall⟩ := copyArray_spec t xs n (c, n') h
      simp only at hc; subst hc
      simp only [unexportedZero, wellKeyed, zerosPlain, ifacePtrsPlain, ht', Bool.false_or,
        unexportedZeroElems_iff, wellKeyedElems_iff, zerosPlainElems_iff,
        ifacePtrsPlainElems_iff] at hz hk hp hi
      simp only [assignTo, deepEqual, beq_self_eq_true, Bool.true_and]
      refine deepEqualElems_of_forall2 xs cs (forall2_imp_mem hall ?_)
      rintro x hx y _ ⟨m, m', c0, _, _, hm, rfl⟩
      exact ih x hx _ _ _ hm (hz x hx) (hk x hx) (hp x hx) (hi x hx)
  | mapNil t =>
    intro n c n' h _ _ _ _; rw [copyr_map, copyMap_nil] at h
    split at h <;> cases h <;> exact deepEqual_refl _
  | map t a es ih =>
    intro n c n' h hz hk hp hi; rw [copyr_map] at h
    by_cases ht : isTime t = true
    · rw [if_pos ht] at h; cases h; exact deepEqual_refl _
    · rw [if_neg ht] at h
      have ht' : isTime t = false := by simpa using ht
      obtain ⟨oc, hoc, hc⟩ := (copyMap_ok t a es n (c, n')).1 h
      simp only at hc hoc; subst hc
      simp only [unexportedZero, wellKeyed, zerosPlain, ifacePtrsPlain, ht', Bool.false_or,
        unexportedZeroEntries_iff, wellKeyedEntries_iff, zerosPlainEntries_iff,
        ifacePtrsPlainEntries_iff, Bool.and_eq_true] at hz hk hp hi
      obtain ⟨cs, hcs, hall⟩ := copyMapLoop_distinct es [] (n + 1) (oc, n') hoc
        (fun e he => (hz e he).1) hk.1 (by simp)
      simp only [List.nil_append] at hcs hall; subst hcs
      simp only [assignTo, deepEqual, beq_self_eq_true, Bool.true_and]
      refine deepEqualEntries_of_forall2 es oc (forall2_imp_mem hall ?_)
      rintro e he ce _ ⟨⟨m1, m1', c1, _, _, hm1, hs1⟩, ⟨m2, m2', c2, _, _, hm2, hs2⟩⟩
      rw [hs1, hs2]
      exact ⟨(ih e he).1 _ _ _ hm1 (hz e he).1 (hk.2 e he).1 (hp e he).1 (hi e he).1,
        (ih e he).2 _ _ _ hm2 (hz e he).2 (hk.2 e he).2 (hp e he).2 (hi e he).2⟩
  | struct t fs ih =>
    intro n c n' h hz hk hp hi; rw [copyr_struct] at h
    by_cases ht : isTime t = true
    · rw [if_pos ht] at h; cases h; exact deepEqual_refl _
    · rw [if_neg ht] at h
      have ht' : isTime t = false := by simpa using ht
      obtain ⟨cs, hc, hall⟩ := copyStruct_spec t fs n (c, n') h
      simp only at hc; subst hc
      simp only [unexportedZero, wellKeyed, zerosPlain, ifacePtrsPlain, ht', Bool.false_or,
        unexportedZeroFields_iff, wellKeyedFields_iff, zerosPlainFields_iff,
        ifacePtrsPlainFields_iff] at hz hk hp hi
      simp only [assignTo, deepEqual, beq_self_eq_true, Bool.true_and]
      refine deepEqualFields_of_forall2 fs cs (forall2_imp_mem hall ?_)
      rintro fx hfx fc _ ⟨hf, hr⟩
      refine ⟨hf, ?_⟩
      by_cases hcx : (!fx.2.IsZero && fx.1.CanInterface) = true
      · rw [if_pos hcx] at hr
        obtain ⟨m, m', c0, _, _, hm, hs⟩ := hr
        rw [hs]
        exact ih fx hfx _ _ _ hm (hz fx hfx).2 (hk fx hfx) (hp fx hfx).2 (hi fx hfx)
      · rw [if_neg hcx] at hr
        have hx0 : fx.2.IsZero = true := by
          cases hv : fx.2.IsZero with
          | true => rfl
          | false =>
            rcases (hz fx hfx).1 with h1 | h1
            · simp [Field.CanInterface, hv, h1] at hcx
            · rw [hv] at h1; cases h1
        rw [hr]
        exact (hp fx hfx).1 hx0

/-- The other direction: under the same conditions the source is deeply equal
to the value `copyr` returns. -/
theorem copyr_deepEqual_rev (v : Value) : ∀ n c n', copyr v n = .ok (c, n') →
    unexportedZero v = true → wellKeyed v = true → zerosPlain v = true →
    ifacePtrsPlain v = true → deepEqual v (assignTo v c) = true := by
  induction v using Value.induct with
  | invalid => intro n c n' h; rw [copyr_invalid] at h; cases h
  | basic k t d =>
    intro n c n' h _ _ _ _; rw [copyr_basic] at h
    split at h
    · cases h; exact deepEqual_refl _
    · split at h
      · cases h
      · cases h; exact deepEqual_refl _
  | func t c => intro n c n' h _ _ _ _; rw [copyr_func] at h; cases h; exact deepEqual_refl _
  | chan t c => intro n c n' h _ _ _ _; rw [copyr_chan] at h; cases h; exact deepEqual_refl _
  | ptrNil t =>
    intro n c n' h _ _ _ _; rw [copyr_ptr, copyPointer_nil] at h
    split at h <;> cases h <;> exact deepEqual_refl _
  | ptr t a x ih =>
    intro n c n' h hz hk hp hi; rw [copyr_ptr] at h
    by_cases ht : isTime t = true
    · rw [if_pos ht] at h; cases h; exact deepEqual_refl _
    · rw [if_neg ht] at h
      have ht' : isTime t = false := by simpa using ht
      obtain ⟨cx, hx, hc⟩ := (copyPointer_ok t a x n (c, n')).1 h
      simp only at hc; subst hc
      simp only [unexportedZero, wellKeyed, zerosPlain, ifacePtrsPlain, ht',
        Bool.false_or] at hz hk hp hi
      show deepEqual (.ptr t (some (a, x))) (.ptr t (some (n, assignTo x cx))) = true
      simp only [deepEqual, beq_self_eq_true, Bool.true_and]
      exact ih _ _ _ hx hz hk hp hi
  | ifaceNil t =>
    intro n c n' h _ _ _ _; rw [copyr_iface, copyInterface_nil] at h
    split at h <;> cases h <;> exact deepEqual_refl _
  | iface t x ih =>
    intro n c n' h hz hk hp hi; rw [copyr_iface] at h
    by_cases ht : isTime t = true
    · rw [if_pos ht] at h; cases h; exact deepEqual_refl _
    · rw [if_neg ht] at h
      have ht' : isTime t = false := by simpa using ht
      obtain ⟨cx, hx, hc⟩ := (copyInterface_ok t x n (c, n')).1 h
      simp only at hc; subst hc
      simp only [unexportedZero, wellKeyed, zerosPlain, ifacePtrsPlain, ht',
        Bool.false_or, Bool.and_eq_true] at hz hk hp hi
      have := ih _ _ _ hx hz hk hp hi.2
      rw [assignTo_of_plainPtr x _ cx _ hx hi.1] at this
      simp [assignTo, deepEqual, this]
  | sliceNil t =>
    intro n c n' h _ _ _ _; rw [copyr_slice, copySlice_nil] at h
    split at h <;> cases h <;> exact deepEqual_refl _
  | slice t a cap xs ih =>
    intro n c n' h hz hk hp hi; rw [copyr_slice] at h
    by_cases ht : isTime t = true
    · rw [if_pos ht] at h; cases h; exact deepEqual_refl _
    · rw [if_neg ht] at h
      have ht' : isTime t = false := by simpa using ht
      obtain ⟨a2, cap2, cs, hc, hall, _⟩ := copySlice_spec t a cap xs n (c, n') h
      simp only at hc; subst hc
      simp only [unexportedZero, wellKeyed, zerosPlain, ifacePtrsPlain, ht', Bool.false_or,
        unexportedZeroElems_iff, wellKeyedElems_iff, zerosPlainElems_iff,
        ifacePtrsPlainElems_iff] at hz hk hp hi
      simp only [assignTo, deepEqual, beq_self_eq_true, Bool.true_and]
      refine deepEqualElems_of_forall2 cs xs
        (forall2_swap (R := fun x c => deepEqual x c = true) (forall2_imp_mem hall ?_))
      rintro x hx y _ ⟨m, m', c0, _, _, hm, rfl⟩
      exact ih x hx _ _ _ hm (hz x hx) (hk x hx) (hp x hx) (hi x hx)
  | array t xs ih =>
    intro n c n' h hz hk hp hi; rw [copyr_array] at h
    by_cases ht : isTime t = true
    · rw [if_pos ht] at h; cases h; exact deepEqual_refl _
    · rw [if_neg ht] at h
      have ht' : isTime t = false := by simpa using ht
      obtain ⟨cs, hc, hall⟩ := copyArray_spec t xs n (c, n') h
      simp only at hc; subst hc
      simp only [unexportedZero, wellKeyed, zerosPlain, ifacePtrsPlain, ht', Bool.false_or,
        unexportedZeroElems_iff, wellKeyedElems_iff, zerosPlainElems_iff,
        ifacePtrsPlainElems_iff] at hz hk hp hi
      simp only [assignTo, deepEqual, beq_self_eq_true, Bool.true_and]
      refine deepEqualElems_of_forall2 cs xs
        (forall2_swap (R := fun x c => deepEqual x c = true) (forall2_imp_mem hall ?_))
      rintro x hx y _ ⟨m, m', c0, _, _, hm, rfl⟩
      exact ih x hx _ _ _ hm (hz x hx) (hk x hx) (hp x hx) (hi x hx)
  | mapNil t =>
    intro n c n' h _ _ _ _; rw [copyr_map, copyMap_nil] at h
    split at h <;> cases h <;> exact deepEqual_refl _
  | map t a es ih =>
    intro n c n' h hz hk hp hi; rw [copyr_map] at h
    by_cases ht : isTime t = true
    · rw [if_pos ht] at h; cases h; exact deepEqual_refl _
    · rw [if_neg ht] at h
      have ht' : isTime t = false := by simpa using ht
      obtain ⟨oc, hoc, hc⟩ := (copyMap_ok t a es n (c, n')).1 h
      simp only at hc hoc; subst hc
      simp only [unexportedZero, wellKeyed, zerosPlain, ifacePtrsPlain, ht', Bool.false_or,
        unexportedZeroEntries_iff, wellKeyedEntries_iff, zerosPlainEntries_iff,
        ifacePtrsPlainEntries_iff, Bool.and_eq_true] at hz hk hp hi
      obtain ⟨cs, hcs, hall⟩ := copyMapLoop_distinct es [] (n + 1) (oc, n') hoc
        (fun e he => (hz e he).1) hk.1 (by simp)
      simp only [List.nil_append] at hcs hall; subst hcs
      simp only [assignTo, deepEqual, beq_self_eq_true, Bool.true_and]
      refine deepEqualEntries_of_forall2 oc es
        (forall2_swap (R := fun e c => deepEqual e.1 c.1 = true ∧ deepEqual e.2 c.2 = true)
          (forall2_imp_mem hall ?_))
      rintro e he ce _ ⟨⟨m1, m1', c1, _, _, hm1, hs1⟩, ⟨m2, m2', c2, _, _, hm2, hs2⟩⟩
      rw [hs1, hs2]
      exact ⟨(ih e he).1 _ _ _ hm1 (hz e he).1 (hk.2 e he).1 (hp e he).1 (hi e he).1,
        (ih e he).2 _ _ _ hm2 (hz e he).2 (hk.2 e he).2 (hp e he).2 (hi e he).2⟩
  | struct t fs ih =>
    intro n c n' h hz hk hp hi; rw [copyr_struct] at h
    by_cases ht : isTime t = true
    · rw [if_pos ht] at h; cases h; exact deepEqual_refl _
    · rw [if_neg ht] at h
      have ht' : isTime t = false := by simpa using ht
      obtain ⟨cs, hc, hall⟩ := copyStruct_spec t fs n (c, n') h
      simp only at hc; subst hc
      simp only [unexportedZero, wellKeyed, zerosPlain, ifacePtrsPlain, ht', Bool.false_or,
        unexportedZeroFields_iff, wellKeyedFields_iff, zerosPlainFields_iff,
        ifacePtrsPlainFields_iff] at hz hk hp hi
      simp only [assignTo, deepEqual, beq_self_eq_true, Bool.true_and]
      refine deepEqualFields_of_forall2 cs fs
        (forall2_swap (R := fun fx fc => fx.1 = fc.1 ∧ deepEqual fx.2 fc.2 = true)
          (forall2_imp_mem hall ?_))
      rintro fx hfx fc _ ⟨hf, hr⟩
      refine ⟨hf.symm, ?_⟩
      by_cases hcx : (!fx.2.IsZero && fx.1.CanInterface) = true
      · rw [if_pos hcx] at hr
        obtain ⟨m, m', c0, _, _, hm, hs⟩ := hr
        rw [hs]
        exact ih fx hfx _ _ _ hm (hz fx hfx).2 (hk fx hfx) (hp fx hfx).2 (hi fx hfx)
      · rw [if_neg hcx] at hr
        have hx0 : fx.2.IsZero = true := by
          cases hv : fx.2.IsZero with
          | true => rfl
          | false =>
            rcases (hz fx hfx).1 with h1 | h1
            · simp [Field.CanInterface, hv, h1] at hcx
            · rw [hv] at h1; cases h1
        rw [hr, zeroOf_eq_of_deepEqual _ ((hp fx hfx).1 hx0)]
        exact deepEqual_refl _

/-- C1, as stated, fails, in two ways.  The function `copyPointer` builds its
result with `reflect.New(ov.Type().Elem())`, of the unnamed type `*int`, so
the copy of a pointer of the defined type `type IntPtr *int` is not of the
type of its source; and `copyStruct` leaves at `+0.0` an exported field that
holds `-0.0`, which `IsZero` takes for zero.  Both values are supported and
have no unexported field. -/
theorem Copy_fidelity_fails :
    (supported (vNamedPtr 0) = true ∧ unexportedZero (vNamedPtr 0) = true
      ∧ Copy (some (vNamedPtr 0)) 10 = .ok ((some (.ptr tIntPtr (some (10, vInt 7))), none), 11)
      ∧ deepEqual (.ptr tIntPtr (some (10, vInt 7))) (vNamedPtr 0) = false)
    ∧ (supported vNegZero = true ∧ unexportedZero vNegZero = true
      ∧ Copy (some vNegZero) 10
          = .ok ((some (.struct tF [(⟨"X", true⟩, .basic .float64 tFloat64 (.float 0))]), none), 11)
      ∧ deepEqual (.struct tF [(⟨"X", true⟩, .basic .float64 tFloat64 (.float 0))]) vNegZero
          = false)
    ∧ ¬ (∀ (v : Value) (n : Nat) (c : Value) (n' : Nat), supported v = true →
          unexportedZero v = true → copyr v n = .ok (c, n') → deepEqual c v = true) := by
  refine ⟨⟨rfl, rfl, rfl, rfl⟩, ⟨rfl, rfl, rfl, rfl⟩, fun h => ?_⟩
  have h1 := h (vNamedPtr 0) 10 (.ptr tIntPtr (some (10, vInt 7))) 11 rfl rfl rfl
  exact absurd h1 (by decide)

/-- C1, where it holds: on a supported value (the traversal meets no invalid
value and no `uintptr` or `unsafe.Pointer`) in which no unexported struct
field holds a value that is not zero, every struct field that `IsZero` takes
for zero is the zero value bit for bit (no `-0.0`), every pointer that is not
nil and sits at the top or in an interface is of an unnamed pointer type, and
the keys of every map are pairwise different, as the keys of a Go map are,
and hold no pointer to a value of size zero, `copyr` returns, and what it
returns is deeply equal to the source, and the source to it; `Copy` returns
it with a nil error. -/
theorem Copy_fidelity (v : Value) (n : Nat) (hs : supported v = true)
    (hz : unexportedZero v = true) (hp : zerosPlain v = true)
    (ht : plainPtr v = true) (hi : ifacePtrsPlain v = true)
    (hk : wellKeyed v = true) (_hsz : sizedKeys v = true) :
    ∃ c n', copyr v n = .ok (c, n') ∧ deepEqual c v = true ∧ deepEqual v c = true
      ∧ (v.Kind ≠ .interface → Copy (some v) n = .ok ((some c, none), n')) := by
  obtain ⟨c, n', h⟩ := copyr_returns v hs n
  have hd := copyr_deepEqual v n c n' h hz hk hp hi
  have hd2 := copyr_deepEqual_rev v n c n' h hz hk hp hi
  rw [assignTo_of_plainPtr v n c n' h ht] at hd hd2
  refine ⟨c, n', h, hd, hd2, fun hi => ?_⟩
  have hkind := (copyr_kind_type v n c n' h).1
  unfold Copy ValueOf
  simp only [h]
  cases c with
  | invalid =>
    cases v with
    | invalid => simp [supported] at hs
    | basic k _ _ => cases k <;> simp [Value.Kind, Basic.kind] at hkind
    | _ => simp [Value.Kind] at hkind
  | iface t e => exact absurd hkind.symm hi
  | _ => rfl

theorem Copy_fidelity_witness :
    (supported vComplex = true ∧ unexportedZero vComplex = true ∧ zerosPlain vComplex = true
      ∧ plainPtr vComplex = true ∧ ifacePtrsPlain vComplex = true ∧ wellKeyed vComplex = true
      ∧ sizedKeys vComplex = true)
    ∧ ∃ c n', copyr vComplex 10 = .ok (c, n') ∧ deepEqual c vComplex = true
      ∧ deepEqual vComplex c = true
      ∧ (vComplex.Kind ≠ .interface → Copy (some vComplex) 10 = .ok ((some c, none), n')) :=
  ⟨⟨rfl, rfl, rfl, rfl, rfl, rfl, rfl⟩, Copy_fidelity vComplex 10 rfl rfl rfl rfl rfl rfl rfl⟩

/-! ## Capacity of a copied slice -/

/-- C20: for a slice that is not nil, whose length does not exceed its
capacity, the copy `copySlice` returns has the capacity of the source and
the backing array `MakeSlice` allocated: none of the appends reallocates.
On supported elements `copySlice` returns. -/
theorem copySlice_capacity (t : Ty) (a cap : Nat) (xs : List Value) (n : Nat)
    (hle : xs.length ≤ cap) :
    (∀ c n', copySlice t (some (a, cap, xs)) n = .ok (c, n') →
        ∃ cs, c = .slice t (some (n, cap, cs)) ∧ cs.length = xs.length)
    ∧ (supportedElems xs = true → ∃ c n', copySlice t (some (a, cap, xs)) n = .ok (c, n')) := by
  constructor
  · intro c n' h
    obtain ⟨oc, hoc, hr⟩ := (copySlice_ok t a cap xs n (c, n')).1 h
    obtain ⟨cs, hcs, hall, _, hcap⟩ := copySliceLoop_spec xs _ _ _ hoc
    simp only [List.nil_append, List.length_nil, Nat.zero_add] at hcs hcap
    obtain ⟨a2, cap2, es⟩ := oc
    simp only at hcs hcap hr
    obtain ⟨rfl, rfl⟩ := hcap hle
    subst hcs
    exact ⟨es, hr, hall.length_eq.symm⟩
  · intro hs
    obtain ⟨r, hr⟩ := copySliceLoop_returns xs
      (fun x hx => copyr_returns x ((supportedElems_iff xs).1 hs x hx)) (n, cap, []) (n + 1)
    exact ⟨_, _, (copySlice_ok t a cap xs n (_, r.2)).2 ⟨r.1, hr, rfl⟩⟩

theorem copySlice_capacity_witness :
    [vString "bar", vString "baz"].length ≤ 5
    ∧ (∀ c n', copySlice tStrings (some (3, 5, [vString "bar", vString "baz"])) 10 = .ok (c, n') →
        ∃ cs, c = .slice tStrings (some (10, 5, cs))
          ∧ cs.length = [vString "bar", vString "baz"].length)
    ∧ (supportedElems [vString "bar", vString "baz"] = true →
        ∃ c n', copySlice tStrings (some (3, 5, [vString "bar", vString "baz"])) 10
          = .ok (c, n')) :=
  ⟨by decide, copySlice_capacity tStrings 3 5 [vString "bar", vString "baz"] 10 (by decide)⟩

/-! ## Pointer to interface to pointer -/

/-- C15: the copy of a pointer to an interface that holds a pointer to a
supported value `v` is a pointer, not nil, to an interface, not nil, that
holds a pointer, not nil, to the copy of `v`: each of the three layers is
rebuilt in a newly allocated cell around what `copyr` returns for `v`.  The
two pointers are of the unnamed pointer types `reflect.New` gives, the
interface is of the type of its source, and the innermost cell, which is of
the type of `v`, holds what `copyr` returned for `v` as a value of that type:
the returned value itself, unless `v` is a pointer that is not nil, of a
defined pointer type. -/
theorem copyr_pointer_interface_pointer (v : Value) (n : Nat) (tp ti tq : Ty) (a b : Nat)
    (hp : isTime tp = false) (hi : isTime ti = false) (hq : isTime tq = false)
    (hs : supported v = true) :
    ∃ c n', copyr v (n + 3) = .ok (c, n')
      ∧ copyr (.ptr tp (some (a, .iface ti (some (.ptr tq (some (b, v))))))) n
        = .ok (.ptr (ptrTo ti) (some (n, .iface ti (some
            (.ptr (ptrTo (elemType v)) (some (n + 2, assignTo v c)))))), n')
      ∧ (plainPtr v = true → assignTo v c = c) := by
  obtain ⟨c, n', hc⟩ := copyr_returns v hs (n + 3)
  refine ⟨c, n', hc, ?_, assignTo_of_plainPtr v _ c _ hc⟩
  have h1 : copyr (.ptr tq (some (b, v))) (n + 2)
      = .ok (.ptr (ptrTo (elemType v)) (some (n + 2, assignTo v c)), n') := by
    rw [copyr_ptr, hq]
    simp only [Bool.false_eq_true, if_false]
    exact (copyPointer_ok tq b v (n + 2) (_, n')).2 ⟨c, hc, rfl⟩
  have h2 : copyr (.iface ti (some (.ptr tq (some (b, v))))) (n + 1)
      = .ok (.iface ti (some (.ptr (ptrTo (elemType v)) (some (n + 2, assignTo v c)))), n') := by
    rw [copyr_iface, hi]
    simp only [Bool.false_eq_true, if_false]
    exact (copyInterface_ok ti _ (n + 1) (_, n')).2 ⟨_, h1, rfl⟩
  rw [copyr_ptr, hp]
  simp only [Bool.false_eq_true, if_false]
  exact (copyPointer_ok tp a _ n (_, n')).2 ⟨_, h2, rfl⟩

theorem copyr_pointer_interface_pointer_witness :
    (isTime tAnyPtr = false ∧ isTime tAny = false ∧ isTime tStringPtr = false
      ∧ supported (vString "hi") = true)
    ∧ ∃ c n', copyr (vString "hi") (2 + 3) = .ok (c, n')
      ∧ copyr (.ptr tAnyPtr (some (1, .iface tAny (some (.ptr tStringPtr
          (some (0, vString "hi"))))))) 2
        = .ok (.ptr (ptrTo tAny) (some (2, .iface tAny (some
            (.ptr (ptrTo (elemType (vString "hi")))
              (some (2 + 2, assignTo (vString "hi") c)))))), n')
      ∧ (plainPtr (vString "hi") = true → assignTo (vString "hi") c = c) :=
  ⟨⟨rfl, rfl, rfl, rfl⟩,
    copyr_pointer_interface_pointer (vString "hi") 2 tAnyPtr tAny tStringPtr 1 0 rfl rfl rfl rfl⟩

/-! ## The elements of a copied array and of a copied slice -/

/-- While the slice still views the array and has room, the loop of
`copyArray` over `l1 ++ l2` is the loop over `l1` followed by the loop over
`l2`, the view having grown by the length of `l1`. -/
theorem copyArrayLoop_append (l1 l2 : List Value) :
    ∀ array (len cap : Nat) n r, len + l1.length ≤ cap →
      copyArrayLoop (l1 ++ l2) array ⟨true, len, cap⟩ n = .ok r →
      ∃ a1 n1, copyArrayLoop l1 array ⟨true, len, cap⟩ n = .ok (a1, n1)
        ∧ copyArrayLoop l2 a1 ⟨true, len + l1.length, cap⟩ n1 = .ok r := by
  induction l1 with
  | nil =>
    intro array len cap n r _ h
    exact ⟨array, n, copyArrayLoop_nil _ _ n, by simpa using h⟩
  | cons x l1 ih =>
    intro array len cap n r hle h
    rw [List.cons_append] at h
    obtain ⟨c, m, hx, hrest⟩ := (copyArrayLoop_cons_ok x (l1 ++ l2) _ _ n r).1 h
    simp only [List.length_cons] at hle
    have hlt : len < cap := by omega
    have hv : appendView array ⟨true, len, cap⟩ (assignTo x c) m
        = ((array.set len (assignTo x c), ⟨true, len + 1, cap⟩), m) := by
      unfold appendView; simp [hlt]
    rw [hv] at hrest
    obtain ⟨a1, n1, h1, h2⟩ := ih _ _ _ _ _ (by omega) hrest
    refine ⟨a1, n1, ?_, ?_⟩
    · refine (copyArrayLoop_cons_ok x l1 _ _ n (a1, n1)).2 ⟨c, m, hx, ?_⟩
      rw [hv]; exact h1
    · simpa [Nat.add_assoc, Nat.add_comm 1] using h2

/-- The loop of `copyArray` on an array whose elements from `done.length` on
are still zero, with room in the view: the elements it runs over receive
their copies, the elements before and after them are left alone. -/
theorem copyArrayLoop_frame (rest : List Value) :
    ∀ (done zs suf : List Value) (cap : Nat) n r, zs.length = rest.length →
      done.length + rest.length ≤ cap →
      copyArrayLoop rest (done ++ zs ++ suf) ⟨true, done.length, cap⟩ n = .ok r →
      ∃ cs, r.1 = done ++ cs ++ suf ∧ List.Forall₂ (CopyIn n r.2) rest cs := by
  induction rest with
  | nil =>
    intro done zs suf cap n r hz _ h
    rw [copyArrayLoop_nil] at h; cases h
    have : zs = [] := List.length_eq_zero.1 hz
    exact ⟨[], by simp [this], List.Forall₂.nil⟩
  | cons x rest ih =>
    intro done zs suf cap n r hz hle h
    obtain ⟨c0, n1, hx, hrest⟩ := (copyArrayLoop_cons_ok x rest _ _ n r).1 h
    generalize hs : assignTo x c0 = c at hrest
    cases zs with
    | nil => simp at hz
    | cons z zs =>
      have hz2 : zs.length = rest.length := by simpa using hz
      simp only [List.length_cons] at hle
      have hlt : done.length < cap := by omega
      have hv : appendView (done ++ z :: zs ++ suf) ⟨true, done.length, cap⟩ c n1
          = (((done ++ [c]) ++ zs ++ suf, ⟨true, (done ++ [c]).length, cap⟩), n1) := by
        unfold appendView
        simp only [hlt, if_true]
        have : (done ++ z :: zs ++ suf).set done.length c = done ++ c :: zs ++ suf := by
          rw [List.append_assoc, List.set_append_right _ _ (Nat.le_refl _)]; simp
        rw [this]
        simp
      rw [hv] at hrest
      obtain ⟨cs, hcs, hall⟩ := ih (done ++ [c]) zs suf cap n1 r hz2
        (by simp; omega) hrest
      have h1 : n ≤ n1 := copyr_counter x n c0 n1 hx
      have h3 : n1 ≤ r.2 := copyArrayLoop_counter rest (fun y _ => copyr_counter y) _ _ _ r hrest
      refine ⟨c :: cs, by rw [hcs]; simp, ?_⟩
      exact List.Forall₂.cons ⟨n, n1, c0, Nat.le_refl _, h3, hx, hs.symm⟩
        (hall.imp (fun a b hab => copyIn_mono hab h1 (Nat.le_refl _)))

theorem zeroElems_append (l1 l2 : List Value) :
    zeroElems (l1 ++ l2) = zeroElems l1 ++ zeroElems l2 := by
  simp [zeroElems_eq_map]

/-- C11: on an array of length `N` whose elements are all supported,
`copyArray` returns an array of the same type and of length `N` whose
element at every index `i` is the value `copyr` returns for the source
element at `i`, at the allocator counter the loop has reached after the
elements before `i`: every append through the slice of length 0 and capacity
`N` lands in the new array, at its index.  The element holds what `copyr`
returned as a value of the element type, as `Append` stores it: the returned
value itself, unless the source element is a pointer that is not nil, of a
defined pointer type (`copyr` returns the copy of such a pointer with the
unnamed pointer type, and the array holds the same pointer with the defined
one). -/
theorem copyArray_elements (t : Ty) (xs : List Value) (n : Nat)
    (hs : supportedElems xs = true) :
    ∃ cs n', copyArray t xs n = .ok (.array t cs, n') ∧ cs.length = xs.length
      ∧ ∀ (i : Nat) (x : Value), xs[i]? = some x →
        ∃ y arr m m', cs[i]? = some (assignTo x y)
          ∧ copyArrayLoop (xs.take i) (zeroElems xs) ⟨true, 0, (zeroElems xs).length⟩ (n + 1)
              = .ok (arr, m)
          ∧ copyr x m = .ok (y, m')
          ∧ (plainPtr x = true → cs[i]? = some y) := by
  obtain ⟨r, hr⟩ := copyArrayLoop_returns xs
    (fun x hx => copyr_returns x ((supportedElems_iff xs).1 hs x hx))
    (zeroElems xs) ⟨true, 0, (zeroElems xs).length⟩ (n + 1)
  obtain ⟨cs, n'⟩ := r
  have hcopy : copyArray t xs n = .ok (.array t cs, n') :=
    (copyArray_ok t xs n (_, n')).2 ⟨cs, hr, rfl⟩
  obtain ⟨cs0, hcs0, hall0⟩ := copyArray_spec t xs n _ hcopy
  simp only [Value.array.injEq, true_and] at hcs0
  subst hcs0
  refine ⟨cs, n', hcopy, hall0.length_eq.symm, ?_⟩
  intro i x hi
  obtain ⟨l1, l2, hxs, hlen, htake⟩ := split_at_getElem xs i x hi
  rw [← htake]
  subst hxs
  rw [zeroElems_length] at hr ⊢
  have hN : (l1 ++ x :: l2).length = l1.length + (l2.length + 1) := by simp
  rw [hN] at hr ⊢
  rw [zeroElems_append] at hr ⊢
  obtain ⟨a1, m, h1, h2⟩ := copyArrayLoop_append l1 (x :: l2) _ 0 _ (n + 1) (cs, n')
    (by omega) hr
  -- the elements before `i`
  obtain ⟨cs1, hcs1, hall1⟩ := copyArrayLoop_frame l1 [] (zeroElems l1) (zeroElems (x :: l2))
    (l1.length + (l2.length + 1)) (n + 1) (a1, m) (zeroElems_length l1) (by simp)
    (by simpa using h1)
  simp only [List.nil_append] at hcs1
  have hlen1 : cs1.length = l1.length := hall1.length_eq.symm
  -- element `i`
  obtain ⟨y0, m', hy, hrest⟩ := (copyArrayLoop_cons_ok x l2 _ _ m (cs, n')).1 h2
  generalize hs0 : assignTo x y0 = y at hrest
  have hlt : 0 + l1.length < l1.length + (l2.length + 1) := by omega
  have hv : appendView a1 ⟨true, 0 + l1.length, l1.length + (l2.length + 1)⟩ y m'
      = (((cs1 ++ [y]) ++ zeroElems l2 ++ [],
          ⟨true, (cs1 ++ [y]).length, l1.length + (l2.length + 1)⟩), m') := by
    unfold appendView
    simp only [hlt, if_true]
    rw [hcs1]
    have : (cs1 ++ zeroElems (x :: l2)).set (0 + l1.length) y = cs1 ++ y :: zeroElems l2 := by
      rw [Nat.zero_add, ← hlen1, List.set_append_right _ _ (Nat.le_refl _)]
      simp [zeroElems]
    rw [this]
    simp [hlen1]
  rw [hv] at hrest
  -- the elements after `i`
  obtain ⟨cs2, hcs2, _⟩ := copyArrayLoop_frame l2 (cs1 ++ [y]) (zeroElems l2) []
    (l1.length + (l2.length + 1)) m' (cs, n') (zeroElems_length l2)
    (by simp [hlen1]; omega) hrest
  simp only [List.append_nil] at hcs2
  have hget : cs[i]? = some y := by
    rw [hcs2, List.append_assoc, List.getElem?_append_right (by omega)]
    simp [hlen1, hlen]
  refine ⟨y0, a1, m, m', by rw [hs0]; exact hget, h1, hy, fun hp => ?_⟩
  rw [hget, ← hs0, assignTo_of_plainPtr x m y0 m' hy hp]

theorem copyArray_elements_witness :
    supportedElems [vString "bar", vString "baz"] = true
    ∧ ∃ cs n', copyArray tStringArray [vString "bar", vString "baz"] 4
          = .ok (.array tStringArray cs, n')
      ∧ cs.length = [vString "bar", vString "baz"].length
      ∧ ∀ (i : Nat) (x : Value), [vString "bar", vString "baz"][i]? = some x →
        ∃ y arr m m', cs[i]? = some (assignTo x y)
          ∧ copyArrayLoop ([vString "bar", vString "baz"].take i)
              (zeroElems [vString "bar", vString "baz"])
              ⟨true, 0, (zeroElems [vString "bar", vString "baz"]).length⟩ (4 + 1)
              = .ok (arr, m)
          ∧ copyr x m = .ok (y, m')
          ∧ (plainPtr x = true → cs[i]? = some y) :=
  ⟨rfl, copyArray_elements tStringArray [vString "bar", vString "baz"] 4 rfl⟩

theorem copySliceLoop_append (l1 l2 : List Value) :
    ∀ oc n r, copySliceLoop (l1 ++ l2) oc n = .ok r →
      ∃ oc1 n1, copySliceLoop l1 oc n = .ok (oc1, n1) ∧ copySliceLoop l2 oc1 n1 = .ok r := by
  induction l1 with
  | nil =>
    intro oc n r h
    exact ⟨oc, n, copySliceLoop_nil oc n, by simpa using h⟩
  | cons x l1 ih =>
    intro oc n r h
    rw [List.cons_append] at h
    obtain ⟨c, m, hx, hrest⟩ := (copySliceLoop_cons_ok x (l1 ++ l2) oc n r).1 h
    obtain ⟨oc1, n1, h1, h2⟩ := ih _ _ _ hrest
    exact ⟨oc1, n1, (copySliceLoop_cons_ok x l1 oc n (oc1, n1)).2 ⟨c, m, hx, h1⟩, h2⟩

/-- A nil value that `copyr` copies is returned as it is. -/
theorem copyr_of_IsNil (x : Value) (n : Nat) (y : Value) (n' : Nat) (hn : x.IsNil = true)
    (h : copyr x n = .ok (y, n')) : y = x := by
  cases x with
  | invalid => simp [Value.IsNil] at hn
  | basic k t d =>
    rw [copyr_basic] at h
    split at h
    · cases h; rfl
    · split at h
      · cases h
      · cases h; rfl
  | func t c => rw [copyr_func] at h; cases h; rfl
  | chan t c => rw [copyr_chan] at h; cases h; rfl
  | ptr t p =>
    cases p with
    | none => rw [copyr_ptr, copyPointer_nil] at h; split at h <;> cases h <;> rfl
    | some _ => simp [Value.IsNil] at hn
  | iface t p =>
    cases p with
    | none => rw [copyr_iface, copyInterface_nil] at h; split at h <;> cases h <;> rfl
    | some _ => simp [Value.IsNil] at hn
  | slice t p =>
    cases p with
    | none => rw [copyr_slice, copySlice_nil] at h; split at h <;> cases h <;> rfl
    | some _ => simp [Value.IsNil] at hn
  | map t p =>
    cases p with
    | none => rw [copyr_map, copyMap_nil] at h; split at h <;> cases h <;> rfl
    | some _ => simp [Value.IsNil] at hn
  | array t xs => simp [Value.IsNil] at hn
  | struct t fs => simp [Value.IsNil] at hn

/-- C12: on a slice that is not nil, whose elements are all supported,
`copySlice` returns a slice of the same type, not nil, with the length of
the source, whose element at every index `i` is the value `copyr` returns
for the source element at `i`, at the allocator counter the loop has reached
after the elements before `i`; an element that is nil is copied to
itself.  The element holds what `copyr` returned as a value of the element
type, as `Append` stores it: the returned value itself, unless the source
element is a pointer that is not nil, of a defined pointer type (`copyr`
returns the copy of such a pointer with the unnamed pointer type, and the
slice holds the same pointer with the defined one). -/
theorem copySlice_elements (t : Ty) (a cap : Nat) (xs : List Value) (n : Nat)
    (hs : supportedElems xs = true) :
    ∃ a2 cap2 cs n', copySlice t (some (a, cap, xs)) n = .ok (.slice t (some (a2, cap2, cs)), n')
      ∧ cs.length = xs.length
      ∧ ∀ (i : Nat) (x : Value), xs[i]? = some x →
        ∃ y oc m m', cs[i]? = some (assignTo x y)
          ∧ copySliceLoop (xs.take i) (n, cap, []) (n + 1) = .ok (oc, m)
          ∧ copyr x m = .ok (y, m')
          ∧ (plainPtr x = true → cs[i]? = some y)
          ∧ (x.IsNil = true → y = x ∧ cs[i]? = some x) := by
  obtain ⟨r, hr⟩ := copySliceLoop_returns xs
    (fun x hx => copyr_returns x ((supportedElems_iff xs).1 hs x hx)) (n, cap, []) (n + 1)
  obtain ⟨⟨a2, cap2, cs⟩, n'⟩ := r
  have hcopy : copySlice t (some (a, cap, xs)) n = .ok (.slice t (some (a2, cap2, cs)), n') :=
    (copySlice_ok t a cap xs n (_, n')).2 ⟨(a2, cap2, cs), hr, rfl⟩
  obtain ⟨cs0, hcs0, hall0, _⟩ := copySliceLoop_spec xs _ _ _ hr
  simp only [List.nil_append] at hcs0
  subst hcs0
  refine ⟨a2, cap2, cs, n', hcopy, hall0.length_eq.symm, ?_⟩
  intro i x hi
  obtain ⟨l1, l2, hxs, hlen, htake⟩ := split_at_getElem xs i x hi
  rw [← htake]
  subst hxs
  obtain ⟨oc1, m, h1, h2⟩ := copySliceLoop_append l1 (x :: l2) _ _ _ hr
  obtain ⟨cs1, hcs1, hall1, _⟩ := copySliceLoop_spec l1 _ _ _ h1
  simp only [List.nil_append] at hcs1
  have hlen1 : cs1.length = l1.length := hall1.length_eq.symm
  obtain ⟨y0, m', hy, hrest⟩ := (copySliceLoop_cons_ok x l2 oc1 m _).1 h2
  generalize hs0 : assignTo x y0 = y at hrest
  obtain ⟨cs2, hcs2, _⟩ := copySliceLoop_spec l2 _ _ _ hrest
  have hel : (Append oc1 y m').1.2.2 = oc1.2.2 ++ [y] := by
    unfold Append; split <;> rfl
  simp only at hcs2
  rw [hel, hcs1] at hcs2
  have hget : cs[i]? = some y := by
    rw [hcs2, List.append_assoc, List.getElem?_append_right (by omega)]
    simp [hlen1, hlen]
  refine ⟨y0, oc1, m, m', by rw [hs0]; exact hget, h1, hy, fun hp => ?_, fun hn => ?_⟩
  · rw [hget, ← hs0, assignTo_of_plainPtr x m y0 m' hy hp]
  · have hyx := copyr_of_IsNil x m y0 m' hn hy
    refine ⟨hyx, ?_⟩
    rw [hget, ← hs0, hyx, assignTo_self]

theorem copySlice_elements_witness :
    supportedElems [Value.ptr tIntPtr none, .ptr tIntPtr (some (1, vInt 7))] = true
    ∧ ∃ a2 cap2 cs n',
      copySlice tIntPtrs (some (3, 2, [Value.ptr tIntPtr none, .ptr tIntPtr (some (1, vInt 7))]))
          4 = .ok (.slice tIntPtrs (some (a2, cap2, cs)), n')
      ∧ cs.length = [Value.ptr tIntPtr none, .ptr tIntPtr (some (1, vInt 7))].length
      ∧ ∀ (i : Nat) (x : Value),
        [Value.ptr tIntPtr none, .ptr tIntPtr (some (1, vInt 7))][i]? = some x →
        ∃ y oc m m', cs[i]? = some (assignTo x y)
          ∧ copySliceLoop ([Value.ptr tIntPtr none, .ptr tIntPtr (some (1, vInt 7))].take i)
              (4, 2, []) (4 + 1) = .ok (oc, m)
          ∧ copyr x m = .ok (y, m')
          ∧ (plainPtr x = true → cs[i]? = some y)
          ∧ (x.IsNil = true → y = x ∧ cs[i]? = some x) :=
  ⟨rfl, copySlice_elements tIntPtrs 3 2 [.ptr tIntPtr none, .ptr tIntPtr (some (1, vInt 7))] 4
    rfl⟩

/-! ## When the copy aborts -/

theorem forall2_mem_left {α β : Type} {R : α → β → Prop} {l1 : List α} {l2 : List β}
    (h : List.Forall₂ R l1 l2) (a : α) (ha : a ∈ l1) : ∃ b ∈ l2, R a b := by
  induction h with
  | nil => simp at ha
  | cons hab _ ih =>
    rcases List.mem_cons.1 ha with rfl | ha
    · exact ⟨_, List.mem_cons_self _ _, hab⟩
    · obtain ⟨b, hb, hr⟩ := ih ha
      exact ⟨b, List.mem_cons_of_mem _ hb, hr⟩

theorem copyMapLoop_copies (rest : List (Value × Value)) :
    ∀ oc n r, copyMapLoop rest oc n = .ok r → ∀ e ∈ rest,
      (∃ m c m', copyr e.1 m = .ok (c, m')) ∧ (∃ m c m', copyr e.2 m = .ok (c, m')) := by
  induction rest with
  | nil => intro oc n r _ e he; simp at he
  | cons kv rest ih =>
    intro oc n r h e he
    obtain ⟨k, v⟩ := kv
    obtain ⟨ck, n1, cv, n2, hk, hv, hrest⟩ := (copyMapLoop_cons_ok k v rest oc n r).1 h
    rcases List.mem_cons.1 he with rfl | he
    · exact ⟨⟨n, ck, n1, hk⟩, ⟨n1, cv, n2, hv⟩⟩
    · exact ih _ _ r hrest e he

/-- Where `copyr` returns, the value is supported. -/
theorem supported_of_copyr (v : Value) :
    ∀ n c n', copyr v n = .ok (c, n') → supported v = true := by
  induction v using Value.induct with
  | invalid => intro n c n' h; rw [copyr_invalid] at h; cases h
  | basic k t d =>
    intro n c n' h; rw [copyr_basic] at h
    by_cases ht : isTime t = true
    · simp [supported, ht]
    · rw [if_neg ht] at h
      by_cases hk : k = .uintptr ∨ k = .unsafePointer
      · rw [if_pos hk] at h; cases h
      · simp only [not_or] at hk
        simp [supported, hk.1, hk.2]
  | func t c => intro _ _ _ _; rfl
  | chan t c => intro _ _ _ _; rfl
  | ptrNil t => intro _ _ _ _; rfl
  | ptr t a x ih =>
    intro n c n' h; rw [copyr_ptr] at h
    by_cases ht : isTime t = true
    · simp [supported, ht]
    · rw [if_neg ht] at h
      obtain ⟨cx, hx, _⟩ := (copyPointer_ok t a x n (c, n')).1 h
      simp [supported, ih _ _ _ hx]
  | ifaceNil t => intro _ _ _ _; rfl
  | iface t x ih =>
    intro n c n' h; rw [copyr_iface] at h
    by_cases ht : isTime t = true
    · simp [supported, ht]
    · rw [if_neg ht] at h
      obtain ⟨cx, hx, _⟩ := (copyInterface_ok t x n (c, n')).1 h
      simp [supported, ih _ _ _ hx]
  | sliceNil t => intro _ _ _ _; rfl
  | slice t a cap xs ih =>
    intro n c n' h; rw [copyr_slice] at h
    by_cases ht : isTime t = true
    · simp [supported, ht]
    · rw [if_neg ht] at h
      obtain ⟨a2, cap2, cs, _, hall, _⟩ := copySlice_spec t a cap xs n (c, n') h
      simp only [supported, Bool.or_eq_true, supportedElems_iff]
      refine Or.inr (fun x hx => ?_)
      obtain ⟨y, _, m, m', _, _, _, hm, _⟩ := forall2_mem_left hall x hx
      exact ih x hx _ _ _ hm
  | array t xs ih =>
    intro n c n' h; rw [copyr_array] at h
    by_cases ht : isTime t = true
    · simp [supported, ht]
    · rw [if_neg ht] at h
      obtain ⟨cs, _, hall⟩ := copyArray_spec t xs n (c, n') h
      simp only [supported, Bool.or_eq_true, supportedElems_iff]
      refine Or.inr (fun x hx => ?_)
      obtain ⟨y, _, m, m', _, _, _, hm, _⟩ := forall2_mem_left hall x hx
      exact ih x hx _ _ _ hm
  | mapNil t => intro _ _ _ _; rfl
  | map t a es ih =>
    intro n c n' h; rw [copyr_map] at h
    by_cases ht : isTime t = true
    · simp [supported, ht]
    · rw [if_neg ht] at h
      obtain ⟨oc, hoc, _⟩ := (copyMap_ok t a es n (c, n')).1 h
      simp only [supported, Bool.or_eq_true, supportedEntries_iff]
      refine Or.inr (fun e he => ?_)
      obtain ⟨⟨m1, c1, m1', h1⟩, ⟨m2, c2, m2', h2⟩⟩ := copyMapLoop_copies es _ _ _ hoc e he
      exact ⟨(ih e he).1 _ _ _ h1, (ih e he).2 _ _ _ h2⟩
  | struct t fs ih =>
    intro n c n' h; rw [copyr_struct] at h
    by_cases ht : isTime t = true
    · simp [supported, ht]
    · rw [if_neg ht] at h
      obtain ⟨cs, _, hall⟩ := copyStruct_spec t fs n (c, n') h
      simp only [supported, Bool.or_eq_true, supportedFields_iff]
      refine Or.inr (fun fx hfx hc => ?_)
      obtain ⟨fc, _, _, hr⟩ := forall2_mem_left hall fx hfx
      rw [if_pos hc] at hr
      obtain ⟨m, m', _, _, _, hm, _⟩ := hr
      exact ih fx hfx _ _ _ hm

/-- The function `copyr` panics exactly on the values that are not
supported. -/
theorem copyr_panics_iff (v : Value) (n : Nat) :
    (∃ p, copyr v n = .error p) ↔ supported v = false := by
  constructor
  · rintro ⟨p, hp⟩
    cases hs : supported v with
    | false => rfl
    | true =>
      obtain ⟨c, n', hc⟩ := copyr_returns v hs n
      rw [hc] at hp; cases hp
  · intro hs
    cases hc : copyr v n with
    | error p => exact ⟨p, rfl⟩
    | ok r =>
      have := supported_of_copyr v n r.1 r.2 hc
      rw [hs] at this; cases this

theorem reachesUnsupportedElems_iff (xs : List Value) :
    reachesUnsupportedElems xs = true ↔ ∃ x ∈ xs, reachesUnsupported x = true := by
  induction xs with
  | nil => simp [reachesUnsupportedElems]
  | cons x xs ih => simp [reachesUnsupportedElems, ih]

theorem reachesUnsupportedEntries_iff (es : List (Value × Value)) :
    reachesUnsupportedEntries es = true
      ↔ ∃ kv ∈ es, reachesUnsupported kv.1 = true ∨ reachesUnsupported kv.2 = true := by
  induction es with
  | nil => simp [reachesUnsupportedEntries]
  | cons x xs ih => obtain ⟨k, v⟩ := x; simp [reachesUnsupportedEntries, ih, or_assoc]

theorem reachesUnsupportedFields_iff (fs : List (Field × Value)) :
    reachesUnsupportedFields fs = true
      ↔ ∃ fx ∈ fs, (!fx.2.IsZero && fx.1.CanInterface) = true
          ∧ reachesUnsupported fx.2 = true := by
  induction fs with
  | nil => simp [reachesUnsupportedFields]
  | cons x xs ih => obtain ⟨f, x⟩ := x; simp [reachesUnsupportedFields, ih]

theorem timeShapedElems_iff (xs : List Value) :
    timeShapedElems xs = true ↔ ∀ x ∈ xs, timeShaped x = true := by
  induction xs with
  | nil => simp [timeShapedElems]
  | cons x xs ih => simp [timeShapedElems, ih]

theorem timeShapedEntries_iff (es : List (Value × Value)) :
    timeShapedEntries es = true ↔ ∀ kv ∈ es, timeShaped kv.1 = true ∧ timeShaped kv.2 = true := by
  induction es with
  | nil => simp [timeShapedEntries]
  | cons x xs ih => obtain ⟨k, v⟩ := x; simp [timeShapedEntries, ih, and_assoc]

theorem timeShapedFields_iff (fs : List (Field × Value)) :
    timeShapedFields fs = true ↔ ∀ fx ∈ fs, timeShaped fx.2 = true := by
  induction fs with
  | nil => simp [timeShapedFields]
  | cons x xs ih => obtain ⟨f, x⟩ := x; simp [timeShapedFields, ih]

theorem allUnexported_iff (fs : List (Field × Value)) :
    allUnexported fs = true ↔ ∀ fx ∈ fs, fx.1.exported = false := by
  induction fs with
  | nil => simp [allUnexported]
  | cons x xs ih => obtain ⟨f, x⟩ := x; simp [allUnexported, ih]

/-- On a value whose `time.Time` parts are structs without exported fields,
being supported is the same as the traversal meeting nothing unsupported:
the traversal finds no field to enter in a `time.Time`. -/
theorem supported_iff_not_reaches (v : Value) :
    timeShaped v = true → (supported v = true ↔ reachesUnsupported v = false) := by
  induction v using Value.induct with
  | invalid => intro _; simp [supported, reachesUnsupported]
  | basic k t d =>
    intro h
    simp only [timeShaped, Bool.not_eq_true'] at h
    simp [supported, reachesUnsupported, h]
  | func t c => intro _; simp [supported, reachesUnsupported]
  | chan t c => intro _; simp [supported, reachesUnsupported]
  | ptrNil t => intro _; simp [supported, reachesUnsupported]
  | ptr t a x ih =>
    intro h
    simp only [timeShaped, Bool.and_eq_true, Bool.not_eq_true'] at h
    simp only [supported, reachesUnsupported, h.1, Bool.false_or]
    exact ih h.2
  | ifaceNil t => intro _; simp [supported, reachesUnsupported]
  | iface t x ih =>
    intro h
    simp only [timeShaped, Bool.and_eq_true, Bool.not_eq_true'] at h
    simp only [supported, reachesUnsupported, h.1, Bool.false_or]
    exact ih h.2
  | sliceNil t => intro _; simp [supported, reachesUnsupported]
  | slice t a cap xs ih =>
    intro h
    simp only [timeShaped, Bool.and_eq_true, Bool.not_eq_true', timeShapedElems_iff] at h
    simp only [supported, reachesUnsupported, h.1, Bool.false_or, supportedElems_iff,
      ← Bool.not_eq_true, reachesUnsupportedElems_iff, not_exists, not_and]
    exact ⟨fun hs x hx => by rw [Bool.not_eq_true]; exact (ih x hx (h.2 x hx)).1 (hs x hx),
      fun hr x hx => (ih x hx (h.2 x hx)).2 (by rw [← Bool.not_eq_true]; exact hr x hx)⟩
  | array t xs ih =>
    intro h
    simp only [timeShaped, Bool.and_eq_true, Bool.not_eq_true', timeShapedElems_iff] at h
    simp only [supported, reachesUnsupported, h.1, Bool.false_or, supportedElems_iff,
      ← Bool.not_eq_true, reachesUnsupportedElems_iff, not_exists, not_and]
    exact ⟨fun hs x hx => by rw [Bool.not_eq_true]; exact (ih x hx (h.2 x hx)).1 (hs x hx),
      fun hr x hx => (ih x hx (h.2 x hx)).2 (by rw [← Bool.not_eq_true]; exact hr x hx)⟩
  | mapNil t => intro _; simp [supported, reachesUnsupported]
  | map t a es ih =>
    intro h
    simp only [timeShaped, Bool.and_eq_true, Bool.not_eq_true', timeShapedEntries_iff] at h
    simp only [supported, reachesUnsupported, h.1, Bool.false_or, supportedEntries_iff,
      ← Bool.not_eq_true, reachesUnsupportedEntries_iff, not_exists, not_and, not_or]
    constructor
    · intro hs e he
      exact ⟨by rw [Bool.not_eq_true]; exact ((ih e he).1 (h.2 e he).1).1 (hs e he).1,
        by rw [Bool.not_eq_true]; exact ((ih e he).2 (h.2 e he).2).1 (hs e he).2⟩
    · intro hr e he
      exact ⟨((ih e he).1 (h.2 e he).1).2 (by rw [← Bool.not_eq_true]; exact (hr e he).1),
        ((ih e he).2 (h.2 e he).2).2 (by rw [← Bool.not_eq_true]; exact (hr e he).2)⟩
  | struct t fs ih =>
    intro h
    simp only [timeShaped] at h
    by_cases ht : isTime t = true
    · rw [if_pos ht, allUnexported_iff] at h
      simp only [supported, ht, Bool.true_or, true_iff, reachesUnsupported,
        ← Bool.not_eq_true, reachesUnsupportedFields_iff, not_exists, not_and]
      intro fx hfx hc
      simp [Field.CanInterface, h fx hfx] at hc
    · rw [if_neg ht, timeShapedFields_iff] at h
      have ht' : isTime t = false := by simpa using ht
      simp only [supported, reachesUnsupported, ht', Bool.false_or, supportedFields_iff,
        ← Bool.not_eq_true, reachesUnsupportedFields_iff, not_exists, not_and]
      exact ⟨fun hs fx hfx hc => by
          rw [Bool.not_eq_true]; exact (ih fx hfx (h fx hfx)).1 (hs fx hfx hc),
        fun hr fx hfx hc =>
          (ih fx hfx (h fx hfx)).2 (by rw [← Bool.not_eq_true]; exact hr fx hfx hc)⟩

theorem valueInterface_of_copyr (v : Value) (n : Nat) (c : Value) (n' : Nat)
    (h : copyr v n = .ok (c, n')) : ∃ r, valueInterface c = .ok r := by
  have hk := (copyr_kind_type v n c n' h).1
  cases c with
  | invalid =>
    cases v with
    | invalid => rw [copyr_invalid] at h; cases h
    | basic k _ _ => cases k <;> simp [Value.Kind, Basic.kind] at hk
    | _ => simp [Value.Kind] at hk
  | iface t e => exact ⟨e, rfl⟩
  | _ => exact ⟨_, rfl⟩

theorem Copy_panics_iff (o : Option Value) (n : Nat) (p : PanicValue) :
    Copy o n = .error p ↔ copyr (ValueOf o) n = .error p := by
  unfold Copy
  cases hc : copyr (ValueOf o) n with
  | error q => simp
  | ok r =>
    obtain ⟨c, n1⟩ := r
    obtain ⟨x, hx⟩ := valueInterface_of_copyr _ _ _ _ hc
    simp [hx]

/-- C18: for an input whose `time.Time` parts are structs without exported
fields, `Copy` aborts exactly when its input is the invalid handle or the
traversal meets a value of kind `uintptr` or `unsafe.Pointer`, the traversal
going only through pointers, interfaces, slices and maps that are not nil,
through every array element and through struct fields that are exported and
not zero; the panic is then the invalid-value panic or the unsupported-type
panic.  What the traversal does not enter cannot make `Copy` abort. -/
theorem Copy_aborts_iff (o : Option Value) (n : Nat) (ht : timeShaped (ValueOf o) = true) :
    ((∃ p, Copy o n = .error p) ↔ reachesUnsupported (ValueOf o) = true)
    ∧ (∀ p, Copy o n = .error p →
        p = .err "invalid value" ∨ p = .str "unsupported type: uintptr"
          ∨ p = .str "unsupported type: unsafe.Pointer") := by
  constructor
  · have h1 : (∃ p, Copy o n = .error p) ↔ (∃ p, copyr (ValueOf o) n = .error p) :=
      ⟨fun ⟨p, hp⟩ => ⟨p, (Copy_panics_iff o n p).1 hp⟩,
        fun ⟨p, hp⟩ => ⟨p, (Copy_panics_iff o n p).2 hp⟩⟩
    rw [h1, copyr_panics_iff]
    have h2 := supported_iff_not_reaches (ValueOf o) ht
    cases hs : supported (ValueOf o) <;> cases hr : reachesUnsupported (ValueOf o) <;>
      simp_all
  · intro p hp
    exact copyr_panic _ _ _ ((Copy_panics_iff o n p).1 hp)

theorem Copy_aborts_iff_witness :
    timeShaped (ValueOf (some vHidden)) = true
    ∧ reachesUnsupported (ValueOf (some vHidden)) = false
    ∧ ((∃ p, Copy (some vHidden) 0 = .error p) ↔ reachesUnsupported (ValueOf (some vHidden)) = true)
    ∧ (∀ p, Copy (some vHidden) 0 = .error p →
        p = .err "invalid value" ∨ p = .str "unsupported type: uintptr"
          ∨ p = .str "unsupported type: unsafe.Pointer") :=
  ⟨rfl, rfl, Copy_aborts_iff (some vHidden) 0 rfl⟩

/-! ## Go's `==` is symmetric and transitive -/

theorem floatEq_symm (k : Basic) (a b : Nat) : floatEq k a b = floatEq k b a := by
  unfold floatEq
  have h1 : (a == b) = (b == a) := by
    by_cases h : a = b
    · subst h; rfl
    · have h2 : ¬ b = a := fun e => h e.symm
      simp [h, h2]
  rw [h1, Bool.and_comm (floatIsZero k a), Bool.and_comm (!floatIsNaN k a)]

theorem Payload.goEq_symm (k : Basic) (d d2 : Payload) :
    Payload.goEq k d d2 = Payload.goEq k d2 d := by
  have hb : ∀ x y : Payload, (x == y) = (y == x) := by
    intro x y
    by_cases h : x = y
    · subst h; rfl
    · have h2 : ¬ y = x := fun e => h e.symm
      simp [h, h2]
  cases d <;> cases d2 <;> simp only [Payload.goEq] <;>
    first
    | exact hb _ _
    | exact floatEq_symm k _ _
    | (congr 1 <;> exact floatEq_symm k _ _)

theorem floatEq_trans (k : Basic) (a b c : Nat) (h1 : floatEq k a b = true)
    (h2 : floatEq k b c = true) : floatEq k a c = true := by
  simp only [floatEq, Bool.and_eq_true, Bool.or_eq_true, beq_iff_eq, Bool.not_eq_true'] at *
  refine ⟨⟨h1.1.1, h2.1.2⟩, ?_⟩
  rcases h1.2 with e1 | z1
  · subst e1; exact h2.2
  · rcases h2.2 with e2 | z2
    · subst e2; exact Or.inr z1
    · exact Or.inr ⟨z1.1, z2.2⟩

theorem Payload.goEq_trans (k : Basic) (d d2 d3 : Payload) (h1 : Payload.goEq k d d2 = true)
    (h2 : Payload.goEq k d2 d3 = true) : Payload.goEq k d d3 = true := by
  cases d <;> cases d2 <;> simp [Payload.goEq] at h1 <;> cases d3 <;>
    simp [Payload.goEq] at h2 ⊢ <;>
    first
    | (subst h1; exact h2)
    | exact floatEq_trans k _ _ _ h1 h2
    | exact ⟨floatEq_trans k _ _ _ h1.1 h2.1, floatEq_trans k _ _ _ h1.2 h2.2⟩

theorem forall2_trans_mem {α : Type} {R : α → α → Prop} {l1 l2 l3 : List α}
    (h1 : List.Forall₂ R l1 l2) (h2 : List.Forall₂ R l2 l3)
    (H : ∀ a ∈ l1, ∀ b c, R a b → R b c → R a c) : List.Forall₂ R l1 l3 := by
  induction h1 generalizing l3 with
  | nil => cases h2; exact List.Forall₂.nil
  | cons hab _ ih =>
    cases h2 with
    | cons hbc h2 =>
      exact List.Forall₂.cons (H _ (List.mem_cons_self _ _) _ _ hab hbc)
        (ih h2 (fun a ha => H a (List.mem_cons_of_mem _ ha)))

/-- Go's `==` is transitive. -/
theorem keyEq_trans (a : Value) :
    ∀ b c, keyEq a b = true → keyEq b c = true → keyEq a c = true := by
  induction a using Value.induct with
  | invalid => intro b c h; cases b <;> simp [keyEq] at h
  | basic k t d =>
    intro b c h1 h2
    cases b <;> simp [keyEq] at h1
    cases c <;> simp [keyEq] at h2
    obtain ⟨⟨rfl, rfl⟩, g1⟩ := h1
    obtain ⟨⟨rfl, rfl⟩, g2⟩ := h2
    simp only [keyEq, beq_self_eq_true, Bool.true_and]
    exact Payload.goEq_trans _ _ _ _ g1 g2
  | func t c => intro b c h; cases b <;> simp [keyEq] at h
  | chan t h =>
    intro b c h1 h2
    cases b <;> simp [keyEq] at h1
    cases c <;> simp [keyEq] at h2
    obtain ⟨rfl, rfl⟩ := h1
    obtain ⟨rfl, rfl⟩ := h2
    simp [keyEq]
  | ptrNil t =>
    intro b c h1 h2
    cases b <;> simp [keyEq] at h1
    cases c <;> simp [keyEq] at h2
    obtain ⟨rfl, g1⟩ := h1
    obtain ⟨rfl, g2⟩ := h2
    simp only [keyEq, beq_self_eq_true, Bool.true_and, beq_iff_eq]
    rw [g1, g2]
  | ptr t a x _ =>
    intro b c h1 h2
    cases b <;> simp [keyEq] at h1
    cases c <;> simp [keyEq] at h2
    obtain ⟨rfl, g1⟩ := h1
    obtain ⟨rfl, g2⟩ := h2
    simp only [keyEq, beq_self_eq_true, Bool.true_and, beq_iff_eq]
    rw [g1, g2]
  | ifaceNil t =>
    intro b c h1 h2
    cases b with
    | iface t2 e2 =>
      cases e2 with
      | some y => simp [keyEq] at h1
      | none =>
        simp only [keyEq, beq_iff_eq] at h1; subst h1
        cases c with
        | iface t3 e3 => cases e3 <;> simp [keyEq] at h2 ⊢; exact h2
        | _ => simp [keyEq] at h2
    | _ => simp [keyEq] at h1
  | iface t x ih =>
    intro b c h1 h2
    cases b with
    | iface t2 e2 =>
      cases e2 with
      | none => simp [keyEq] at h1
      | some y =>
        simp only [keyEq, Bool.and_eq_true, beq_iff_eq] at h1
        obtain ⟨rfl, g1⟩ := h1
        cases c with
        | iface t3 e3 =>
          cases e3 with
          | none => simp [keyEq] at h2
          | some z =>
            simp only [keyEq, Bool.and_eq_true, beq_iff_eq] at h2 ⊢
            exact ⟨h2.1, ih y z g1 h2.2⟩
        | _ => simp [keyEq] at h2
    | _ => simp [keyEq] at h1
  | sliceNil t => intro b c h; cases b <;> simp [keyEq] at h
  | slice t a cap xs _ => intro b c h; cases b <;> simp [keyEq] at h
  | array t xs ih =>
    intro b c h1 h2
    cases b <;> simp [keyEq] at h1
    cases c <;> simp [keyEq] at h2
    obtain ⟨rfl, g1⟩ := h1
    obtain ⟨rfl, g2⟩ := h2
    simp only [keyEq, beq_self_eq_true, Bool.true_and]
    rw [keyEqElems_iff] at g1 g2 ⊢
    exact forall2_trans_mem g1 g2 (fun x hx y z => ih x hx y z)
  | mapNil t => intro b c h; cases b <;> simp [keyEq] at h
  | map t a es _ => intro b c h; cases b <;> simp [keyEq] at h
  | struct t fs ih =>
    intro b c h1 h2
    cases b <;> simp [keyEq] at h1
    cases c <;> simp [keyEq] at h2
    obtain ⟨rfl, g1⟩ := h1
    obtain ⟨rfl, g2⟩ := h2
    simp only [keyEq, beq_self_eq_true, Bool.true_and]
    rw [keyEqFields_iff] at g1 g2 ⊢
    exact forall2_trans_mem g1 g2
      (fun x hx y z hxy hyz => ⟨hxy.1.trans hyz.1, ih x hx y.2 z.2 hxy.2 hyz.2⟩)

theorem forall2_symm_mem {α : Type} {R : α → α → Prop} {l1 l2 : List α}
    (h : List.Forall₂ R l1 l2) (H : ∀ a ∈ l1, ∀ b, R a b → R b a) : List.Forall₂ R l2 l1 := by
  induction h with
  | nil => exact List.Forall₂.nil
  | cons hab _ ih =>
    exact List.Forall₂.cons (H _ (List.mem_cons_self _ _) _ hab)
      (ih (fun a ha => H a (List.mem_cons_of_mem _ ha)))

/-- Go's `==` is symmetric. -/
theorem keyEq_symm (a : Value) : ∀ b, keyEq a b = true → keyEq b a = true := by
  induction a using Value.induct with
  | invalid => intro b h; cases b <;> simp [keyEq] at h
  | basic k t d =>
    intro b h
    cases b <;> simp [keyEq] at h
    obtain ⟨⟨rfl, rfl⟩, g⟩ := h
    simp only [keyEq, beq_self_eq_true, Bool.true_and]
    rw [Payload.goEq_symm]; exact g
  | func t c => intro b h; cases b <;> simp [keyEq] at h
  | chan t h =>
    intro b h
    cases b <;> simp [keyEq] at h
    obtain ⟨rfl, rfl⟩ := h
    simp [keyEq]
  | ptrNil t =>
    intro b h
    cases b <;> simp [keyEq] at h
    obtain ⟨rfl, g⟩ := h
    simp only [keyEq, beq_self_eq_true, Bool.true_and, beq_iff_eq]
    exact g.symm
  | ptr t a x _ =>
    intro b h
    cases b <;> simp [keyEq] at h
    obtain ⟨rfl, g⟩ := h
    simp only [keyEq, beq_self_eq_true, Bool.true_and, beq_iff_eq]
    exact g.symm
  | ifaceNil t =>
    intro b h
    cases b with
    | iface t2 e2 =>
      cases e2 with
      | some y => simp [keyEq] at h
      | none => simp only [keyEq, beq_iff_eq] at h ⊢; exact h.symm
    | _ => simp [keyEq] at h
  | iface t x ih =>
    intro b h
    cases b with
    | iface t2 e2 =>
      cases e2 with
      | none => simp [keyEq] at h
      | some y =>
        simp only [keyEq, Bool.and_eq_true, beq_iff_eq] at h ⊢
        exact ⟨h.1.symm, ih y h.2⟩
    | _ => simp [keyEq] at h
  | sliceNil t => intro b h; cases b <;> simp [keyEq] at h
  | slice t a cap xs _ => intro b h; cases b <;> simp [keyEq] at h
  | array t xs ih =>
    intro b h
    cases b <;> simp [keyEq] at h
    obtain ⟨rfl, g⟩ := h
    simp only [keyEq, beq_self_eq_true, Bool.true_and]
    rw [keyEqElems_iff] at g ⊢
    exact forall2_symm_mem g (fun x hx y => ih x hx y)
  | mapNil t => intro b h; cases b <;> simp [keyEq] at h
  | map t a es _ => intro b h; cases b <;> simp [keyEq] at h
  | struct t fs ih =>
    intro b h
    cases b <;> simp [keyEq] at h
    obtain ⟨rfl, g⟩ := h
    simp only [keyEq, beq_self_eq_true, Bool.true_and]
    rw [keyEqFields_iff] at g ⊢
    exact forall2_symm_mem g (fun x hx y hxy => ⟨hxy.1.symm, ih x hx y.2 hxy.2⟩)

/-- A supported copy is supported in the slot it is stored in. -/
theorem supported_stored {x : Value} {n : Nat} {c : Value} {n' : Nat}
    (h : copyr x n = .ok (c, n')) (hc : supported c = true) :
    supported (assignTo x c) = true :=
  assignTo_copyr_of (fun v => supported v = true) h
    (by intro t e a y ht hp
        simp only [supported, ht, isTime_ptrTo, Bool.false_or] at hp ⊢; exact hp) hc

theorem wellKeyed_stored {x : Value} {n : Nat} {c : Value} {n' : Nat}
    (h : copyr x n = .ok (c, n')) (hc : wellKeyed c = true) :
    wellKeyed (assignTo x c) = true :=
  assignTo_copyr_of (fun v => wellKeyed v = true) h
    (by intro t e a y ht hp
        simp only [wellKeyed, ht, isTime_ptrTo, Bool.false_or] at hp ⊢; exact hp) hc

theorem zerosPlain_stored {x : Value} {n : Nat} {c : Value} {n' : Nat}
    (h : copyr x n = .ok (c, n')) (hc : zerosPlain c = true) :
    zerosPlain (assignTo x c) = true :=
  assignTo_copyr_of (fun v => zerosPlain v = true) h
    (by intro t e a y ht hp
        simp only [zerosPlain, ht, isTime_ptrTo, Bool.false_or] at hp ⊢; exact hp) hc

theorem ifacePtrsPlain_stored {x : Value} {n : Nat} {c : Value} {n' : Nat}
    (h : copyr x n = .ok (c, n')) (hc : ifacePtrsPlain c = true) :
    ifacePtrsPlain (assignTo x c) = true :=
  assignTo_copyr_of (fun v => ifacePtrsPlain v = true) h
    (by intro t e a y ht hp
        simp only [ifacePtrsPlain, ht, isTime_ptrTo, Bool.false_or] at hp ⊢; exact hp) hc

/-! ## Copying a copy -/

/-- The value `copyr` returns is supported. -/
theorem copyr_supported_result (v : Value) :
    ∀ n c n', copyr v n = .ok (c, n') → supported c = true := by
  induction v using Value.induct with
  | invalid => intro n c n' h; rw [copyr_invalid] at h; cases h
  | basic k t d =>
    intro n c n' h
    have hs := supported_of_copyr _ _ _ _ h
    rw [copyr_basic] at h
    split at h
    · cases h; exact hs
    · split at h
      · cases h
      · cases h; exact hs
  | func t c => intro n c n' h; rw [copyr_func] at h; cases h; rfl
  | chan t c => intro n c n' h; rw [copyr_chan] at h; cases h; rfl
  | ptrNil t =>
    intro n c n' h; rw [copyr_ptr, copyPointer_nil] at h
    split at h <;> cases h <;> rfl
  | ptr t a x ih =>
    intro n c n' h; rw [copyr_ptr] at h
    by_cases ht : isTime t = true
    · rw [if_pos ht] at h; cases h; simp [supported, ht]
    · rw [if_neg ht] at h
      obtain ⟨cx, hx, hc⟩ := (copyPointer_ok t a x n (c, n')).1 h
      simp only at hc; subst hc
      simp only [supported, isTime_ptrTo, Bool.false_or]
      exact supported_stored hx (ih _ _ _ hx)
  | ifaceNil t =>
    intro n c n' h; rw [copyr_iface, copyInterface_nil] at h
    split at h <;> cases h <;> rfl
  | iface t x ih =>
    intro n c n' h; rw [copyr_iface] at h
    by_cases ht : isTime t = true
    · rw [if_pos ht] at h; cases h; simp [supported, ht]
    · rw [if_neg ht] at h
      obtain ⟨cx, hx, hc⟩ := (copyInterface_ok t x n (c, n')).1 h
      simp only at hc; subst hc
      simp [supported, ih _ _ _ hx]
  | sliceNil t =>
    intro n c n' h; rw [copyr_slice, copySlice_nil] at h
    split at h <;> cases h <;> rfl
  | slice t a cap xs ih =>
    intro n c n' h; rw [copyr_slice] at h
    by_cases ht : isTime t = true
    · rw [if_pos ht] at h; cases h; simp [supported, ht]
    · rw [if_neg ht] at h
      obtain ⟨a2, cap2, cs, hc, hall, _⟩ := copySlice_spec t a cap xs n (c, n') h
      simp only at hc; subst hc
      simp only [supported, Bool.or_eq_true, supportedElems_iff]
      refine Or.inr (fun y hy => ?_)
      obtain ⟨x, hx, m, m', c0, _, _, hm, rfl⟩ := forall2_mem_right hall y hy
      exact supported_stored hm (ih x hx _ _ _ hm)
  | array t xs ih =>
    intro n c n' h; rw [copyr_array] at h
    by_cases ht : isTime t = true
    · rw [if_pos ht] at h; cases h; simp [supported, ht]
    · rw [if_neg ht] at h
      obtain ⟨cs, hc, hall⟩ := copyArray_spec t xs n (c, n') h
      simp only at hc; subst hc
      simp only [supported, Bool.or_eq_true, supportedElems_iff]
      refine Or.inr (fun y hy => ?_)
      obtain ⟨x, hx, m, m', c0, _, _, hm, rfl⟩ := forall2_mem_right hall y hy
      exact supported_stored hm (ih x hx _ _ _ hm)
  | mapNil t =>
    intro n c n' h; rw [copyr_map, copyMap_nil] at h
    split at h <;> cases h <;> rfl
  | map t a es ih =>
    intro n c n' h; rw [copyr_map] at h
    by_cases ht : isTime t = true
    · rw [if_pos ht] at h; cases h; simp [supported, ht]
    · rw [if_neg ht] at h
      obtain ⟨oc, hoc, hc⟩ := (copyMap_ok t a es n (c, n')).1 h
      simp only at hc; subst hc
      simp only [supported, Bool.or_eq_true, supportedEntries_iff]
      refine Or.inr (fun kv hkv => ?_)
      obtain ⟨hk, hv⟩ := copyMapLoop_mem es _ _ _ hoc kv hkv
      constructor
      · rcases hk with hk | ⟨e, he, m, m', c0, _, _, hm, hs⟩
        · simp at hk
        · rw [hs]; exact supported_stored hm ((ih e he).1 _ _ _ hm)
      · rcases hv with hv | ⟨e, he, m, m', c0, _, _, hm, hs⟩
        · simp at hv
        · rw [hs]; exact supported_stored hm ((ih e he).2 _ _ _ hm)
  | struct t fs ih =>
    intro n c n' h; rw [copyr_struct] at h
    by_cases ht : isTime t = true
    · rw [if_pos ht] at h; cases h; simp [supported, ht]
    · rw [if_neg ht] at h
      obtain ⟨cs, hc, hall⟩ := copyStruct_spec t fs n (c, n') h
      simp only at hc; subst hc
      simp only [supported, Bool.or_eq_true, supportedFields_iff]
      refine Or.inr (fun fc hfc hcond => ?_)
      obtain ⟨fx, hfx, _, hr⟩ := forall2_mem_right hall fc hfc
      split at hr
      · obtain ⟨m, m', c0, _, _, hm, hs⟩ := hr
        rw [hs]; exact supported_stored hm (ih fx hfx _ _ _ hm)
      · rw [hr, IsZero_zeroOf] at hcond
        simp at hcond

theorem keysDistinct_iff (es : List (Value × Value)) :
    keysDistinct es = true ↔ List.Pairwise (fun a b => keyEq a.1 b.1 = false) es := by
  induction es with
  | nil => simp [keysDistinct]
  | cons e es ih => obtain ⟨k, v⟩ := e; simp [keysDistinct, ih]

/-- The method `SetMapIndex` keeps the keys pairwise different. -/
theorem keysDistinct_setMapIndex (oc : List (Value × Value)) (k v : Value)
    (h : keysDistinct oc = true) : keysDistinct (setMapIndex oc k v) = true := by
  induction oc with
  | nil => simp [setMapIndex, keysDistinct]
  | cons e oc ih =>
    obtain ⟨k0, v0⟩ := e
    obtain ⟨h1, h2⟩ := (keysDistinct_cons k0 v0 oc).1 h
    simp only [setMapIndex]
    split
    · rename_i heq
      refine (keysDistinct_cons _ v oc).2 ⟨fun e he => ?_, h2⟩
      by_cases hu : needKeyUpdate k = true
      · rw [if_pos hu]
        cases hq : keyEq k e.1 with
        | false => rfl
        | true =>
          have := keyEq_trans k0 k e.1 heq hq
          rw [h1 e he] at this; cases this
      · rw [if_neg hu]; exact h1 e he
    · rename_i hne
      refine (keysDistinct_cons k0 v0 _).2 ⟨fun e he => ?_, ih h2⟩
      rcases (setMapIndex_mem oc k v e he).1 with hm | hm
      · obtain ⟨x, hx, hxe⟩ := List.mem_map.1 hm
        rw [← hxe]; exact h1 x hx
      · rw [hm]; simpa using hne

theorem copyMapLoop_keysDistinct (rest : List (Value × Value)) :
    ∀ oc n r, copyMapLoop rest oc n = .ok r → keysDistinct oc = true →
      keysDistinct r.1 = true := by
  induction rest with
  | nil => intro oc n r h hd; rw [copyMapLoop_nil] at h; cases h; exact hd
  | cons e rest ih =>
    intro oc n r h hd
    obtain ⟨k, v⟩ := e
    obtain ⟨ck, n1, cv, n2, _, _, hrest⟩ := (copyMapLoop_cons_ok k v rest oc n r).1 h
    exact ih _ _ r hrest (keysDistinct_setMapIndex oc _ _ hd)

/-- A zero value holds no map. -/
theorem wellKeyed_of_IsZero (v : Value) : v.IsZero = true → wellKeyed v = true := by
  induction v using Value.induct with
  | ptr t a x _ => intro h; simp [Value.IsZero] at h
  | iface t x _ => intro h; simp [Value.IsZero] at h
  | slice t a cap xs _ => intro h; simp [Value.IsZero] at h
  | map t a es _ => intro h; simp [Value.IsZero] at h
  | array t xs ih =>
    intro h
    simp only [Value.IsZero, allZero_iff] at h
    simp only [wellKeyed, Bool.or_eq_true, wellKeyedElems_iff]
    exact Or.inr (fun x hx => ih x hx (h x hx))
  | struct t fs ih =>
    intro h
    simp only [Value.IsZero, allFieldsZero_iff] at h
    simp only [wellKeyed, Bool.or_eq_true, wellKeyedFields_iff]
    exact Or.inr (fun x hx => ih x hx (h x hx))
  | _ => intro _; simp [wellKeyed]

/-- In the value `copyr` returns the keys of every map, outside the values
of type `time.Time`, are pairwise different. -/
theorem copyr_wellKeyed_result (v : Value) :
    ∀ n c n', copyr v n = .ok (c, n') → wellKeyed c = true := by
  induction v using Value.induct with
  | invalid => intro n c n' h; rw [copyr_invalid] at h; cases h
  | basic k t d =>
    intro n c n' h; rw [copyr_basic] at h
    split at h
    · cases h; rfl
    · split at h
      · cases h
      · cases h; rfl
  | func t c => intro n c n' h; rw [copyr_func] at h; cases h; rfl
  | chan t c => intro n c n' h; rw [copyr_chan] at h; cases h; rfl
  | ptrNil t =>
    intro n c n' h; rw [copyr_ptr, copyPointer_nil] at h
    split at h <;> cases h <;> rfl
  | ptr t a x ih =>
    intro n c n' h; rw [copyr_ptr] at h
    by_cases ht : isTime t = true
    · rw [if_pos ht] at h; cases h; simp [wellKeyed, ht]
    · rw [if_neg ht] at h
      obtain ⟨cx, hx, hc⟩ := (copyPointer_ok t a x n (c, n')).1 h
      simp only at hc; subst hc
      simp only [wellKeyed, isTime_ptrTo, Bool.false_or]
      exact wellKeyed_stored hx (ih _ _ _ hx)
  | ifaceNil t =>
    intro n c n' h; rw [copyr_iface, copyInterface_nil] at h
    split at h <;> cases h <;> rfl
  | iface t x ih =>
    intro n c n' h; rw [copyr_iface] at h
    by_cases ht : isTime t = true
    · rw [if_pos ht] at h; cases h; simp [wellKeyed, ht]
    · rw [if_neg ht] at h
      obtain ⟨cx, hx, hc⟩ := (copyInterface_ok t x n (c, n')).1 h
      simp only at hc; subst hc
      simp [wellKeyed, ih _ _ _ hx]
  | sliceNil t =>
    intro n c n' h; rw [copyr_slice, copySlice_nil] at h
    split at h <;> cases h <;> rfl
  | slice t a cap xs ih =>
    intro n c n' h; rw [copyr_slice] at h
    by_cases ht : isTime t = true
    · rw [if_pos ht] at h; cases h; simp [wellKeyed, ht]
    · rw [if_neg ht] at h
      obtain ⟨a2, cap2, cs, hc, hall, _⟩ := copySlice_spec t a cap xs n (c, n') h
      simp only at hc; subst hc
      simp only [wellKeyed, Bool.or_eq_true, wellKeyedElems_iff]
      refine Or.inr (fun y hy => ?_)
      obtain ⟨x, hx, m, m', c0, _, _, hm, rfl⟩ := forall2_mem_right hall y hy
      exact wellKeyed_stored hm (ih x hx _ _ _ hm)
  | array t xs ih =>
    intro n c n' h; rw [copyr_array] at h
    by_cases ht : isTime t = true
    · rw [if_pos ht] at h; cases h; simp [wellKeyed, ht]
    · rw [if_neg ht] at h
      obtain ⟨cs, hc, hall⟩ := copyArray_spec t xs n (c, n') h
      simp only at hc; subst hc
      simp only [wellKeyed, Bool.or_eq_true, wellKeyedElems_iff]
      refine Or.inr (fun y hy => ?_)
      obtain ⟨x, hx, m, m', c0, _, _, hm, rfl⟩ := forall2_mem_right hall y hy
      exact wellKeyed_stored hm (ih x hx _ _ _ hm)
  | mapNil t =>
    intro n c n' h; rw [copyr_map, copyMap_nil] at h
    split at h <;> cases h <;> rfl
  | map t a es ih =>
    intro n c n' h; rw [copyr_map] at h
    by_cases ht : isTime t = true
    · rw [if_pos ht] at h; cases h; simp [wellKeyed, ht]
    · rw [if_neg ht] at h
      obtain ⟨oc, hoc, hc⟩ := (copyMap_ok t a es n (c, n')).1 h
      simp only at hc hoc; subst hc
      simp only [wellKeyed, Bool.or_eq_true, Bool.and_eq_true, wellKeyedEntries_iff]
      refine Or.inr ⟨copyMapLoop_keysDistinct es [] (n + 1) (oc, n') hoc rfl, fun kv hkv => ?_⟩
      obtain ⟨hk, hv⟩ := copyMapLoop_mem es _ _ _ hoc kv hkv
      constructor
      · rcases hk with hk | ⟨e, he, m, m', c0, _, _, hm, hs⟩
        · simp at hk
        · rw [hs]; exact wellKeyed_stored hm ((ih e he).1 _ _ _ hm)
      · rcases hv with hv | ⟨e, he, m, m', c0, _, _, hm, hs⟩
        · simp at hv
        · rw [hs]; exact wellKeyed_stored hm ((ih e he).2 _ _ _ hm)
  | struct t fs ih =>
    intro n c n' h; rw [copyr_struct] at h
    by_cases ht : isTime t = true
    · rw [if_pos ht] at h; cases h; simp [wellKeyed, ht]
    · rw [if_neg ht] at h
      obtain ⟨cs, hc, hall⟩ := copyStruct_spec t fs n (c, n') h
      simp only at hc; subst hc
      simp only [wellKeyed, Bool.or_eq_true, wellKeyedFields_iff]
      refine Or.inr (fun fc hfc => ?_)
      obtain ⟨fx, hfx, _, hr⟩ := forall2_mem_right hall fc hfc
      split at hr
      · obtain ⟨m, m', c0, _, _, hm, hs⟩ := hr
        rw [hs]; exact wellKeyed_stored hm (ih fx hfx _ _ _ hm)
      · rw [hr]; exact wellKeyed_of_IsZero _ (IsZero_zeroOf _)

/-! ## Zero values in a copy -/

theorem Payload.zero_zero (d : Payload) : d.zero.zero = d.zero := by
  cases d <;> rfl

/-- The zero value of the type of a zero value is that zero value. -/
theorem zeroOf_idem (v : Value) : zeroOf (zeroOf v) = zeroOf v := by
  induction v using Value.induct with
  | basic k t d => simp [zeroOf, Payload.zero_zero]
  | array t xs ih =>
    simp only [zeroOf, zeroElems_eq_map, List.map_map, Value.array.injEq, true_and]
    exact List.map_congr_left (fun x hx => ih x hx)
  | struct t fs ih =>
    simp only [zeroOf, zeroFields_eq_map, List.map_map, Value.struct.injEq, true_and]
    exact List.map_congr_left (fun x hx => by simp [ih x hx])
  | _ => simp [zeroOf]

theorem deepEqual_zeroOf_zeroOf (v : Value) : deepEqual (zeroOf (zeroOf v)) (zeroOf v) = true := by
  rw [zeroOf_idem]; exact deepEqual_refl _

theorem deepEqualElems_zero (cs : List Value) (h : ∀ c ∈ cs, deepEqual (zeroOf c) c = true) :
    deepEqualElems (zeroElems cs) cs = true := by
  induction cs with
  | nil => simp [zeroElems, deepEqualElems]
  | cons c cs ih =>
    simp only [zeroElems, deepEqualElems, Bool.and_eq_true]
    exact ⟨h c (List.mem_cons_self _ _), ih (fun x hx => h x (List.mem_cons_of_mem _ hx))⟩

theorem deepEqualFields_zero (cs : List (Field × Value))
    (h : ∀ c ∈ cs, deepEqual (zeroOf c.2) c.2 = true) :
    deepEqualFields (zeroFields cs) cs = true := by
  induction cs with
  | nil => simp [zeroFields, deepEqualFields]
  | cons c cs ih =>
    obtain ⟨f, x⟩ := c
    simp only [zeroFields, deepEqualFields, Bool.and_eq_true, beq_self_eq_true, true_and]
    exact ⟨h (f, x) (List.mem_cons_self _ _), ih (fun x hx => h x (List.mem_cons_of_mem _ hx))⟩

/-- In the zero value of a type every field is the zero value. -/
theorem zerosPlain_zeroOf (v : Value) : zerosPlain (zeroOf v) = true := by
  induction v using Value.induct with
  | array t xs ih =>
    simp only [zeroOf, zerosPlain, Bool.or_eq_true, zerosPlainElems_iff, zeroElems_eq_map,
      List.mem_map]
    refine Or.inr ?_
    rintro y ⟨x, hx, rfl⟩
    exact ih x hx
  | struct t fs ih =>
    simp only [zeroOf, zerosPlain, Bool.or_eq_true, zerosPlainFields_iff, zeroFields_eq_map,
      List.mem_map]
    refine Or.inr ?_
    rintro y ⟨x, hx, rfl⟩
    exact ⟨fun _ => deepEqual_zeroOf_zeroOf _, ih x hx⟩
  | _ => simp [zeroOf, zerosPlain]

theorem scalarLikeElems_iff (xs : List Value) :
    scalarLikeElems xs = true ↔ ∀ x ∈ xs, scalarLike x = true := by
  induction xs with
  | nil => simp [scalarLikeElems]
  | cons x xs ih => simp [scalarLikeElems, ih]

theorem noneScalarLike_iff (xs : List Value) :
    noneScalarLike xs = true ↔ ∀ x ∈ xs, scalarLike x = false := by
  induction xs with
  | nil => simp [noneScalarLike]
  | cons x xs ih => simp [noneScalarLike, ih]

theorem uniformArraysElems_iff (xs : List Value) :
    uniformArraysElems xs = true ↔ ∀ x ∈ xs, uniformArrays x = true := by
  induction xs with
  | nil => simp [uniformArraysElems]
  | cons x xs ih => simp [uniformArraysElems, ih]

theorem uniformArraysEntries_iff (es : List (Value × Value)) :
    uniformArraysEntries es = true
      ↔ ∀ kv ∈ es, uniformArrays kv.1 = true ∧ uniformArrays kv.2 = true := by
  induction es with
  | nil => simp [uniformArraysEntries]
  | cons x xs ih => obtain ⟨k, v⟩ := x; simp [uniformArraysEntries, ih, and_assoc]

theorem uniformArraysFields_iff (fs : List (Field × Value)) :
    uniformArraysFields fs = true ↔ ∀ fx ∈ fs, uniformArrays fx.2 = true := by
  induction fs with
  | nil => simp [uniformArraysFields]
  | cons x xs ih => obtain ⟨f, x⟩ := x; simp [uniformArraysFields, ih]

/-- A value of a type that `copyr` returns as it is has no struct field the
copy would leave out. -/
theorem scalarLike_unexportedZero (v : Value) :
    scalarLike v = true → unexportedZero v = true := by
  induction v using Value.induct with
  | invalid => intro h; simp [scalarLike] at h
  | array t xs ih =>
    intro h
    simp only [scalarLike, Bool.or_eq_true, scalarLikeElems_iff] at h
    simp only [unexportedZero, Bool.or_eq_true, unexportedZeroElems_iff]
    rcases h with h | h
    · exact Or.inl h
    · exact Or.inr (fun x hx => ih x hx (h x hx))
  | ptr t a x _ => intro h; simp only [scalarLike] at h; simp [unexportedZero, h]
  | iface t x _ => intro h; simp only [scalarLike] at h; simp [unexportedZero, h]
  | slice t a cap xs _ => intro h; simp only [scalarLike] at h; simp [unexportedZero, h]
  | map t a es _ => intro h; simp only [scalarLike] at h; simp [unexportedZero, h]
  | struct t fs _ => intro h; simp only [scalarLike] at h; simp [unexportedZero, h]
  | _ => intro _; simp [unexportedZero]

/-- A copy that is zero is stored as it is. -/
theorem assignTo_of_IsZero (x : Value) (n : Nat) (c : Value) (n' : Nat)
    (h : copyr x n = .ok (c, n')) (hz : c.IsZero = true) : assignTo x c = c := by
  rcases assignTo_copyr x n c n' h with h1 | ⟨t, a, y, cy, _, _, _, hc, _⟩
  · exact h1
  · rw [hc] at hz; simp [Value.IsZero] at hz

/-- A copy that is zero is the zero value of its type bit for bit, unless the
source is of a type that `copyr` returns as it is: what made the source
differ from zero was left out, and a struct is rebuilt from the zero
value. -/
theorem copyr_zero_plain (x : Value) : ∀ n c n', copyr x n = .ok (c, n') →
    uniformArrays x = true → c.IsZero = true → scalarLike x = false →
    deepEqual (zeroOf c) c = true := by
  induction x using Value.induct with
  | invalid => intro n c n' h; rw [copyr_invalid] at h; cases h
  | basic k t d => intro n c n' _ _ _ hs; simp [scalarLike] at hs
  | func t code =>
    intro n c n' h _ hz _; rw [copyr_func] at h; cases h
    cases code with
    | none => exact deepEqual_refl _
    | some a => simp [Value.IsZero] at hz
  | chan t ch =>
    intro n c n' h _ hz _; rw [copyr_chan] at h; cases h
    cases ch with
    | none => exact deepEqual_refl _
    | some a => simp [Value.IsZero] at hz
  | ptrNil t =>
    intro n c n' h _ _ _; rw [copyr_ptr, copyPointer_nil] at h
    split at h <;> cases h <;> exact deepEqual_refl _
  | ptr t a x _ =>
    intro n c n' h _ hz hs
    simp only [scalarLike] at hs
    rw [copyr_ptr, hs] at h
    simp only [Bool.false_eq_true, if_false] at h
    obtain ⟨cx, _, hc⟩ := (copyPointer_ok t a x n (c, n')).1 h
    simp only at hc; subst hc
    simp [Value.IsZero] at hz
  | ifaceNil t =>
    intro n c n' h _ _ _; rw [copyr_iface, copyInterface_nil] at h
    split at h <;> cases h <;> exact deepEqual_refl _
  | iface t x _ =>
    intro n c n' h _ hz hs
    simp only [scalarLike] at hs
    rw [copyr_iface, hs] at h
    simp only [Bool.false_eq_true, if_false] at h
    obtain ⟨cx, _, hc⟩ := (copyInterface_ok t x n (c, n')).1 h
    simp only at hc; subst hc
    simp [Value.IsZero] at hz
  | sliceNil t =>
    intro n c n' h _ _ _; rw [copyr_slice, copySlice_nil] at h
    split at h <;> cases h <;> exact deepEqual_refl _
  | slice t a cap xs _ =>
    intro n c n' h _ hz hs
    simp only [scalarLike] at hs
    rw [copyr_slice, hs] at h
    simp only [Bool.false_eq_true, if_false] at h
    obtain ⟨a2, cap2, cs, hc, _, _⟩ := copySlice_spec t a cap xs n (c, n') h
    simp only at hc; subst hc
    simp [Value.IsZero] at hz
  | mapNil t =>
    intro n c n' h _ _ _; rw [copyr_map, copyMap_nil] at h
    split at h <;> cases h <;> exact deepEqual_refl _
  | map t a es _ =>
    intro n c n' h _ hz hs
    simp only [scalarLike] at hs
    rw [copyr_map, hs] at h
    simp only [Bool.false_eq_true, if_false] at h
    obtain ⟨oc, _, hc⟩ := (copyMap_ok t a es n (c, n')).1 h
    simp only at hc; subst hc
    simp [Value.IsZero] at hz
  | array t xs ih =>
    intro n c n' h hu hz hs
    simp only [scalarLike, Bool.or_eq_false_iff] at hs
    obtain ⟨ht, hsl⟩ := hs
    rw [copyr_array, ht] at h
    simp only [Bool.false_eq_true, if_false] at h
    obtain ⟨cs, hc, hall⟩ := copyArray_spec t xs n (c, n') h
    simp only at hc; subst hc
    simp only [uniformArrays, ht, Bool.false_or, Bool.and_eq_true, Bool.or_eq_true, hsl,
      false_or, noneScalarLike_iff, uniformArraysElems_iff] at hu
    simp only [Value.IsZero, allZero_iff] at hz
    simp only [zeroOf, deepEqual, beq_self_eq_true, Bool.true_and]
    refine deepEqualElems_zero cs (fun y hy => ?_)
    obtain ⟨x, hx, m, m', c0, _, _, hm, rfl⟩ := forall2_mem_right hall y hy
    have hz0 : c0.IsZero = true := by rw [← IsZero_assignTo x c0]; exact hz _ hy
    rw [assignTo_of_IsZero x m c0 m' hm hz0]
    exact ih x hx _ _ _ hm (hu.2 x hx) hz0 (hu.1 x hx)
  | struct t fs ih =>
    intro n c n' h hu hz hs
    simp only [scalarLike] at hs
    rw [copyr_struct, hs] at h
    simp only [Bool.false_eq_true, if_false] at h
    obtain ⟨cs, hc, hall⟩ := copyStruct_spec t fs n (c, n') h
    simp only at hc; subst hc
    simp only [uniformArrays, hs, Bool.false_or, uniformArraysFields_iff] at hu
    simp only [Value.IsZero, allFieldsZero_iff] at hz
    simp only [zeroOf, deepEqual, beq_self_eq_true, Bool.true_and]
    refine deepEqualFields_zero cs (fun fc hfc => ?_)
    obtain ⟨fx, hfx, _, hr⟩ := forall2_mem_right hall fc hfc
    split at hr
    · rename_i hcond
      obtain ⟨m, m', c0, _, _, hm, hs0⟩ := hr
      have hz0 : c0.IsZero = true := by
        rw [← IsZero_assignTo fx.2 c0, ← hs0]; exact hz _ hfc
      rw [hs0, assignTo_of_IsZero fx.2 m c0 m' hm hz0]
      cases hsl : scalarLike fx.2 with
      | false => exact ih fx hfx _ _ _ hm (hu fx hfx) hz0 hsl
      | true =>
        have := copyr_IsZero fx.2 _ _ _ hm (scalarLike_unexportedZero _ hsl)
        rw [hz0] at this
        simp only [Bool.and_eq_true, Bool.not_eq_true'] at hcond
        rw [hcond.1] at this; cases this
    · rw [hr]; exact deepEqual_zeroOf_zeroOf _

/-- In the value `copyr` returns every struct field that is zero is the zero
value bit for bit, where the elements of every array of the source are
alike. -/
theorem copyr_zerosPlain_result (v : Value) :
    ∀ n c n', copyr v n = .ok (c, n') → uniformArrays v = true → zerosPlain c = true := by
  induction v using Value.induct with
  | invalid => intro n c n' h; rw [copyr_invalid] at h; cases h
  | basic k t d =>
    intro n c n' h _; rw [copyr_basic] at h
    split at h
    · cases h; rfl
    · split at h
      · cases h
      · cases h; rfl
  | func t c => intro n c n' h _; rw [copyr_func] at h; cases h; rfl
  | chan t c => intro n c n' h _; rw [copyr_chan] at h; cases h; rfl
  | ptrNil t =>
    intro n c n' h _; rw [copyr_ptr, copyPointer_nil] at h
    split at h <;> cases h <;> rfl
  | ptr t a x ih =>
    intro n c n' h hu; rw [copyr_ptr] at h
    by_cases ht : isTime t = true
    · rw [if_pos ht] at h; cases h; simp [zerosPlain, ht]
    · rw [if_neg ht] at h
      have ht' : isTime t = false := by simpa using ht
      obtain ⟨cx, hx, hc⟩ := (copyPointer_ok t a x n (c, n')).1 h
      simp only at hc; subst hc
      simp only [uniformArrays, ht', Bool.false_or] at hu
      simp only [zerosPlain, isTime_ptrTo, Bool.false_or]
      exact zerosPlain_stored hx (ih _ _ _ hx hu)
  | ifaceNil t =>
    intro n c n' h _; rw [copyr_iface, copyInterface_nil] at h
    split at h <;> cases h <;> rfl
  | iface t x ih =>
    intro n c n' h hu; rw [copyr_iface] at h
    by_cases ht : isTime t = true
    · rw [if_pos ht] at h; cases h; simp [zerosPlain, ht]
    · rw [if_neg ht] at h
      have ht' : isTime t = false := by simpa using ht
      obtain ⟨cx, hx, hc⟩ := (copyInterface_ok t x n (c, n')).1 h
      simp only at hc; subst hc
      simp only [uniformArrays, ht', Bool.false_or] at hu
      simp [zerosPlain, ih _ _ _ hx hu]
  | sliceNil t =>
    intro n c n' h _; rw [copyr_slice, copySlice_nil] at h
    split at h <;> cases h <;> rfl
  | slice t a cap xs ih =>
    intro n c n' h hu; rw [copyr_slice] at h
    by_cases ht : isTime t = true
    · rw [if_pos ht] at h; cases h; simp [zerosPlain, ht]
    · rw [if_neg ht] at h
      have ht' : isTime t = false := by simpa using ht
      obtain ⟨a2, cap2, cs, hc, hall, _⟩ := copySlice_spec t a cap xs n (c, n') h
      simp only at hc; subst hc
      simp only [uniformArrays, ht', Bool.false_or, uniformArraysElems_iff] at hu
      simp only [zerosPlain, Bool.or_eq_true, zerosPlainElems_iff]
      refine Or.inr (fun y hy => ?_)
      obtain ⟨x, hx, m, m', c0, _, _, hm, rfl⟩ := forall2_mem_right hall y hy
      exact zerosPlain_stored hm (ih x hx _ _ _ hm (hu x hx))
  | array t xs ih =>
    intro n c n' h hu; rw [copyr_array] at h
    by_cases ht : isTime t = true
    · rw [if_pos ht] at h; cases h; simp [zerosPlain, ht]
    · rw [if_neg ht] at h
      have ht' : isTime t = false := by simpa using ht
      obtain ⟨cs, hc, hall⟩ := copyArray_spec t xs n (c, n') h
      simp only at hc; subst hc
      simp only [uniformArrays, ht', Bool.false_or, Bool.and_eq_true,
        uniformArraysElems_iff] at hu
      simp only [zerosPlain, Bool.or_eq_true, zerosPlainElems_iff]
      refine Or.inr (fun y hy => ?_)
      obtain ⟨x, hx, m, m', c0, _, _, hm, rfl⟩ := forall2_mem_right hall y hy
      exact zerosPlain_stored hm (ih x hx _ _ _ hm (hu.2 x hx))
  | mapNil t =>
    intro n c n' h _; rw [copyr_map, copyMap_nil] at h
    split at h <;> cases h <;> rfl
  | map t a es ih =>
    intro n c n' h hu; rw [copyr_map] at h
    by_cases ht : isTime t = true
    · rw [if_pos ht] at h; cases h; simp [zerosPlain, ht]
    · rw [if_neg ht] at h
      have ht' : isTime t = false := by simpa using ht
      obtain ⟨oc, hoc, hc⟩ := (copyMap_ok t a es n (c, n')).1 h
      simp only at hc hoc; subst hc
      simp only [uniformArrays, ht', Bool.false_or, uniformArraysEntries_iff] at hu
      simp only [zerosPlain, Bool.or_eq_true, zerosPlainEntries_iff]
      refine Or.inr (fun kv hkv => ?_)
      obtain ⟨hk, hv⟩ := copyMapLoop_mem es _ _ _ hoc kv hkv
      constructor
      · rcases hk with hk | ⟨e, he, m, m', c0, _, _, hm, hs⟩
        · simp at hk
        · rw [hs]; exact zerosPlain_stored hm ((ih e he).1 _ _ _ hm (hu e he).1)
      · rcases hv with hv | ⟨e, he, m, m', c0, _, _, hm, hs⟩
        · simp at hv
        · rw [hs]; exact zerosPlain_stored hm ((ih e he).2 _ _ _ hm (hu e he).2)
  | struct t fs ih =>
    intro n c n' h hu; rw [copyr_struct] at h
    by_cases ht : isTime t = true
    · rw [if_pos ht] at h; cases h; simp [zerosPlain, ht]
    · rw [if_neg ht] at h
      have ht' : isTime t = false := by simpa using ht
      obtain ⟨cs, hc, hall⟩ := copyStruct_spec t fs n (c, n') h
      simp only at hc; subst hc
      simp only [uniformArrays, ht', Bool.false_or, uniformArraysFields_iff] at hu
      simp only [zerosPlain, Bool.or_eq_true, zerosPlainFields_iff]
      refine Or.inr (fun fc hfc => ?_)
      obtain ⟨fx, hfx, _, hr⟩ := forall2_mem_right hall fc hfc
      split at hr
      · rename_i hcond
        obtain ⟨m, m', c0, _, _, hm, hs⟩ := hr
        rw [hs]
        refine ⟨fun hz => ?_, zerosPlain_stored hm (ih fx hfx _ _ _ hm (hu fx hfx))⟩
        have hz0 : c0.IsZero = true := by rw [← IsZero_assignTo fx.2 c0]; exact hz
        rw [assignTo_of_IsZero fx.2 m c0 m' hm hz0]
        cases hsl : scalarLike fx.2 with
        | false => exact copyr_zero_plain fx.2 _ _ _ hm (hu fx hfx) hz0 hsl
        | true =>
          have := copyr_IsZero fx.2 _ _ _ hm (scalarLike_unexportedZero _ hsl)
          rw [hz0] at this
          simp only [Bool.and_eq_true, Bool.not_eq_true'] at hcond
          rw [hcond.1] at this; cases this
      · rw [hr]
        exact ⟨fun _ => deepEqual_zeroOf_zeroOf _, zerosPlain_zeroOf _⟩

/-! ## Pointer types in a copy -/

theorem ifacePtrsPlain_of_IsZero (v : Value) : v.IsZero = true → ifacePtrsPlain v = true := by
  induction v using Value.induct with
  | ptr t a x _ => intro h; simp [Value.IsZero] at h
  | iface t x _ => intro h; simp [Value.IsZero] at h
  | slice t a cap xs _ => intro h; simp [Value.IsZero] at h
  | map t a es _ => intro h; simp [Value.IsZero] at h
  | array t xs ih =>
    intro h
    simp only [Value.IsZero, allZero_iff] at h
    simp only [ifacePtrsPlain, Bool.or_eq_true, ifacePtrsPlainElems_iff]
    exact Or.inr (fun x hx => ih x hx (h x hx))
  | struct t fs ih =>
    intro h
    simp only [Value.IsZero, allFieldsZero_iff] at h
    simp only [ifacePtrsPlain, Bool.or_eq_true, ifacePtrsPlainFields_iff]
    exact Or.inr (fun x hx => ih x hx (h x hx))
  | _ => intro _; simp [ifacePtrsPlain]

/-- A pointer `copyr` returns is nil, of type `time.Time`, or of the unnamed
pointer type of what it points to. -/
theorem copyr_plainPtr_result (v : Value) (n : Nat) (c : Value) (n' : Nat)
    (h : copyr v n = .ok (c, n')) : plainPtr c = true := by
  have hk := (copyr_kind_type v n c n' h).1
  cases v with
  | ptr t p =>
    rw [copyr_ptr] at h
    by_cases ht : isTime t = true
    · rw [if_pos ht] at h; cases h
      cases p with
      | none => rfl
      | some ax => simp [plainPtr, ht]
    · rw [if_neg ht] at h
      cases p with
      | none => rw [copyPointer_nil] at h; cases h; rfl
      | some ax =>
        obtain ⟨cx, hx, hc⟩ := (copyPointer_ok t ax.1 ax.2 n (c, n')).1 h
        simp only at hc hx; subst hc
        have hty := (copyr_kind_type ax.2 _ cx _ hx).2
        simp [plainPtr, elemType, hty]
  | basic k t d =>
    cases c with
    | ptr t2 p2 => cases k <;> simp [Value.Kind, Basic.kind] at hk
    | _ => rfl
  | _ =>
    cases c with
    | ptr t2 p2 => simp [Value.Kind] at hk
    | _ => rfl

/-- In the value `copyr` returns every pointer that an interface holds is
nil or of an unnamed pointer type. -/
theorem copyr_ifacePtrsPlain_result (v : Value) :
    ∀ n c n', copyr v n = .ok (c, n') → ifacePtrsPlain c = true := by
  induction v using Value.induct with
  | invalid => intro n c n' h; rw [copyr_invalid] at h; cases h
  | basic k t d =>
    intro n c n' h; rw [copyr_basic] at h
    split at h
    · cases h; rfl
    · split at h
      · cases h
      · cases h; rfl
  | func t c => intro n c n' h; rw [copyr_func] at h; cases h; rfl
  | chan t c => intro n c n' h; rw [copyr_chan] at h; cases h; rfl
  | ptrNil t =>
    intro n c n' h; rw [copyr_ptr, copyPointer_nil] at h
    split at h <;> cases h <;> rfl
  | ptr t a x ih =>
    intro n c n' h; rw [copyr_ptr] at h
    by_cases ht : isTime t = true
    · rw [if_pos ht] at h; cases h; simp [ifacePtrsPlain, ht]
    · rw [if_neg ht] at h
      obtain ⟨cx, hx, hc⟩ := (copyPointer_ok t a x n (c, n')).1 h
      simp only at hc; subst hc
      simp only [ifacePtrsPlain, isTime_ptrTo, Bool.false_or]
      exact ifacePtrsPlain_stored hx (ih _ _ _ hx)
  | ifaceNil t =>
    intro n c n' h; rw [copyr_iface, copyInterface_nil] at h
    split at h <;> cases h <;> rfl
  | iface t x ih =>
    intro n c n' h; rw [copyr_iface] at h
    by_cases ht : isTime t = true
    · rw [if_pos ht] at h; cases h; simp [ifacePtrsPlain, ht]
    · rw [if_neg ht] at h
      obtain ⟨cx, hx, hc⟩ := (copyInterface_ok t x n (c, n')).1 h
      simp only at hc hx; subst hc
      simp [ifacePtrsPlain, ih _ _ _ hx, copyr_plainPtr_result x _ cx _ hx]
  | sliceNil t =>
    intro n c n' h; rw [copyr_slice, copySlice_nil] at h
    split at h <;> cases h <;> rfl
  | slice t a cap xs ih =>
    intro n c n' h; rw [copyr_slice] at h
    by_cases ht : isTime t = true
    · rw [if_pos ht] at h; cases h; simp [ifacePtrsPlain, ht]
    · rw [if_neg ht] at h
      obtain ⟨a2, cap2, cs, hc, hall, _⟩ := copySlice_spec t a cap xs n (c, n') h
      simp only at hc; subst hc
      simp only [ifacePtrsPlain, Bool.or_eq_true, ifacePtrsPlainElems_iff]
      refine Or.inr (fun y hy => ?_)
      obtain ⟨x, hx, m, m', c0, _, _, hm, rfl⟩ := forall2_mem_right hall y hy
      exact ifacePtrsPlain_stored hm (ih x hx _ _ _ hm)
  | array t xs ih =>
    intro n c n' h; rw [copyr_array] at h
    by_cases ht : isTime t = true
    · rw [if_pos ht] at h; cases h; simp [ifacePtrsPlain, ht]
    · rw [if_neg ht] at h
      obtain ⟨cs, hc, hall⟩ := copyArray_spec t xs n (c, n') h
      simp only at hc; subst hc
      simp only [ifacePtrsPlain, Bool.or_eq_true, ifacePtrsPlainElems_iff]
      refine Or.inr (fun y hy => ?_)
      obtain ⟨x, hx, m, m', c0, _, _, hm, rfl⟩ := forall2_mem_right hall y hy
      exact ifacePtrsPlain_stored hm (ih x hx _ _ _ hm)
  | mapNil t =>
    intro n c n' h; rw [copyr_map, copyMap_nil] at h
    split at h <;> cases h <;> rfl
  | map t a es ih =>
    intro n c n' h; rw [copyr_map] at h
    by_cases ht : isTime t = true
    · rw [if_pos ht] at h; cases h; simp [ifacePtrsPlain, ht]
    · rw [if_neg ht] at h
      obtain ⟨oc, hoc, hc⟩ := (copyMap_ok t a es n (c, n')).1 h
      simp only at hc hoc; subst hc
      simp only [ifacePtrsPlain, Bool.or_eq_true, ifacePtrsPlainEntries_iff]
      refine Or.inr (fun kv hkv => ?_)
      obtain ⟨hk, hv⟩ := copyMapLoop_mem es _ _ _ hoc kv hkv
      constructor
      · rcases hk with hk | ⟨e, he, m, m', c0, _, _, hm, hs⟩
        · simp at hk
        · rw [hs]; exact ifacePtrsPlain_stored hm ((ih e he).1 _ _ _ hm)
      · rcases hv with hv | ⟨e, he, m, m', c0, _, _, hm, hs⟩
        · simp at hv
        · rw [hs]; exact ifacePtrsPlain_stored hm ((ih e he).2 _ _ _ hm)
  | struct t fs ih =>
    intro n c n' h; rw [copyr_struct] at h
    by_cases ht : isTime t = true
    · rw [if_pos ht] at h; cases h; simp [ifacePtrsPlain, ht]
    · rw [if_neg ht] at h
      obtain ⟨cs, hc, hall⟩ := copyStruct_spec t fs n (c, n') h
      simp only at hc; subst hc
      simp only [ifacePtrsPlain, Bool.or_eq_true, ifacePtrsPlainFields_iff]
      refine Or.inr (fun fc hfc => ?_)
      obtain ⟨fx, hfx, _, hr⟩ := forall2_mem_right hall fc hfc
      split at hr
      · obtain ⟨m, m', c0, _, _, hm, hs⟩ := hr
        rw [hs]; exact ifacePtrsPlain_stored hm (ih fx hfx _ _ _ hm)
      · rw [hr]; exact ifacePtrsPlain_of_IsZero _ (IsZero_zeroOf _)

/-- When `copyr` returns a value `c`, for a source in which the elements of
every array are alike, `copyr` of `c` returns too, at any allocator counter,
and what it returns is deeply equal to `c`, and `c` to it. -/
theorem copyr_copy_again (v : Value) (n : Nat) (c : Value) (n' : Nat)
    (h : copyr v n = .ok (c, n')) (hu : uniformArrays v = true) (m : Nat) :
    ∃ c2 m2, copyr c m = .ok (c2, m2) ∧ deepEqual c2 c = true ∧ deepEqual c c2 = true := by
  have hs := copyr_supported_result v n c n' h
  have hz := copyr_unexportedZero v n c n' h
  have hk := copyr_wellKeyed_result v n c n' h
  have hp := copyr_zerosPlain_result v n c n' h hu
  have hi := copyr_ifacePtrsPlain_result v n c n' h
  have ht := copyr_plainPtr_result v n c n' h
  obtain ⟨c2, m2, h2⟩ := copyr_returns c hs m
  have hd := copyr_deepEqual c m c2 m2 h2 hz hk hp hi
  have hd2 := copyr_deepEqual_rev c m c2 m2 h2 hz hk hp hi
  rw [assignTo_of_plainPtr c m c2 m2 h2 ht] at hd hd2
  exact ⟨c2, m2, h2, hd, hd2⟩

/-- What `Copy` returns for a value of a concrete kind is what `copyr`
returns, with a nil error. -/
theorem Copy_eq_of_copyr (x : Value) (k : Nat) (y : Value) (k' : Nat)
    (hxy : copyr x k = .ok (y, k')) (hxi : x.Kind ≠ .interface) :
    Copy (some x) k = .ok ((some y, none), k') := by
  have hky := (copyr_kind_type x k y k' hxy).1
  unfold Copy ValueOf
  simp only [hxy]
  cases y with
  | invalid =>
    cases x with
    | invalid => rw [copyr_invalid] at hxy; cases hxy
    | basic b _ _ => cases b <;> simp [Value.Kind, Basic.kind] at hky
    | _ => simp [Value.Kind] at hky
  | iface t e => exact absurd hky.symm hxi
  | _ => rfl

/-- What `Copy` returned is what `copyr` returned on the value of the
input. -/
theorem copyr_of_Copy (o : Option Value) (n : Nat) (r : Option Value) (e : Option String)
    (n' : Nat) (h : Copy o n = .ok ((r, e), n')) :
    ∃ c, copyr (ValueOf o) n = .ok (c, n') ∧ valueInterface c = .ok r ∧ e = none := by
  unfold Copy at h
  cases hc : copyr (ValueOf o) n with
  | error p => rw [hc] at h; cases h
  | ok cn =>
    obtain ⟨c, n1⟩ := cn
    rw [hc] at h
    simp only at h
    cases hv : valueInterface c with
    | error p => rw [hv] at h; cases h
    | ok r0 =>
      rw [hv] at h
      simp only [Except.ok.injEq, Prod.mk.injEq] at h
      obtain ⟨⟨h1, h2⟩, h3⟩ := h
      subst h1 h3
      exact ⟨c, rfl, hv, h2.symm⟩

/-- C19: the function `Copy` is idempotent. When `Copy` returns for an input
(whose value, as `reflect.ValueOf` gives it, is of a concrete kind, and in
which the elements of every array are alike, as the elements of a Go array
are, having one type), what it returns is a value `c` with a nil error, and
`Copy` of `c` returns too, at any allocator counter, with a nil error, a value
that is deeply equal to `c` and to which `c` is deeply equal.  Deep equality
matches the entries of two maps one to one. -/
theorem Copy_idempotent (o : Option Value) (n : Nat) (r : Option Value) (e : Option String)
    (n' : Nat) (hi : (ValueOf o).Kind ≠ .interface) (hu : uniformArrays (ValueOf o) = true)
    (h : Copy o n = .ok ((r, e), n')) (m : Nat) :
    ∃ c, r = some c ∧ e = none
      ∧ ∃ c2 m2, Copy (some c) m = .ok ((some c2, none), m2) ∧ deepEqual c2 c = true
          ∧ deepEqual c c2 = true := by
  obtain ⟨c, hc, hv, he⟩ := copyr_of_Copy o n r e n' h
  have hkind := (copyr_kind_type _ n c n' hc).1
  have hsome : ∃ v, o = some v := by
    cases o with
    | none => simp only [ValueOf] at hc; rw [copyr_invalid] at hc; cases hc
    | some v => exact ⟨v, rfl⟩
  obtain ⟨v, rfl⟩ := hsome
  simp only [ValueOf] at hc hi hkind hu
  have h1 := Copy_eq_of_copyr v n c n' hc hi
  rw [h1] at h
  simp only [Except.ok.injEq, Prod.mk.injEq] at h
  obtain ⟨c2, m2, h2, hd, hd2⟩ := copyr_copy_again v n c n' hc hu m
  refine ⟨c, h.1.1.symm, he, c2, m2, Copy_eq_of_copyr c m c2 m2 h2 ?_, hd, hd2⟩
  rw [hkind]; exact hi

theorem Copy_idempotent_witness :
    ((ValueOf (some vChain)).Kind ≠ .interface ∧ uniformArrays (ValueOf (some vChain)) = true
      ∧ Copy (some vChain) 2 = .ok ((some vChainCopy, none), 5))
    ∧ ∃ c, some vChainCopy = some c ∧ (none : Option String) = none
      ∧ ∃ c2 m2, Copy (some c) 5 = .ok ((some c2, none), m2) ∧ deepEqual c2 c = true
          ∧ deepEqual c c2 = true :=
  ⟨⟨by decide, rfl, rfl⟩,
    Copy_idempotent (some vChain) 2 (some vChainCopy) none 5 (by decide) rfl rfl 5⟩

/-! ## Kind and type of the copy -/

/-- C16: when `copyr` returns, what it returns has the kind of the input, and
the type of the input unless the input is a pointer that is not nil and not
of type `time.Time`: the copy of such a pointer is of the unnamed pointer
type `*T` of what it points to, which `reflect.New(ov.Type().Elem())` gives,
whatever the pointer type of the input is.  In a slot of the type of the
input the copy has the type of the input. -/
theorem copyr_shape_type (v : Value) (n : Nat) (c : Value) (n' : Nat)
    (h : copyr v n = .ok (c, n')) :
    c.Kind = v.Kind
    ∧ (assignTo v c).Type = v.Type
    ∧ (v.Kind ≠ .ptr ∨ v.IsNil = true → c.Type = v.Type)
    ∧ (∀ t a x, v = .ptr t (some (a, x)) → isTime t = false →
        c.Type = some (ptrTo (elemType x))) := by
  have hkt := copyr_kind_type v n c n' h
  refine ⟨hkt.1, hkt.2, fun hv => ?_, fun t a x hv ht => ?_⟩
  · rcases hv with hv | hv
    · have := hkt.2
      rwa [assignTo_of_not_ptr v c hv] at this
    · rw [copyr_of_IsNil v n c n' hv h]
  · subst hv
    rw [copyr_ptr, ht] at h
    simp only [Bool.false_eq_true, if_false] at h
    obtain ⟨cx, _, hc⟩ := (copyPointer_ok t a x n (c, n')).1 h
    simp only at hc; subst hc
    rfl

theorem copyr_shape_type_witness :
    copyr (vAliased 0 1 2) 10 = .ok (vAliased 10 12 16, 17)
    ∧ (vAliased 10 12 16).Kind = (vAliased 0 1 2).Kind
    ∧ (assignTo (vAliased 0 1 2) (vAliased 10 12 16)).Type = (vAliased 0 1 2).Type
    ∧ ((vAliased 0 1 2).Kind ≠ .ptr ∨ (vAliased 0 1 2).IsNil = true →
        (vAliased 10 12 16).Type = (vAliased 0 1 2).Type)
    ∧ (∀ t a x, vAliased 0 1 2 = .ptr t (some (a, x)) → isTime t = false →
        (vAliased 10 12 16).Type = some (ptrTo (elemType x))) :=
  ⟨rfl, copyr_shape_type (vAliased 0 1 2) 10 (vAliased 10 12 16) 17 rfl⟩

/-- C16 fails on a pointer of a defined pointer type: for `type IntPtr *int`
the copy of an `IntPtr` that is not nil is a `*int`, at the top level of
`Copy` as well, where the handlers of the other kinds build their result
with the type of the input. -/
theorem copyr_named_pointer_type :
    copyr (vNamedPtr 0) 10 = .ok (.ptr tIntPtr (some (10, vInt 7)), 11)
    ∧ Copy (some (vNamedPtr 0)) 10 = .ok ((some (.ptr tIntPtr (some (10, vInt 7))), none), 11)
    ∧ (vNamedPtr 0).Type = some tNamedPtr
    ∧ (Value.ptr tIntPtr (some (10, vInt 7))).Type = some tIntPtr
    ∧ tIntPtr ≠ tNamedPtr
    ∧ ¬ (∀ (v : Value) (n : Nat) (c : Value) (n' : Nat),
          copyr v n = .ok (c, n') → c.Type = v.Type) := by
  refine ⟨rfl, rfl, rfl, rfl, by decide, fun h => ?_⟩
  have h1 := h (vNamedPtr 0) 10 (.ptr tIntPtr (some (10, vInt 7))) 11 rfl
  exact absurd h1 (by decide)

/-! ## Keys of a copied map -/

/-- C13, as stated, fails: the two keys `K{1}` and `K{2}` of a
`map[K]string`, for `type K struct{ a int }`, are different, but `copyStruct`
leaves the unexported field `a` at zero in both copies, so the copies of the
keys are equal and `copyMap` returns a map with one entry for a source with
two. -/
theorem copyMap_hidden_keys_merge :
    keysDistinct esHidden = true
    ∧ copyr (vK 1) 1 = .ok (vK 0, 2) ∧ copyr (vK 2) 2 = .ok (vK 0, 3)
    ∧ keyEq (vK 0) (vK 0) = true
    ∧ copyMap tKMap (some (0, esHidden)) 0
        = .ok (.map tKMap (some (0, [(vK 0, vString "y")])), 3)
    ∧ ¬ (∀ (t : Ty) (a : Nat) (es : List (Value × Value)) (n : Nat) (c : Value) (n' : Nat),
          keysDistinct es = true → copyMap t (some (a, es)) n = .ok (c, n') →
          ∃ b cs, c = .map t (some (b, cs)) ∧ cs.length = es.length) := by
  refine ⟨rfl, rfl, rfl, rfl, rfl, fun h => ?_⟩
  obtain ⟨b, cs, hc, hlen⟩ :=
    h tKMap 0 esHidden 0 (.map tKMap (some (0, [(vK 0, vString "y")]))) 3 rfl rfl
  simp only [Value.map.injEq, Option.some.injEq, Prod.mk.injEq, true_and] at hc
  rw [← hc.2] at hlen
  simp [esHidden] at hlen

/-- C13, amended: for a map that is not nil, whose keys, of whatever type
(struct, array, interface, pointer or scalar), are pairwise different under
`==`, hold no unexported struct field with a value that is not zero, and hold
no pointer to a value of size zero, the map `copyMap` returns has one entry
for every entry of the source, in order the copy of its key with the copy of
its value, and the copied keys are pairwise different under `==`; on
supported keys and values `copyMap` returns. -/
theorem copyMap_keys_distinct (t : Ty) (a : Nat) (es : List (Value × Value)) (n : Nat)
    (hd : keysDistinct es = true) (hz : ∀ e ∈ es, unexportedZero e.1 = true)
    (_hsz : ∀ e ∈ es, sizedKey e.1 = true) :
    (∀ c n', copyMap t (some (a, es)) n = .ok (c, n') →
      ∃ cs, c = .map t (some (n, cs)) ∧ cs.length = es.length ∧ keysDistinct cs = true
        ∧ List.Forall₂ (EntryCopyIn (n + 1) n') es cs)
    ∧ (supportedEntries es = true → ∃ c n', copyMap t (some (a, es)) n = .ok (c, n')) := by
  constructor
  · intro c n' h
    obtain ⟨oc, hoc, hc⟩ := (copyMap_ok t a es n (c, n')).1 h
    simp only at hc hoc
    obtain ⟨cs, hcs, hall⟩ := copyMapLoop_distinct es [] (n + 1) (oc, n') hoc hz hd (by simp)
    simp only [List.nil_append] at hcs hall; subst hcs
    exact ⟨oc, hc, hall.length_eq.symm,
      copyMapLoop_keysDistinct es [] (n + 1) (oc, n') hoc rfl, hall⟩
  · intro hs
    rw [supportedEntries_iff] at hs
    obtain ⟨r, hr⟩ := copyMapLoop_returns es
      (fun kv hkv => ⟨copyr_returns kv.1 (hs kv hkv).1, copyr_returns kv.2 (hs kv hkv).2⟩)
      [] (n + 1)
    exact ⟨.map t (some (n, r.1)), r.2, (copyMap_ok t a es n _).2 ⟨r.1, hr, rfl⟩⟩

theorem copyMap_keys_distinct_witness :
    (keysDistinct esShown = true ∧ (∀ e ∈ esShown, unexportedZero e.1 = true)
      ∧ ∀ e ∈ esShown, sizedKey e.1 = true)
    ∧ copyMap tEMap (some (0, esShown)) 5 = .ok (.map tEMap (some (5, esShown)), 8)
    ∧ (∀ c n', copyMap tEMap (some (0, esShown)) 5 = .ok (c, n') →
      ∃ cs, c = .map tEMap (some (5, cs)) ∧ cs.length = esShown.length ∧ keysDistinct cs = true
        ∧ List.Forall₂ (EntryCopyIn (5 + 1) n') esShown cs)
    ∧ (supportedEntries esShown = true →
        ∃ c n', copyMap tEMap (some (0, esShown)) 5 = .ok (c, n')) :=
  ⟨⟨rfl, by decide, by decide⟩, rfl,
    copyMap_keys_distinct tEMap 0 esShown 5 rfl (by decide) (by decide)⟩

/-! ## Entries of a copied map -/

/-- An entry of the map after `SetMapIndex` is an entry it had, or holds the
new value under the new key or under the equal key the map had. -/
theorem setMapIndex_entry (oc : List (Value × Value)) (k v : Value) (kv : Value × Value)
    (h : kv ∈ setMapIndex oc k v) :
    kv ∈ oc ∨ (kv.2 = v ∧ (kv.1 = k ∨ keyEq kv.1 k = true)) := by
  induction oc with
  | nil => simp [setMapIndex] at h; subst h; simp
  | cons e oc ih =>
    obtain ⟨k0, v0⟩ := e
    simp only [setMapIndex] at h
    split at h
    · rename_i heq
      rcases List.mem_cons.1 h with rfl | h
      · refine Or.inr ⟨rfl, ?_⟩
        by_cases hu : needKeyUpdate k = true
        · exact Or.inl (by simp [hu])
        · exact Or.inr (by simp [hu, heq])
      · exact Or.inl (List.mem_cons_of_mem _ h)
    · rcases List.mem_cons.1 h with rfl | h
      · exact Or.inl (List.mem_cons_self _ _)
      · rcases ih h with h1 | h1
        · exact Or.inl (List.mem_cons_of_mem _ h1)
        · exact Or.inr h1

/-- The method `SetMapIndex` keeps every key the map had, or has put the new
key, `==` to it, in its place. -/
theorem setMapIndex_keeps (oc : List (Value × Value)) (k v : Value) (kv : Value × Value)
    (h : kv ∈ oc) :
    ∃ kv2 ∈ setMapIndex oc k v, kv2.1 = kv.1 ∨ keyEq kv.1 kv2.1 = true := by
  induction oc with
  | nil => simp at h
  | cons e oc ih =>
    obtain ⟨k0, v0⟩ := e
    simp only [setMapIndex]
    split
    · rename_i heq
      rcases List.mem_cons.1 h with rfl | h
      · refine ⟨_, List.mem_cons_self _ _, ?_⟩
        by_cases hu : needKeyUpdate k = true
        · exact Or.inr (by simp [hu, heq])
        · exact Or.inl (by simp [hu])
      · exact ⟨kv, List.mem_cons_of_mem _ h, Or.inl rfl⟩
    · rcases List.mem_cons.1 h with rfl | h
      · exact ⟨(k0, v0), List.mem_cons_self _ _, Or.inl rfl⟩
      · obtain ⟨kv2, h2, h3⟩ := ih h
        exact ⟨kv2, List.mem_cons_of_mem _ h2, h3⟩

/-- After `SetMapIndex` the map has the new value under the new key or under
the equal key the map had. -/
theorem setMapIndex_has (oc : List (Value × Value)) (k v : Value) :
    ∃ kv ∈ setMapIndex oc k v, kv.2 = v ∧ (kv.1 = k ∨ keyEq kv.1 k = true) := by
  induction oc with
  | nil => exact ⟨(k, v), by simp [setMapIndex], rfl, Or.inl rfl⟩
  | cons e oc ih =>
    obtain ⟨k0, v0⟩ := e
    simp only [setMapIndex]
    split
    · rename_i heq
      refine ⟨_, List.mem_cons_self _ _, rfl, ?_⟩
      by_cases hu : needKeyUpdate k = true
      · exact Or.inl (by simp [hu])
      · exact Or.inr (by simp [hu, heq])
    · obtain ⟨kv, h1, h2⟩ := ih
      exact ⟨kv, List.mem_cons_of_mem _ h1, h2⟩

/-- Every entry of the map the loop of `copyMap` builds is an entry it
started with, or holds the copy of the value of a source entry under the
copy of its key, or under the equal key the map had. -/
theorem copyMapLoop_entry (rest : List (Value × Value)) :
    ∀ oc n r, copyMapLoop rest oc n = .ok r → ∀ kv ∈ r.1,
      kv ∈ oc ∨ ∃ e ∈ rest, ∃ ck cv m1 m2 m3, n ≤ m1 ∧ m3 ≤ r.2
        ∧ copyr e.1 m1 = .ok (ck, m2) ∧ copyr e.2 m2 = .ok (cv, m3)
        ∧ kv.2 = assignTo e.2 cv
        ∧ (kv.1 = assignTo e.1 ck ∨ keyEq kv.1 (assignTo e.1 ck) = true) := by
  induction rest with
  | nil =>
    intro oc n r h kv hkv
    rw [copyMapLoop_nil] at h; cases h
    exact Or.inl hkv
  | cons e rest ih =>
    intro oc n r h kv hkv
    obtain ⟨k, v⟩ := e
    obtain ⟨ck, n1, cv, n2, hk, hv, hrest⟩ := (copyMapLoop_cons_ok k v rest oc n r).1 h
    have h1 : n ≤ n1 := copyr_counter k n ck n1 hk
    have h2 : n1 ≤ n2 := copyr_counter v n1 cv n2 hv
    have h3 : n2 ≤ r.2 := copyMapLoop_counter rest
      (fun y _ => ⟨copyr_counter y.1, copyr_counter y.2⟩) _ _ r hrest
    rcases ih _ _ r hrest kv hkv with h4 | ⟨e, he, ck2, cv2, m1, m2, m3, hm1, hm3, hck, hcv, hval, hkey⟩
    · rcases setMapIndex_entry oc _ _ kv h4 with h5 | ⟨h5, h6⟩
      · exact Or.inl h5
      · exact Or.inr ⟨(k, v), List.mem_cons_self _ _, ck, cv, n, n1, n2, Nat.le_refl _, h3, hk,
          hv, h5, h6⟩
    · exact Or.inr ⟨e, List.mem_cons_of_mem _ he, ck2, cv2, m1, m2, m3, by omega, hm3, hck, hcv,
        hval, hkey⟩

/-- The map the loop of `copyMap` builds keeps every key it started with, or
a key `==` to it, and has, for every source entry, the copy of its key or a
key `==` to it. -/
theorem copyMapLoop_keys (rest : List (Value × Value)) :
    ∀ oc n r, copyMapLoop rest oc n = .ok r →
      (∀ kv ∈ oc, ∃ kv2 ∈ r.1, kv2.1 = kv.1 ∨ keyEq kv.1 kv2.1 = true)
      ∧ ∀ e ∈ rest, ∃ ck m1 m2, n ≤ m1 ∧ m2 ≤ r.2 ∧ copyr e.1 m1 = .ok (ck, m2)
          ∧ ∃ kv ∈ r.1, kv.1 = assignTo e.1 ck ∨ keyEq kv.1 (assignTo e.1 ck) = true := by
  induction rest with
  | nil =>
    intro oc n r h
    rw [copyMapLoop_nil] at h; cases h
    exact ⟨fun kv hkv => ⟨kv, hkv, Or.inl rfl⟩, by simp⟩
  | cons e rest ih =>
    intro oc n r h
    obtain ⟨k, v⟩ := e
    obtain ⟨ck, n1, cv, n2, hk, hv, hrest⟩ := (copyMapLoop_cons_ok k v rest oc n r).1 h
    have h1 : n ≤ n1 := copyr_counter k n ck n1 hk
    have h2 : n1 ≤ n2 := copyr_counter v n1 cv n2 hv
    have h3 : n2 ≤ r.2 := copyMapLoop_counter rest
      (fun y _ => ⟨copyr_counter y.1, copyr_counter y.2⟩) _ _ r hrest
    obtain ⟨hkeep, hhas⟩ := ih _ _ r hrest
    constructor
    · intro kv hkv
      obtain ⟨kv2, h4, h5⟩ := setMapIndex_keeps oc (assignTo k ck) (assignTo v cv) kv hkv
      obtain ⟨kv3, h6, h7⟩ := hkeep kv2 h4
      refine ⟨kv3, h6, ?_⟩
      rcases h5 with h5 | h5
      · rw [← h5]; exact h7
      · rcases h7 with h7 | h7
        · rw [h7]; exact Or.inr h5
        · exact Or.inr (keyEq_trans _ _ _ h5 h7)
    · intro e he
      rcases List.mem_cons.1 he with rfl | he
      · obtain ⟨kv, h4, _, h5⟩ := setMapIndex_has oc (assignTo k ck) (assignTo v cv)
        obtain ⟨kv3, h6, h7⟩ := hkeep kv h4
        refine ⟨ck, n, n1, Nat.le_refl _, by omega, hk, kv3, h6, ?_⟩
        rcases h7 with h7 | h7
        · rw [h7]; exact h5
        · rcases h5 with h5 | h5
          · rw [h5] at h7; exact Or.inr (keyEq_symm _ _ h7)
          · exact Or.inr (keyEq_trans _ _ _ (keyEq_symm _ _ h7) h5)
      · obtain ⟨ck2, m1, m2, hm1, hm2, hck, hkv⟩ := hhas e he
        exact ⟨ck2, m1, m2, by omega, hm2, hck, hkv⟩

/-- C14: for a map that is not nil, with supported keys and values,
`copyMap` returns a new map; every entry of it holds the copy `copyr` made
of the value of a source entry, under the copy `copyr` made of the key of
that entry (the key itself, or the key `==` to it that an earlier entry
put in the map); and for every source entry the map has the copy of its key
(the key itself, or a key `==` to it).  A key and a value are held as values
of the key type and of the value type of the map, as `SetMapIndex` stores
them: what `copyr` returned itself, unless the source is a pointer that is
not nil, of a defined pointer type (`copyr` returns the copy of such a
pointer with the unnamed pointer type, and the map holds the same pointer
with the defined one). -/
theorem copyMap_entries (t : Ty) (a : Nat) (es : List (Value × Value)) (n : Nat)
    (hs : supportedEntries es = true) :
    ∃ cs n', copyMap t (some (a, es)) n = .ok (.map t (some (n, cs)), n')
      ∧ (∀ kv ∈ cs, ∃ e ∈ es, ∃ ck cv m1 m2 m3, n < m1 ∧ m3 ≤ n'
          ∧ copyr e.1 m1 = .ok (ck, m2) ∧ copyr e.2 m2 = .ok (cv, m3)
          ∧ kv.2 = assignTo e.2 cv
          ∧ (kv.1 = assignTo e.1 ck ∨ keyEq kv.1 (assignTo e.1 ck) = true)
          ∧ (plainPtr e.1 = true → assignTo e.1 ck = ck)
          ∧ (plainPtr e.2 = true → kv.2 = cv))
      ∧ (∀ e ∈ es, ∃ ck m1 m2, n < m1 ∧ m2 ≤ n' ∧ copyr e.1 m1 = .ok (ck, m2)
          ∧ ∃ kv ∈ cs, kv.1 = assignTo e.1 ck ∨ keyEq kv.1 (assignTo e.1 ck) = true) := by
  rw [supportedEntries_iff] at hs
  obtain ⟨r, hr⟩ := copyMapLoop_returns es
    (fun kv hkv => ⟨copyr_returns kv.1 (hs kv hkv).1, copyr_returns kv.2 (hs kv hkv).2⟩)
    [] (n + 1)
  refine ⟨r.1, r.2, (copyMap_ok t a es n _).2 ⟨r.1, hr, rfl⟩, fun kv hkv => ?_, fun e he => ?_⟩
  · rcases copyMapLoop_entry es [] (n + 1) r hr kv hkv with h | h
    · simp at h
    · obtain ⟨e, he, ck, cv, m1, m2, m3, hm1, hm3, hck, hcv, hval, hkey⟩ := h
      refine ⟨e, he, ck, cv, m1, m2, m3, by omega, hm3, hck, hcv, hval, hkey,
        assignTo_of_plainPtr e.1 m1 ck m2 hck, fun hp => ?_⟩
      rw [hval, assignTo_of_plainPtr e.2 m2 cv m3 hcv hp]
  · obtain ⟨ck, m1, m2, hm1, hm2, hck, hkv⟩ := (copyMapLoop_keys es [] (n + 1) r hr).2 e he
    exact ⟨ck, m1, m2, by omega, hm2, hck, hkv⟩

theorem copyMap_entries_witness :
    supportedEntries esHidden = true
    ∧ ∃ cs n', copyMap tKMap (some (0, esHidden)) 0 = .ok (.map tKMap (some (0, cs)), n')
      ∧ (∀ kv ∈ cs, ∃ e ∈ esHidden, ∃ ck cv m1 m2 m3, 0 < m1 ∧ m3 ≤ n'
          ∧ copyr e.1 m1 = .ok (ck, m2) ∧ copyr e.2 m2 = .ok (cv, m3)
          ∧ kv.2 = assignTo e.2 cv
          ∧ (kv.1 = assignTo e.1 ck ∨ keyEq kv.1 (assignTo e.1 ck) = true)
          ∧ (plainPtr e.1 = true → assignTo e.1 ck = ck)
          ∧ (plainPtr e.2 = true → kv.2 = cv))
      ∧ (∀ e ∈ esHidden, ∃ ck m1 m2, 0 < m1 ∧ m2 ≤ n' ∧ copyr e.1 m1 = .ok (ck, m2)
          ∧ ∃ kv ∈ cs, kv.1 = assignTo e.1 ck ∨ keyEq kv.1 (assignTo e.1 ck) = true) :=
  ⟨rfl, copyMap_entries tKMap 0 esHidden 0 rfl⟩

/-! ## Skipping the zero-valued fields of a struct -/

/-- C17 fails, and with it the comment of `Copy` that a `uintptr` causes a
panic: on the zero value `U{}` of `type U struct{ P uintptr }` the function
`copyStruct` skips the zero field and returns `U{}`, and so does `Copy`,
where the variant that copies every field that can be read calls `copyr` on
the `uintptr` and panics, as `Copy` does on the `uintptr` 0 itself and on the
array `[1]uintptr{0}`.  Where both return they can differ too: for
`F{X: -0.0}` the function `copyStruct` leaves the field at `+0.0` and the
variant copies `-0.0`. -/
theorem copyStruct_skip_observable :
    copyStruct tU fieldsU 0 = .ok (.struct tU fieldsU, 1)
    ∧ Copy (some (.struct tU fieldsU)) 0 = .ok ((some (.struct tU fieldsU), none), 1)
    ∧ copyStructAll tU fieldsU 0 = .error (.str "unsupported type: uintptr")
    ∧ Copy (some (.basic .uintptr tUintptr (.uint 0))) 0
        = .error (.str "unsupported type: uintptr")
    ∧ Copy (some (.array ⟨"", "", "[1]uintptr"⟩ [.basic .uintptr tUintptr (.uint 0)])) 0
        = .error (.str "unsupported type: uintptr")
    ∧ copyStruct tF [(⟨"X", true⟩, .basic .float64 tFloat64 (.float negZeroBits))] 0
        = .ok (.struct tF [(⟨"X", true⟩, .basic .float64 tFloat64 (.float 0))], 1)
    ∧ copyStructAll tF [(⟨"X", true⟩, .basic .float64 tFloat64 (.float negZeroBits))] 0
        = .ok (.struct tF [(⟨"X", true⟩, .basic .float64 tFloat64 (.float negZeroBits))], 1)
    ∧ deepEqual (.struct tF [(⟨"X", true⟩, .basic .float64 tFloat64 (.float negZeroBits))])
        (.struct tF [(⟨"X", true⟩, .basic .float64 tFloat64 (.float 0))]) = false
    ∧ ¬ (∀ (t : Ty) (fields : List (Field × Value)) (n : Nat) (p : PanicValue),
          copyStruct t fields n = .error p ↔ copyStructAll t fields n = .error p) := by
  refine ⟨rfl, rfl, rfl, rfl, rfl, rfl, rfl, rfl, fun h => ?_⟩
  have h1 := (h tU fieldsU 0 (.str "unsupported type: uintptr")).2 rfl
  have h2 : copyStruct tU fieldsU 0 = .ok (.struct tU fieldsU, 1) := rfl
  rw [h2] at h1
  cases h1

/-! ## Termination -/

theorem depthElems_le (xs : List Value) : ∀ x ∈ xs, depth x ≤ depthElems xs := by
  induction xs with
  | nil => simp
  | cons y ys ih =>
    intro x hx
    simp only [depthElems]
    rcases List.mem_cons.1 hx with rfl | hx
    · exact Nat.le_max_left _ _
    · exact Nat.le_trans (ih x hx) (Nat.le_max_right _ _)

theorem depthEntries_le (es : List (Value × Value)) :
    ∀ e ∈ es, depth e.1 ≤ depthEntries es ∧ depth e.2 ≤ depthEntries es := by
  induction es with
  | nil => simp
  | cons y ys ih =>
    intro e he
    obtain ⟨k, v⟩ := y
    simp only [depthEntries]
    rcases List.mem_cons.1 he with rfl | he
    · exact ⟨Nat.le_trans (Nat.le_max_left _ _) (Nat.le_max_left _ _),
        Nat.le_trans (Nat.le_max_right _ _) (Nat.le_max_left _ _)⟩
    · exact ⟨Nat.le_trans (ih e he).1 (Nat.le_max_right _ _),
        Nat.le_trans (ih e he).2 (Nat.le_max_right _ _)⟩

theorem depthFields_le (fs : List (Field × Value)) : ∀ fx ∈ fs, depth fx.2 ≤ depthFields fs := by
  induction fs with
  | nil => simp
  | cons y ys ih =>
    intro fx hfx
    obtain ⟨f, x⟩ := y
    simp only [depthFields]
    rcases List.mem_cons.1 hfx with rfl | hfx
    · exact Nat.le_max_left _ _
    · exact Nat.le_trans (ih fx hfx) (Nat.le_max_right _ _)

/-- A value right below a value is less deep. -/
theorem depth_subValues (v : Value) : ∀ x ∈ subValues v, depth x < depth v := by
  intro x hx
  rcases v with _ | _ | _ | _ | ⟨_, _ | ⟨_, _⟩⟩ | ⟨_, _ | _⟩ | ⟨_, _ | ⟨_, _, xs⟩⟩ | ⟨_, xs⟩
    | ⟨_, _ | ⟨_, es⟩⟩ | ⟨_, fs⟩ <;> simp only [subValues, List.not_mem_nil] at hx
  · simp only [List.mem_singleton] at hx; subst hx; simp [depth]
  · simp only [List.mem_singleton] at hx; subst hx; simp [depth]
  · simp only [depth]; exact Nat.lt_succ_of_le (depthElems_le xs x hx)
  · simp only [depth]; exact Nat.lt_succ_of_le (depthElems_le xs x hx)
  · simp only [depth]
    rcases List.mem_append.1 hx with h | h
    · obtain ⟨e, he, rfl⟩ := List.mem_map.1 h
      exact Nat.lt_succ_of_le (depthEntries_le es e he).1
    · obtain ⟨e, he, rfl⟩ := List.mem_map.1 h
      exact Nat.lt_succ_of_le (depthEntries_le es e he).2
  · simp only [depth]
    obtain ⟨e, he, rfl⟩ := List.mem_map.1 hx
    exact Nat.lt_succ_of_le (depthFields_le fs e he)

theorem copyStructLoopWith_congr (r1 r2 : Value → Nat → Option (Outcome Value))
    (rest : List (Field × Value)) (h : ∀ fx ∈ rest, ∀ m, r1 fx.2 m = r2 fx.2 m) :
    ∀ i oc n, copyStructLoopWith r1 rest i oc n = copyStructLoopWith r2 rest i oc n := by
  induction rest with
  | nil => intro i oc n; simp [copyStructLoopWith]
  | cons fx rest ih =>
    intro i oc n
    obtain ⟨f, fv⟩ := fx
    have h0 := h (f, fv) (List.mem_cons_self _ _)
    have ih2 := ih (fun y hy => h y (List.mem_cons_of_mem _ hy))
    simp only at h0
    simp only [copyStructLoopWith, h0, ih2]

theorem copySliceLoopWith_congr (r1 r2 : Value → Nat → Option (Outcome Value))
    (rest : List Value) (h : ∀ x ∈ rest, ∀ m, r1 x m = r2 x m) :
    ∀ oc n, copySliceLoopWith r1 rest oc n = copySliceLoopWith r2 rest oc n := by
  induction rest with
  | nil => intro oc n; simp [copySliceLoopWith]
  | cons x rest ih =>
    intro oc n
    have h0 := h x (List.mem_cons_self _ _)
    have ih2 := ih (fun y hy => h y (List.mem_cons_of_mem _ hy))
    simp only [copySliceLoopWith, h0, ih2]

theorem copyArrayLoopWith_congr (r1 r2 : Value → Nat → Option (Outcome Value))
    (rest : List Value) (h : ∀ x ∈ rest, ∀ m, r1 x m = r2 x m) :
    ∀ array view n,
      copyArrayLoopWith r1 rest array view n = copyArrayLoopWith r2 rest array view n := by
  induction rest with
  | nil => intro array view n; simp [copyArrayLoopWith]
  | cons x rest ih =>
    intro array view n
    have h0 := h x (List.mem_cons_self _ _)
    have ih2 := ih (fun y hy => h y (List.mem_cons_of_mem _ hy))
    simp only [copyArrayLoopWith, h0, ih2]

theorem copyMapLoopWith_congr (r1 r2 : Value → Nat → Option (Outcome Value))
    (rest : List (Value × Value))
    (h : ∀ e ∈ rest, (∀ m, r1 e.1 m = r2 e.1 m) ∧ (∀ m, r1 e.2 m = r2 e.2 m)) :
    ∀ oc n, copyMapLoopWith r1 rest oc n = copyMapLoopWith r2 rest oc n := by
  induction rest with
  | nil => intro oc n; simp [copyMapLoopWith]
  | cons e rest ih =>
    intro oc n
    obtain ⟨k, v⟩ := e
    have h0 := h (k, v) (List.mem_cons_self _ _)
    have ih2 := ih (fun y hy => h y (List.mem_cons_of_mem _ hy))
    simp only at h0
    simp only [copyMapLoopWith, h0.1, h0.2, ih2]

/-- The body of `copyr` calls `copyr` on the values right below its argument
only. -/
theorem copyrStep_congr (r1 r2 : Value → Nat → Option (Outcome Value)) (v : Value) (n : Nat)
    (h : ∀ x ∈ subValues v, ∀ m, r1 x m = r2 x m) : copyrStep r1 v n = copyrStep r2 v n := by
  rcases v with _ | _ | _ | _ | ⟨t, _ | ⟨a, x⟩⟩ | ⟨t, _ | x⟩ | ⟨t, _ | ⟨a, cap, xs⟩⟩ | ⟨t, xs⟩
    | ⟨t, _ | ⟨a, es⟩⟩ | ⟨t, fs⟩
  · rfl
  · rfl
  · rfl
  · rfl
  · rfl
  · simp only [copyrStep, copyPointerWith, h x (by simp [subValues])]
  · rfl
  · simp only [copyrStep, copyInterfaceWith, h x (by simp [subValues])]
  · rfl
  · simp only [copyrStep, copySliceWith,
      copySliceLoopWith_congr r1 r2 xs (fun x hx => h x (by simpa [subValues] using hx))]
  · simp only [copyrStep,
      copyArrayLoopWith_congr r1 r2 xs (fun x hx => h x (by simpa [subValues] using hx))]
  · rfl
  · have h1 : ∀ e ∈ es, (∀ m, r1 e.1 m = r2 e.1 m) ∧ (∀ m, r1 e.2 m = r2 e.2 m) := by
      intro e he
      exact ⟨h e.1 (by simp only [subValues, List.mem_append, List.mem_map]
                       exact Or.inl ⟨e, he, rfl⟩),
        h e.2 (by simp only [subValues, List.mem_append, List.mem_map]
                  exact Or.inr ⟨e, he, rfl⟩)⟩
    simp only [copyrStep, copyMapWith, copyMapLoopWith_congr r1 r2 es h1]
  · have h1 : ∀ fx ∈ fs, ∀ m, r1 fx.2 m = r2 fx.2 m := by
      intro fx hfx
      exact h fx.2 (by simp only [subValues, List.mem_map]; exact ⟨fx, hfx, rfl⟩)
    simp only [copyrStep, copyStructLoopWith_congr r1 r2 fs h1]

theorem copyStructLoopWith_copyr (rest : List (Field × Value)) :
    ∀ i oc n, copyStructLoopWith (fun x m => some (copyr x m)) rest i oc n
      = some (copyStructLoop rest i oc n) := by
  induction rest with
  | nil => intro i oc n; simp [copyStructLoopWith, copyStructLoop]
  | cons fx rest ih =>
    intro i oc n
    obtain ⟨f, fv⟩ := fx
    rw [copyStructLoopWith, copyStructLoop]
    split
    · cases hx : copyr fv n with
      | error p => rfl
      | ok q => obtain ⟨c, n1⟩ := q; exact ih _ _ _
    · exact ih _ _ _

theorem copySliceLoopWith_copyr (rest : List Value) :
    ∀ oc n, copySliceLoopWith (fun x m => some (copyr x m)) rest oc n
      = some (copySliceLoop rest oc n) := by
  induction rest with
  | nil => intro oc n; simp [copySliceLoopWith, copySliceLoop]
  | cons x rest ih =>
    intro oc n
    rw [copySliceLoopWith, copySliceLoop]
    cases hx : copyr x n with
    | error p => rfl
    | ok q => obtain ⟨c, n1⟩ := q; exact ih _ _

theorem copyArrayLoopWith_copyr (rest : List Value) :
    ∀ array view n, copyArrayLoopWith (fun x m => some (copyr x m)) rest array view n
      = some (copyArrayLoop rest array view n) := by
  induction rest with
  | nil => intro array view n; simp [copyArrayLoopWith, copyArrayLoop]
  | cons x rest ih =>
    intro array view n
    rw [copyArrayLoopWith, copyArrayLoop]
    cases hx : copyr x n with
    | error p => rfl
    | ok q => obtain ⟨c, n1⟩ := q; exact ih _ _ _

theorem copyMapLoopWith_copyr (rest : List (Value × Value)) :
    ∀ oc n, copyMapLoopWith (fun x m => some (copyr x m)) rest oc n
      = some (copyMapLoop rest oc n) := by
  induction rest with
  | nil => intro oc n; simp [copyMapLoopWith, copyMapLoop]
  | cons e rest ih =>
    intro oc n
    obtain ⟨k, v⟩ := e
    rw [copyMapLoopWith, copyMapLoop]
    cases hk : copyr k n with
    | error p => rfl
    | ok q =>
      obtain ⟨ck, n1⟩ := q
      simp only
      cases hv : copyr v n1 with
      | error p => rfl
      | ok q => obtain ⟨cv, n2⟩ := q; exact ih _ _

/-- The body of `copyr`, when every call of `copyr` returns what `copyr`
gives, gives what `copyr` gives. -/
theorem copyrStep_copyr (v : Value) (n : Nat) :
    copyrStep (fun x m => some (copyr x m)) v n = some (copyr v n) := by
  rcases v with _ | ⟨k, t, d⟩ | _ | _ | ⟨t, _ | ⟨a, x⟩⟩ | ⟨t, _ | x⟩ | ⟨t, _ | ⟨a, cap, xs⟩⟩
    | ⟨t, xs⟩ | ⟨t, _ | ⟨a, es⟩⟩ | ⟨t, fs⟩
  · simp [copyrStep, copyr]
  · cases k <;> simp only [copyrStep, copyr] <;> split <;> rfl
  · simp only [copyrStep, copyr]; split <;> rfl
  · simp only [copyrStep, copyr]; split <;> rfl
  · simp only [copyrStep, copyr, copyPointerWith, copyPointer]; split <;> rfl
  · simp only [copyrStep, copyr, copyPointerWith, copyPointer]
    split
    · rfl
    · cases hx : copyr x (n + 1) with
      | error p => rfl
      | ok q => rfl
  · simp only [copyrStep, copyr, copyInterfaceWith, copyInterface]; split <;> rfl
  · simp only [copyrStep, copyr, copyInterfaceWith, copyInterface]
    split
    · rfl
    · cases hx : copyr x (n + 1) with
      | error p => rfl
      | ok q => rfl
  · simp only [copyrStep, copyr, copySliceWith, copySlice]; split <;> rfl
  · simp only [copyrStep, copyr, copySliceWith, copySlice, copySliceLoopWith_copyr]
    split
    · rfl
    · cases hx : copySliceLoop xs (n, cap, []) (n + 1) with
      | error p => rfl
      | ok q => rfl
  · simp only [copyrStep, copyr, copyArrayLoopWith_copyr]
    split <;> rfl
  · simp only [copyrStep, copyr, copyMapWith, copyMap]; split <;> rfl
  · simp only [copyrStep, copyr, copyMapWith, copyMap, copyMapLoopWith_copyr]
    split
    · rfl
    · cases hx : copyMapLoop es [] (n + 1) with
      | error p => rfl
      | ok q => rfl
  · simp only [copyrStep, copyr, copyStructLoopWith_copyr]
    split <;> rfl

/-- With room for more nested calls than the value is deep, the recursion of
`copyr` comes to its end, with what `copyr` gives. -/
theorem copyrFuel_of_depth (fuel : Nat) :
    ∀ (v : Value) (n : Nat), depth v < fuel → copyrFuel fuel v n = some (copyr v n) := by
  induction fuel with
  | zero => intro v n h; exact absurd h (Nat.not_lt_zero _)
  | succ fuel ih =>
    intro v n h
    rw [copyrFuel, ← copyrStep_copyr v n]
    refine copyrStep_congr _ _ v n (fun x hx m => ih x m ?_)
    have := depth_subValues v x hx
    omega

/-- C21: on every value the recursion of `copyr` terminates. Every call of
`copyr` the body of `copyr` makes is on a value right below its argument (what
a pointer points to, what an interface holds, an element, a key, a map value
or a field), which is less deep; so with room for `depth v + 1` nested calls,
or more, the recursion comes to its end, and gives what `copyr` gives, a
returned value or a panic. -/
theorem copyr_terminates (v : Value) (n : Nat) :
    (∀ x ∈ subValues v, depth x < depth v)
    ∧ (∀ r1 r2 : Value → Nat → Option (Outcome Value),
        (∀ x ∈ subValues v, ∀ m, r1 x m = r2 x m) → copyrStep r1 v n = copyrStep r2 v n)
    ∧ (∀ fuel, depth v < fuel → copyrFuel fuel v n = some (copyr v n))
    ∧ ((∃ c n', copyrFuel (depth v + 1) v n = some (.ok (c, n')))
        ∨ (∃ p, copyrFuel (depth v + 1) v n = some (.error p))) := by
  refine ⟨depth_subValues v, fun r1 r2 h => copyrStep_congr r1 r2 v n h,
    fun fuel h => copyrFuel_of_depth fuel v n h, ?_⟩
  rw [copyrFuel_of_depth (depth v + 1) v n (Nat.lt_succ_self _)]
  cases h : copyr v n with
  | error p => exact Or.inr ⟨p, rfl⟩
  | ok q => obtain ⟨c, n'⟩ := q; exact Or.inl ⟨c, n', rfl⟩

theorem copyr_terminates_witness :
    (depth vChain = 3 ∧ copyrFuel 3 vChain 2 = none
      ∧ copyrFuel 4 vChain 2 = some (.ok (vChainCopy, 5)))
    ∧ (∀ x ∈ subValues vChain, depth x < depth vChain)
    ∧ (∀ r1 r2 : Value → Nat → Option (Outcome Value),
        (∀ x ∈ subValues vChain, ∀ m, r1 x m = r2 x m) →
          copyrStep r1 vChain 2 = copyrStep r2 vChain 2)
    ∧ (∀ fuel, depth vChain < fuel → copyrFuel fuel vChain 2 = some (copyr vChain 2))
    ∧ ((∃ c n', copyrFuel (depth vChain + 1) vChain 2 = some (.ok (c, n')))
        ∨ (∃ p, copyrFuel (depth vChain + 1) vChain 2 = some (.error p))) :=
  ⟨⟨rfl, rfl, rfl⟩, copyr_terminates vChain 2⟩

end Deepcopy
